import Mathlib

/-!
NogDB core: record codec, traversal algorithms, index search, conditions and
schema functions.

A shallow embedding of `src/src/parser.hpp`, `src/src/algorithm.hpp`,
`src/src/index.hpp`, `src/src/generic.cpp` and `src/src/compare.cpp`; the
operations on the graph store are modelled from the specification.
Machine integers are natural numbers with explicit reduction modulo `2^w`
where a cast or a fixed-width store truncates.  Exceptions are values of
`Except Error`.
-/

namespace nogdb

/-! ## Errors -/

/-- Error codes raised by the embedded functions.  `requireFailed` stands for a
failed `require(...)`, `outOfRange` for a read past the end of a blob or a
failed `std::unordered_map::at`, and `diverged` is produced only when an
iteration budget of the embedding is exhausted. -/
inductive Error where
  | ctxNoexstProperty
  | ctxConflictProptype
  | ctxInvalidComparator
  | ctxUnknownErr
  | graphNoexstVertex
  | graphNoexstSrc
  | graphNoexstDst
  | graphNoexstEdge
  | graphUnknownErr
  | requireFailed
  | outOfRange
  | diverged
  deriving DecidableEq, Repr

/-! ## Bytes and blobs -/

/-- A byte string (`Bytes`, `Blob::Byte[]`): each element is one byte. -/
abbrev Bytes := List Nat

/-- Little-endian image of the low `w` bytes of `n`: what `append(&n, w)` copies
from an unsigned integer variable holding `n`. -/
def leBytes : Nat → Nat → List Nat
  | 0, _ => []
  | w + 1, n => (n % 256) :: leBytes w (n / 256)

/-- Value of an unsigned integer variable after `retrieve` copied the given bytes
into it (little-endian). -/
def leValue : List Nat → Nat
  | [] => 0
  | b :: bs => b + 256 * leValue bs

/-- Modelled from the spec: class `Blob` (declared in a header that is not part of
the sources at hand), the length-tagged binary value of the codec.  A blob has a
capacity fixed at construction and the bytes appended so far. -/
structure Blob where
  capacity : Nat
  bytes : List Nat
  deriving DecidableEq, Repr

/-- Constructor `Blob(capacity)`: an empty blob. -/
def Blob.new (capacity : Nat) : Blob := ⟨capacity, []⟩

/-- Number of bytes appended so far (`Blob::size`). -/
def Blob.size (b : Blob) : Nat := b.bytes.length

/-- Append `data` at the end (`Blob::append(data, size)` with `size = data.length`). -/
def Blob.append (b : Blob) (data : List Nat) : Blob :=
  { b with bytes := b.bytes ++ data }

/-- Copy `size` bytes starting at `offset` and return them with the offset that
follows them (`Blob::retrieve`).  A read past the end is an error. -/
def Blob.retrieve (b : Blob) (offset size : Nat) : Except Error (List Nat × Nat) :=
  if offset + size ≤ b.bytes.length then
    .ok ((b.bytes.drop offset).take size, offset + size)
  else .error .outOfRange

/-- Modelled from the spec: `storage_engine::lmdb::Result`, the outcome of a key
lookup: `empty` when there is no row, else the row as a blob. -/
structure storage_engine.lmdb.Result where
  empty : Bool
  data : Blob
  deriving DecidableEq, Repr

/-! ## Records and schema maps -/

/-- The map type `Record::PropertyToBytesMap` as an association list; a lookup
returns the first entry of a name. -/
abbrev PropertyToBytesMap := List (String × Bytes)

/-- Assignment `properties[name] = value`: the entry of `name` is replaced. -/
def mapSet (m : PropertyToBytesMap) (name : String) (value : Bytes) : PropertyToBytesMap :=
  (name, value) :: m.filter (fun p => p.1 != name)

/-- Modelled from the spec: a `Record`, a mapping from property name to value
bytes (the class itself is declared outside the sources at hand). -/
structure Record where
  properties : PropertyToBytesMap
  deriving DecidableEq, Repr

/-- All stored properties (`Record::getAll`). -/
def Record.getAll (r : Record) : PropertyToBytesMap := r.properties

/-- Value of a property, empty bytes when absent (`Record::get`). -/
def Record.get (r : Record) (name : String) : Bytes :=
  (r.properties.lookup name).getD []

/-- The fields of `adapter::schema::PropertyAccessInfo` the codec reads. -/
structure PropertyAccessInfo where
  name : String
  id : Nat
  deriving DecidableEq, Repr

/-- The schema map `PropertyNameMapInfo`, iterated in list order. -/
abbrev PropertyNameMapInfo := List (String × PropertyAccessInfo)

/-- The schema map `PropertyIdMapInfo`. -/
abbrev PropertyIdMapInfo := List (Nat × PropertyAccessInfo)

/-- A record id `(classId, positionId)`; `RecordId{}` is `(0, 0)`. -/
abbrev RecordId := Nat × Nat

namespace parser

/-- Number of bits of `uint8_t`. -/
def UINT8_BITS_COUNT : Nat := 8 * 1

/-- Number of bits of `uint16_t`. -/
def UINT16_BITS_COUNT : Nat := 8 * 2

/-- Number of bits of `uint32_t`. -/
def UINT32_BITS_COUNT : Nat := 8 * 4

/-- Size of `PropertyId`, a 16-bit id. -/
def sizeofPropertyId : Nat := 2

/-- Modelled from the spec: widths of `ClassId` and `PositionId` in the endpoint
block of an edge row, `2 × (classId:u32, positionId:u32)`, 16 bytes. -/
def sizeofClassId : Nat := 4

/-- Modelled from the spec: see `sizeofClassId`. -/
def sizeofPositionId : Nat := 4

/-- The bytes of `EMPTY_STRING`, a single line feed. -/
def EMPTY_STRING : List Nat := [10]

/-- Length of `EMPTY_STRING`. -/
def SIZE_OF_EMPTY_STRING : Nat := 1

/-- Length of the endpoint block that starts an edge row. -/
def VERTEX_SRC_DST_RAW_DATA_LENGTH : Nat := 2 * (sizeofClassId + sizeofPositionId)

/-- Function `Parser::getRawDataSize`. -/
def getRawDataSize (size : Nat) : Nat :=
  sizeofPropertyId + size + (if size ≥ 2 ^ (UINT8_BITS_COUNT - 1) then 4 else 1)

/-- Function `Parser::buildRawData`: one property block.  The short header is the low byte
of `static_cast<uint8_t>(size) << 1`, the long one the 32-bit value
`(static_cast<uint32_t>(size) << 1) + 1`. -/
def buildRawData (blob : Blob) (propertyId : Nat) (rawData : Bytes) : Blob :=
  if rawData.length < 2 ^ (UINT8_BITS_COUNT - 1) then
    let size := (rawData.length % 2 ^ 8) * 2
    ((blob.append (leBytes sizeofPropertyId propertyId)).append (leBytes 1 size)).append rawData
  else
    let size := (((rawData.length % 2 ^ 32) * 2) % 2 ^ 32 + 1) % 2 ^ 32
    ((blob.append (leBytes sizeofPropertyId propertyId)).append (leBytes 4 size)).append rawData

/-- First loop of the public `Parser::parseRecord`: every property of the record
must be declared; the sizes of the blocks are summed. -/
def parseRecordDataSize (properties : PropertyNameMapInfo) :
    List (String × Bytes) → Nat → Except Error Nat
  | [], dataSize => .ok dataSize
  | property :: rest, dataSize =>
    match properties.lookup property.1 with
    | none => .error .ctxNoexstProperty
    | some _ => parseRecordDataSize properties rest (dataSize + getRawDataSize property.2.length)

/-- Loop of the private `Parser::parseRecord`: one block per schema property. -/
def parseRecordBlocks (record : Record) :
    List (String × PropertyAccessInfo) → Blob → Except Error Blob
  | [], value => .ok value
  | property :: rest, value =>
    let propertyId := property.2.id % 2 ^ 16
    let rawData := record.get property.1
    if ¬ (property.2.id < 2 ^ UINT16_BITS_COUNT) then .error .requireFailed
    else if ¬ (rawData.length < 2 ^ (UINT32_BITS_COUNT - 1)) then .error .requireFailed
    else parseRecordBlocks record rest (buildRawData value propertyId rawData)

/-- The private overload `Parser::parseRecord(record, dataSize, properties)`. -/
def parseRecordWithSize (record : Record) (dataSize : Nat)
    (properties : PropertyNameMapInfo) : Except Error Blob :=
  if dataSize ≤ 0 then
    .ok ((Blob.new SIZE_OF_EMPTY_STRING).append EMPTY_STRING)
  else
    parseRecordBlocks record properties (Blob.new dataSize)

/-- The public `Parser::parseRecord(record, properties)`.  `sizeofTxnId` is
`sizeof(TxnId)`, a type declared outside the sources at hand. -/
def parseRecord (sizeofTxnId : Nat) (record : Record)
    (properties : PropertyNameMapInfo) : Except Error Blob :=
  match parseRecordDataSize properties record.getAll 0 with
  | .error e => .error e
  | .ok dataSize =>
    parseRecordWithSize record (dataSize + getRawDataSize (2 * sizeofTxnId)) properties

/-- Header decoding inside the loop of `Parser::parseRawData`: the option flag is
peeked at `offset`, then the size is read as 32 or 8 bits and shifted right. -/
def readPropertySize (blob : Blob) (offset : Nat) : Except Error (Nat × Nat) :=
  match blob.retrieve offset 1 with
  | .error e => .error e
  | .ok (optionFlag, _) =>
    if leValue optionFlag % 2 = 1 then
      match blob.retrieve offset 4 with
      | .error e => .error e
      | .ok (tmpSize, offset1) => .ok (leValue tmpSize / 2, offset1)
    else
      match blob.retrieve offset 1 with
      | .error e => .error e
      | .ok (tmpSize, offset1) => .ok (leValue tmpSize / 2, offset1)

/-- The `while (offset < rawDataBlob.size())` loop of `Parser::parseRawData`; the
first argument bounds the number of iterations. -/
def parseRawDataLoop (blob : Blob) (propertyInfos : PropertyIdMapInfo) :
    Nat → Nat → PropertyToBytesMap → Except Error PropertyToBytesMap
  | 0, offset, properties =>
    if offset < blob.size then .error .diverged else .ok properties
  | fuel + 1, offset, properties =>
    if offset < blob.size then
      match blob.retrieve offset sizeofPropertyId with
      | .error e => .error e
      | .ok (propertyId, offset1) =>
        match readPropertySize blob offset1 with
        | .error e => .error e
        | .ok (propertySize, offset2) =>
          match propertyInfos.lookup (leValue propertyId) with
          | some foundInfo =>
            if propertySize > 0 then
              match blob.retrieve offset2 propertySize with
              | .error e => .error e
              | .ok (byteData, offset3) =>
                parseRawDataLoop blob propertyInfos fuel offset3
                  (mapSet properties foundInfo.name byteData)
            else
              parseRawDataLoop blob propertyInfos fuel offset2
                (mapSet properties foundInfo.name [])
          | none =>
            parseRawDataLoop blob propertyInfos fuel (offset2 + propertySize) properties
    else .ok properties

/-- Function `Parser::parseRawData`.  Every iteration of the loop consumes at least three
bytes, so `blob.size` iterations are enough. -/
def parseRawData (rawData : storage_engine.lmdb.Result) (propertyInfos : PropertyIdMapInfo)
    (isEdge : Bool) : Except Error Record :=
  if rawData.empty then .ok ⟨[]⟩
  else
    let rawDataBlob := rawData.data
    let offset := if isEdge then VERTEX_SRC_DST_RAW_DATA_LENGTH else 0
    if rawDataBlob.capacity = 0 then .error .ctxUnknownErr
    else if rawDataBlob.capacity ≥ 2 * 2 then
      match parseRawDataLoop rawDataBlob propertyInfos rawDataBlob.size offset [] with
      | .error e => .error e
      | .ok properties => .ok ⟨properties⟩
    else .ok ⟨[]⟩

/-- Function `Parser::parseEdgeVertexSrcDst`. -/
def parseEdgeVertexSrcDst (srcRid dstRid : RecordId) : Blob :=
  ((((Blob.new VERTEX_SRC_DST_RAW_DATA_LENGTH).append (leBytes sizeofClassId srcRid.1)).append
    (leBytes sizeofPositionId srcRid.2)).append (leBytes sizeofClassId dstRid.1)).append
    (leBytes sizeofPositionId dstRid.2)

/-- Function `Parser::parseEdgeRawDataVertexSrcDst`.  Both record ids start as `RecordId{}`;
the fourth `retrieve` stores into `dstVertexRid.first` again, as in the source. -/
def parseEdgeRawDataVertexSrcDst (blob : Blob) : Except Error (RecordId × RecordId) :=
  if ¬ (blob.size ≥ VERTEX_SRC_DST_RAW_DATA_LENGTH) then .error .requireFailed
  else
    match blob.retrieve 0 sizeofClassId with
    | .error e => .error e
    | .ok (srcFirst, offset1) =>
      match blob.retrieve offset1 sizeofPositionId with
      | .error e => .error e
      | .ok (srcSecond, offset2) =>
        match blob.retrieve offset2 sizeofClassId with
        | .error e => .error e
        | .ok (_, offset3) =>
          match blob.retrieve offset3 sizeofPositionId with
          | .error e => .error e
          | .ok (dstFirstAgain, _) =>
            .ok ((leValue srcFirst, leValue srcSecond), (leValue dstFirstAgain, 0))

/-- The bytes of one property block as `buildRawData` lays them out for a value
shorter than `2^31` bytes (used to state the layout of an encoded record). -/
def blockBytes (propertyId : Nat) (rawData : Bytes) : List Nat :=
  if rawData.length < 128 then
    [propertyId % 256, propertyId / 256 % 256] ++ [2 * rawData.length] ++ rawData
  else
    [propertyId % 256, propertyId / 256 % 256] ++ leBytes 4 (2 * rawData.length + 1) ++ rawData

/-- Concatenation of the blocks of all schema properties for a record. -/
def encodedBlocks (record : Record) : List (String × PropertyAccessInfo) → List Nat
  | [] => []
  | property :: rest =>
    blockBytes property.2.id (record.get property.1) ++ encodedBlocks record rest

/-- The property map obtained by assigning, in schema order, each schema name the
value the record holds for it. -/
def decodedProperties (record : Record) :
    List (String × PropertyAccessInfo) → PropertyToBytesMap → PropertyToBytesMap
  | [], acc => acc
  | property :: rest, acc =>
    decodedProperties record rest (mapSet acc property.1 (record.get property.1))

end parser

/-! ## Graph store, transactions and filters -/

/-- A record descriptor: a record id and the traversal depth. -/
structure RecordDescriptor where
  rid : RecordId
  depth : Nat
  deriving DecidableEq, Repr

/-- The descriptor `RecordDescriptor{rid}`, of depth 0. -/
def RecordDescriptor.ofRid (rid : RecordId) : RecordDescriptor := ⟨rid, 0⟩

/-- The default descriptor `RecordDescriptor{}`. -/
def RecordDescriptor.empty : RecordDescriptor := ⟨(0, 0), 0⟩

/-- The test `d == RecordDescriptor{}`; descriptors are compared by record id. -/
def RecordDescriptor.isEmpty (d : RecordDescriptor) : Bool := d.rid == (0, 0)

/-- One live edge of the graph store: its record id and its two endpoints. -/
structure EdgeEntry where
  rid : RecordId
  src : RecordId
  dst : RecordId
  deriving DecidableEq, Repr

/-- Modelled from the spec: the graph store (class `Graph`, declared outside the
sources at hand).  It holds the vertices that have adjacency entries and the live
edges with their endpoints; the `in`, `out` and `endpoints` relations of the spec
are read off the edge list, so they agree with each other by construction. -/
structure Graph where
  vertices : List RecordId
  edges : List EdgeEntry
  deriving DecidableEq, Repr

/-- Modelled from the spec: `Graph::lookupVertex`. -/
def Graph.lookupVertex (g : Graph) (rid : RecordId) : Bool := g.vertices.contains rid

/-- Modelled from the spec: `Graph::getEdgeOut`, the out-edges of a vertex, of one
edge class or (class id 0) of all classes. -/
def Graph.getEdgeOut (g : Graph) (rid : RecordId) (classId : Nat) : List RecordId :=
  (g.edges.filter (fun e => e.src == rid && (classId == 0 || e.rid.1 == classId))).map
    (fun e => e.rid)

/-- Modelled from the spec: `Graph::getEdgeIn`. -/
def Graph.getEdgeIn (g : Graph) (rid : RecordId) (classId : Nat) : List RecordId :=
  (g.edges.filter (fun e => e.dst == rid && (classId == 0 || e.rid.1 == classId))).map
    (fun e => e.rid)

/-- Modelled from the spec: `Graph::getEdgeInOut`, the edges touching a vertex. -/
def Graph.getEdgeInOut (g : Graph) (rid : RecordId) (classId : Nat) : List RecordId :=
  (g.edges.filter (fun e =>
    (e.src == rid || e.dst == rid) && (classId == 0 || e.rid.1 == classId))).map
    (fun e => e.rid)

/-- Modelled from the spec: `Graph::getVertexSrc`. -/
def Graph.getVertexSrc (g : Graph) (edge : RecordId) : RecordId :=
  match g.edges.find? (fun e => e.rid == edge) with
  | some e => e.src
  | none => (0, 0)

/-- Modelled from the spec: `Graph::getVertexDst`. -/
def Graph.getVertexDst (g : Graph) (edge : RecordId) : RecordId :=
  match g.edges.find? (fun e => e.rid == edge) with
  | some e => e.dst
  | none => (0, 0)

/-- Modelled from the spec: `Graph::getVertexSrcDst`. -/
def Graph.getVertexSrcDst (g : Graph) (edge : RecordId) : RecordId × RecordId :=
  (g.getVertexSrc edge, g.getVertexDst edge)

/-- Modelled from the spec: what a traversal reads through a transaction: the
graph store (`txn._txnCtx.dbRelation`), whether a class sub-database holds a row
for a record id, and the record `Parser::parseRawDataWithBasicInfo` yields for it. -/
structure Txn where
  dbRelation : Graph
  hasRow : RecordId → Bool
  record : RecordId → Record

/-- Modelled from the spec: `PathFilter`, an optional record predicate for vertices
and one for edges. -/
structure PathFilter where
  vertexFilter : Option (Record → Bool)
  edgeFilter : Option (Record → Bool)

def PathFilter.isSetVertex (f : PathFilter) : Bool := f.vertexFilter.isSome

def PathFilter.isSetEdge (f : PathFilter) : Bool := f.edgeFilter.isSome

def PathFilter.isEnable (f : PathFilter) : Bool := f.isSetVertex || f.isSetEdge

/-- The filter `PathFilter{}`. -/
def PathFilter.none : PathFilter := ⟨Option.none, Option.none⟩

inductive ClassType where
  | VERTEX
  | EDGE
  | UNDEFINED
  deriving DecidableEq, Repr

inductive RecordStatus where
  | RECORD_EXIST
  | RECORD_NOT_EXIST
  | RECORD_NOT_EXIST_IN_MEMORY
  deriving DecidableEq, Repr

namespace Generic

/-- Function `Generic::checkIfRecordExist`. -/
def checkIfRecordExist (txn : Txn) (recordDescriptor : RecordDescriptor) : RecordStatus :=
  if txn.dbRelation.lookupVertex recordDescriptor.rid then .RECORD_EXIST
  else if txn.hasRow recordDescriptor.rid then .RECORD_NOT_EXIST_IN_MEMORY
  else .RECORD_NOT_EXIST

end Generic

namespace Algorithm

/-- Function `Algorithm::retrieveRdesc`: the descriptor of `rid`, or the default descriptor
when the filter of its class type rejects the record. -/
def retrieveRdesc (txn : Txn) (rid : RecordId) (pathFilter : PathFilter)
    (type : ClassType) : RecordDescriptor :=
  let record := txn.record rid
  match pathFilter.vertexFilter, pathFilter.edgeFilter, type with
  | some vertexFilter, _, .VERTEX =>
    if vertexFilter record then RecordDescriptor.ofRid rid else RecordDescriptor.empty
  | _, some edgeFilter, .EDGE =>
    if edgeFilter record then RecordDescriptor.ofRid rid else RecordDescriptor.empty
  | _, _, _ => RecordDescriptor.ofRid rid

/-- Body of the loops of `getIncidentEdges`: keep the edges the filter accepts. -/
def keepEdges (txn : Txn) (pathFilter : PathFilter) (edges : List RecordId) :
    List RecordDescriptor :=
  (edges.filter (fun edge =>
    let tmpRdesc :=
      if pathFilter.isSetVertex || pathFilter.isSetEdge then
        retrieveRdesc txn edge pathFilter .EDGE
      else RecordDescriptor.ofRid edge
    !tmpRdesc.isEmpty)).map RecordDescriptor.ofRid

/-- Function `Algorithm::getIncidentEdges`. -/
def getIncidentEdges (txn : Txn) (edgeFunc : Graph → RecordId → Nat → List RecordId)
    (vertex : RecordId) (pathFilter : PathFilter) (edgeClassIds : List Nat) :
    List RecordDescriptor :=
  if edgeClassIds.isEmpty then
    keepEdges txn pathFilter (edgeFunc txn.dbRelation vertex 0)
  else
    edgeClassIds.flatMap (fun edgeId =>
      keepEdges txn pathFilter (edgeFunc txn.dbRelation vertex edgeId))

/-- Function `Algorithm::getOutEdges`; its filter test is `pathFilter.isEnable()`. -/
def getOutEdges (txn : Txn) (vertex : RecordId) (pathFilter : PathFilter)
    (edgeClassIds : List Nat) : List RecordDescriptor :=
  let keep := fun (edges : List RecordId) =>
    (edges.filter (fun edge =>
      let tmpRdesc :=
        if pathFilter.isEnable then retrieveRdesc txn edge pathFilter .EDGE
        else RecordDescriptor.ofRid edge
      !tmpRdesc.isEmpty)).map RecordDescriptor.ofRid
  if edgeClassIds.isEmpty then
    keep (txn.dbRelation.getEdgeOut vertex 0)
  else
    edgeClassIds.flatMap (fun edgeId => keep (txn.dbRelation.getEdgeOut vertex edgeId))

/-- The vertex a traversal step moves to along `edge` from `vertexId`: the image
of `vertexFunc` when one is given, else the endpoint that is not `vertexId`. -/
def nextVertex (txn : Txn) (vertexFunc : Option (Graph → RecordId → RecordId))
    (vertexId : RecordId) (edge : RecordDescriptor) : RecordId :=
  match vertexFunc with
  | some f => f txn.dbRelation edge.rid
  | Option.none =>
    let vertices := txn.dbRelation.getVertexSrcDst edge.rid
    if vertices.1 ≠ vertexId then vertices.1 else vertices.2

/-- The record ids a traversal from `rid` can meet: `rid`, the default record id
and the endpoints of the edges of the graph store. -/
def vertexUniverse (txn : Txn) (rid : RecordId) : List RecordId :=
  rid :: (0, 0) :: txn.dbRelation.edges.flatMap (fun e => [e.src, e.dst])

/-- Iteration budget of the traversal loops: the number of record ids that occur
as an endpoint of an edge, plus the source and the default record id. -/
def traversalFuel (txn : Txn) : Nat := 2 * txn.dbRelation.edges.length + 3

/-- The local variables of `breadthFirstSearchRdesc`. -/
structure BfsState where
  result : List RecordDescriptor
  visited : List RecordId
  queue : List RecordId
  currentLevel : Nat
  firstRecordId : RecordId
  deriving DecidableEq, Repr

/-- The lambda `addUniqueVertex` of `breadthFirstSearchRdesc`. -/
def addUniqueVertex (txn : Txn) (minDepth maxDepth : Nat) (st : BfsState)
    (vertex : RecordId) (pathFilter : PathFilter) : BfsState :=
  if vertex ∈ st.visited then st
  else
    let tmpRdesc :=
      if pathFilter.isEnable then retrieveRdesc txn vertex pathFilter .VERTEX
      else RecordDescriptor.ofRid vertex
    let result :=
      if st.currentLevel + 1 ≥ minDepth ∧ st.currentLevel + 1 ≤ maxDepth ∧ ¬ tmpRdesc.isEmpty then
        st.result ++ [{ tmpRdesc with depth := st.currentLevel + 1 }]
      else st.result
    let visited := vertex :: st.visited
    let firstRecordId := if st.firstRecordId = (0, 0) then vertex else st.firstRecordId
    let queue :=
      if st.currentLevel + 1 < maxDepth ∧ ¬ tmpRdesc.isEmpty then st.queue ++ [vertex]
      else st.queue
    { result := result, visited := visited, queue := queue,
      currentLevel := st.currentLevel, firstRecordId := firstRecordId }

/-- The `for` loop over the incident edges of the dequeued vertex. -/
def bfsVisitEdges (txn : Txn) (minDepth maxDepth : Nat)
    (vertexFunc : Option (Graph → RecordId → RecordId)) (pathFilter : PathFilter)
    (vertexId : RecordId) : List RecordDescriptor → BfsState → BfsState
  | [], st => st
  | edge :: rest, st =>
    bfsVisitEdges txn minDepth maxDepth vertexFunc pathFilter vertexId rest
      (addUniqueVertex txn minDepth maxDepth st (nextVertex txn vertexFunc vertexId edge)
        pathFilter)

/-- Start of an iteration of the loop of `breadthFirstSearchRdesc`: the front of
the queue is removed, and when it is the first vertex of its level the level
counter moves on (not for the source itself). -/
def bfsDequeue (rid : RecordId) (st : BfsState) (vertexId : RecordId)
    (queue : List RecordId) : BfsState :=
  if vertexId = st.firstRecordId then
    { st with queue := queue,
              currentLevel := st.currentLevel + (if vertexId ≠ rid then 1 else 0),
              firstRecordId := (0, 0) }
  else { st with queue := queue }

/-- The `while (!queue.empty())` loop of `breadthFirstSearchRdesc`; the first
argument bounds the number of iterations. -/
def bfsLoop (txn : Txn) (rid : RecordId) (minDepth maxDepth : Nat) (edgeClassIds : List Nat)
    (edgeFunc : Graph → RecordId → Nat → List RecordId)
    (vertexFunc : Option (Graph → RecordId → RecordId)) (pathFilter : PathFilter) :
    Nat → BfsState → Except Error BfsState
  | 0, st => if st.queue.isEmpty then .ok st else .error .diverged
  | fuel + 1, st =>
    match st.queue with
    | [] => .ok st
    | vertexId :: queue =>
      let edgeRecordDescriptors :=
        getIncidentEdges txn edgeFunc vertexId pathFilter edgeClassIds
      bfsLoop txn rid minDepth maxDepth edgeClassIds edgeFunc vertexFunc pathFilter fuel
        (bfsVisitEdges txn minDepth maxDepth vertexFunc pathFilter vertexId
          edgeRecordDescriptors (bfsDequeue rid st vertexId queue))

/-- Function `Algorithm::breadthFirstSearchRdesc`.  The accessors of the graph store are
taken as total functions, so the handler that turns `NOGDB_GRAPH_NOEXST_VERTEX`
into `NOGDB_GRAPH_UNKNOWN_ERR` has nothing to catch. -/
def breadthFirstSearchRdesc (txn : Txn) (recordDescriptor : RecordDescriptor)
    (minDepth maxDepth : Nat) (edgeClassIds : List Nat)
    (edgeFunc : Graph → RecordId → Nat → List RecordId)
    (vertexFunc : Option (Graph → RecordId → RecordId)) (pathFilter : PathFilter) :
    Except Error (List RecordDescriptor) :=
  match Generic.checkIfRecordExist txn recordDescriptor with
  | .RECORD_NOT_EXIST => .error .graphNoexstVertex
  | .RECORD_NOT_EXIST_IN_MEMORY =>
    .ok (if minDepth = 0 ∧ minDepth ≤ maxDepth then [recordDescriptor] else [])
  | .RECORD_EXIST =>
    let st0 : BfsState :=
      { result := if minDepth = 0 then [recordDescriptor] else [],
        visited := [recordDescriptor.rid],
        queue := [recordDescriptor.rid],
        currentLevel := 0,
        firstRecordId := recordDescriptor.rid }
    match bfsLoop txn recordDescriptor.rid minDepth maxDepth edgeClassIds edgeFunc vertexFunc
        pathFilter (traversalFuel txn) st0 with
    | .error e => .error e
    | .ok st => .ok st.result

/-- Invariant of the breadth-first loop on what has been emitted: every emitted
record id is visited, none is emitted twice, and after the descriptors emitted at
the start (`init`) none carries the record id of the source. -/
def BfsEmitted (rid : RecordId) (init : List RecordDescriptor) (st : BfsState) : Prop :=
  rid ∈ st.visited ∧ (∀ d ∈ st.result, d.rid ∈ st.visited) ∧
    (st.result.map (fun d => d.rid)).Nodup ∧
    ∃ tail, st.result = init ++ tail ∧ ∀ d ∈ tail, d.rid ≠ rid

/-- The local variables of `depthFirstSearchRdesc`; `stk` holds one frontier per
level and every frontier is used as a stack whose top is its last element. -/
structure DfsState where
  result : List RecordDescriptor
  visited : List RecordId
  stk : List (List RecordId)
  currentLevel : Nat
  deriving DecidableEq, Repr

/-- The loop `while (currentLevel && stk[currentLevel].empty()) --currentLevel`. -/
def dfsUnwind (stk : List (List RecordId)) : Nat → Nat
  | 0 => 0
  | level + 1 =>
    if (stk.getD (level + 1) []).isEmpty then dfsUnwind stk level else level + 1

/-- The `for` loop of `depthFirstSearchRdesc` that pushes the targets not yet
visited on the frontier of the next level; it receives the edges already in
reverse order. -/
def dfsPushEdges (txn : Txn) (vertexFunc : Option (Graph → RecordId → RecordId))
    (vertex : RecordId) (visited : List RecordId) :
    List RecordDescriptor → List RecordId → List RecordId
  | [], frontier => frontier
  | edge :: rest, frontier =>
    if nextVertex txn vertexFunc vertex edge ∈ visited then
      dfsPushEdges txn vertexFunc vertex visited rest frontier
    else
      dfsPushEdges txn vertexFunc vertex visited rest
        (frontier ++ [nextVertex txn vertexFunc vertex edge])

/-- One iteration of the outer loop of `depthFirstSearchRdesc` for the vertex
taken from the top of the current frontier (the frontier is already popped). -/
def dfsVisit (txn : Txn) (minDepth maxDepth : Nat) (edgeClassIds : List Nat)
    (edgeFunc : Graph → RecordId → Nat → List RecordId)
    (vertexFunc : Option (Graph → RecordId → RecordId)) (pathFilter : PathFilter)
    (st : DfsState) (vertex : RecordId) : DfsState :=
  if vertex ∈ st.visited then st
  else
    let visited := vertex :: st.visited
    let result :=
      if st.currentLevel ≥ minDepth then
        let tmpRdesc :=
          if pathFilter.isEnable then
            retrieveRdesc txn vertex
              (if st.currentLevel ≠ 0 then pathFilter else PathFilter.none) .VERTEX
          else RecordDescriptor.ofRid vertex
        if ¬ tmpRdesc.isEmpty then st.result ++ [{ tmpRdesc with depth := st.currentLevel }]
        else st.result
      else st.result
    if st.currentLevel < maxDepth then
      let currentLevel := st.currentLevel + 1
      let stk1 := if currentLevel = st.stk.length then st.stk ++ [[]] else st.stk
      let edgeRecordDescriptors :=
        getIncidentEdges txn edgeFunc vertex pathFilter edgeClassIds
      let stk2 := stk1.set currentLevel
        (dfsPushEdges txn vertexFunc vertex visited edgeRecordDescriptors.reverse
          (stk1.getD currentLevel []))
      { result := result, visited := visited, stk := stk2, currentLevel := currentLevel }
    else
      { result := result, visited := visited, stk := st.stk, currentLevel := st.currentLevel }

/-- Body of the outer loop of `depthFirstSearchRdesc` once the top `vertex` of the
current frontier is read: pop it, visit it, then leave the exhausted levels. -/
def dfsStep (txn : Txn) (minDepth maxDepth : Nat) (edgeClassIds : List Nat)
    (edgeFunc : Graph → RecordId → Nat → List RecordId)
    (vertexFunc : Option (Graph → RecordId → RecordId)) (pathFilter : PathFilter)
    (st : DfsState) (vertex : RecordId) : DfsState :=
  let popped : DfsState :=
    { st with stk := st.stk.set st.currentLevel (st.stk.getD st.currentLevel []).dropLast }
  let st1 := dfsVisit txn minDepth maxDepth edgeClassIds edgeFunc vertexFunc pathFilter
    popped vertex
  { st1 with currentLevel := dfsUnwind st1.stk st1.currentLevel }

/-- The `while (!stk[currentLevel].empty())` loop of `depthFirstSearchRdesc`; the
first argument bounds the number of iterations. -/
def dfsLoop (txn : Txn) (minDepth maxDepth : Nat) (edgeClassIds : List Nat)
    (edgeFunc : Graph → RecordId → Nat → List RecordId)
    (vertexFunc : Option (Graph → RecordId → RecordId)) (pathFilter : PathFilter) :
    Nat → DfsState → Except Error DfsState
  | 0, st => if (st.stk.getD st.currentLevel []).isEmpty then .ok st else .error .diverged
  | fuel + 1, st =>
    match (st.stk.getD st.currentLevel []).getLast? with
    | Option.none => .ok st
    | some vertex =>
      dfsLoop txn minDepth maxDepth edgeClassIds edgeFunc vertexFunc pathFilter fuel
        (dfsStep txn minDepth maxDepth edgeClassIds edgeFunc vertexFunc pathFilter st vertex)

/-- Iteration budget of the depth-first loop: one pop for the source and one for
every push, and a vertex pushes at most its incident edges, once. -/
def dfsFuel (txn : Txn) (rid : RecordId) (edgeClassIds : List Nat)
    (edgeFunc : Graph → RecordId → Nat → List RecordId) (pathFilter : PathFilter) : Nat :=
  (((vertexUniverse txn rid).dedup.map
    (fun v => (getIncidentEdges txn edgeFunc v pathFilter edgeClassIds).length)).sum) + 2

/-- Number of record ids waiting on the frontiers of the depth-first search. -/
def stkTotal (stk : List (List RecordId)) : Nat := (stk.map List.length).sum

/-- Number of pushes the candidates not yet visited can still cause. -/
def pendingPushes (txn : Txn) (edgeClassIds : List Nat)
    (edgeFunc : Graph → RecordId → Nat → List RecordId) (pathFilter : PathFilter)
    (visited : List RecordId) : List RecordId → Nat
  | [] => 0
  | v :: rest =>
    (if v ∈ visited then 0
      else (getIncidentEdges txn edgeFunc v pathFilter edgeClassIds).length)
      + pendingPushes txn edgeClassIds edgeFunc pathFilter visited rest

/-- Bookkeeping invariant of the depth-first loop: the frontiers hold candidate
record ids only, and `k` bounds the number of iterations still to come. -/
def DfsBudget (txn : Txn) (rid : RecordId) (edgeClassIds : List Nat)
    (edgeFunc : Graph → RecordId → Nat → List RecordId) (pathFilter : PathFilter)
    (k : Nat) (st : DfsState) : Prop :=
  (∀ fr ∈ st.stk, ∀ v ∈ fr, v ∈ vertexUniverse txn rid) ∧
    stkTotal st.stk + pendingPushes txn edgeClassIds edgeFunc pathFilter st.visited
      (vertexUniverse txn rid).dedup ≤ k

/-- Invariant of the depth-first loop on what has been emitted: every emitted
record id is visited and none is emitted twice. -/
def DfsEmitted (st : DfsState) : Prop :=
  (∀ d ∈ st.result, d.rid ∈ st.visited) ∧ (st.result.map (fun d => d.rid)).Nodup

/-- Function `Algorithm::depthFirstSearchRdesc`. -/
def depthFirstSearchRdesc (txn : Txn) (recordDescriptor : RecordDescriptor)
    (minDepth maxDepth : Nat) (edgeClassIds : List Nat)
    (edgeFunc : Graph → RecordId → Nat → List RecordId)
    (vertexFunc : Option (Graph → RecordId → RecordId)) (pathFilter : PathFilter) :
    Except Error (List RecordDescriptor) :=
  match Generic.checkIfRecordExist txn recordDescriptor with
  | .RECORD_NOT_EXIST => .error .graphNoexstVertex
  | .RECORD_NOT_EXIST_IN_MEMORY =>
    .ok (if minDepth = 0 ∧ minDepth ≤ maxDepth then [recordDescriptor] else [])
  | .RECORD_EXIST =>
    let st0 : DfsState :=
      { result := [], visited := [], stk := [[recordDescriptor.rid]], currentLevel := 0 }
    match dfsLoop txn minDepth maxDepth edgeClassIds edgeFunc vertexFunc pathFilter
        (dfsFuel txn recordDescriptor.rid edgeClassIds edgeFunc pathFilter) st0 with
    | .error e => .error e
    | .ok st => .ok st.result

/-- The local variables of the search loop of `bfsShortestPathRdesc`; `visited`
maps a discovered vertex to its descriptor and its predecessor. -/
structure SpState where
  visited : List (RecordId × (RecordDescriptor × RecordId))
  queue : List RecordId
  found : Bool
  deriving DecidableEq, Repr

/-- First statement of the body of the `for` loop of `bfsShortestPathRdesc`: the
destination of `edge`, when it is new and accepted by the vertex filter, is
recorded with its predecessor `vertex` and queued. -/
def spDiscover (txn : Txn) (pathFilter : PathFilter) (vertex : RecordId) (st : SpState)
    (edge : RecordDescriptor) : SpState :=
  let nextVertex := txn.dbRelation.getVertexDst edge.rid
  if (st.visited.lookup nextVertex).isNone then
    let tmpRdesc :=
      if pathFilter.isSetVertex || pathFilter.isSetEdge then
        retrieveRdesc txn nextVertex pathFilter .VERTEX
      else RecordDescriptor.ofRid nextVertex
    if ¬ tmpRdesc.isEmpty then
      { st with visited := (nextVertex, (tmpRdesc, vertex)) :: st.visited,
                queue := st.queue ++ [nextVertex] }
    else st
  else st

/-- The `for` loop over the out-edges of the dequeued vertex in
`bfsShortestPathRdesc`, left by `break` when the destination is met. -/
def spVisitEdges (txn : Txn) (dstRid : RecordId) (pathFilter : PathFilter)
    (vertex : RecordId) : List RecordDescriptor → SpState → SpState
  | [], st => st
  | edge :: rest, st =>
    if txn.dbRelation.getVertexDst edge.rid = dstRid then
      { spDiscover txn pathFilter vertex st edge with found := true }
    else spVisitEdges txn dstRid pathFilter vertex rest (spDiscover txn pathFilter vertex st edge)

/-- The loop `while (!queue.empty() && !found)` of `bfsShortestPathRdesc`. -/
def spLoop (txn : Txn) (dstRid : RecordId) (edgeClassIds : List Nat)
    (pathFilter : PathFilter) : Nat → SpState → Except Error SpState
  | 0, st => if st.queue.isEmpty ∨ st.found then .ok st else .error .diverged
  | fuel + 1, st =>
    if st.found then .ok st
    else
      match st.queue with
      | [] => .ok st
      | vertex :: queue =>
        spLoop txn dstRid edgeClassIds pathFilter fuel
          (spVisitEdges txn dstRid pathFilter vertex
            (getOutEdges txn vertex pathFilter edgeClassIds) { st with queue := queue })

/-- The walk back along the predecessors, `while (vertex != src)`, with
`visited.at(vertex)` failing when the vertex has no entry. -/
def spWalk (visited : List (RecordId × (RecordDescriptor × RecordId))) (srcRid : RecordId) :
    Nat → RecordId → List RecordDescriptor → Except Error (List RecordDescriptor)
  | 0, vertex, result => if vertex ≠ srcRid then .error .diverged else .ok result
  | fuel + 1, vertex, result =>
    if vertex ≠ srcRid then
      match visited.lookup vertex with
      | Option.none => .error .outOfRange
      | some data => spWalk visited srcRid fuel data.2 (result ++ [data.1])
    else .ok result

/-- The loop `for (auto &res: result) res.depth = currentLevel++`. -/
def assignDepths : Nat → List RecordDescriptor → List RecordDescriptor
  | _, [] => []
  | currentLevel, res :: rest =>
    { res with depth := currentLevel } :: assignDepths (currentLevel + 1) rest

/-- Function `Algorithm::bfsShortestPathRdesc`. -/
def bfsShortestPathRdesc (txn : Txn) (srcVertexRecordDescriptor : RecordDescriptor)
    (dstVertexRecordDescriptor : RecordDescriptor) (edgeClassIds : List Nat)
    (pathFilter : PathFilter) : Except Error (List RecordDescriptor) :=
  let srcStatus := Generic.checkIfRecordExist txn srcVertexRecordDescriptor
  let dstStatus := Generic.checkIfRecordExist txn dstVertexRecordDescriptor
  if srcStatus = .RECORD_NOT_EXIST then .error .graphNoexstSrc
  else if dstStatus = .RECORD_NOT_EXIST then .error .graphNoexstDst
  else if srcStatus = .RECORD_NOT_EXIST_IN_MEMORY ∨ dstStatus = .RECORD_NOT_EXIST_IN_MEMORY then
    .ok []
  else if srcVertexRecordDescriptor.rid = dstVertexRecordDescriptor.rid then
    .ok [srcVertexRecordDescriptor]
  else
    let st0 : SpState :=
      { visited := [(srcVertexRecordDescriptor.rid, (RecordDescriptor.empty, (0, 0)))],
        queue := [srcVertexRecordDescriptor.rid],
        found := false }
    match spLoop txn dstVertexRecordDescriptor.rid edgeClassIds pathFilter
        (traversalFuel txn) st0 with
    | .error e => .error e
    | .ok st =>
      if st.found then
        match spWalk st.visited srcVertexRecordDescriptor.rid st.visited.length
            dstVertexRecordDescriptor.rid [] with
        | .error e => .error e
        | .ok result => .ok (assignDepths 0 (result ++ [srcVertexRecordDescriptor]).reverse)
      else .ok []

/-- The local variables of `dijkstraShortestPathRdesc`.  The maps `parent` and
`distance` are association lists read at their newest entry; `heap` lists the
entries of the priority queue in the order they were pushed. -/
structure DijkstraState where
  parent : List (RecordId × RecordDescriptor)
  distance : List (RecordId × Int)
  heap : List (Int × RecordId)
  deriving DecidableEq, Repr

/-- The entry `heap.top()` of the priority queue ordered by `std::greater`: an entry of
least cost, the one pushed first among several. -/
def heapTop : List (Int × RecordId) → Option (Int × RecordId)
  | [] => Option.none
  | x :: xs =>
    match heapTop xs with
    | Option.none => some x
    | some m => if m.1 < x.1 then some m else some x

/-- Body of the `for` loop over the out-edges of the popped vertex in
`dijkstraShortestPathRdesc`, for the cost type `T = Int`. -/
def dijkstraRelax (txn : Txn) (costFunction : Txn → RecordDescriptor → Int)
    (pathFilter : PathFilter) (dist : Int) (st : DijkstraState) (edge : RecordDescriptor) :
    DijkstraState :=
  let nextVertex := txn.dbRelation.getVertexDst edge.rid
  let tmpRdesc :=
    if pathFilter.isEnable then retrieveRdesc txn nextVertex pathFilter .VERTEX
    else RecordDescriptor.ofRid nextVertex
  if tmpRdesc.isEmpty then st
  else
    let nextDist := dist + costFunction txn edge
    let updated : DijkstraState :=
      { parent := (nextVertex, edge) :: st.parent,
        distance := (nextVertex, nextDist) :: st.distance,
        heap := st.heap ++ [(nextDist, nextVertex)] }
    match st.distance.lookup nextVertex with
    | Option.none => updated
    | some d => if d > nextDist then updated else st

/-- The loop `while (!heap.empty())` of `dijkstraShortestPathRdesc`; the first argument
bounds the number of iterations. -/
def dijkstraLoop (txn : Txn) (dstId : RecordId) (costFunction : Txn → RecordDescriptor → Int)
    (edgeClassIds : List Nat) (pathFilter : PathFilter) :
    Nat → DijkstraState → Except Error DijkstraState
  | 0, st => if st.heap.isEmpty then .ok st else .error .diverged
  | fuel + 1, st =>
    match heapTop st.heap with
    | Option.none => .ok st
    | some top =>
      let st1 : DijkstraState := { st with heap := st.heap.erase top }
      if top.2 = dstId then .ok st1
      else
        match st1.distance.lookup top.2 with
        | Option.none => .error .outOfRange
        | some d =>
          if top.1 > d then dijkstraLoop txn dstId costFunction edgeClassIds pathFilter fuel st1
          else
            dijkstraLoop txn dstId costFunction edgeClassIds pathFilter fuel
              ((getOutEdges txn top.2 pathFilter edgeClassIds).foldl
                (dijkstraRelax txn costFunction pathFilter top.1) st1)

/-- The loop `for (vertex = dstId; vertex != srcId;)` of `dijkstraShortestPathRdesc`
that walks back along the parent edges, with `parent.at(vertex)` failing when the
vertex has no entry. -/
def dijkstraWalk (txn : Txn) (parent : List (RecordId × RecordDescriptor)) (srcId : RecordId) :
    Nat → RecordId → List RecordDescriptor → Except Error (List RecordDescriptor)
  | 0, vertex, result => if vertex ≠ srcId then .error .diverged else .ok result
  | fuel + 1, vertex, result =>
    if vertex ≠ srcId then
      match parent.lookup vertex with
      | Option.none => .error .outOfRange
      | some edge =>
        dijkstraWalk txn parent srcId fuel (txn.dbRelation.getVertexSrc edge.rid)
          (result ++ [RecordDescriptor.ofRid (txn.dbRelation.getVertexSrc edge.rid)])
    else .ok result

/-- Iteration budget of the loop of `dijkstraShortestPathRdesc`: one pop for the source
and one for every push, and with costs that are not negative a vertex pushes at
most its out-edges, once. -/
def dijkstraFuel (txn : Txn) (rid : RecordId) (edgeClassIds : List Nat)
    (pathFilter : PathFilter) : Nat :=
  (((vertexUniverse txn rid).dedup.map
    (fun v => (getOutEdges txn v pathFilter edgeClassIds).length)).sum) + 2

/-- The statements of the last `else` branch of `dijkstraShortestPathRdesc`: the search
loop, the test `distance.find(dstId)`, and the reconstruction of the path. -/
def dijkstraSearch (txn : Txn) (srcId dstId : RecordId)
    (costFunction : Txn → RecordDescriptor → Int) (edgeClassIds : List Nat)
    (pathFilter : PathFilter) : Except Error (Int × List RecordDescriptor) :=
  let st0 : DijkstraState :=
    { parent := [], distance := [(srcId, 0)], heap := [(0, srcId)] }
  match dijkstraLoop txn dstId costFunction edgeClassIds pathFilter
      (dijkstraFuel txn srcId edgeClassIds pathFilter) st0 with
  | .error e => .error e
  | .ok st =>
    match st.distance.lookup dstId with
    | Option.none => .ok (0, [])
    | some d =>
      match dijkstraWalk txn st.parent srcId (st.distance.length + 1) dstId
          [RecordDescriptor.ofRid dstId] with
      | .error e => .error e
      | .ok result => .ok (d, assignDepths 0 result.reverse)

/-- Control skeleton of `dijkstraShortestPathRdesc`: the chain of status tests, with
`body` the outcome of the statements of the last branch, which no `try` block
encloses. -/
def dijkstraShortestPathRdescOn (srcStatus dstStatus : RecordStatus)
    (body : Except Error (Int × List RecordDescriptor)) :
    Except Error (Int × List RecordDescriptor) :=
  if srcStatus = .RECORD_NOT_EXIST then .error .graphNoexstSrc
  else if dstStatus = .RECORD_NOT_EXIST then .error .graphNoexstDst
  else if srcStatus = .RECORD_NOT_EXIST_IN_MEMORY ∨ dstStatus = .RECORD_NOT_EXIST_IN_MEMORY then
    .ok (0, [])
  else body

/-- Function `Algorithm::dijkstraShortestPathRdesc`, for the cost type `T = Int` and the
default comparison `std::greater<T>`. -/
def dijkstraShortestPathRdesc (txn : Txn) (srcVertexRecordDescriptor : RecordDescriptor)
    (dstVertexRecordDescriptor : RecordDescriptor)
    (costFunction : Txn → RecordDescriptor → Int) (edgeClassIds : List Nat)
    (pathFilter : PathFilter) : Except Error (Int × List RecordDescriptor) :=
  dijkstraShortestPathRdescOn (Generic.checkIfRecordExist txn srcVertexRecordDescriptor)
    (Generic.checkIfRecordExist txn dstVertexRecordDescriptor)
    (dijkstraSearch txn srcVertexRecordDescriptor.rid dstVertexRecordDescriptor.rid
      costFunction edgeClassIds pathFilter)

/-- The vertex `v` passes the test of `dijkstraShortestPathRdesc` on the destination of an
edge: its descriptor `tmpRdesc` is not the default one, that is, the vertex filter,
when the path filter is enabled, accepts it. -/
def VertexAccepted (txn : Txn) (pathFilter : PathFilter) (v : RecordId) : Prop :=
  (if pathFilter.isEnable then retrieveRdesc txn v pathFilter .VERTEX
    else RecordDescriptor.ofRid v).isEmpty = false

/-- An out-edge step of the shortest-path search from `a` to `b`: an out-edge of `a`
(of any class when no edge class is given, else of one of the given classes) that
the edge filter accepts and whose destination is `b`. -/
def OutStep (txn : Txn) (pathFilter : PathFilter) (edgeClassIds : List Nat)
    (a b : RecordId) : Prop :=
  ∃ edge : RecordId,
    (∃ classId, ((edgeClassIds = [] ∧ classId = 0) ∨ classId ∈ edgeClassIds) ∧
      edge ∈ txn.dbRelation.getEdgeOut a classId) ∧
    (∀ f, pathFilter.edgeFilter = some f → f (txn.record edge) = true) ∧
    txn.dbRelation.getVertexDst edge = b

/-- Following one out-edge of the graph store, whatever its class. -/
def EdgeStep (txn : Txn) (a b : RecordId) : Prop :=
  ∃ classId, ∃ edge ∈ txn.dbRelation.getEdgeOut a classId,
    txn.dbRelation.getVertexDst edge = b

/-- The vertex `b` can be reached from `a` by following out-edges. -/
def Reachable (txn : Txn) (a b : RecordId) : Prop :=
  Relation.ReflTransGen (EdgeStep txn) a b

/-- Well-formed predecessor map of the shortest-path search (newest entry first):
the oldest entry is the source, and every other entry maps a vertex met for the
first time to its own descriptor and to a predecessor that was recorded before it
and has an out-edge step to it. -/
inductive VisitedOk (txn : Txn) (pathFilter : PathFilter) (edgeClassIds : List Nat)
    (srcRid : RecordId) : List (RecordId × (RecordDescriptor × RecordId)) → Prop where
  | base : VisitedOk txn pathFilter edgeClassIds srcRid
      [(srcRid, (RecordDescriptor.empty, (0, 0)))]
  | cons (v : RecordId) (d : RecordDescriptor) (p : RecordId)
      (l : List (RecordId × (RecordDescriptor × RecordId))) :
      VisitedOk txn pathFilter edgeClassIds srcRid l → l.lookup v = none → d.rid = v →
      (l.lookup p).isSome → OutStep txn pathFilter edgeClassIds p v →
      VisitedOk txn pathFilter edgeClassIds srcRid ((v, (d, p)) :: l)

/-- Invariant of the search loop of `bfsShortestPathRdesc`. -/
def SpInv (txn : Txn) (pathFilter : PathFilter) (edgeClassIds : List Nat)
    (srcRid dstRid : RecordId) (k : Nat) (st : SpState) : Prop :=
  VisitedOk txn pathFilter edgeClassIds srcRid st.visited ∧
    (∀ v ∈ st.queue, (st.visited.lookup v).isSome) ∧
    (∀ e ∈ st.visited, e.1 ∈ vertexUniverse txn srcRid) ∧
    (st.found = true →
      ∃ p, (st.visited.lookup p).isSome ∧ OutStep txn pathFilter edgeClassIds p dstRid) ∧
    st.queue.length + ((vertexUniverse txn srcRid).length - st.visited.length) ≤ k

end Algorithm

/-! ## Datastore cursors and index search -/

namespace Datastore

/-- Modelled from the spec: a cursor over one sub-database of the ordered key/value
store (class `Datastore`, declared outside the sources at hand).  The entries are
held in the order in which the cursor walks them; `position` is the index of the
current entry and is `none` while the cursor has not been positioned. -/
structure CursorHandler (K V : Type) where
  content : List (K × V)
  position : Option Nat

/-- Modelled from the spec: what a cursor operation returns, `none` being the empty
`KeyValue`. -/
abbrev KeyValue (K V : Type) := Option (K × V)

/-- Modelled from the spec: `Datastore::openCursor`, a cursor that is not positioned. -/
def openCursor {K V : Type} (content : List (K × V)) : CursorHandler K V := ⟨content, none⟩

/-- Modelled from the spec: moving the cursor to the entry of index `i`; when there is
no such entry the result is empty and the cursor stays where it was. -/
def moveTo {K V : Type} (c : CursorHandler K V) (i : Nat) : KeyValue K V × CursorHandler K V :=
  match c.content[i]? with
  | some e => (some e, ⟨c.content, some i⟩)
  | none => (none, c)

/-- Modelled from the spec: `Datastore::getSetKeyCursor` (`seek`), the first entry
whose key equals `key`. -/
def getSetKeyCursor {K V : Type} [DecidableEq K] (c : CursorHandler K V) (key : K) :
    KeyValue K V × CursorHandler K V :=
  moveTo c (c.content.takeWhile (fun e => decide (e.1 ≠ key))).length

/-- Modelled from the spec: `Datastore::getSetRangeCursor` (`seekRange`), the first
entry whose key is greater than or equal to `key`, or the empty result when there
is none. -/
def getSetRangeCursor {K V : Type} [LinearOrder K] (c : CursorHandler K V) (key : K) :
    KeyValue K V × CursorHandler K V :=
  moveTo c (c.content.takeWhile (fun e => decide (e.1 < key))).length

/-- Modelled from the spec: `Datastore::getNextCursor` (`next`); on a cursor that is
not positioned it yields the first entry. -/
def getNextCursor {K V : Type} (c : CursorHandler K V) : KeyValue K V × CursorHandler K V :=
  match c.position with
  | none => moveTo c 0
  | some i => moveTo c (i + 1)

/-- Modelled from the spec: `Datastore::getPrevCursor` (`prev`); on a cursor that is
not positioned it yields the last entry. -/
def getPrevCursor {K V : Type} (c : CursorHandler K V) : KeyValue K V × CursorHandler K V :=
  match c.position with
  | none => moveTo c (c.content.length - 1)
  | some 0 => (none, c)
  | some (i + 1) => moveTo c i

/-- Modelled from the spec: `Datastore::deleteCursor`, which removes the entry the
cursor stands on. -/
def deleteCursor {K V : Type} (c : CursorHandler K V) : CursorHandler K V :=
  match c.position with
  | none => c
  | some i => ⟨c.content.eraseIdx i, some i⟩

end Datastore

namespace Index

open Datastore

/-- The loop of `Index::deleteIndexCursor`: walk the entries of key `value` until the
one of position `positionId` is found and deleted. -/
def deleteIndexLoop {K : Type} [DecidableEq K] (positionId : Nat) (value : K) :
    Nat → KeyValue K Nat × CursorHandler K Nat → Except Error (CursorHandler K Nat)
  | 0, _ => .error .diverged
  | _ + 1, (none, c) => .ok c
  | fuel + 1, (some keyValue, c) =>
    if value = keyValue.1 then
      if positionId = keyValue.2 then .ok (deleteCursor c)
      else deleteIndexLoop positionId value fuel (getNextCursor c)
    else .ok c

/-- Function `Index::deleteIndexCursor`, for numeric and for string keys alike. -/
def deleteIndexCursor {K : Type} [DecidableEq K] (cursorHandler : CursorHandler K Nat)
    (positionId : Nat) (value : K) : Except Error (CursorHandler K Nat) :=
  deleteIndexLoop positionId value (cursorHandler.content.length + 1)
    (getSetKeyCursor cursorHandler value)

/-- The loop of `Index::exactMatchIndex`. -/
def exactMatchLoop {K : Type} [DecidableEq K] (classId : Nat) (value : K) :
    Nat → KeyValue K Nat × CursorHandler K Nat → List RecordDescriptor →
      Except Error (List RecordDescriptor × CursorHandler K Nat)
  | 0, _, _ => .error .diverged
  | _ + 1, (none, c), result => .ok (result, c)
  | fuel + 1, (some keyValue, c), result =>
    if keyValue.1 = value then
      exactMatchLoop classId value fuel (getNextCursor c)
        (result ++ [RecordDescriptor.ofRid (classId, keyValue.2)])
    else .ok (result, c)

/-- Function `Index::exactMatchIndex`; the cursor is returned with the result because
the caller goes on using it. -/
def exactMatchIndex {K : Type} [DecidableEq K] (cursorHandler : CursorHandler K Nat)
    (classId : Nat) (value : K) : Except Error (List RecordDescriptor × CursorHandler K Nat) :=
  exactMatchLoop classId value (cursorHandler.content.length + 1)
    (getSetKeyCursor cursorHandler value) []

/-- The `getPrevCursor` loop of `Index::backwardSearchIndex`. -/
def backwardLoop {K : Type} (classId : Nat) :
    Nat → KeyValue K Nat × CursorHandler K Nat → List RecordDescriptor →
      Except Error (List RecordDescriptor × CursorHandler K Nat)
  | 0, _, _ => .error .diverged
  | _ + 1, (none, c), result => .ok (result, c)
  | fuel + 1, (some keyValue, c), result =>
    backwardLoop classId fuel (getPrevCursor c)
      (result ++ [RecordDescriptor.ofRid (classId, keyValue.2)])

/-- Function `Index::backwardSearchIndex`. -/
def backwardSearchIndex {K : Type} [LinearOrder K] (cursorHandler : CursorHandler K Nat)
    (classId : Nat) (value : K) (isInclude : Bool) :
    Except Error (List RecordDescriptor × CursorHandler K Nat) :=
  match (if isInclude then exactMatchIndex cursorHandler classId value
      else .ok ([], cursorHandler)) with
  | .error e => .error e
  | .ok (result, c) =>
    match getSetRangeCursor c value with
    | (some _, c1) => backwardLoop classId (c1.content.length + 1) (getPrevCursor c1) result
    | (none, c1) => .ok (result, c1)

/-- The loop of `Index::forwardSearchIndex`; `isInclude` is the local flag the loop
sets once it has passed the keys equal to `value`. -/
def forwardLoop {K : Type} [DecidableEq K] (classId : Nat) (value : K) :
    Nat → KeyValue K Nat × CursorHandler K Nat → Bool → List RecordDescriptor →
      Except Error (List RecordDescriptor × CursorHandler K Nat)
  | 0, _, _, _ => .error .diverged
  | _ + 1, (none, c), _, result => .ok (result, c)
  | fuel + 1, (some keyValue, c), isInclude, result =>
    if !isInclude && decide (keyValue.1 = value) then
      forwardLoop classId value fuel (getNextCursor c) isInclude result
    else
      forwardLoop classId value fuel (getNextCursor c) true
        (result ++ [RecordDescriptor.ofRid (classId, keyValue.2)])

/-- Function `Index::forwardSearchIndex`. -/
def forwardSearchIndex {K : Type} [LinearOrder K] (cursorHandler : CursorHandler K Nat)
    (classId : Nat) (value : K) (isInclude : Bool) :
    Except Error (List RecordDescriptor × CursorHandler K Nat) :=
  forwardLoop classId value (cursorHandler.content.length + 1)
    (getSetRangeCursor cursorHandler value) isInclude []

/-- The loop of `Index::betweenSearchIndex`. -/
def betweenLoop {K : Type} [LinearOrder K] (classId : Nat) (lower upper : K)
    (isIncludeBound : Bool × Bool) :
    Nat → KeyValue K Nat × CursorHandler K Nat → List RecordDescriptor →
      Except Error (List RecordDescriptor × CursorHandler K Nat)
  | 0, _, _ => .error .diverged
  | _ + 1, (none, c), result => .ok (result, c)
  | fuel + 1, (some keyValue, c), result =>
    if !isIncludeBound.1 && decide (keyValue.1 = lower) then
      betweenLoop classId lower upper isIncludeBound fuel (getNextCursor c) result
    else if (!isIncludeBound.2 && decide (keyValue.1 = upper)) || decide (keyValue.1 > upper) then
      .ok (result, c)
    else
      betweenLoop classId lower upper isIncludeBound fuel (getNextCursor c)
        (result ++ [RecordDescriptor.ofRid (classId, keyValue.2)])

/-- Function `Index::betweenSearchIndex`. -/
def betweenSearchIndex {K : Type} [LinearOrder K] (cursorHandler : CursorHandler K Nat)
    (classId : Nat) (lower upper : K) (isIncludeBound : Bool × Bool) :
    Except Error (List RecordDescriptor × CursorHandler K Nat) :=
  betweenLoop classId lower upper isIncludeBound (cursorHandler.content.length + 1)
    (getSetRangeCursor cursorHandler lower) []

/-- The two sub-databases of one index, `_positive` and `_negative`, each given by
its entries `(key, positionId)` in cursor order. -/
structure IndexDbi (K : Type) where
  positive : List (K × Nat)
  negative : List (K × Nat)

/-- The concatenation `positiveResult.insert(end, negativeResult)` of two searches. -/
def concatResults {K : Type}
    (positiveResult negativeResult : Except Error (List RecordDescriptor × CursorHandler K Nat)) :
    Except Error (List RecordDescriptor) :=
  match positiveResult with
  | .error e => .error e
  | .ok (p, _) =>
    match negativeResult with
    | .error e => .error e
    | .ok (n, _) => .ok (p ++ n)

/-- The result of a search on one sub-database. -/
def singleResult {K : Type}
    (r : Except Error (List RecordDescriptor × CursorHandler K Nat)) :
    Except Error (List RecordDescriptor) :=
  match r with
  | .error e => .error e
  | .ok (p, _) => .ok p

/-- Function `Index::getLess<T>`; the transaction and the index id select the two
sub-databases `dbi`. -/
def getLess {K : Type} [LinearOrder K] [Zero K] (dbi : IndexDbi K) (classId : Nat)
    (value : K) (includeEqual : Bool) : Except Error (List RecordDescriptor) :=
  if value < 0 then
    singleResult (backwardSearchIndex (openCursor dbi.negative) classId value includeEqual)
  else
    concatResults (backwardSearchIndex (openCursor dbi.positive) classId value includeEqual)
      (backwardSearchIndex (openCursor dbi.negative) classId value includeEqual)

/-- Function `Index::getEqual<T>`. -/
def getEqual {K : Type} [LinearOrder K] [Zero K] (dbi : IndexDbi K) (classId : Nat)
    (value : K) : Except Error (List RecordDescriptor) :=
  if value < 0 then singleResult (exactMatchIndex (openCursor dbi.negative) classId value)
  else singleResult (exactMatchIndex (openCursor dbi.positive) classId value)

/-- Function `Index::getGreater<T>`. -/
def getGreater {K : Type} [LinearOrder K] [Zero K] (dbi : IndexDbi K) (classId : Nat)
    (value : K) (includeEqual : Bool) : Except Error (List RecordDescriptor) :=
  if value < 0 then
    concatResults (forwardSearchIndex (openCursor dbi.positive) classId value includeEqual)
      (forwardSearchIndex (openCursor dbi.negative) classId value includeEqual)
  else
    singleResult (forwardSearchIndex (openCursor dbi.positive) classId value includeEqual)

/-- Function `Index::getBetween<T>`. -/
def getBetween {K : Type} [LinearOrder K] [Zero K] (dbi : IndexDbi K) (classId : Nat)
    (lowerBound upperBound : K) (isIncludeBound : Bool × Bool) :
    Except Error (List RecordDescriptor) :=
  if lowerBound < 0 ∧ upperBound < 0 then
    singleResult
      (betweenSearchIndex (openCursor dbi.negative) classId lowerBound upperBound isIncludeBound)
  else if lowerBound < 0 ∧ 0 ≤ upperBound then
    concatResults
      (betweenSearchIndex (openCursor dbi.positive) classId lowerBound upperBound isIncludeBound)
      (betweenSearchIndex (openCursor dbi.negative) classId lowerBound upperBound isIncludeBound)
  else
    singleResult
      (betweenSearchIndex (openCursor dbi.positive) classId lowerBound upperBound isIncludeBound)

/-- The full scan an index search stands for: the position ids of the entries of both
sub-databases whose key satisfies `p`. -/
def scanPositions {K : Type} (dbi : IndexDbi K) (p : K → Bool) : List Nat :=
  ((dbi.positive ++ dbi.negative).filter (fun e => p e.1)).map Prod.snd

/-- The predicate of a `LESS` (`LESS_EQUAL` when `includeEqual`) scan against `value`. -/
def selectsLess {K : Type} [LinearOrder K] (value : K) (includeEqual : Bool) (key : K) : Bool :=
  if includeEqual then decide (key ≤ value) else decide (key < value)

/-- The predicate of a `GREATER` (`GREATER_EQUAL` when `includeEqual`) scan against
`value`. -/
def selectsGreater {K : Type} [LinearOrder K] (value : K) (includeEqual : Bool) (key : K) :
    Bool :=
  if includeEqual then decide (value ≤ key) else decide (value < key)

/-- The predicate of a `BETWEEN` scan: `lower < key < upper`, each inequality relaxed
to `≤` when the corresponding flag of `isIncludeBound` is set. -/
def selectsBetween {K : Type} [LinearOrder K] (lower upper : K) (isIncludeBound : Bool × Bool)
    (key : K) : Bool :=
  (if isIncludeBound.1 then decide (lower ≤ key) else decide (lower < key)) &&
    (if isIncludeBound.2 then decide (key ≤ upper) else decide (key < upper))

/-- An index whose sub-databases are ordered by key and hold the keys of their sign. -/
def IndexDbi.WellFormed {K : Type} [LinearOrder K] [Zero K] (dbi : IndexDbi K) : Prop :=
  dbi.positive.Pairwise (fun a b => a.1 ≤ b.1) ∧ dbi.negative.Pairwise (fun a b => a.1 ≤ b.1) ∧
    (∀ e ∈ dbi.positive, 0 ≤ e.1) ∧ (∀ e ∈ dbi.negative, e.1 < 0)

end Index

/-! ## Conditions and full scans -/

/-- Modelled from the spec: the comparators of a `Condition` (the class is declared
outside the sources at hand). -/
inductive Condition.Comparator where
  | IS_NULL
  | NOT_NULL
  | EQUAL
  | GREATER
  | GREATER_EQUAL
  | LESS
  | LESS_EQUAL
  | CONTAIN
  | BEGIN_WITH
  | END_WITH
  | LIKE
  | REGEX
  | IN
  | BETWEEN
  | BETWEEN_NO_UPPER
  | BETWEEN_NO_LOWER
  | BETWEEN_NO_BOUND
  deriving DecidableEq, Repr

/-- Modelled from the spec: a `Condition`, with the fields the comparison code reads. -/
structure Condition where
  propName : String
  comp : Condition.Comparator
  valueBytes : Bytes
  valueSet : List Bytes
  isIgnoreCase : Bool
  isNegative : Bool

/-- The range test `comp >= BETWEEN && comp <= BETWEEN_NO_BOUND` of `compareBytesValue`. -/
def Condition.Comparator.isBetween : Condition.Comparator → Bool
  | .BETWEEN | .BETWEEN_NO_UPPER | .BETWEEN_NO_LOWER | .BETWEEN_NO_BOUND => true
  | _ => false

namespace RecordCompare

/-- The loop of `compareBytesValue` over the value set of an `IN` condition. -/
def compareBytesValueIn {PropertyType : Type}
    (genericCompareFunc :
      Bytes → PropertyType → Bytes → Bytes → Condition.Comparator → Bool → Bool)
    (value : Bytes) (type : PropertyType) (condition : Condition) : List Bytes → Bool
  | [] => false
  | valueBytes :: rest =>
    if xor (genericCompareFunc value type valueBytes [] .EQUAL condition.isIgnoreCase)
        condition.isNegative then true
    else compareBytesValueIn genericCompareFunc value type condition rest

/-- Function `RecordCompare::compareBytesValue`; the typed comparison
`genericCompareFunc`, declared outside the sources at hand, is a parameter. -/
def compareBytesValue {PropertyType : Type}
    (genericCompareFunc :
      Bytes → PropertyType → Bytes → Bytes → Condition.Comparator → Bool → Bool)
    (value : Bytes) (type : PropertyType) (condition : Condition) : Bool :=
  if condition.comp = .IN then
    compareBytesValueIn genericCompareFunc value type condition condition.valueSet
  else if condition.comp.isBetween then
    xor (genericCompareFunc value type (condition.valueSet.getD 0 [])
      (condition.valueSet.getD 1 []) condition.comp condition.isIgnoreCase) condition.isNegative
  else
    xor (genericCompareFunc value type condition.valueBytes [] condition.comp
      condition.isIgnoreCase) condition.isNegative

/-- Function `RecordCompare::compareRecordByCondition(record, propertyType, condition)`. -/
def compareRecordByCondition {PropertyType : Type}
    (genericCompareFunc :
      Bytes → PropertyType → Bytes → Bytes → Condition.Comparator → Bool → Bool)
    (record : Record) (propertyType : PropertyType) (condition : Condition) : Bool :=
  match condition.comp with
  | .IS_NULL => if (record.get condition.propName).isEmpty then true else false
  | .NOT_NULL => if !(record.get condition.propName).isEmpty then true else false
  | _ =>
    if !(record.get condition.propName).isEmpty then
      compareBytesValue genericCompareFunc (record.get condition.propName) propertyType condition
    else false

end RecordCompare

/-- The reserved key `EM_MAXRECNUM` under which a class sub-database keeps its
maximum record number. -/
def EM_MAXRECNUM : Nat := 0

namespace Generic

open Datastore

/-- The cursor loop of `Generic::getRdescFromClassInfo`. -/
def getRdescFromClassInfoLoop {V : Type} (classId : Nat) :
    Nat → KeyValue Nat V × CursorHandler Nat V → List RecordDescriptor →
      Except Error (List RecordDescriptor)
  | 0, _, _ => .error .diverged
  | _ + 1, (none, _), result => .ok result
  | fuel + 1, (some keyValue, c), result =>
    if keyValue.1 ≠ EM_MAXRECNUM then
      getRdescFromClassInfoLoop classId fuel (getNextCursor c)
        (result ++ [RecordDescriptor.ofRid (classId, keyValue.1)])
    else getRdescFromClassInfoLoop classId fuel (getNextCursor c) result

/-- Function `Generic::getRdescFromClassInfo`, on the content `classDb` of the class
sub-database that the transaction and the class id select. -/
def getRdescFromClassInfo {V : Type} (classDb : List (Nat × V)) (classId : Nat) :
    Except Error (List RecordDescriptor) :=
  getRdescFromClassInfoLoop classId (classDb.length + 1) (getNextCursor (openCursor classDb)) []

/-- The cursor loop of `Generic::getRecordFromClassInfo`; a row that does not decode
ends the call with the error of the decoder. -/
def getRecordFromClassInfoLoop {V : Type} (parseRawData : V → Except Error Record)
    (classId : Nat) :
    Nat → KeyValue Nat V × CursorHandler Nat V → List (RecordDescriptor × Record) →
      Except Error (List (RecordDescriptor × Record))
  | 0, _, _ => .error .diverged
  | _ + 1, (none, _), result => .ok result
  | fuel + 1, (some keyValue, c), result =>
    if keyValue.1 ≠ EM_MAXRECNUM then
      match parseRawData keyValue.2 with
      | .error e => .error e
      | .ok record =>
        getRecordFromClassInfoLoop parseRawData classId fuel (getNextCursor c)
          (result ++ [(RecordDescriptor.ofRid (classId, keyValue.1), record)])
    else getRecordFromClassInfoLoop parseRawData classId fuel (getNextCursor c) result

/-- Function `Generic::getRecordFromClassInfo`; the decoder
`Parser::parseRawData(keyValue, classInfo.propertyInfo)` it calls is a parameter. -/
def getRecordFromClassInfo {V : Type} (parseRawData : V → Except Error Record)
    (classDb : List (Nat × V)) (classId : Nat) :
    Except Error (List (RecordDescriptor × Record)) :=
  getRecordFromClassInfoLoop parseRawData classId (classDb.length + 1)
    (getNextCursor (openCursor classDb)) []

end Generic

/-! ## Schema hierarchy, class filters and graph store operations -/

/-- Insertion `std::set::insert` into a set kept as a list without repetition. -/
def setInsert {α : Type} [DecidableEq α] (s : List α) (x : α) : List α :=
  if x ∈ s then s else s ++ [x]

namespace Schema

/-- Modelled from the spec: a property descriptor `{propertyId, type}`; the
enumeration of the property types is declared outside the sources at hand and is
a parameter. -/
structure PropertyDescriptor (PropertyType : Type) where
  id : Nat
  type : PropertyType
  deriving DecidableEq, Repr

/-- Modelled from the spec: a class descriptor of the schema catalog
(`Schema::ClassDescriptor`, declared outside the sources at hand) with the fields
the schema functions read, each at its current version.  A descriptor pointer is
the id of a class: `super` and `sub` hold such pointers. -/
structure ClassDescriptor (PropertyType : Type) where
  id : Nat
  super : Option Nat
  sub : List Nat
  properties : List (String × PropertyDescriptor PropertyType)
  deriving Repr

/-- Dereference of a descriptor pointer (`lock()` on a weak pointer): the class of
the catalog with that id, if there is one. -/
def lock {PropertyType : Type} (catalog : List (ClassDescriptor PropertyType)) (ptr : Nat) :
    Option (ClassDescriptor PropertyType) :=
  catalog.find? (fun c => c.id == ptr)

/-- A range-based `for` loop over a list of descriptor pointers whose body may
throw. -/
def forEachPtr {σ : Type} (body : Nat → σ → Except Error σ) : List Nat → σ → Except Error σ
  | [], s => .ok s
  | ptr :: rest, s =>
    match body ptr s with
    | .error e => .error e
    | .ok s1 => forEachPtr body rest s1

/-- The relation "`b` is a direct subclass of `a`": the class `a` of the catalog
lists the pointer `b` in its field `sub`. -/
def DirectSub {PropertyType : Type} (catalog : List (ClassDescriptor PropertyType))
    (a b : Nat) : Prop :=
  ∃ cd, lock catalog a = some cd ∧ b ∈ cd.sub

end Schema

namespace Generic

open Schema

/-- The recursive lambda `resolveSubclass` of `Generic::getClassExtend`; the first
argument bounds the depth of the recursion.  A subclass pointer that does not
lock fails the `assert`, reported as `requireFailed`. -/
def resolveSubclass {PropertyType : Type} (catalog : List (ClassDescriptor PropertyType)) :
    Nat → ClassDescriptor PropertyType → List Nat → Except Error (List Nat)
  | 0, _, _ => .error .diverged
  | fuel + 1, classDescriptor, subClasses =>
    forEachPtr (fun subClassDescriptor subClasses =>
      match lock catalog subClassDescriptor with
      | none => .error .requireFailed
      | some subClassDescriptorPtr =>
        resolveSubclass catalog fuel subClassDescriptorPtr
          (setInsert subClasses subClassDescriptorPtr.id))
      classDescriptor.sub subClasses

/-- Function `Generic::getClassExtend`, on sets of descriptor pointers.  A chain of
subclasses without repetition has at most `catalog.length` classes, which bounds
the depth of the recursion. -/
def getClassExtend {PropertyType : Type} (catalog : List (ClassDescriptor PropertyType))
    (classDescriptors : List Nat) : Except Error (List Nat) :=
  forEachPtr (fun classDescriptor subClasses =>
    match lock catalog classDescriptor with
    | none => .error .requireFailed
    | some classDescriptorPtr =>
      resolveSubclass catalog (catalog.length + 1) classDescriptorPtr subClasses)
    classDescriptors classDescriptors

end Generic

/-- Property id of the class name of a record. -/
def CLASS_NAME_PROPERTY_ID : Nat := 0

/-- Property name of the class name of a record. -/
def CLASS_NAME_PROPERTY : String := "@className"

/-- Property id of the record id of a record. -/
def RECORD_ID_PROPERTY_ID : Nat := 1

/-- Property name of the record id of a record. -/
def RECORD_ID_PROPERTY : String := "@recordId"

namespace Schema

/-- Modelled from the spec: `ClassPropertyInfo` (declared outside the sources at
hand), the property map of a class, of which the sources read `nameToDesc`. -/
structure ClassPropertyInfo (PropertyType : Type) where
  nameToDesc : List (String × PropertyDescriptor PropertyType)
  deriving Repr

/-- Modelled from the spec: `ClassPropertyInfo::insert(name, descriptor)`.  Property
names are resolved bottom-up and the first match wins: an insertion under a name
that is already present changes nothing. -/
def ClassPropertyInfo.insert {PropertyType : Type} (info : ClassPropertyInfo PropertyType)
    (name : String) (descriptor : PropertyDescriptor PropertyType) :
    ClassPropertyInfo PropertyType :=
  match info.nameToDesc.lookup name with
  | some _ => info
  | none => { nameToDesc := info.nameToDesc ++ [(name, descriptor)] }

/-- Modelled from the spec: `ClassPropertyInfo::insert(id, name, type)`. -/
def ClassPropertyInfo.insertId {PropertyType : Type} (info : ClassPropertyInfo PropertyType)
    (id : Nat) (name : String) (type : PropertyType) : ClassPropertyInfo PropertyType :=
  info.insert name ⟨id, type⟩

/-- The relation "`b` is the super class of `a`": the class `a` of the catalog
holds the pointer `b` in its field `super`. -/
def DirectSuper {PropertyType : Type} (catalog : List (ClassDescriptor PropertyType))
    (a b : Nat) : Prop :=
  ∃ cd, lock catalog a = some cd ∧ cd.super = some b

/-- The ancestor `k` levels above a class: the class itself for `k = 0`, then the
class its `super` pointer locks to, and so on; none past the root. -/
def superAt {PropertyType : Type} (catalog : List (ClassDescriptor PropertyType)) :
    Nat → ClassDescriptor PropertyType → Option (ClassDescriptor PropertyType)
  | 0, cd => some cd
  | k + 1, cd =>
    match cd.super with
    | none => none
    | some ptr =>
      match lock catalog ptr with
      | none => none
      | some superClassDescriptor => superAt catalog k superClassDescriptor

end Schema

namespace Generic

open Schema

/-- The loops `for (property : properties) classPropertyInfo.insert(...)` of
`Generic::getClassMapProperty`. -/
def insertProperties {PropertyType : Type} (classPropertyInfo : ClassPropertyInfo PropertyType)
    (properties : List (String × PropertyDescriptor PropertyType)) :
    ClassPropertyInfo PropertyType :=
  properties.foldl (fun info property => info.insert property.1 property.2) classPropertyInfo

/-- The recursive lambda `getInheritProperties` of `Generic::getClassMapProperty`;
the first argument bounds the depth of the recursion.  A `super` pointer that
does not lock ends the walk. -/
def getInheritProperties {PropertyType : Type} (catalog : List (ClassDescriptor PropertyType)) :
    Nat → ClassDescriptor PropertyType → ClassPropertyInfo PropertyType →
      Except Error (ClassPropertyInfo PropertyType)
  | 0, _, _ => .error .diverged
  | fuel + 1, classDescriptorPtr, classPropertyInfo =>
    let classPropertyInfo1 := insertProperties classPropertyInfo classDescriptorPtr.properties
    match classDescriptorPtr.super.bind (lock catalog) with
    | some superClassDescriptor =>
      getInheritProperties catalog fuel superClassDescriptor classPropertyInfo1
    | none => .ok classPropertyInfo1

/-- Function `Generic::getClassMapProperty`; `TEXT` is `PropertyType::TEXT`.  A chain
of super classes without repetition has at most `catalog.length` classes, which
bounds the depth of the recursion. -/
def getClassMapProperty {PropertyType : Type} (TEXT : PropertyType)
    (catalog : List (ClassDescriptor PropertyType))
    (classDescriptor : ClassDescriptor PropertyType) :
    Except Error (ClassPropertyInfo PropertyType) :=
  let classPropertyInfo0 : ClassPropertyInfo PropertyType :=
    ((ClassPropertyInfo.mk []).insertId CLASS_NAME_PROPERTY_ID CLASS_NAME_PROPERTY TEXT).insertId
      RECORD_ID_PROPERTY_ID RECORD_ID_PROPERTY TEXT
  let classPropertyInfo1 := insertProperties classPropertyInfo0 classDescriptor.properties
  match classDescriptor.super.bind (lock catalog) with
  | some superClassDescriptor =>
    getInheritProperties catalog catalog.length superClassDescriptor classPropertyInfo1
  | none => .ok classPropertyInfo1

end Generic

namespace Schema

/-- The declaration of `name` nearest to a class: `r` is the descriptor that the
first class declaring `name` gives it, in the order class, super class, super
class of the super class, ...; it is none when no class of that chain declares
`name`. -/
def NearestDeclaration {PropertyType : Type} (catalog : List (ClassDescriptor PropertyType))
    (cd : ClassDescriptor PropertyType) (name : String)
    (r : Option (PropertyDescriptor PropertyType)) : Prop :=
  (∀ k a d, superAt catalog k cd = some a → a.properties.lookup name = some d →
      (∀ j, j < k → ∀ b, superAt catalog j cd = some b → b.properties.lookup name = none) →
      r = some d) ∧
    ((∀ k a, superAt catalog k cd = some a → a.properties.lookup name = none) → r = none)

end Schema

namespace RecordCompare

/-- Function `RecordCompare::compareRecordByCondition(record, propertyNameMapInfo,
condition)`.  The map gives the access info of a property name; `typeOf` reads the
field `type` of an access info. -/
def compareRecordByConditionInMap {PropertyType Info : Type}
    (genericCompareFunc :
      Bytes → PropertyType → Bytes → Bytes → Condition.Comparator → Bool → Bool)
    (typeOf : Info → PropertyType)
    (record : Record) (propertyNameMapInfo : List (String × Info)) (condition : Condition) :
    Bool :=
  match propertyNameMapInfo.lookup condition.propName with
  | none => false
  | some foundProperty =>
    compareRecordByCondition genericCompareFunc record (typeOf foundProperty) condition

/-- Modelled from the spec: the class part of a `GraphFilter` (declared outside the
sources at hand): four sets of class names, each listed in iteration order. -/
structure GraphFilter where
  onlyClasses : List String
  onlySubOfClasses : List String
  ignoreClasses : List String
  ignoreSubOfClasses : List String
  deriving DecidableEq, Repr

/-- Modelled from the spec: a `ClassFilter` (declared outside the sources at hand),
two sets of class names. -/
structure ClassFilter where
  onlyClasses : List String
  ignoreClasses : List String
  deriving DecidableEq, Repr

/-- The fields of `adapter::schema::ClassAccessInfo` that `getFilterClasses` reads. -/
structure ClassAccessInfo where
  name : String
  id : Nat
  type : ClassType
  deriving DecidableEq, Repr

/-- The loop of `getFilterClasses` over the names of a sub-of list: an existing
class adds its name and the names of the classes `getSubClassInfos` lists for its
id.  The catalog accessors `dbClass()->getInfo` and `dbClass()->getSubClassInfos`,
declared outside the sources at hand, are parameters. -/
def addSubOfClasses (getInfo : String → ClassAccessInfo)
    (getSubClassInfos : Nat → List ClassAccessInfo) :
    List String → List String → List String
  | [], classes => classes
  | subOfClass :: rest, classes =>
    let superClassInfo := getInfo subOfClass
    if superClassInfo.type ≠ .UNDEFINED then
      addSubOfClasses getInfo getSubClassInfos rest
        ((getSubClassInfos superClassInfo.id).foldl
          (fun s subClassInfo => setInsert s subClassInfo.name)
          (setInsert classes superClassInfo.name))
    else addSubOfClasses getInfo getSubClassInfos rest classes

/-- Function `RecordCompare::getFilterClasses`. -/
def getFilterClasses (getInfo : String → ClassAccessInfo)
    (getSubClassInfos : Nat → List ClassAccessInfo) (filter : GraphFilter) : ClassFilter :=
  { onlyClasses :=
      addSubOfClasses getInfo getSubClassInfos filter.onlySubOfClasses
        (filter.onlyClasses.foldl setInsert []),
    ignoreClasses :=
      addSubOfClasses getInfo getSubClassInfos filter.ignoreSubOfClasses
        (filter.ignoreClasses.foldl setInsert []) }

end RecordCompare

/-- Modelled from the spec: the graph store of a transaction (the record and graph
operations are implemented outside the sources at hand): the live vertices, the
three mappings `endpoints`, `out` and `in` of the spec kept side by side, and the
position counter of each class sub-database.  `outEdges` and `inEdges` are sets
of memberships `(vertex, edge)`; `endpoints` maps a live edge to its source and
destination. -/
structure GraphStore where
  vertices : List RecordId
  endpoints : List (RecordId × (RecordId × RecordId))
  outEdges : List (RecordId × RecordId)
  inEdges : List (RecordId × RecordId)
  positions : List (Nat × Nat)
  deriving DecidableEq, Repr

namespace GraphStore

/-- Modelled from the spec: the store of an empty database. -/
def empty : GraphStore := ⟨[], [], [], [], []⟩

/-- Modelled from the spec: the next position id of a class; position 0 is
reserved and never allocated. -/
def nextPosition (s : GraphStore) (classId : Nat) : Nat :=
  (s.positions.lookup classId).getD 1

/-- Modelled from the spec: `getEndpoints(e)`. -/
def getEndpoints (s : GraphStore) (edge : RecordId) : Option (RecordId × RecordId) :=
  s.endpoints.lookup edge

/-- Modelled from the spec: `getSrc(e)`. -/
def getSrc (s : GraphStore) (edge : RecordId) : Option RecordId :=
  (s.getEndpoints edge).map (fun p => p.1)

/-- Modelled from the spec: `getDst(e)`. -/
def getDst (s : GraphStore) (edge : RecordId) : Option RecordId :=
  (s.getEndpoints edge).map (fun p => p.2)

/-- Modelled from the spec: `getOutEdges(v)`, the edges of `out(v)`. -/
def getOutEdges (s : GraphStore) (vertex : RecordId) : List RecordId :=
  (s.outEdges.filter (fun m => m.1 == vertex)).map (fun m => m.2)

/-- Modelled from the spec: `getInEdges(v)`, the edges of `in(v)`. -/
def getInEdges (s : GraphStore) (vertex : RecordId) : List RecordId :=
  (s.inEdges.filter (fun m => m.1 == vertex)).map (fun m => m.2)

/-- Modelled from the spec: `vertex.create(class, record)` on the graph store: the
next position id of the class is allocated and the vertex is live. -/
def vertexCreate (s : GraphStore) (classId : Nat) : GraphStore × RecordId :=
  let rid : RecordId := (classId, s.nextPosition classId)
  ({ s with vertices := s.vertices ++ [rid],
            positions := (classId, s.nextPosition classId + 1) :: s.positions }, rid)

/-- Modelled from the spec: `edge.create(class, src, dst, record)` on the graph
store: `src` and `dst` must exist (else `GRAPH_NOEXST_SRC` / `GRAPH_NOEXST_DST`);
the row is written with its endpoints; `out(src)` and `in(dst)` are updated. -/
def edgeCreate (s : GraphStore) (classId : Nat) (src dst : RecordId) :
    Except Error (GraphStore × RecordId) :=
  if src ∉ s.vertices then .error .graphNoexstSrc
  else if dst ∉ s.vertices then .error .graphNoexstDst
  else
    let rid : RecordId := (classId, s.nextPosition classId)
    .ok ({ s with endpoints := (rid, (src, dst)) :: s.endpoints,
                  outEdges := setInsert s.outEdges (src, rid),
                  inEdges := setInsert s.inEdges (dst, rid),
                  positions := (classId, s.nextPosition classId + 1) :: s.positions }, rid)

/-- Modelled from the spec: `updateSrc(edgeRid, newSrc)`: the endpoint prefix is
rewritten and the membership moves from `out(src)` to `out(newSrc)`. -/
def edgeUpdateSrc (s : GraphStore) (edge newSrc : RecordId) : Except Error GraphStore :=
  match s.endpoints.lookup edge with
  | none => .error .graphNoexstEdge
  | some (src, dst) =>
    if newSrc ∉ s.vertices then .error .graphNoexstSrc
    else
      .ok { s with endpoints :=
                     (edge, (newSrc, dst)) :: s.endpoints.filter (fun p => p.1 != edge),
                   outEdges := setInsert (s.outEdges.filter (fun m => m != (src, edge)))
                     (newSrc, edge) }

/-- Modelled from the spec: `updateDst(edgeRid, newDst)`: the endpoint prefix is
rewritten and the membership moves from `in(dst)` to `in(newDst)`. -/
def edgeUpdateDst (s : GraphStore) (edge newDst : RecordId) : Except Error GraphStore :=
  match s.endpoints.lookup edge with
  | none => .error .graphNoexstEdge
  | some (src, dst) =>
    if newDst ∉ s.vertices then .error .graphNoexstDst
    else
      .ok { s with endpoints :=
                     (edge, (src, newDst)) :: s.endpoints.filter (fun p => p.1 != edge),
                   inEdges := setInsert (s.inEdges.filter (fun m => m != (dst, edge)))
                     (newDst, edge) }

/-- Modelled from the spec: `destroy(rid)` for an edge: it is removed from
`out(src)` and `in(dst)` and its row is deleted; an edge that is not live is left
alone. -/
def edgeDestroy (s : GraphStore) (edge : RecordId) : GraphStore :=
  match s.endpoints.lookup edge with
  | none => s
  | some (src, dst) =>
    { s with endpoints := s.endpoints.filter (fun p => p.1 != edge),
             outEdges := s.outEdges.filter (fun m => m != (src, edge)),
             inEdges := s.inEdges.filter (fun m => m != (dst, edge)) }

/-- Modelled from the spec: `destroy(rid)` for a vertex: all incident edges are
destroyed (cascade), then the vertex is deleted. -/
def vertexDestroy (s : GraphStore) (vertex : RecordId) : GraphStore :=
  let s1 := (s.getOutEdges vertex ++ s.getInEdges vertex).foldl edgeDestroy s
  { s1 with vertices := s1.vertices.filter (fun v => v != vertex) }

/-- The operations of a transaction on the graph store. -/
inductive Op where
  | vertexCreate (classId : Nat)
  | edgeCreate (classId : Nat) (src dst : RecordId)
  | edgeUpdateSrc (edge newSrc : RecordId)
  | edgeUpdateDst (edge newDst : RecordId)
  | edgeDestroy (edge : RecordId)
  | vertexDestroy (vertex : RecordId)
  deriving DecidableEq, Repr

/-- The effect of one operation on the store, or the error it raises. -/
def applyOp (s : GraphStore) : Op → Except Error GraphStore
  | .vertexCreate classId => .ok (s.vertexCreate classId).1
  | .edgeCreate classId src dst =>
    match s.edgeCreate classId src dst with
    | .error e => .error e
    | .ok r => .ok r.1
  | .edgeUpdateSrc edge newSrc => s.edgeUpdateSrc edge newSrc
  | .edgeUpdateDst edge newDst => s.edgeUpdateDst edge newDst
  | .edgeDestroy edge => .ok (s.edgeDestroy edge)
  | .vertexDestroy vertex => .ok (s.vertexDestroy vertex)

/-- A sequence of operations of a transaction; an operation that raises an error
has validated before writing and leaves the store as it was. -/
def runOps (s : GraphStore) : List Op → GraphStore
  | [] => s
  | op :: rest =>
    match s.applyOp op with
    | .ok s1 => runOps s1 rest
    | .error _ => runOps s rest

/-- The adjacency invariant of the spec, with what keeps it inductive: the edges of
`endpoints` are listed in `out` of their source and `in` of their destination;
a membership of `out` or `in` belongs to a live edge with that endpoint; `out`
and `in` are sets; the position of a live edge is below the counter of its
class; the endpoints of a live edge are live vertices. -/
structure Consistent (s : GraphStore) : Prop where
  listed : ∀ e src dst, s.endpoints.lookup e = some (src, dst) →
    (src, e) ∈ s.outEdges ∧ (dst, e) ∈ s.inEdges
  outLive : ∀ v e, (v, e) ∈ s.outEdges → ∃ dst, s.endpoints.lookup e = some (v, dst)
  inLive : ∀ v e, (v, e) ∈ s.inEdges → ∃ src, s.endpoints.lookup e = some (src, v)
  outSet : s.outEdges.Nodup
  inSet : s.inEdges.Nodup
  fresh : ∀ e, (s.endpoints.lookup e).isSome → e.2 < s.nextPosition e.1
  endsLive : ∀ e src dst, s.endpoints.lookup e = some (src, dst) →
    src ∈ s.vertices ∧ dst ∈ s.vertices

end GraphStore

namespace Algorithm

/-- The vertices the loop of `breadthFirstSearchRdesc` takes from its queue and
expands with `getIncidentEdges`, in the order of the iterations of `bfsLoop`. -/
def bfsExpanded (txn : Txn) (rid : RecordId) (minDepth maxDepth : Nat) (edgeClassIds : List Nat)
    (edgeFunc : Graph → RecordId → Nat → List RecordId)
    (vertexFunc : Option (Graph → RecordId → RecordId)) (pathFilter : PathFilter) :
    Nat → BfsState → List RecordId
  | 0, _ => []
  | fuel + 1, st =>
    match st.queue with
    | [] => []
    | vertexId :: queue =>
      vertexId ::
        bfsExpanded txn rid minDepth maxDepth edgeClassIds edgeFunc vertexFunc pathFilter fuel
          (bfsVisitEdges txn minDepth maxDepth vertexFunc pathFilter vertexId
            (getIncidentEdges txn edgeFunc vertexId pathFilter edgeClassIds)
            (bfsDequeue rid st vertexId queue))

/-- The vertices a run of `breadthFirstSearchRdesc` expands, in order: those of the
loop started as the function starts it, none when the source has no adjacency
entry. -/
def breadthFirstSearchExpanded (txn : Txn) (recordDescriptor : RecordDescriptor)
    (minDepth maxDepth : Nat) (edgeClassIds : List Nat)
    (edgeFunc : Graph → RecordId → Nat → List RecordId)
    (vertexFunc : Option (Graph → RecordId → RecordId)) (pathFilter : PathFilter) :
    List RecordId :=
  match Generic.checkIfRecordExist txn recordDescriptor with
  | .RECORD_EXIST =>
    bfsExpanded txn recordDescriptor.rid minDepth maxDepth edgeClassIds edgeFunc vertexFunc
      pathFilter (traversalFuel txn)
      { result := if minDepth = 0 then [recordDescriptor] else [],
        visited := [recordDescriptor.rid],
        queue := [recordDescriptor.rid],
        currentLevel := 0,
        firstRecordId := recordDescriptor.rid }
  | _ => []

/-- The vertices the loop of `depthFirstSearchRdesc` expands with
`getIncidentEdges`, in the order of the iterations of `dfsLoop`: the vertex taken
from the current frontier when it is not yet visited and the level is below
`maxDepth`. -/
def dfsExpanded (txn : Txn) (minDepth maxDepth : Nat) (edgeClassIds : List Nat)
    (edgeFunc : Graph → RecordId → Nat → List RecordId)
    (vertexFunc : Option (Graph → RecordId → RecordId)) (pathFilter : PathFilter) :
    Nat → DfsState → List RecordId
  | 0, _ => []
  | fuel + 1, st =>
    match (st.stk.getD st.currentLevel []).getLast? with
    | Option.none => []
    | some vertex =>
      (if vertex ∉ st.visited ∧ st.currentLevel < maxDepth then [vertex] else []) ++
        dfsExpanded txn minDepth maxDepth edgeClassIds edgeFunc vertexFunc pathFilter fuel
          (dfsStep txn minDepth maxDepth edgeClassIds edgeFunc vertexFunc pathFilter st vertex)

/-- The vertices a run of `depthFirstSearchRdesc` expands, in order. -/
def depthFirstSearchExpanded (txn : Txn) (recordDescriptor : RecordDescriptor)
    (minDepth maxDepth : Nat) (edgeClassIds : List Nat)
    (edgeFunc : Graph → RecordId → Nat → List RecordId)
    (vertexFunc : Option (Graph → RecordId → RecordId)) (pathFilter : PathFilter) :
    List RecordId :=
  match Generic.checkIfRecordExist txn recordDescriptor with
  | .RECORD_EXIST =>
    dfsExpanded txn minDepth maxDepth edgeClassIds edgeFunc vertexFunc pathFilter
      (dfsFuel txn recordDescriptor.rid edgeClassIds edgeFunc pathFilter)
      { result := [], visited := [], stk := [[recordDescriptor.rid]], currentLevel := 0 }
  | _ => []

end Algorithm

namespace Algorithm

/-- The neighbours of a vertex in the order the adjacency accessor lists their
edges: the vertices a traversal reaches from `vertex` along the edges that
`getIncidentEdges` returns. -/
def dfsNeighbours (txn : Txn) (edgeClassIds : List Nat)
    (edgeFunc : Graph → RecordId → Nat → List RecordId)
    (vertexFunc : Option (Graph → RecordId → RecordId)) (pathFilter : PathFilter)
    (vertex : RecordId) : List RecordId :=
  (getIncidentEdges txn edgeFunc vertex pathFilter edgeClassIds).map
    (nextVertex txn vertexFunc vertex)

/-- The depth-limited search forest in pre-order.  `SearchForest ... path children
visited out visited1` explores the vertices `children` in order; `path` is the
tree path of their parent, listed from the parent back to the source, so their
depth is `path.length`.  A child already visited is passed over.  Another child
is entered: its tree path is listed in `out`, then, when its depth is below
`maxDepth`, its neighbours are explored in adjacency order below it, then its
later siblings.  `visited` and `visited1` are the visited vertices before and
after. -/
inductive SearchForest (txn : Txn) (maxDepth : Nat) (edgeClassIds : List Nat)
    (edgeFunc : Graph → RecordId → Nat → List RecordId)
    (vertexFunc : Option (Graph → RecordId → RecordId)) (pathFilter : PathFilter) :
    List RecordId → List RecordId → List RecordId → List (List RecordId) → List RecordId → Prop
  | done (path visited : List RecordId) :
    SearchForest txn maxDepth edgeClassIds edgeFunc vertexFunc pathFilter path [] visited []
      visited
  | skip (path : List RecordId) (c : RecordId) (cs visited : List RecordId)
      (out : List (List RecordId)) (visited1 : List RecordId) :
    c ∈ visited →
    SearchForest txn maxDepth edgeClassIds edgeFunc vertexFunc pathFilter path cs visited out
      visited1 →
    SearchForest txn maxDepth edgeClassIds edgeFunc vertexFunc pathFilter path (c :: cs) visited
      out visited1
  | leaf (path : List RecordId) (c : RecordId) (cs visited : List RecordId)
      (out : List (List RecordId)) (visited1 : List RecordId) :
    c ∉ visited → ¬ path.length < maxDepth →
    SearchForest txn maxDepth edgeClassIds edgeFunc vertexFunc pathFilter path cs (c :: visited)
      out visited1 →
    SearchForest txn maxDepth edgeClassIds edgeFunc vertexFunc pathFilter path (c :: cs) visited
      ((c :: path) :: out) visited1
  | node (path : List RecordId) (c : RecordId) (cs visited : List RecordId)
      (out1 out2 : List (List RecordId)) (visited1 visited2 : List RecordId) :
    c ∉ visited → path.length < maxDepth →
    SearchForest txn maxDepth edgeClassIds edgeFunc vertexFunc pathFilter (c :: path)
      (dfsNeighbours txn edgeClassIds edgeFunc vertexFunc pathFilter c) (c :: visited) out1
      visited1 →
    SearchForest txn maxDepth edgeClassIds edgeFunc vertexFunc pathFilter path cs visited1 out2
      visited2 →
    SearchForest txn maxDepth edgeClassIds edgeFunc vertexFunc pathFilter path (c :: cs) visited
      ((c :: path) :: (out1 ++ out2)) visited2

/-- What `depthFirstSearchRdesc` emits for a vertex entered along a tree path (listed
from the vertex back to the source): its descriptor with the number of edges of
the path as depth, when that number is at least `minDepth` and the vertex filter,
which is not applied to the source, accepts the vertex. -/
def dfsEmit (txn : Txn) (minDepth : Nat) (pathFilter : PathFilter) :
    List RecordId → Option RecordDescriptor
  | [] => none
  | vertex :: ancestors =>
    if ancestors.length ≥ minDepth then
      let tmpRdesc :=
        if pathFilter.isEnable then
          retrieveRdesc txn vertex
            (if ancestors.length ≠ 0 then pathFilter else PathFilter.none) .VERTEX
        else RecordDescriptor.ofRid vertex
      if ¬ tmpRdesc.isEmpty then some ⟨vertex, ancestors.length⟩ else none
    else none

/-- The pending work of the depth-first loop: one frame per level from the current
level down to level 0, each with the tree path of the parent and the vertices
still to explore at that level, in order. -/
inductive SearchStack (txn : Txn) (maxDepth : Nat) (edgeClassIds : List Nat)
    (edgeFunc : Graph → RecordId → Nat → List RecordId)
    (vertexFunc : Option (Graph → RecordId → RecordId)) (pathFilter : PathFilter) :
    List (List RecordId × List RecordId) → List RecordId → List (List RecordId) →
      List RecordId → Prop
  | nil (visited : List RecordId) :
    SearchStack txn maxDepth edgeClassIds edgeFunc vertexFunc pathFilter [] visited [] visited
  | cons (path cs : List RecordId) (rest : List (List RecordId × List RecordId))
      (visited : List RecordId) (out1 out2 : List (List RecordId))
      (visited1 visited2 : List RecordId) :
    SearchForest txn maxDepth edgeClassIds edgeFunc vertexFunc pathFilter path cs visited out1
      visited1 →
    SearchStack txn maxDepth edgeClassIds edgeFunc vertexFunc pathFilter rest visited1 out2
      visited2 →
    SearchStack txn maxDepth edgeClassIds edgeFunc vertexFunc pathFilter ((path, cs) :: rest)
      visited (out1 ++ out2) visited2

/-- Frames whose exhausted top levels are left, as the loop
`while (currentLevel && stk[currentLevel].empty()) --currentLevel` leaves them. -/
inductive Unwound :
    List (List RecordId × List RecordId) → List (List RecordId × List RecordId) → Prop
  | refl (fs : List (List RecordId × List RecordId)) : Unwound fs fs
  | drop (path : List RecordId) (rest fs : List (List RecordId × List RecordId)) :
    Unwound rest fs → Unwound ((path, []) :: rest) fs

/-- The path of every frame is as long as the number of frames below it. -/
def FramesLevel : List (List RecordId × List RecordId) → Prop
  | [] => True
  | f :: rest => f.1.length = rest.length ∧ FramesLevel rest

/-- The frames that the variables `stk` and `currentLevel` of the depth-first loop
stand for: level `i` of `stk` holds the vertices of frame `i` as a stack (top
last), the levels above `currentLevel` are empty, and only the frame of level 0
may be exhausted at the head of the loop. -/
def DfsFrames (st : DfsState) (fs : List (List RecordId × List RecordId)) : Prop :=
  st.currentLevel + 1 = fs.length ∧
    (∃ upper, st.stk = fs.reverse.map (fun f => f.2.reverse) ++ upper ∧ ∀ fr ∈ upper, fr = []) ∧
    FramesLevel fs ∧ ∀ path rest, fs = (path, []) :: rest → rest = []

end Algorithm

/-! ## Negation, scan predicates, query validation and edge row split -/

/-- Function `Condition::operator!`: `IS_NULL` and `NOT_NULL` are swapped, and for every
other comparator the negate flag is flipped. -/
def Condition.not (c : Condition) : Condition :=
  if c.comp = .NOT_NULL then { c with comp := .IS_NULL }
  else if c.comp = .IS_NULL then { c with comp := .NOT_NULL }
  else { c with isNegative := !c.isNegative }

namespace Compare

/-- The test of `Compare::getRdescCondition` on the record `tmpRecord` of one row:
whether the descriptor of the row is pushed to the result.  The comparison
`compareBytesValue` the scan calls is a parameter. -/
def getRdescConditionTest {PropertyType : Type}
    (compareBytesValue : Bytes → PropertyType → Condition → Bool)
    (tmpRecord : Record) (condition : Condition) (type : PropertyType) : Except Error Bool :=
  if condition.comp ≠ .IS_NULL ∧ condition.comp ≠ .NOT_NULL then
    if (tmpRecord.get condition.propName).isEmpty then .ok false
    else if compareBytesValue (tmpRecord.get condition.propName) type condition then .ok true
    else .ok false
  else
    match condition.comp with
    | .IS_NULL => if (tmpRecord.get condition.propName).isEmpty then .ok true else .ok false
    | .NOT_NULL => if !(tmpRecord.get condition.propName).isEmpty then .ok true else .ok false
    | _ => .error .ctxInvalidComparator

/-- The lambda `filter` of `Compare::getRdescEdgeCondition`. -/
def getRdescEdgeConditionFilter {PropertyType : Type}
    (compareBytesValue : Bytes → PropertyType → Condition → Bool)
    (condition : Condition) (type : PropertyType) (record : Record) : Except Error Bool :=
  if condition.comp ≠ .IS_NULL ∧ condition.comp ≠ .NOT_NULL then
    let recordValue := record.get condition.propName
    if recordValue.isEmpty then .ok false
    else if compareBytesValue recordValue type condition then .ok true
    else .ok false
  else
    match condition.comp with
    | .IS_NULL => if (record.get condition.propName).isEmpty then .ok true else .ok false
    | .NOT_NULL => if !(record.get condition.propName).isEmpty then .ok true else .ok false
    | _ => .error .ctxInvalidComparator

end Compare

namespace RecordCompare

/-- Modelled from the spec: the record part of a `GraphFilter` (declared outside the
sources at hand): its mode together with the member the mode selects, a
condition, a multi-condition or an optional record predicate. -/
inductive FilterMode (MultiCondition : Type) where
  | CONDITION (condition : Condition)
  | MULTI_CONDITION (multiCondition : MultiCondition)
  | COMPARE_FUNCTION (function : Option (Record → Bool))

/-- The statements of `RecordCompare::filterResult` that follow the two class tests:
the record is read and tested as the mode of the filter says.  The empty
`Result` is `none`.  The accessors `getRecordWithBasicInfo` and
`getPropertyNameMapInfo` (called with the id and the super class id of the class
info) and the overload `compareRecordByMultiCondition` are parameters. -/
def filterResultByMode {PropertyType Info MultiCondition : Type}
    (genericCompareFunc :
      Bytes → PropertyType → Bytes → Bytes → Condition.Comparator → Bool → Bool)
    (typeOf : Info → PropertyType)
    (getRecordWithBasicInfo : ClassAccessInfo → RecordDescriptor → Record)
    (getPropertyNameMapInfo : ClassAccessInfo → List (String × Info))
    (compareRecordByMultiCondition : Record → List (String × Info) → MultiCondition → Bool)
    (classInfo : ClassAccessInfo) (recordDescriptor : RecordDescriptor)
    (mode : FilterMode MultiCondition) : Option (RecordDescriptor × Record) :=
  let record := getRecordWithBasicInfo classInfo recordDescriptor
  match mode with
  | .CONDITION condition =>
    let propertyNameMapInfo := getPropertyNameMapInfo classInfo
    let cmpResult := compareRecordByConditionInMap genericCompareFunc typeOf record
      propertyNameMapInfo condition
    if cmpResult then some (recordDescriptor, record) else none
  | .MULTI_CONDITION multiCondition =>
    let propertyNameMapInfo := getPropertyNameMapInfo classInfo
    let cmpResult := compareRecordByMultiCondition record propertyNameMapInfo multiCondition
    if cmpResult then some (recordDescriptor, record) else none
  | .COMPARE_FUNCTION (some function) =>
    if function record then some (recordDescriptor, record) else none
  | .COMPARE_FUNCTION Option.none => some (recordDescriptor, record)

/-- Function `RecordCompare::filterResult`.  The catalog accessor
`dbClass()->getInfo(classId)` is the parameter `getInfoById`. -/
def filterResult {PropertyType Info MultiCondition : Type}
    (genericCompareFunc :
      Bytes → PropertyType → Bytes → Bytes → Condition.Comparator → Bool → Bool)
    (typeOf : Info → PropertyType)
    (getInfoById : Nat → ClassAccessInfo)
    (getRecordWithBasicInfo : ClassAccessInfo → RecordDescriptor → Record)
    (getPropertyNameMapInfo : ClassAccessInfo → List (String × Info))
    (compareRecordByMultiCondition : Record → List (String × Info) → MultiCondition → Bool)
    (recordDescriptor : RecordDescriptor) (mode : FilterMode MultiCondition)
    (classFilter : ClassFilter) : Option (RecordDescriptor × Record) :=
  let classInfo := getInfoById recordDescriptor.rid.1
  if ¬ classFilter.onlyClasses.isEmpty ∧ classInfo.name ∉ classFilter.onlyClasses then none
  else if ¬ classFilter.ignoreClasses.isEmpty ∧ classInfo.name ∈ classFilter.ignoreClasses then
    none
  else
    filterResultByMode genericCompareFunc typeOf getRecordWithBasicInfo getPropertyNameMapInfo
      compareRecordByMultiCondition classInfo recordDescriptor mode

end RecordCompare

namespace Generic

open Schema

end Generic

namespace Compare

end Compare

/-- Modelled from the spec: the constructor `Blob(data, size)` (the class is declared
outside the sources at hand): a blob that holds the given bytes, its capacity
being their number.  The blob of a stored row is built this way. -/
def Blob.ofBytes (data : List Nat) : Blob := ⟨data.length, data⟩

namespace parser

/-- Function `Parser::parseEdgeRawDataVertexSrcDstAsBlob`. -/
def parseEdgeRawDataVertexSrcDstAsBlob (blob : Blob) : Except Error Blob :=
  if ¬ (blob.size ≥ VERTEX_SRC_DST_RAW_DATA_LENGTH) then .error .requireFailed
  else
    match blob.retrieve 0 VERTEX_SRC_DST_RAW_DATA_LENGTH with
    | .error e => .error e
    | .ok (byteData, _) => .ok (Blob.ofBytes byteData)

/-- Function `Parser::parseEdgeRawDataAsBlob`; `defaultCapacity` is the capacity of the
blob `Blob()` built without arguments. -/
def parseEdgeRawDataAsBlob (defaultCapacity : Nat) (blob : Blob) : Except Error Blob :=
  if blob.size > VERTEX_SRC_DST_RAW_DATA_LENGTH then
    let offset := VERTEX_SRC_DST_RAW_DATA_LENGTH
    let rawDataSize := blob.size - offset
    match blob.retrieve offset rawDataSize with
    | .error e => .error e
    | .ok (byteData, _) => .ok (Blob.ofBytes byteData)
  else .ok (Blob.new defaultCapacity)

end parser

namespace Algorithm

/-- Invariant of the breadth-first loop on the depths emitted: after the
descriptors emitted at the start (`init`) the depths never decrease, and each is
at least 1, between `minDepth` and `maxDepth`, and at most one more than the
current level. -/
def BfsDepths (init : List RecordDescriptor) (minDepth maxDepth : Nat) (st : BfsState) : Prop :=
  ∃ tail, st.result = init ++ tail ∧
    tail.Pairwise (fun a b => a.depth ≤ b.depth) ∧
    ∀ d ∈ tail, 1 ≤ d.depth ∧ minDepth ≤ d.depth ∧ d.depth ≤ maxDepth ∧
      d.depth ≤ st.currentLevel + 1

end Algorithm

namespace Algorithm

/-- Invariant of the loop of `dijkstraShortestPathRdesc` on the map `parent` alone:
the edge recorded for a vertex is an out-edge step from the source of that edge
to the vertex, and the vertex passed the test on the destination of an edge. -/
def ParentSteps (txn : Txn) (pathFilter : PathFilter) (edgeClassIds : List Nat)
    (parent : List (RecordId × RecordDescriptor)) : Prop :=
  ∀ v edge, parent.lookup v = some edge →
    OutStep txn pathFilter edgeClassIds (txn.dbRelation.getVertexSrc edge.rid) v ∧
      VertexAccepted txn pathFilter v

end Algorithm

/-! ## Traversals over a graph store whose edge accessor may raise -/

namespace Algorithm

end Algorithm

/-! ## Example transactions -/

namespace Example

/-- Four vertices `v1 = (1,1)`, ..., `v4 = (1,4)` with the edges `v1 → v2`, `v1 → v3`
and `v3 → v4`; the record of a vertex holds its position id in property `p`. -/
def txn : Txn :=
  { dbRelation :=
      { vertices := [(1, 1), (1, 2), (1, 3), (1, 4)],
        edges := [⟨(2, 1), (1, 1), (1, 2)⟩, ⟨(2, 2), (1, 1), (1, 3)⟩, ⟨(2, 3), (1, 3), (1, 4)⟩] },
    hasRow := fun _ => true,
    record := fun rid => ⟨[("p", [rid.2])]⟩ }

/-- A vertex filter that rejects exactly the vertex `v2`. -/
def rejectV2 : PathFilter := ⟨some (fun r => r.get "p" != [2]), Option.none⟩

/-- Two vertices joined by two parallel edges `v1 → v2`, an edge back `v2 → v1`
and a self-loop on `v2`. -/
def cyclicTxn : Txn :=
  { dbRelation :=
      { vertices := [(1, 1), (1, 2)],
        edges := [⟨(2, 1), (1, 1), (1, 2)⟩, ⟨(2, 2), (1, 1), (1, 2)⟩, ⟨(2, 3), (1, 2), (1, 1)⟩,
          ⟨(2, 4), (1, 2), (1, 2)⟩] },
    hasRow := fun _ => true,
    record := fun rid => ⟨[("p", [rid.2])]⟩ }

/-- A vertex `(1, 1)` that has a row in its class sub-database and no adjacency
entry in the graph store. -/
def isolatedTxn : Txn :=
  { dbRelation := { vertices := [], edges := [] },
    hasRow := fun rid => rid == (1, 1),
    record := fun _ => ⟨[]⟩ }

end Example

namespace Example

/-- A vertex filter that rejects exactly the vertex `v3`. -/
def rejectV3 : PathFilter := ⟨some (fun r => r.get "p" != [3]), Option.none⟩

/-- A catalog of four classes: class 1 with the subclasses 2 and 3, class 3 with
the subclass 4.  Classes 1 and 3 both declare a property `name`. -/
def catalog : List (Schema.ClassDescriptor String) :=
  [⟨1, none, [2, 3], [("name", ⟨2, "TEXT"⟩)]⟩,
   ⟨2, some 1, [], [("age", ⟨3, "INTEGER"⟩)]⟩,
   ⟨3, some 1, [4], [("name", ⟨4, "INTEGER"⟩)]⟩,
   ⟨4, some 3, [], [("size", ⟨5, "REAL"⟩)]⟩]

/-- The graph store after two vertices `(1, 1)`, `(1, 2)` and an edge `(2, 1)` from
the first to the second are created. -/
def store : GraphStore :=
  GraphStore.empty.runOps [.vertexCreate 1, .vertexCreate 1, .edgeCreate 2 (1, 1) (1, 2)]

/-- The graph store after a vertex `(1, 1)` and an edge `(2, 1)` from it to itself
are created. -/
def loopStore : GraphStore :=
  GraphStore.empty.runOps [.vertexCreate 1, .edgeCreate 2 (1, 1) (1, 1)]

/-- A row with two property blocks: id 2 with the value `[7]` and id 3 with the
value `[9]`. -/
def row : storage_engine.lmdb.Result := ⟨false, ⟨8, [2, 0, 2, 7, 3, 0, 2, 9]⟩⟩

/-- A schema that declares the property ids 2 (`a`) and 3 (`b`). -/
def schema : PropertyIdMapInfo := [(2, ⟨"a", 2⟩), (3, ⟨"b", 3⟩)]

end Example

namespace Example

/-- A typed comparison that knows one comparator: `EQUAL` is equality of the bytes;
every other comparator answers false. -/
def byteEqual : Bytes → Unit → Bytes → Bytes → Condition.Comparator → Bool → Bool :=
  fun value _ valueBytes _ comp _ => comp = .EQUAL && value == valueBytes

/-- A schema of seven properties `p1` ... `p7` with the ids 1 ... 7. -/
def wideSchema : PropertyNameMapInfo :=
  [("p1", ⟨"p1", 1⟩), ("p2", ⟨"p2", 2⟩), ("p3", ⟨"p3", 3⟩), ("p4", ⟨"p4", 4⟩),
   ("p5", ⟨"p5", 5⟩), ("p6", ⟨"p6", 6⟩), ("p7", ⟨"p7", 7⟩)]

/-- Sixteen bytes of an endpoint block: the source `(1, 1)` and the destination
`(1, 2)`. -/
def endpointPrefix : List Nat := [1, 0, 0, 0, 1, 0, 0, 0, 1, 0, 0, 0, 2, 0, 0, 0]

/-- The class catalog seen through the accessors of `getFilterClasses` and
`filterResult`: the class `person` with the id 1; every other name is unknown
(type `UNDEFINED`). -/
def getInfo (name : String) : RecordCompare.ClassAccessInfo :=
  if name = "person" then ⟨"person", 1, .VERTEX⟩ else ⟨"", 0, .UNDEFINED⟩

/-- Class info by id for the catalog of `getInfo`. -/
def getInfoById (id : Nat) : RecordCompare.ClassAccessInfo :=
  if id = 1 then ⟨"person", 1, .VERTEX⟩ else ⟨"", 0, .UNDEFINED⟩

end Example

namespace Example

end Example

/-! ## Codec lemmas -/

namespace parser

theorem length_leBytes (w n : Nat) : (leBytes w n).length = w := by
  induction w generalizing n with
  | zero => rfl
  | succ w ih => simp [leBytes, ih]

theorem leValue_leBytes (w n : Nat) : leValue (leBytes w n) = n % 256 ^ w := by
  induction w generalizing n with
  | zero => simp [leBytes, leValue, Nat.mod_one]
  | succ w ih =>
    simp only [leBytes, leValue, ih]
    rw [pow_succ, Nat.mul_comm (256 ^ w) 256, Nat.mod_mul]

theorem retrieve_mid (b : Blob) (pre xs post : List Nat) (h : b.bytes = pre ++ xs ++ post) :
    b.retrieve pre.length xs.length = .ok (xs, pre.length + xs.length) := by
  unfold Blob.retrieve
  have hlen : pre.length + xs.length ≤ b.bytes.length := by
    rw [h]; simp
  rw [if_pos hlen, h]
  simp [List.append_assoc, List.drop_left, List.take_left]

theorem readPropertySize_short (b : Blob) (pre post : List Nat) (n : Nat)
    (h : b.bytes = pre ++ [2 * n] ++ post) :
    readPropertySize b pre.length = .ok (n, pre.length + 1) := by
  have h1 : b.retrieve pre.length 1 = .ok ([2 * n], pre.length + 1) :=
    retrieve_mid b pre [2 * n] post h
  unfold readPropertySize
  simp only [h1, leValue]
  have h2 : ¬ ((2 * n + 256 * 0) % 2 = 1) := by omega
  rw [if_neg h2]
  have h3 : (2 * n + 256 * 0) / 2 = n := by omega
  rw [h3]

theorem readPropertySize_long (b : Blob) (pre post : List Nat) (n : Nat) (hn : n < 2 ^ 31)
    (h : b.bytes = pre ++ leBytes 4 (2 * n + 1) ++ post) :
    readPropertySize b pre.length = .ok (n, pre.length + 4) := by
  have h4 : b.retrieve pre.length 4 = .ok (leBytes 4 (2 * n + 1), pre.length + 4) := by
    have := retrieve_mid b pre (leBytes 4 (2 * n + 1)) post h
    rwa [length_leBytes] at this
  have h1 : b.retrieve pre.length 1 = .ok ([(2 * n + 1) % 256], pre.length + 1) := by
    have h5 : b.bytes = pre ++ [(2 * n + 1) % 256] ++ (leBytes 3 ((2 * n + 1) / 256) ++ post) := by
      rw [h]; simp [leBytes]
    exact retrieve_mid b pre [(2 * n + 1) % 256] _ h5
  have h2 : leValue [(2 * n + 1) % 256] % 2 = 1 := by
    simp only [leValue]; omega
  unfold readPropertySize
  rw [h1]
  simp only []
  rw [if_pos h2, h4]
  simp only [leValue_leBytes]
  have h3 : (2 * n + 1) % 256 ^ 4 / 2 = n := by
    have : (256 : Nat) ^ 4 = 4294967296 := by norm_num
    have h31 : (2 : Nat) ^ 31 = 2147483648 := by norm_num
    omega
  rw [h3]

theorem buildRawData_bytes_short (blob : Blob) (propertyId : Nat) (rawData : Bytes)
    (hn : rawData.length < 128) :
    (buildRawData blob propertyId rawData).bytes =
      blob.bytes ++ [propertyId % 256, propertyId / 256 % 256] ++ [2 * rawData.length]
        ++ rawData := by
  have h : rawData.length < 2 ^ (UINT8_BITS_COUNT - 1) := by
    simpa [UINT8_BITS_COUNT] using hn
  unfold buildRawData
  rw [if_pos h]
  have h1 : rawData.length % 2 ^ 8 * 2 % 256 = 2 * rawData.length := by
    have : (2 : Nat) ^ 8 = 256 := by norm_num
    omega
  simp only [Blob.append, leBytes, sizeofPropertyId, h1, List.append_assoc]

theorem buildRawData_bytes_long (blob : Blob) (propertyId : Nat) (rawData : Bytes)
    (hlo : 128 ≤ rawData.length) (hn : rawData.length < 2 ^ 31) :
    (buildRawData blob propertyId rawData).bytes =
      blob.bytes ++ [propertyId % 256, propertyId / 256 % 256]
        ++ leBytes 4 (2 * rawData.length + 1) ++ rawData := by
  have h : ¬ rawData.length < 2 ^ (UINT8_BITS_COUNT - 1) := by
    simp [UINT8_BITS_COUNT]; omega
  unfold buildRawData
  rw [if_neg h]
  have h1 : (rawData.length % 2 ^ 32 * 2 % 2 ^ 32 + 1) % 2 ^ 32 = 2 * rawData.length + 1 := by
    have : (2 : Nat) ^ 32 = 4294967296 := by norm_num
    have h31 : (2 : Nat) ^ 31 = 2147483648 := by norm_num
    omega
  rw [h1]
  simp [Blob.append, leBytes, sizeofPropertyId]

theorem lookup_mem {α β : Type} [BEq α] [LawfulBEq α] (l : List (α × β)) (k : α) (v : β)
    (h : l.lookup k = some v) : (k, v) ∈ l := by
  induction l with
  | nil => simp at h
  | cons p l ih =>
    obtain ⟨a, b⟩ := p
    by_cases hk : k = a
    · subst hk
      simp [List.lookup] at h
      simp [h]
    · have : (k == a) = false := by simpa using hk
      simp only [List.lookup, this] at h
      exact List.mem_cons_of_mem _ (ih h)

theorem lookup_isSome_of_mem {α β : Type} [BEq α] [LawfulBEq α] (l : List (α × β)) (p : α × β)
    (h : p ∈ l) : (l.lookup p.1).isSome := by
  induction l with
  | nil => simp at h
  | cons q l ih =>
    obtain ⟨a, b⟩ := q
    by_cases hk : p.1 = a
    · simp [List.lookup, hk]
    · have hne : (p.1 == a) = false := by simpa using hk
      simp only [List.lookup, hne]
      rcases List.mem_cons.1 h with h1 | h1
      · exact absurd (by rw [h1]) hk
      · exact ih h1

theorem lookup_mapSet (m : PropertyToBytesMap) (name : String) (value : Bytes) (k : String) :
    (mapSet m name value).lookup k = if k = name then some value else m.lookup k := by
  unfold mapSet
  by_cases hk : k = name
  · subst hk
    simp [List.lookup]
  · have hne : (k == name) = false := by simpa using hk
    simp only [List.lookup, hne, if_neg hk]
    induction m with
    | nil => rfl
    | cons p m ih =>
      obtain ⟨a, b⟩ := p
      by_cases ha : a = name
      · subst ha
        have hka : (k == a) = false := by simpa using hk
        simp [List.filter, List.lookup, hka, ih]
      · have hfa : (a != name) = true := by simpa using ha
        simp only [List.filter, hfa, List.lookup]
        by_cases hka : k = a
        · simp [hka]
        · have hka2 : (k == a) = false := by simpa using hka
          simp only [hka2]
          exact ih

theorem lookup_decodedProperties (record : Record) (props : List (String × PropertyAccessInfo))
    (acc : PropertyToBytesMap) (k : String) :
    (decodedProperties record props acc).lookup k =
      if k ∈ props.map Prod.fst then some (record.get k) else acc.lookup k := by
  induction props generalizing acc with
  | nil => simp [decodedProperties]
  | cons p rest ih =>
    simp only [decodedProperties, ih, lookup_mapSet, List.map_cons, List.mem_cons]
    by_cases h1 : k ∈ rest.map Prod.fst
    · simp [h1]
    · by_cases h2 : k = p.1
      · simp [h2]
      · simp [h1, h2]

theorem length_blockBytes_ge (propertyId : Nat) (rawData : Bytes) :
    3 ≤ (blockBytes propertyId rawData).length := by
  unfold blockBytes
  split
  · simp
  · simp [length_leBytes]
    omega

theorem buildRawData_eq (blob : Blob) (propertyId : Nat) (rawData : Bytes)
    (hn : rawData.length < 2 ^ 31) :
    buildRawData blob propertyId rawData =
      ⟨blob.capacity, blob.bytes ++ blockBytes propertyId rawData⟩ := by
  have hcap : (buildRawData blob propertyId rawData).capacity = blob.capacity := by
    unfold buildRawData
    split <;> rfl
  have hbytes : (buildRawData blob propertyId rawData).bytes =
      blob.bytes ++ blockBytes propertyId rawData := by
    unfold blockBytes
    by_cases h : rawData.length < 128
    · rw [if_pos h, buildRawData_bytes_short blob propertyId rawData h]
      simp
    · rw [if_neg h, buildRawData_bytes_long blob propertyId rawData (by omega) hn]
      simp
  cases hb : buildRawData blob propertyId rawData with
  | mk c bs =>
    rw [hb] at hcap hbytes
    simp only at hcap hbytes
    rw [hcap, hbytes]

theorem length_get_lt (record : Record) (name : String)
    (hsize : ∀ p ∈ record.getAll, p.2.length < 2 ^ 31) :
    (record.get name).length < 2 ^ 31 := by
  unfold Record.get
  cases h : record.properties.lookup name with
  | none => simp
  | some v =>
    have := hsize (name, v) (lookup_mem _ _ _ h)
    simpa using this

theorem parseRecordBlocks_eq (record : Record) (props : List (String × PropertyAccessInfo))
    (value : Blob)
    (hid : ∀ p ∈ props, p.2.id < 2 ^ 16)
    (hsize : ∀ p ∈ record.getAll, p.2.length < 2 ^ 31) :
    parseRecordBlocks record props value =
      .ok ⟨value.capacity, value.bytes ++ encodedBlocks record props⟩ := by
  induction props generalizing value with
  | nil => simp [parseRecordBlocks, encodedBlocks]
  | cons p rest ih =>
    have h1 : p.2.id < 2 ^ UINT16_BITS_COUNT := by
      simpa [UINT16_BITS_COUNT] using hid p (List.mem_cons_self _ _)
    have h2 : (record.get p.1).length < 2 ^ (UINT32_BITS_COUNT - 1) := by
      simpa [UINT32_BITS_COUNT] using length_get_lt record p.1 hsize
    have h3 : p.2.id % 2 ^ 16 = p.2.id :=
      Nat.mod_eq_of_lt (hid p (List.mem_cons_self _ _))
    simp only [parseRecordBlocks, h1, h2, not_true_eq_false, if_false, h3]
    rw [buildRawData_eq _ _ _ (length_get_lt record p.1 hsize),
      ih _ (fun q hq => hid q (List.mem_cons_of_mem _ hq))]
    simp [encodedBlocks]

theorem parseRecordDataSize_ok (properties : PropertyNameMapInfo) (l : List (String × Bytes))
    (n : Nat) (hdecl : ∀ p ∈ l, (properties.lookup p.1).isSome) :
    ∃ m, parseRecordDataSize properties l n = .ok m := by
  induction l generalizing n with
  | nil => exact ⟨n, rfl⟩
  | cons p rest ih =>
    have h := hdecl p (List.mem_cons_self _ _)
    cases hl : properties.lookup p.1 with
    | none => simp [hl] at h
    | some info =>
      simp only [parseRecordDataSize, hl]
      exact ih _ (fun q hq => hdecl q (List.mem_cons_of_mem _ hq))

theorem parseRecordDataSize_error (properties : PropertyNameMapInfo) (l : List (String × Bytes))
    (n : Nat) (e : Error) (h : parseRecordDataSize properties l n = .error e) :
    e = Error.ctxNoexstProperty ∧ ∃ p ∈ l, properties.lookup p.1 = none := by
  induction l generalizing n with
  | nil => simp [parseRecordDataSize] at h
  | cons p rest ih =>
    cases hl : properties.lookup p.1 with
    | none =>
      simp only [parseRecordDataSize, hl] at h
      injection h with h
      exact ⟨h.symm, p, List.mem_cons_self _ _, hl⟩
    | some info =>
      simp only [parseRecordDataSize, hl] at h
      obtain ⟨h1, q, hq, h2⟩ := ih _ h
      exact ⟨h1, q, List.mem_cons_of_mem _ hq, h2⟩

theorem parseRecordDataSize_undeclared (properties : PropertyNameMapInfo)
    (l : List (String × Bytes)) (n : Nat) (h : ∃ p ∈ l, properties.lookup p.1 = none) :
    parseRecordDataSize properties l n = .error .ctxNoexstProperty := by
  induction l generalizing n with
  | nil => simp at h
  | cons p rest ih =>
    cases hl : properties.lookup p.1 with
    | none => simp only [parseRecordDataSize, hl]
    | some info =>
      simp only [parseRecordDataSize, hl]
      apply ih
      obtain ⟨q, hq, h2⟩ := h
      rcases List.mem_cons.1 hq with h3 | h3
      · subst h3
        rw [hl] at h2
        cases h2
      · exact ⟨q, h3, h2⟩

theorem getRawDataSize_pos (size : Nat) : 0 < getRawDataSize size := by
  unfold getRawDataSize sizeofPropertyId
  omega

theorem parseRecordBlocks_no_ctx (record : Record) (props : List (String × PropertyAccessInfo))
    (value : Blob) : parseRecordBlocks record props value ≠ .error .ctxNoexstProperty := by
  induction props generalizing value with
  | nil => simp [parseRecordBlocks]
  | cons p rest ih =>
    simp only [parseRecordBlocks]
    split
    · simp
    · split
      · simp
      · exact ih _

theorem readPropertySize_block (b : Blob) (pre post : List Nat) (propertyId : Nat)
    (rawData : Bytes) (hn : rawData.length < 2 ^ 31)
    (h : b.bytes = pre ++ blockBytes propertyId rawData ++ post) :
    ∃ hdr : List Nat,
      b.bytes = pre ++ [propertyId % 256, propertyId / 256 % 256] ++ hdr ++ rawData ++ post ∧
      readPropertySize b (pre.length + 2) = .ok (rawData.length, pre.length + 2 + hdr.length) := by
  unfold blockBytes at h
  by_cases hs : rawData.length < 128
  · rw [if_pos hs] at h
    refine ⟨[2 * rawData.length], by rw [h]; simp, ?_⟩
    have := readPropertySize_short b (pre ++ [propertyId % 256, propertyId / 256 % 256])
      (rawData ++ post) rawData.length (by rw [h]; simp)
    simpa using this
  · rw [if_neg hs] at h
    refine ⟨leBytes 4 (2 * rawData.length + 1), by rw [h]; simp, ?_⟩
    have := readPropertySize_long b (pre ++ [propertyId % 256, propertyId / 256 % 256])
      (rawData ++ post) rawData.length hn (by rw [h]; simp)
    simpa [length_leBytes] using this

theorem parseRawDataLoop_encodedBlocks (record : Record) (propertyInfos : PropertyIdMapInfo)
    (hsize : ∀ p ∈ record.getAll, p.2.length < 2 ^ 31)
    (props : List (String × PropertyAccessInfo))
    (hid : ∀ p ∈ props, p.2.id < 2 ^ 16)
    (hinv : ∀ p ∈ props, ∃ info, propertyInfos.lookup p.2.id = some info ∧ info.name = p.1)
    (b : Blob) (pre : List Nat) (acc : PropertyToBytesMap) (fuel : Nat)
    (hb : b.bytes = pre ++ encodedBlocks record props)
    (hfuel : (encodedBlocks record props).length ≤ fuel) :
    parseRawDataLoop b propertyInfos fuel pre.length acc =
      .ok (decodedProperties record props acc) := by
  induction props generalizing pre acc fuel with
  | nil =>
    have hsz : ¬ pre.length < b.size := by
      simp [Blob.size, hb, encodedBlocks]
    cases fuel with
    | zero => simp [parseRawDataLoop, hsz, decodedProperties]
    | succ f => simp [parseRawDataLoop, hsz, decodedProperties]
  | cons p rest ih =>
    have hlen := length_blockBytes_ge p.2.id (record.get p.1)
    simp only [encodedBlocks, List.length_append] at hfuel
    cases fuel with
    | zero => omega
    | succ f =>
      have hraw := length_get_lt record p.1 hsize
      have hb2 : b.bytes = pre ++ blockBytes p.2.id (record.get p.1) ++ encodedBlocks record rest := by
        rw [hb]; simp [encodedBlocks]
      obtain ⟨hdr, hb3, hread⟩ := readPropertySize_block b pre (encodedBlocks record rest)
        p.2.id (record.get p.1) hraw hb2
      have hsz : pre.length < b.size := by
        simp only [Blob.size, hb2, List.length_append]
        omega
      have hidr : b.retrieve pre.length sizeofPropertyId =
          .ok ([p.2.id % 256, p.2.id / 256 % 256], pre.length + 2) := by
        have := retrieve_mid b pre [p.2.id % 256, p.2.id / 256 % 256]
          (hdr ++ record.get p.1 ++ encodedBlocks record rest) (by rw [hb3]; simp)
        simpa [sizeofPropertyId] using this
      have hval : leValue [p.2.id % 256, p.2.id / 256 % 256] = p.2.id := by
        have := hid p (List.mem_cons_self _ _)
        simp only [leValue]
        omega
      obtain ⟨info, hinfo, hname⟩ := hinv p (List.mem_cons_self _ _)
      have hblock : blockBytes p.2.id (record.get p.1) =
          [p.2.id % 256, p.2.id / 256 % 256] ++ hdr ++ record.get p.1 := by
        have h5 := hb2.symm.trans hb3
        simp only [List.append_assoc] at h5
        have h6 := List.append_cancel_left h5
        have h7 : blockBytes p.2.id (record.get p.1) ++ encodedBlocks record rest =
            ([p.2.id % 256, p.2.id / 256 % 256] ++ hdr ++ record.get p.1)
              ++ encodedBlocks record rest := by
          rw [h6]; simp
        exact List.append_cancel_right h7
      have hnext : b.bytes =
          (pre ++ blockBytes p.2.id (record.get p.1)) ++ encodedBlocks record rest := hb2
      have hoff : (pre ++ blockBytes p.2.id (record.get p.1)).length =
          pre.length + 2 + hdr.length + (record.get p.1).length := by
        rw [hblock]; simp; omega
      have hrec := ih (fun q hq => hid q (List.mem_cons_of_mem _ hq))
        (fun q hq => hinv q (List.mem_cons_of_mem _ hq))
        (pre ++ blockBytes p.2.id (record.get p.1))
        (mapSet acc p.1 (record.get p.1)) f hnext (by omega)
      rw [hoff] at hrec
      simp only [parseRawDataLoop, hsz, if_true, hidr, hread, hval, hinfo, hname]
      by_cases hpos : (record.get p.1).length > 0
      · have hret : b.retrieve (pre.length + 2 + hdr.length) (record.get p.1).length =
            .ok (record.get p.1, pre.length + 2 + hdr.length + (record.get p.1).length) := by
          have := retrieve_mid b (pre ++ [p.2.id % 256, p.2.id / 256 % 256] ++ hdr)
            (record.get p.1) (encodedBlocks record rest) hb3
          simp only [List.length_append, List.length_cons, List.length_nil] at this
          exact this
        rw [if_pos hpos, hret]
        simp only [decodedProperties]
        exact hrec
      · have hz : (record.get p.1).length = 0 := by omega
        have hnil : record.get p.1 = [] := List.length_eq_zero.1 hz
        rw [if_neg hpos]
        simp only [decodedProperties]
        rw [hz, Nat.add_zero] at hrec
        rw [hnil] at hrec ⊢
        exact hrec

theorem parseRecord_of_dataSize (sizeofTxnId : Nat) (record : Record)
    (properties : PropertyNameMapInfo) (n : Nat)
    (hn : parseRecordDataSize properties record.getAll 0 = .ok n) :
    parseRecord sizeofTxnId record properties =
      parseRecordBlocks record properties (Blob.new (n + getRawDataSize (2 * sizeofTxnId))) := by
  have hpos := getRawDataSize_pos (2 * sizeofTxnId)
  have hne : ¬ (n + getRawDataSize (2 * sizeofTxnId) ≤ 0) := by omega
  unfold parseRecord
  rw [hn]
  simp only [parseRecordWithSize, hne, if_false]

theorem parseRecord_oversized (sizeofTxnId : Nat) (value : Bytes)
    (hv : ¬ value.length < 2 ^ 31) :
    parseRecord sizeofTxnId ⟨[("p", value)]⟩ [("p", ⟨"p", 0⟩)] = .error .requireFailed := by
  have hn : parseRecordDataSize [("p", ⟨"p", 0⟩)] (Record.getAll ⟨[("p", value)]⟩) 0 =
      .ok (0 + getRawDataSize value.length) := by
    simp [Record.getAll, parseRecordDataSize, List.lookup]
  rw [parseRecord_of_dataSize _ _ _ _ hn]
  have hget : Record.get ⟨[("p", value)]⟩ "p" = value := by
    simp [Record.get, List.lookup]
  have h2 : ¬ (value.length < 2 ^ (UINT32_BITS_COUNT - 1)) := by
    simpa [UINT32_BITS_COUNT] using hv
  simp only [parseRecordBlocks, hget, h2, not_false_eq_true, if_true]
  simp [UINT16_BITS_COUNT]

theorem declared_single (value : Bytes) :
    ∀ p ∈ (⟨[("p", value)]⟩ : Record).getAll,
      (List.lookup p.1 [("p", (⟨"p", 0⟩ : PropertyAccessInfo))]).isSome := by
  intro p hp
  have hp1 : p = ("p", value) := by
    simpa [Record.getAll] using hp
  rw [hp1]
  simp [List.lookup]

theorem parseEdge_bytes (srcRid dstRid : RecordId) :
    (parseEdgeVertexSrcDst srcRid dstRid).bytes =
      leBytes 4 srcRid.1 ++ leBytes 4 srcRid.2 ++ leBytes 4 dstRid.1 ++ leBytes 4 dstRid.2 := by
  simp [parseEdgeVertexSrcDst, Blob.append, Blob.new, sizeofClassId, sizeofPositionId]

theorem parseEdge_decode (srcRid dstRid : RecordId) :
    parseEdgeRawDataVertexSrcDst (parseEdgeVertexSrcDst srcRid dstRid) =
      .ok ((srcRid.1 % 2 ^ 32, srcRid.2 % 2 ^ 32), (dstRid.2 % 2 ^ 32, 0)) := by
  have hb := parseEdge_bytes srcRid dstRid
  have h1 : (parseEdgeVertexSrcDst srcRid dstRid).retrieve 0 sizeofClassId =
      .ok (leBytes 4 srcRid.1, 4) := by
    have := retrieve_mid (parseEdgeVertexSrcDst srcRid dstRid) [] (leBytes 4 srcRid.1)
      (leBytes 4 srcRid.2 ++ leBytes 4 dstRid.1 ++ leBytes 4 dstRid.2) (by rw [hb]; simp)
    simpa [length_leBytes, sizeofClassId] using this
  have h2 : (parseEdgeVertexSrcDst srcRid dstRid).retrieve 4 sizeofPositionId =
      .ok (leBytes 4 srcRid.2, 8) := by
    have := retrieve_mid (parseEdgeVertexSrcDst srcRid dstRid) (leBytes 4 srcRid.1)
      (leBytes 4 srcRid.2) (leBytes 4 dstRid.1 ++ leBytes 4 dstRid.2) (by rw [hb]; simp)
    simpa [length_leBytes, sizeofPositionId] using this
  have h3 : (parseEdgeVertexSrcDst srcRid dstRid).retrieve 8 sizeofClassId =
      .ok (leBytes 4 dstRid.1, 12) := by
    have := retrieve_mid (parseEdgeVertexSrcDst srcRid dstRid)
      (leBytes 4 srcRid.1 ++ leBytes 4 srcRid.2)
      (leBytes 4 dstRid.1) (leBytes 4 dstRid.2) (by rw [hb])
    simpa [length_leBytes, sizeofClassId] using this
  have h4 : (parseEdgeVertexSrcDst srcRid dstRid).retrieve 12 sizeofPositionId =
      .ok (leBytes 4 dstRid.2, 16) := by
    have := retrieve_mid (parseEdgeVertexSrcDst srcRid dstRid)
      (leBytes 4 srcRid.1 ++ leBytes 4 srcRid.2 ++ leBytes 4 dstRid.1)
      (leBytes 4 dstRid.2) [] (by rw [hb]; simp)
    simpa [length_leBytes, sizeofPositionId] using this
  have hsz : (parseEdgeVertexSrcDst srcRid dstRid).size ≥ VERTEX_SRC_DST_RAW_DATA_LENGTH := by
    simp [Blob.size, hb, length_leBytes, VERTEX_SRC_DST_RAW_DATA_LENGTH, sizeofClassId,
      sizeofPositionId]
  unfold parseEdgeRawDataVertexSrcDst
  simp only [hsz, not_true_eq_false, if_false, h1, h2, h3, h4, leValue_leBytes]
  norm_num

end parser

/-! ## Traversal lemmas -/

namespace Algorithm

theorem length_vertexUniverse (txn : Txn) (rid : RecordId) :
    (vertexUniverse txn rid).length + 1 = traversalFuel txn := by
  have h : ∀ l : List EdgeEntry, (l.flatMap (fun e => [e.src, e.dst])).length = 2 * l.length := by
    intro l
    induction l with
    | nil => rfl
    | cons e l ih => simp [List.flatMap_cons, ih]; omega
  simp [vertexUniverse, traversalFuel, h]

theorem getVertexSrc_mem (txn : Txn) (rid edge : RecordId) :
    txn.dbRelation.getVertexSrc edge ∈ vertexUniverse txn rid := by
  unfold Graph.getVertexSrc vertexUniverse
  cases h : txn.dbRelation.edges.find? (fun e => e.rid == edge) with
  | none => simp
  | some e =>
    have hm := List.mem_of_find?_eq_some h
    simp only [List.mem_cons, List.mem_flatMap]
    exact Or.inr (Or.inr ⟨e, hm, by simp⟩)

theorem getVertexDst_mem (txn : Txn) (rid edge : RecordId) :
    txn.dbRelation.getVertexDst edge ∈ vertexUniverse txn rid := by
  unfold Graph.getVertexDst vertexUniverse
  cases h : txn.dbRelation.edges.find? (fun e => e.rid == edge) with
  | none => simp
  | some e =>
    have hm := List.mem_of_find?_eq_some h
    simp only [List.mem_cons, List.mem_flatMap]
    exact Or.inr (Or.inr ⟨e, hm, by simp⟩)

theorem nextVertex_mem (txn : Txn) (vertexFunc : Option (Graph → RecordId → RecordId))
    (hvf : ∀ f, vertexFunc = some f → f = Graph.getVertexSrc ∨ f = Graph.getVertexDst)
    (rid vertexId : RecordId) (edge : RecordDescriptor) :
    nextVertex txn vertexFunc vertexId edge ∈ vertexUniverse txn rid := by
  unfold nextVertex
  cases vertexFunc with
  | none =>
    simp only [Graph.getVertexSrcDst]
    split
    · exact getVertexSrc_mem txn rid edge.rid
    · exact getVertexDst_mem txn rid edge.rid
  | some f =>
    rcases hvf f rfl with h | h
    · subst h; exact getVertexSrc_mem txn rid edge.rid
    · subst h; exact getVertexDst_mem txn rid edge.rid

theorem retrieveRdesc_cases (txn : Txn) (rid : RecordId) (pathFilter : PathFilter)
    (type : ClassType) :
    retrieveRdesc txn rid pathFilter type = RecordDescriptor.ofRid rid
      ∨ retrieveRdesc txn rid pathFilter type = RecordDescriptor.empty := by
  unfold retrieveRdesc
  split
  · dsimp only
    split
    · exact Or.inl rfl
    · exact Or.inr rfl
  · dsimp only
    split
    · exact Or.inl rfl
    · exact Or.inr rfl
  · exact Or.inl rfl

theorem retrieveRdesc_rid (txn : Txn) (rid : RecordId) (pathFilter : PathFilter)
    (type : ClassType) (h : (retrieveRdesc txn rid pathFilter type).isEmpty = false) :
    (retrieveRdesc txn rid pathFilter type).rid = rid := by
  rcases retrieveRdesc_cases txn rid pathFilter type with h1 | h1
  · rw [h1]; rfl
  · rw [h1] at h
    simp [RecordDescriptor.isEmpty, RecordDescriptor.empty] at h

/-- The descriptor `addUniqueVertex` tests and emits for a vertex. -/
theorem vertexRdesc_rid (txn : Txn) (vertex : RecordId) (pathFilter : PathFilter)
    (c : Bool)
    (h : ¬ (if c then retrieveRdesc txn vertex pathFilter ClassType.VERTEX
        else RecordDescriptor.ofRid vertex).isEmpty = true) :
    (if c then retrieveRdesc txn vertex pathFilter ClassType.VERTEX
        else RecordDescriptor.ofRid vertex).rid = vertex := by
  cases c with
  | false => rfl
  | true =>
    simp only [if_true] at h ⊢
    exact retrieveRdesc_rid txn vertex pathFilter _ (by simpa using h)

theorem bfsVisitEdges_invariant (P : BfsState → Prop) (txn : Txn) (minDepth maxDepth : Nat)
    (vertexFunc : Option (Graph → RecordId → RecordId)) (pathFilter : PathFilter)
    (vertexId : RecordId)
    (hadd : ∀ st edge, P st → P (addUniqueVertex txn minDepth maxDepth st
      (nextVertex txn vertexFunc vertexId edge) pathFilter))
    (edges : List RecordDescriptor) (st : BfsState) (h : P st) :
    P (bfsVisitEdges txn minDepth maxDepth vertexFunc pathFilter vertexId edges st) := by
  induction edges generalizing st with
  | nil => exact h
  | cons edge rest ih => exact ih _ (hadd st edge h)

theorem bfsLoop_invariant (P : BfsState → Prop) (txn : Txn) (rid : RecordId)
    (minDepth maxDepth : Nat) (edgeClassIds : List Nat)
    (edgeFunc : Graph → RecordId → Nat → List RecordId)
    (vertexFunc : Option (Graph → RecordId → RecordId)) (pathFilter : PathFilter)
    (hdeq : ∀ st vertexId queue, P st → st.queue = vertexId :: queue →
      P (bfsDequeue rid st vertexId queue))
    (hadd : ∀ st vertexId edge, P st → P (addUniqueVertex txn minDepth maxDepth st
      (nextVertex txn vertexFunc vertexId edge) pathFilter))
    (fuel : Nat) (st st1 : BfsState) (h : P st)
    (hrun : bfsLoop txn rid minDepth maxDepth edgeClassIds edgeFunc vertexFunc pathFilter
      fuel st = .ok st1) : P st1 := by
  induction fuel generalizing st with
  | zero =>
    unfold bfsLoop at hrun
    split at hrun
    · cases hrun; exact h
    · cases hrun
  | succ fuel ih =>
    unfold bfsLoop at hrun
    split at hrun
    · cases hrun; exact h
    · rename_i vertexId queue hq
      exact ih _ (bfsVisitEdges_invariant P txn minDepth maxDepth vertexFunc pathFilter
        vertexId (fun st edge hst => hadd st vertexId edge hst) _ _
        (hdeq st vertexId queue h hq)) hrun

theorem addUniqueVertex_old (txn : Txn) (minDepth maxDepth : Nat) (pathFilter : PathFilter)
    (st : BfsState) (vertex : RecordId) (hmem : vertex ∈ st.visited) :
    addUniqueVertex txn minDepth maxDepth st vertex pathFilter = st := by
  unfold addUniqueVertex
  rw [if_pos hmem]

theorem addUniqueVertex_new (txn : Txn) (minDepth maxDepth : Nat) (pathFilter : PathFilter)
    (st : BfsState) (vertex : RecordId) (hmem : vertex ∉ st.visited) :
    ∃ tmp : RecordDescriptor, (¬ tmp.isEmpty = true → tmp.rid = vertex) ∧
      (tmp = RecordDescriptor.ofRid vertex ∨ tmp = RecordDescriptor.empty) ∧
      (pathFilter.isEnable = false → tmp = RecordDescriptor.ofRid vertex) ∧
      (pathFilter.isEnable = true → tmp = retrieveRdesc txn vertex pathFilter .VERTEX) ∧
      addUniqueVertex txn minDepth maxDepth st vertex pathFilter =
        { result :=
            if st.currentLevel + 1 ≥ minDepth ∧ st.currentLevel + 1 ≤ maxDepth
                ∧ ¬ tmp.isEmpty = true then
              st.result ++ [{ rid := tmp.rid, depth := st.currentLevel + 1 }]
            else st.result,
          visited := vertex :: st.visited,
          queue :=
            if st.currentLevel + 1 < maxDepth ∧ ¬ tmp.isEmpty = true then st.queue ++ [vertex]
            else st.queue,
          currentLevel := st.currentLevel,
          firstRecordId := if st.firstRecordId = (0, 0) then vertex else st.firstRecordId } := by
  refine ⟨if pathFilter.isEnable then retrieveRdesc txn vertex pathFilter .VERTEX
      else RecordDescriptor.ofRid vertex, vertexRdesc_rid txn vertex pathFilter _, ?_, ?_, ?_, ?_⟩
  · cases pathFilter.isEnable with
    | false => exact Or.inl rfl
    | true => exact retrieveRdesc_cases txn vertex pathFilter _
  · intro h; simp [h]
  · intro h; simp [h]
  · unfold addUniqueVertex
    rw [if_neg hmem]

/-- Bookkeeping invariant of the breadth-first loop: the visited list has no
repetition and stays inside the candidate record ids, and `k` bounds the number
of iterations still to come. -/
theorem addUniqueVertex_budget (txn : Txn) (minDepth maxDepth : Nat) (pathFilter : PathFilter)
    (U : List RecordId) (k : Nat) (st : BfsState) (vertex : RecordId) (hv : vertex ∈ U)
    (h : st.visited.Nodup ∧ st.visited ⊆ U ∧
      st.queue.length + (U.length - st.visited.length) ≤ k) :
    (addUniqueVertex txn minDepth maxDepth st vertex pathFilter).visited.Nodup ∧
    (addUniqueVertex txn minDepth maxDepth st vertex pathFilter).visited ⊆ U ∧
    (addUniqueVertex txn minDepth maxDepth st vertex pathFilter).queue.length +
      (U.length - (addUniqueVertex txn minDepth maxDepth st vertex pathFilter).visited.length)
      ≤ k := by
  obtain ⟨hnd, hsub, hk⟩ := h
  by_cases hmem : vertex ∈ st.visited
  · rw [addUniqueVertex_old _ _ _ _ _ _ hmem]
    exact ⟨hnd, hsub, hk⟩
  · obtain ⟨tmp, -, -, -, -, heq⟩ := addUniqueVertex_new txn minDepth maxDepth pathFilter st vertex hmem
    rw [heq]
    have hnd2 : (vertex :: st.visited).Nodup := List.nodup_cons.2 ⟨hmem, hnd⟩
    have hsub2 : (vertex :: st.visited) ⊆ U := List.cons_subset.2 ⟨hv, hsub⟩
    have hlen : (vertex :: st.visited).length ≤ U.length :=
      (List.Nodup.subperm hnd2 hsub2).length_le
    simp only [List.length_cons] at hlen
    refine ⟨hnd2, hsub2, ?_⟩
    dsimp only
    simp only [List.length_cons]
    split
    · simp only [List.length_append, List.length_cons, List.length_nil]
      omega
    · omega

theorem bfsLoop_terminates (txn : Txn) (rid : RecordId)
    (minDepth maxDepth : Nat) (edgeClassIds : List Nat)
    (edgeFunc : Graph → RecordId → Nat → List RecordId)
    (vertexFunc : Option (Graph → RecordId → RecordId)) (pathFilter : PathFilter)
    (hvf : ∀ f, vertexFunc = some f → f = Graph.getVertexSrc ∨ f = Graph.getVertexDst)
    (fuel : Nat) (st : BfsState)
    (h : st.visited.Nodup ∧ st.visited ⊆ vertexUniverse txn rid ∧
      st.queue.length + ((vertexUniverse txn rid).length - st.visited.length) ≤ fuel) :
    ∃ st1, bfsLoop txn rid minDepth maxDepth edgeClassIds edgeFunc vertexFunc pathFilter
      fuel st = .ok st1 := by
  induction fuel generalizing st with
  | zero =>
    have hq : st.queue = [] := List.length_eq_zero.1 (by omega)
    exact ⟨st, by simp [bfsLoop, hq]⟩
  | succ fuel ih =>
    unfold bfsLoop
    split
    · exact ⟨st, rfl⟩
    · rename_i vertexId queue hq
      apply ih
      apply bfsVisitEdges_invariant (fun s => s.visited.Nodup ∧
        s.visited ⊆ vertexUniverse txn rid ∧
        s.queue.length + ((vertexUniverse txn rid).length - s.visited.length) ≤ fuel)
      · intro s edge hs
        exact addUniqueVertex_budget txn minDepth maxDepth pathFilter _ fuel s _
          (nextVertex_mem txn vertexFunc hvf rid vertexId edge) hs
      · obtain ⟨hnd, hsub, hk⟩ := h
        rw [hq] at hk
        simp only [List.length_cons] at hk
        unfold bfsDequeue
        split
        · exact ⟨hnd, hsub, by simp only; omega⟩
        · exact ⟨hnd, hsub, by simp only; omega⟩

theorem addUniqueVertex_emitted (txn : Txn) (minDepth maxDepth : Nat) (pathFilter : PathFilter)
    (rid : RecordId) (init : List RecordDescriptor) (st : BfsState) (vertex : RecordId)
    (h : BfsEmitted rid init st) :
    BfsEmitted rid init (addUniqueVertex txn minDepth maxDepth st vertex pathFilter) := by
  obtain ⟨hrid, hvis, hnd, tail, htail, hne⟩ := h
  by_cases hmem : vertex ∈ st.visited
  · rw [addUniqueVertex_old _ _ _ _ _ _ hmem]
    exact ⟨hrid, hvis, hnd, tail, htail, hne⟩
  · obtain ⟨tmp, htmp, -, -, -, heq⟩ :=
      addUniqueVertex_new txn minDepth maxDepth pathFilter st vertex hmem
    rw [heq]
    have hvr : vertex ≠ rid := fun e => hmem (e ▸ hrid)
    unfold BfsEmitted
    dsimp only
    split
    · rename_i hc
      have hrd := htmp hc.2.2
      refine ⟨List.mem_cons_of_mem _ hrid, ?_, ?_,
        tail ++ [{ rid := tmp.rid, depth := st.currentLevel + 1 }],
        by rw [htail, List.append_assoc], ?_⟩
      · intro d hd
        rcases List.mem_append.1 hd with h1 | h1
        · exact List.mem_cons_of_mem _ (hvis d h1)
        · simp only [List.mem_singleton] at h1
          rw [h1]
          simp only [hrd, List.mem_cons, true_or]
      · rw [List.map_append, List.nodup_append]
        refine ⟨hnd, by simp, ?_⟩
        intro a ha hb
        simp only [List.map_cons, List.map_nil, List.mem_singleton] at hb
        obtain ⟨d, hd, hda⟩ := List.mem_map.1 ha
        have := hvis d hd
        rw [hda, hb, hrd] at this
        exact hmem this
      · intro d hd
        rcases List.mem_append.1 hd with h1 | h1
        · exact hne d h1
        · simp only [List.mem_singleton] at h1
          rw [h1]
          simp only [hrd]
          exact hvr
    · exact ⟨List.mem_cons_of_mem _ hrid, fun d hd => List.mem_cons_of_mem _ (hvis d hd), hnd,
        tail, htail, hne⟩

theorem bfsDequeue_emitted (rid : RecordId) (init : List RecordDescriptor) (st : BfsState)
    (vertexId : RecordId) (queue : List RecordId) (h : BfsEmitted rid init st) :
    BfsEmitted rid init (bfsDequeue rid st vertexId queue) := by
  unfold bfsDequeue
  split
  · exact h
  · exact h

theorem breadthFirstSearchRdesc_run (txn : Txn) (recordDescriptor : RecordDescriptor)
    (minDepth maxDepth : Nat) (edgeClassIds : List Nat)
    (edgeFunc : Graph → RecordId → Nat → List RecordId)
    (vertexFunc : Option (Graph → RecordId → RecordId)) (pathFilter : PathFilter)
    (hvf : ∀ f, vertexFunc = some f → f = Graph.getVertexSrc ∨ f = Graph.getVertexDst)
    (hex : Generic.checkIfRecordExist txn recordDescriptor = .RECORD_EXIST) :
    ∃ st1 : BfsState, breadthFirstSearchRdesc txn recordDescriptor minDepth maxDepth
        edgeClassIds edgeFunc vertexFunc pathFilter = .ok st1.result := by
  obtain ⟨st1, hst1⟩ := bfsLoop_terminates txn recordDescriptor.rid minDepth maxDepth
    edgeClassIds edgeFunc vertexFunc pathFilter hvf (traversalFuel txn)
    { result := if minDepth = 0 then [recordDescriptor] else [],
      visited := [recordDescriptor.rid], queue := [recordDescriptor.rid],
      currentLevel := 0, firstRecordId := recordDescriptor.rid }
    ⟨by simp, by simp [vertexUniverse], by
      have := length_vertexUniverse txn recordDescriptor.rid
      dsimp only
      simp only [List.length_cons, List.length_nil]
      omega⟩
  refine ⟨st1, ?_⟩
  unfold breadthFirstSearchRdesc
  rw [hex]
  simp only [hst1]

theorem breadthFirstSearchRdesc_emitted (txn : Txn) (recordDescriptor : RecordDescriptor)
    (minDepth maxDepth : Nat) (edgeClassIds : List Nat)
    (edgeFunc : Graph → RecordId → Nat → List RecordId)
    (vertexFunc : Option (Graph → RecordId → RecordId)) (pathFilter : PathFilter)
    (hex : Generic.checkIfRecordExist txn recordDescriptor = .RECORD_EXIST)
    (res : List RecordDescriptor)
    (hres : breadthFirstSearchRdesc txn recordDescriptor minDepth maxDepth edgeClassIds
        edgeFunc vertexFunc pathFilter = .ok res) :
    (res.map (fun d => d.rid)).Nodup ∧
      ∃ tail, res = (if minDepth = 0 then [recordDescriptor] else []) ++ tail ∧
        ∀ d ∈ tail, d.rid ≠ recordDescriptor.rid := by
  unfold breadthFirstSearchRdesc at hres
  rw [hex] at hres
  simp only at hres
  split at hres
  · cases hres
  · rename_i st1 hst1
    cases hres
    have hinv := bfsLoop_invariant
      (BfsEmitted recordDescriptor.rid (if minDepth = 0 then [recordDescriptor] else []))
      txn recordDescriptor.rid minDepth maxDepth edgeClassIds edgeFunc vertexFunc pathFilter
      (fun st vertexId queue h _ => bfsDequeue_emitted _ _ st vertexId queue h)
      (fun st vertexId edge h => addUniqueVertex_emitted txn minDepth maxDepth pathFilter _ _ st _ h)
      _ _ st1 ?_ hst1
    · exact ⟨hinv.2.2.1, hinv.2.2.2⟩
    · refine ⟨by simp, ?_, ?_, [], by simp, by simp⟩
      · intro d hd
        dsimp only at hd ⊢
        split at hd
        · simp only [List.mem_singleton] at hd
          simp [hd]
        · simp at hd
      · dsimp only
        split <;> simp

theorem dfsVisit_emitted (txn : Txn) (minDepth maxDepth : Nat) (edgeClassIds : List Nat)
    (edgeFunc : Graph → RecordId → Nat → List RecordId)
    (vertexFunc : Option (Graph → RecordId → RecordId)) (pathFilter : PathFilter)
    (st : DfsState) (vertex : RecordId) (h : DfsEmitted st) :
    DfsEmitted (dfsVisit txn minDepth maxDepth edgeClassIds edgeFunc vertexFunc pathFilter
      st vertex) := by
  obtain ⟨hvis, hnd⟩ := h
  unfold dfsVisit
  by_cases hmem : vertex ∈ st.visited
  · rw [if_pos hmem]
    exact ⟨hvis, hnd⟩
  · rw [if_neg hmem]
    have hres : ∀ tmp : RecordDescriptor, (¬ tmp.isEmpty = true → tmp.rid = vertex) →
        ∀ res : List RecordDescriptor,
        res = (if st.currentLevel ≥ minDepth then
          (if ¬ tmp.isEmpty = true then
            st.result ++ [{ rid := tmp.rid, depth := st.currentLevel }]
          else st.result)
        else st.result) →
        (∀ d ∈ res, d.rid ∈ vertex :: st.visited) ∧ (res.map (fun d => d.rid)).Nodup := by
      intro tmp htmp res hres
      have hkeep : (∀ d ∈ st.result, d.rid ∈ vertex :: st.visited) :=
        fun d hd => List.mem_cons_of_mem _ (hvis d hd)
      by_cases hl : st.currentLevel ≥ minDepth
      · rw [if_pos hl] at hres
        by_cases hc : ¬ tmp.isEmpty = true
        · rw [if_pos hc] at hres
          have hrd := htmp hc
          rw [hres]
          constructor
          · intro d hd
            rcases List.mem_append.1 hd with h1 | h1
            · exact hkeep d h1
            · simp only [List.mem_singleton] at h1
              rw [h1]
              simp only [hrd, List.mem_cons, true_or]
          · rw [List.map_append, List.nodup_append]
            refine ⟨hnd, by simp, ?_⟩
            intro a ha hb
            simp only [List.map_cons, List.map_nil, List.mem_singleton] at hb
            obtain ⟨d, hd, hda⟩ := List.mem_map.1 ha
            have := hvis d hd
            rw [hda, hb, hrd] at this
            exact hmem this
        · rw [if_neg hc] at hres
          rw [hres]; exact ⟨hkeep, hnd⟩
      · rw [if_neg hl] at hres
        rw [hres]; exact ⟨hkeep, hnd⟩
    have htmp := vertexRdesc_rid txn vertex
      (if st.currentLevel ≠ 0 then pathFilter else PathFilter.none) pathFilter.isEnable
    dsimp only
    by_cases hmax : st.currentLevel < maxDepth
    · rw [if_pos hmax]
      exact hres _ htmp _ rfl
    · rw [if_neg hmax]
      exact hres _ htmp _ rfl

theorem dfsStep_emitted (txn : Txn) (minDepth maxDepth : Nat) (edgeClassIds : List Nat)
    (edgeFunc : Graph → RecordId → Nat → List RecordId)
    (vertexFunc : Option (Graph → RecordId → RecordId)) (pathFilter : PathFilter)
    (st : DfsState) (vertex : RecordId) (h : DfsEmitted st) :
    DfsEmitted (dfsStep txn minDepth maxDepth edgeClassIds edgeFunc vertexFunc pathFilter
      st vertex) := by
  unfold dfsStep
  exact dfsVisit_emitted txn minDepth maxDepth edgeClassIds edgeFunc vertexFunc pathFilter
    _ vertex h

theorem dfsLoop_invariant (P : DfsState → Prop) (txn : Txn) (minDepth maxDepth : Nat)
    (edgeClassIds : List Nat) (edgeFunc : Graph → RecordId → Nat → List RecordId)
    (vertexFunc : Option (Graph → RecordId → RecordId)) (pathFilter : PathFilter)
    (hstep : ∀ st vertex, P st → (st.stk.getD st.currentLevel []).getLast? = some vertex →
      P (dfsStep txn minDepth maxDepth edgeClassIds edgeFunc vertexFunc pathFilter st vertex))
    (fuel : Nat) (st st1 : DfsState) (h : P st)
    (hrun : dfsLoop txn minDepth maxDepth edgeClassIds edgeFunc vertexFunc pathFilter
      fuel st = .ok st1) : P st1 := by
  induction fuel generalizing st with
  | zero =>
    unfold dfsLoop at hrun
    split at hrun
    · cases hrun; exact h
    · cases hrun
  | succ fuel ih =>
    unfold dfsLoop at hrun
    split at hrun
    · cases hrun; exact h
    · rename_i vertex hv
      exact ih _ (hstep st vertex h hv) hrun

theorem depthFirstSearchRdesc_emitted (txn : Txn) (recordDescriptor : RecordDescriptor)
    (minDepth maxDepth : Nat) (edgeClassIds : List Nat)
    (edgeFunc : Graph → RecordId → Nat → List RecordId)
    (vertexFunc : Option (Graph → RecordId → RecordId)) (pathFilter : PathFilter)
    (res : List RecordDescriptor)
    (hres : depthFirstSearchRdesc txn recordDescriptor minDepth maxDepth edgeClassIds
        edgeFunc vertexFunc pathFilter = .ok res) :
    (res.map (fun d => d.rid)).Nodup := by
  unfold depthFirstSearchRdesc at hres
  split at hres
  · cases hres
  · cases hres
    split <;> simp
  · simp only at hres
    split at hres
    · cases hres
    · rename_i st1 hst1
      cases hres
      have hinv := dfsLoop_invariant DfsEmitted txn minDepth maxDepth edgeClassIds edgeFunc
        vertexFunc pathFilter
        (fun st vertex h _ => dfsStep_emitted txn minDepth maxDepth edgeClassIds edgeFunc
          vertexFunc pathFilter st vertex h)
        _ _ st1 ⟨by simp, by simp⟩ hst1
      exact hinv.2

theorem stkTotal_set (stk : List (List RecordId)) (i : Nat) (f : List RecordId)
    (hi : i < stk.length) :
    stkTotal (stk.set i f) + (stk.getD i []).length = stkTotal stk + f.length := by
  induction stk generalizing i with
  | nil => simp at hi
  | cons fr rest ih =>
    cases i with
    | zero => simp [stkTotal]; omega
    | succ j =>
      have := ih j (by simpa using hi)
      simp only [stkTotal, List.set_cons_succ, List.map_cons, List.sum_cons,
        List.getD_cons_succ] at this ⊢
      omega

theorem set_of_length_le (stk : List (List RecordId)) (i : Nat) (f : List RecordId)
    (hi : stk.length ≤ i) : stk.set i f = stk := by
  induction stk generalizing i with
  | nil => rfl
  | cons fr rest ih =>
    cases i with
    | zero => simp at hi
    | succ j => simp [ih j (by simpa using hi)]

theorem mem_of_mem_set (stk : List (List RecordId)) (i : Nat) (f fr : List RecordId)
    (h : fr ∈ stk.set i f) : fr = f ∨ fr ∈ stk := by
  induction stk generalizing i with
  | nil => simp at h
  | cons g rest ih =>
    cases i with
    | zero =>
      simp only [List.set_cons_zero, List.mem_cons] at h
      rcases h with h | h
      · exact Or.inl h
      · exact Or.inr (List.mem_cons_of_mem _ h)
    | succ j =>
      simp only [List.set_cons_succ, List.mem_cons] at h
      rcases h with h | h
      · exact Or.inr (by simp [h])
      · rcases ih j h with h1 | h1
        · exact Or.inl h1
        · exact Or.inr (List.mem_cons_of_mem _ h1)

theorem getD_mem_or_nil (stk : List (List RecordId)) (i : Nat) :
    stk.getD i [] = [] ∨ (stk.getD i [] ∈ stk ∧ i < stk.length) := by
  induction stk generalizing i with
  | nil => simp
  | cons g rest ih =>
    cases i with
    | zero => simp
    | succ j =>
      rcases ih j with h | h
      · exact Or.inl (by simpa using h)
      · refine Or.inr ⟨?_, by simpa using h.2⟩
        simp only [List.getD_cons_succ]
        exact List.mem_cons_of_mem _ h.1

theorem length_le_stkTotal (stk : List (List RecordId)) (fr : List RecordId) (h : fr ∈ stk) :
    fr.length ≤ stkTotal stk := by
  induction stk with
  | nil => simp at h
  | cons g rest ih =>
    simp only [stkTotal, List.map_cons, List.sum_cons]
    rcases List.mem_cons.1 h with h1 | h1
    · rw [h1]; omega
    · have := ih h1
      simp only [stkTotal] at this
      omega

theorem pendingPushes_cons (txn : Txn) (edgeClassIds : List Nat)
    (edgeFunc : Graph → RecordId → Nat → List RecordId) (pathFilter : PathFilter)
    (candidates visited : List RecordId) (vertex : RecordId)
    (hnd : candidates.Nodup) (hv : vertex ∈ candidates) (hnew : vertex ∉ visited) :
    pendingPushes txn edgeClassIds edgeFunc pathFilter (vertex :: visited) candidates
      + (getIncidentEdges txn edgeFunc vertex pathFilter edgeClassIds).length
      = pendingPushes txn edgeClassIds edgeFunc pathFilter visited candidates := by
  have hstep : ∀ a : RecordId, a ≠ vertex →
      (if a ∈ vertex :: visited then 0
        else (getIncidentEdges txn edgeFunc a pathFilter edgeClassIds).length)
      = (if a ∈ visited then 0
        else (getIncidentEdges txn edgeFunc a pathFilter edgeClassIds).length) := by
    intro a ha
    by_cases hav : a ∈ visited
    · rw [if_pos hav, if_pos (List.mem_cons_of_mem _ hav)]
    · rw [if_neg hav, if_neg (by simp [ha, hav])]
  have hout : ∀ l : List RecordId, vertex ∉ l →
      pendingPushes txn edgeClassIds edgeFunc pathFilter (vertex :: visited) l
        = pendingPushes txn edgeClassIds edgeFunc pathFilter visited l := by
    intro l hl
    induction l with
    | nil => rfl
    | cons a l ih =>
      have ha : a ≠ vertex := fun e => hl (by simp [e])
      have hl2 : vertex ∉ l := fun e => hl (List.mem_cons_of_mem _ e)
      simp only [pendingPushes, ih hl2, hstep a ha]
  induction candidates with
  | nil => simp at hv
  | cons a l ih =>
    have hnd2 := List.nodup_cons.1 hnd
    rcases List.mem_cons.1 hv with h1 | h1
    · subst h1
      simp only [pendingPushes, hout l hnd2.1, if_neg hnew,
        if_pos (List.mem_cons_self vertex visited)]
      omega
    · have ha : a ≠ vertex := fun e => hnd2.1 (e ▸ h1)
      have := ih hnd2.2 h1
      simp only [pendingPushes, hstep a ha]
      omega

theorem dfsPushEdges_bound (txn : Txn) (vertexFunc : Option (Graph → RecordId → RecordId))
    (hvf : ∀ f, vertexFunc = some f → f = Graph.getVertexSrc ∨ f = Graph.getVertexDst)
    (rid vertex : RecordId) (visited : List RecordId) (edges : List RecordDescriptor)
    (frontier : List RecordId) (hfr : ∀ v ∈ frontier, v ∈ vertexUniverse txn rid) :
    (dfsPushEdges txn vertexFunc vertex visited edges frontier).length
        ≤ frontier.length + edges.length
      ∧ ∀ v ∈ dfsPushEdges txn vertexFunc vertex visited edges frontier,
          v ∈ vertexUniverse txn rid := by
  induction edges generalizing frontier with
  | nil => exact ⟨by simp [dfsPushEdges], hfr⟩
  | cons edge rest ih =>
    unfold dfsPushEdges
    split
    · have := ih frontier hfr
      exact ⟨by simp only [List.length_cons]; omega, this.2⟩
    · have := ih (frontier ++ [nextVertex txn vertexFunc vertex edge]) (by
        intro v hv
        rcases List.mem_append.1 hv with h1 | h1
        · exact hfr v h1
        · simp only [List.mem_singleton] at h1
          rw [h1]
          exact nextVertex_mem txn vertexFunc hvf rid vertex edge)
      refine ⟨?_, this.2⟩
      have h2 := this.1
      simp only [List.length_append, List.length_cons, List.length_nil] at h2 ⊢
      omega

theorem pendingPushes_nil (txn : Txn) (edgeClassIds : List Nat)
    (edgeFunc : Graph → RecordId → Nat → List RecordId) (pathFilter : PathFilter)
    (l : List RecordId) :
    pendingPushes txn edgeClassIds edgeFunc pathFilter [] l =
      (l.map (fun v => (getIncidentEdges txn edgeFunc v pathFilter edgeClassIds).length)).sum := by
  induction l with
  | nil => rfl
  | cons a l ih => simp [pendingPushes, ih]

theorem dfsVisit_budget (txn : Txn) (rid : RecordId) (minDepth maxDepth : Nat)
    (edgeClassIds : List Nat) (edgeFunc : Graph → RecordId → Nat → List RecordId)
    (vertexFunc : Option (Graph → RecordId → RecordId)) (pathFilter : PathFilter)
    (hvf : ∀ f, vertexFunc = some f → f = Graph.getVertexSrc ∨ f = Graph.getVertexDst)
    (k : Nat) (st : DfsState) (vertex : RecordId) (hv : vertex ∈ vertexUniverse txn rid)
    (h : DfsBudget txn rid edgeClassIds edgeFunc pathFilter k st) :
    DfsBudget txn rid edgeClassIds edgeFunc pathFilter k
      (dfsVisit txn minDepth maxDepth edgeClassIds edgeFunc vertexFunc pathFilter st vertex) := by
  obtain ⟨hfr, hk⟩ := h
  unfold dfsVisit
  by_cases hmem : vertex ∈ st.visited
  · rw [if_pos hmem]
    exact ⟨hfr, hk⟩
  · rw [if_neg hmem]
    have hpend := pendingPushes_cons txn edgeClassIds edgeFunc pathFilter
      (vertexUniverse txn rid).dedup st.visited vertex (List.nodup_dedup _)
      (List.mem_dedup.2 hv) hmem
    dsimp only
    by_cases hmax : st.currentLevel < maxDepth
    · rw [if_pos hmax]
      have hs1 : stkTotal (if st.currentLevel + 1 = st.stk.length then st.stk ++ [[]]
            else st.stk) = stkTotal st.stk ∧
          ∀ fr ∈ (if st.currentLevel + 1 = st.stk.length then st.stk ++ [[]] else st.stk),
            ∀ v ∈ fr, v ∈ vertexUniverse txn rid := by
        split
        · refine ⟨by simp [stkTotal], ?_⟩
          intro fr hfr2 v hv2
          rcases List.mem_append.1 hfr2 with h1 | h1
          · exact hfr fr h1 v hv2
          · simp only [List.mem_singleton] at h1
            rw [h1] at hv2
            simp at hv2
        · exact ⟨rfl, hfr⟩
      generalize (if st.currentLevel + 1 = st.stk.length then st.stk ++ [[]] else st.stk)
        = stk1 at hs1 ⊢
      obtain ⟨htot, hfr1⟩ := hs1
      have hold : ∀ v ∈ stk1.getD (st.currentLevel + 1) [], v ∈ vertexUniverse txn rid := by
        intro v hv2
        rcases getD_mem_or_nil stk1 (st.currentLevel + 1) with h1 | h1
        · rw [h1] at hv2
          simp at hv2
        · exact hfr1 _ h1.1 v hv2
      have hpush := dfsPushEdges_bound txn vertexFunc hvf rid vertex (vertex :: st.visited)
        (getIncidentEdges txn edgeFunc vertex pathFilter edgeClassIds).reverse
        (stk1.getD (st.currentLevel + 1) []) hold
      rw [List.length_reverse] at hpush
      unfold DfsBudget
      dsimp only
      constructor
      · intro fr hfr2 v hv2
        rcases mem_of_mem_set _ _ _ _ hfr2 with h1 | h1
        · rw [h1] at hv2
          exact hpush.2 v hv2
        · exact hfr1 fr h1 v hv2
      · by_cases hi : st.currentLevel + 1 < stk1.length
        · have := stkTotal_set stk1 (st.currentLevel + 1)
            (dfsPushEdges txn vertexFunc vertex (vertex :: st.visited)
              (getIncidentEdges txn edgeFunc vertex pathFilter edgeClassIds).reverse
              (stk1.getD (st.currentLevel + 1) [])) hi
          have h3 := hpush.1
          omega
        · rw [set_of_length_le _ _ _ (by omega)]
          omega
    · rw [if_neg hmax]
      exact ⟨hfr, by dsimp only; omega⟩

theorem dfsStep_budget (txn : Txn) (rid : RecordId) (minDepth maxDepth : Nat)
    (edgeClassIds : List Nat) (edgeFunc : Graph → RecordId → Nat → List RecordId)
    (vertexFunc : Option (Graph → RecordId → RecordId)) (pathFilter : PathFilter)
    (hvf : ∀ f, vertexFunc = some f → f = Graph.getVertexSrc ∨ f = Graph.getVertexDst)
    (k : Nat) (st : DfsState) (vertex : RecordId)
    (htop : (st.stk.getD st.currentLevel []).getLast? = some vertex)
    (h : DfsBudget txn rid edgeClassIds edgeFunc pathFilter (k + 1) st) :
    DfsBudget txn rid edgeClassIds edgeFunc pathFilter k
      (dfsStep txn minDepth maxDepth edgeClassIds edgeFunc vertexFunc pathFilter st vertex) := by
  obtain ⟨hfr, hk⟩ := h
  have hvm := List.mem_of_getLast?_eq_some htop
  have hne : st.stk.getD st.currentLevel [] ≠ [] := List.ne_nil_of_mem hvm
  rcases getD_mem_or_nil st.stk st.currentLevel with h1 | ⟨h1, hi⟩
  · exact absurd h1 hne
  · have hv : vertex ∈ vertexUniverse txn rid := hfr _ h1 vertex hvm
    have hlen : 0 < (st.stk.getD st.currentLevel []).length := List.length_pos.2 hne
    have hset := stkTotal_set st.stk st.currentLevel
      (st.stk.getD st.currentLevel []).dropLast hi
    rw [List.length_dropLast] at hset
    have hpop : DfsBudget txn rid edgeClassIds edgeFunc pathFilter k
        { st with stk := (st.stk.set st.currentLevel
            (st.stk.getD st.currentLevel []).dropLast) } := by
      constructor
      · intro fr hfr2 v hv2
        rcases mem_of_mem_set _ _ _ _ hfr2 with h2 | h2
        · rw [h2] at hv2
          exact hfr _ h1 v (List.dropLast_subset _ hv2)
        · exact hfr fr h2 v hv2
      · dsimp only
        omega
    have := dfsVisit_budget txn rid minDepth maxDepth edgeClassIds edgeFunc vertexFunc
      pathFilter hvf k _ vertex hv hpop
    unfold dfsStep
    exact this

theorem dfsLoop_terminates (txn : Txn) (rid : RecordId) (minDepth maxDepth : Nat)
    (edgeClassIds : List Nat) (edgeFunc : Graph → RecordId → Nat → List RecordId)
    (vertexFunc : Option (Graph → RecordId → RecordId)) (pathFilter : PathFilter)
    (hvf : ∀ f, vertexFunc = some f → f = Graph.getVertexSrc ∨ f = Graph.getVertexDst)
    (fuel : Nat) (st : DfsState)
    (h : DfsBudget txn rid edgeClassIds edgeFunc pathFilter fuel st) :
    ∃ st1, dfsLoop txn minDepth maxDepth edgeClassIds edgeFunc vertexFunc pathFilter
      fuel st = .ok st1 := by
  induction fuel generalizing st with
  | zero =>
    have hempty : st.stk.getD st.currentLevel [] = [] := by
      rcases getD_mem_or_nil st.stk st.currentLevel with h1 | ⟨h1, _⟩
      · exact h1
      · have := length_le_stkTotal _ _ h1
        have h2 := h.2
        exact List.length_eq_zero.1 (by omega)
    refine ⟨st, ?_⟩
    unfold dfsLoop
    rw [hempty]
    rfl
  | succ fuel ih =>
    unfold dfsLoop
    split
    · exact ⟨st, rfl⟩
    · rename_i vertex htop
      exact ih _ (dfsStep_budget txn rid minDepth maxDepth edgeClassIds edgeFunc vertexFunc
        pathFilter hvf fuel st vertex htop h)

theorem depthFirstSearchRdesc_run (txn : Txn) (recordDescriptor : RecordDescriptor)
    (minDepth maxDepth : Nat) (edgeClassIds : List Nat)
    (edgeFunc : Graph → RecordId → Nat → List RecordId)
    (vertexFunc : Option (Graph → RecordId → RecordId)) (pathFilter : PathFilter)
    (hvf : ∀ f, vertexFunc = some f → f = Graph.getVertexSrc ∨ f = Graph.getVertexDst)
    (hex : Generic.checkIfRecordExist txn recordDescriptor ≠ .RECORD_NOT_EXIST) :
    ∃ res, depthFirstSearchRdesc txn recordDescriptor minDepth maxDepth
        edgeClassIds edgeFunc vertexFunc pathFilter = .ok res := by
  unfold depthFirstSearchRdesc
  split
  · rename_i h; exact absurd h hex
  · exact ⟨_, rfl⟩
  · obtain ⟨st1, hst1⟩ := dfsLoop_terminates txn recordDescriptor.rid minDepth maxDepth
      edgeClassIds edgeFunc vertexFunc pathFilter hvf
      (dfsFuel txn recordDescriptor.rid edgeClassIds edgeFunc pathFilter)
      { result := [], visited := [], stk := [[recordDescriptor.rid]], currentLevel := 0 }
      ⟨by
        intro fr hfr v hv
        simp only [List.mem_singleton] at hfr
        rw [hfr] at hv
        simp only [List.mem_singleton] at hv
        rw [hv]
        simp [vertexUniverse], by
        simp only [stkTotal, pendingPushes_nil, dfsFuel, List.map_cons, List.map_nil,
          List.length_cons, List.length_nil, List.sum_cons, List.sum_nil]
        omega⟩
    exact ⟨st1.result, by simp only [hst1]⟩

theorem retrieveRdesc_edge (txn : Txn) (edge : RecordId) (pathFilter : PathFilter)
    (f : Record → Bool) (hf : pathFilter.edgeFilter = some f) :
    retrieveRdesc txn edge pathFilter .EDGE =
      if f (txn.record edge) then RecordDescriptor.ofRid edge else RecordDescriptor.empty := by
  unfold retrieveRdesc
  cases hv : pathFilter.vertexFilter <;> simp [hf]

theorem getOutEdges_mem (txn : Txn) (vertex : RecordId) (pathFilter : PathFilter)
    (edgeClassIds : List Nat) (edge : RecordDescriptor)
    (h : edge ∈ getOutEdges txn vertex pathFilter edgeClassIds) :
    (∃ classId, ((edgeClassIds = [] ∧ classId = 0) ∨ classId ∈ edgeClassIds) ∧
      edge.rid ∈ txn.dbRelation.getEdgeOut vertex classId) ∧
    (∀ f, pathFilter.edgeFilter = some f → f (txn.record edge.rid) = true) := by
  have hkeep : ∀ classId, edge ∈ ((txn.dbRelation.getEdgeOut vertex classId).filter
      (fun edge => !(if pathFilter.isEnable then retrieveRdesc txn edge pathFilter .EDGE
        else RecordDescriptor.ofRid edge).isEmpty)).map RecordDescriptor.ofRid →
      edge.rid ∈ txn.dbRelation.getEdgeOut vertex classId ∧
      (∀ f, pathFilter.edgeFilter = some f → f (txn.record edge.rid) = true) := by
    intro classId hm
    obtain ⟨e, he, hee⟩ := List.mem_map.1 hm
    obtain ⟨he1, he2⟩ := List.mem_filter.1 he
    subst hee
    refine ⟨he1, ?_⟩
    intro f hf
    have hen : pathFilter.isEnable = true := by
      simp [PathFilter.isEnable, PathFilter.isSetEdge, hf]
    rw [hen, if_pos rfl, retrieveRdesc_edge txn e pathFilter f hf] at he2
    by_cases hfe : f (txn.record e) = true
    · exact hfe
    · rw [if_neg hfe] at he2
      simp [RecordDescriptor.isEmpty, RecordDescriptor.empty] at he2
  unfold getOutEdges at h
  dsimp only at h
  split at h
  · rename_i hemp
    have hnil : edgeClassIds = [] := List.isEmpty_iff.1 hemp
    have := hkeep 0 h
    exact ⟨⟨0, Or.inl ⟨hnil, rfl⟩, this.1⟩, this.2⟩
  · obtain ⟨c, hc, hm⟩ := List.mem_flatMap.1 h
    have := hkeep c hm
    exact ⟨⟨c, Or.inr hc, this.1⟩, this.2⟩

theorem outStep_of_mem (txn : Txn) (vertex : RecordId) (pathFilter : PathFilter)
    (edgeClassIds : List Nat) (edge : RecordDescriptor)
    (h : edge ∈ getOutEdges txn vertex pathFilter edgeClassIds) :
    OutStep txn pathFilter edgeClassIds vertex (txn.dbRelation.getVertexDst edge.rid) := by
  obtain ⟨h1, h2⟩ := getOutEdges_mem txn vertex pathFilter edgeClassIds edge h
  exact ⟨edge.rid, h1, h2, rfl⟩

theorem lookup_cons_isSome {α β : Type} [BEq α] [LawfulBEq α] (l : List (α × β)) (x : α × β) (k : α)
    (h : (l.lookup k).isSome) : ((x :: l).lookup k).isSome := by
  obtain ⟨a, b⟩ := x
  by_cases hk : k = a
  · simp [List.lookup, hk]
  · have : (k == a) = false := by simpa using hk
    simpa [List.lookup, this] using h

theorem lookup_none_not_mem {α β : Type} [BEq α] [LawfulBEq α] (l : List (α × β)) (k : α)
    (h : l.lookup k = none) : k ∉ l.map Prod.fst := by
  intro hm
  obtain ⟨x, hx, hxk⟩ := List.mem_map.1 hm
  have := parser.lookup_isSome_of_mem l x hx
  rw [hxk, h] at this
  simp at this

theorem VisitedOk.src_key {txn : Txn} {pathFilter : PathFilter} {edgeClassIds : List Nat}
    {srcRid : RecordId} {l : List (RecordId × (RecordDescriptor × RecordId))}
    (h : VisitedOk txn pathFilter edgeClassIds srcRid l) : (l.lookup srcRid).isSome := by
  induction h with
  | base => simp [List.lookup]
  | cons v d p l _ _ _ _ _ ih => exact lookup_cons_isSome l _ srcRid ih

theorem VisitedOk.nodup_keys {txn : Txn} {pathFilter : PathFilter} {edgeClassIds : List Nat}
    {srcRid : RecordId} {l : List (RecordId × (RecordDescriptor × RecordId))}
    (h : VisitedOk txn pathFilter edgeClassIds srcRid l) : (l.map Prod.fst).Nodup := by
  induction h with
  | base => simp
  | cons v d p l _ hnone _ _ _ ih =>
    simp only [List.map_cons]
    exact List.nodup_cons.2 ⟨lookup_none_not_mem l v hnone, ih⟩

theorem SpInv.mono {txn : Txn} {pathFilter : PathFilter} {edgeClassIds : List Nat}
    {srcRid dstRid : RecordId} {k k1 : Nat} {st : SpState} (hk : k ≤ k1)
    (h : SpInv txn pathFilter edgeClassIds srcRid dstRid k st) :
    SpInv txn pathFilter edgeClassIds srcRid dstRid k1 st :=
  ⟨h.1, h.2.1, h.2.2.1, h.2.2.2.1, Nat.le_trans h.2.2.2.2 hk⟩

theorem spDiscover_inv (txn : Txn) (pathFilter : PathFilter) (edgeClassIds : List Nat)
    (srcRid dstRid : RecordId) (k : Nat) (vertex : RecordId) (st : SpState)
    (edge : RecordDescriptor)
    (hedge : edge ∈ getOutEdges txn vertex pathFilter edgeClassIds)
    (hkey : (st.visited.lookup vertex).isSome)
    (h : SpInv txn pathFilter edgeClassIds srcRid dstRid k st) :
    SpInv txn pathFilter edgeClassIds srcRid dstRid k (spDiscover txn pathFilter vertex st edge)
      ∧ ((spDiscover txn pathFilter vertex st edge).visited.lookup vertex).isSome
      ∧ (spDiscover txn pathFilter vertex st edge).found = st.found := by
  obtain ⟨hok, hq, hu, hf, hk⟩ := h
  unfold spDiscover
  dsimp only
  by_cases hnew : (st.visited.lookup (txn.dbRelation.getVertexDst edge.rid)).isNone = true
  · rw [if_pos hnew]
    have hrd := vertexRdesc_rid txn (txn.dbRelation.getVertexDst edge.rid) pathFilter
      (pathFilter.isSetVertex || pathFilter.isSetEdge)
    by_cases hacc : ¬ (if (pathFilter.isSetVertex || pathFilter.isSetEdge) = true then
        retrieveRdesc txn (txn.dbRelation.getVertexDst edge.rid) pathFilter .VERTEX
        else RecordDescriptor.ofRid (txn.dbRelation.getVertexDst edge.rid)).isEmpty = true
    · rw [if_pos hacc]
      have hnone : st.visited.lookup (txn.dbRelation.getVertexDst edge.rid) = none := by
        simpa using hnew
      have hok2 := VisitedOk.cons (txn.dbRelation.getVertexDst edge.rid) _ vertex st.visited
        hok hnone (hrd hacc) hkey (outStep_of_mem txn vertex pathFilter edgeClassIds edge hedge)
      have hlen : ((txn.dbRelation.getVertexDst edge.rid) ::
          st.visited.map Prod.fst).length ≤ (vertexUniverse txn srcRid).length := by
        have hsubperm : ∀ (a b : List RecordId), a.Nodup → a ⊆ b → a.length ≤ b.length :=
          fun a b h1 h2 => (List.Nodup.subperm h1 h2).length_le
        apply hsubperm _ (vertexUniverse txn srcRid)
        · have := hok2.nodup_keys
          simpa using this
        · intro x hx
          rcases List.mem_cons.1 hx with h1 | h1
          · rw [h1]; exact getVertexDst_mem txn srcRid edge.rid
          · obtain ⟨e, he, hee⟩ := List.mem_map.1 h1
            rw [← hee]; exact hu e he
      simp only [List.length_cons, List.length_map] at hlen
      refine ⟨⟨hok2, ?_, ?_, ?_, ?_⟩, lookup_cons_isSome _ _ _ hkey, rfl⟩
      · intro v hv
        rcases List.mem_append.1 hv with h1 | h1
        · exact lookup_cons_isSome _ _ _ (hq v h1)
        · simp only [List.mem_singleton] at h1
          simp [List.lookup, h1]
      · intro e he
        rcases List.mem_cons.1 he with h1 | h1
        · rw [h1]; exact getVertexDst_mem txn srcRid edge.rid
        · exact hu e h1
      · intro hfound
        obtain ⟨p, hp1, hp2⟩ := hf hfound
        exact ⟨p, lookup_cons_isSome _ _ _ hp1, hp2⟩
      · simp only [List.length_append, List.length_cons, List.length_nil]
        omega
    · rw [if_neg hacc]
      exact ⟨⟨hok, hq, hu, hf, hk⟩, hkey, rfl⟩
  · rw [if_neg hnew]
    exact ⟨⟨hok, hq, hu, hf, hk⟩, hkey, rfl⟩

theorem spVisitEdges_inv (txn : Txn) (pathFilter : PathFilter) (edgeClassIds : List Nat)
    (srcRid dstRid : RecordId) (k : Nat) (vertex : RecordId)
    (edges : List RecordDescriptor)
    (hedges : ∀ edge ∈ edges, edge ∈ getOutEdges txn vertex pathFilter edgeClassIds)
    (st : SpState) (hkey : (st.visited.lookup vertex).isSome)
    (h : SpInv txn pathFilter edgeClassIds srcRid dstRid k st) :
    SpInv txn pathFilter edgeClassIds srcRid dstRid k
      (spVisitEdges txn dstRid pathFilter vertex edges st) := by
  induction edges generalizing st with
  | nil => exact h
  | cons edge rest ih =>
    have hmem := hedges edge (List.mem_cons_self _ _)
    obtain ⟨hinv, hkey2, -⟩ := spDiscover_inv txn pathFilter edgeClassIds srcRid dstRid k
      vertex st edge hmem hkey h
    unfold spVisitEdges
    split
    · rename_i hdst
      obtain ⟨hok, hq, hu, -, hk⟩ := hinv
      refine ⟨hok, hq, hu, fun _ => ⟨vertex, hkey2, ?_⟩, hk⟩
      have := outStep_of_mem txn vertex pathFilter edgeClassIds edge hmem
      rwa [hdst] at this
    · exact ih (fun e he => hedges e (List.mem_cons_of_mem _ he)) _ hkey2 hinv

theorem spLoop_spec (txn : Txn) (pathFilter : PathFilter) (edgeClassIds : List Nat)
    (srcRid dstRid : RecordId) (fuel : Nat) (st : SpState)
    (h : SpInv txn pathFilter edgeClassIds srcRid dstRid fuel st) :
    ∃ st1, spLoop txn dstRid edgeClassIds pathFilter fuel st = .ok st1 ∧
      SpInv txn pathFilter edgeClassIds srcRid dstRid fuel st1 := by
  induction fuel generalizing st with
  | zero =>
    have hq : st.queue = [] := List.length_eq_zero.1 (by have := h.2.2.2.2; omega)
    exact ⟨st, by simp [spLoop, hq], h⟩
  | succ fuel ih =>
    unfold spLoop
    split
    · exact ⟨st, rfl, h⟩
    · split
      · exact ⟨st, rfl, h⟩
      · rename_i vertex queue hq
        obtain ⟨hok, hqk, hu, hf, hk⟩ := h
        have hkey : (st.visited.lookup vertex).isSome := hqk vertex (by simp [hq])
        have hdeq : SpInv txn pathFilter edgeClassIds srcRid dstRid fuel
            { st with queue := queue } := by
          refine ⟨hok, fun v hv => hqk v (by simp [hq, hv]), hu, hf, ?_⟩
          rw [hq] at hk
          simp only [List.length_cons] at hk
          dsimp only
          omega
        obtain ⟨st1, hst1, hinv⟩ := ih _ (spVisitEdges_inv txn pathFilter edgeClassIds srcRid
          dstRid fuel vertex _ (fun _ he => he) { st with queue := queue } hkey hdeq)
        exact ⟨st1, hst1, hinv.mono (Nat.le_succ _)⟩

theorem outStep_edgeStep (txn : Txn) (pathFilter : PathFilter) (edgeClassIds : List Nat)
    (a b : RecordId) (h : OutStep txn pathFilter edgeClassIds a b) : EdgeStep txn a b := by
  obtain ⟨edge, ⟨c, _, hc⟩, _, hd⟩ := h
  exact ⟨c, edge, hc, hd⟩

theorem VisitedOk.reachable {txn : Txn} {pathFilter : PathFilter} {edgeClassIds : List Nat}
    {srcRid : RecordId} {l : List (RecordId × (RecordDescriptor × RecordId))}
    (h : VisitedOk txn pathFilter edgeClassIds srcRid l) (v : RecordId)
    (hv : (l.lookup v).isSome) : Reachable txn srcRid v := by
  induction h generalizing v with
  | base =>
    by_cases hvs : v = srcRid
    · rw [hvs]; exact Relation.ReflTransGen.refl
    · have : (v == srcRid) = false := by simpa using hvs
      simp [List.lookup, this] at hv
  | cons u d p l _ _ _ hp hstep ih =>
    by_cases hvu : v = u
    · rw [hvu]
      exact Relation.ReflTransGen.tail (ih p hp) (outStep_edgeStep _ _ _ _ _ hstep)
    · have : (v == u) = false := by simpa using hvu
      simp only [List.lookup, this] at hv
      exact ih v hv

theorem VisitedOk.lookup_suffix {txn : Txn} {pathFilter : PathFilter}
    {edgeClassIds : List Nat} {srcRid : RecordId}
    (pre l full : List (RecordId × (RecordDescriptor × RecordId)))
    (hfull : VisitedOk txn pathFilter edgeClassIds srcRid full) (hpre : full = pre ++ l)
    (v : RecordId) (hv : (l.lookup v).isSome) : full.lookup v = l.lookup v := by
  induction pre generalizing full with
  | nil => rw [hpre]; rfl
  | cons x pre ih =>
    cases hfull with
    | base =>
      have hl : l = [] := by
        have := congrArg List.length hpre
        simp only [List.length_cons, List.length_nil, List.cons_append, List.length_append] at this
        exact List.length_eq_zero.1 (by omega)
      rw [hl] at hv
      simp at hv
    | cons u d p l0 hok hnone hd hp hstep =>
      simp only [List.cons_append, List.cons.injEq] at hpre
      have h1 := ih l0 hok hpre.2
      have hvu : v ≠ u := by
        intro e
        rw [← h1, e, hnone] at hv
        simp at hv
      have : (v == u) = false := by simpa using hvu
      simp only [List.lookup, this]
      exact h1

theorem spWalk_spec (txn : Txn) (pathFilter : PathFilter) (edgeClassIds : List Nat)
    (srcRid : RecordId) (full : List (RecordId × (RecordDescriptor × RecordId)))
    (hfull : VisitedOk txn pathFilter edgeClassIds srcRid full)
    (l : List (RecordId × (RecordDescriptor × RecordId)))
    (hl : VisitedOk txn pathFilter edgeClassIds srcRid l) :
    ∀ pre, full = pre ++ l → ∀ v, (l.lookup v).isSome → ∀ fuel, l.length ≤ fuel →
    ∀ acc, ∃ path : List RecordDescriptor,
      spWalk full srcRid fuel v acc = .ok (acc ++ path) ∧
      List.Chain' (fun b a => OutStep txn pathFilter edgeClassIds a b)
        (path.map (fun d => d.rid) ++ [srcRid]) ∧
      (path.map (fun d => d.rid) ++ [srcRid]).head? = some v := by
  induction hl with
  | base =>
    intro pre _ v hv fuel hfuel acc
    have hvs : v = srcRid := by
      by_contra hne
      have : (v == srcRid) = false := by simpa using hne
      simp [List.lookup, this] at hv
    refine ⟨[], ?_, by simp, by simp [hvs]⟩
    cases fuel with
    | zero => simp at hfuel
    | succ f => simp [spWalk, hvs]
  | cons u d p l0 hok hnone hd hp hstep ih =>
    intro pre hpre v hv fuel hfuel acc
    by_cases hvu : v = u
    · have hus : u ≠ srcRid := by
        intro e
        have := hok.src_key
        rw [← e, hnone] at this
        simp at this
      cases fuel with
      | zero => simp at hfuel
      | succ f =>
        have hlook : full.lookup u = some (d, p) := by
          have := VisitedOk.lookup_suffix pre ((u, (d, p)) :: l0) full hfull hpre u
            (by simp [List.lookup])
          rw [this]
          simp [List.lookup]
        obtain ⟨path, hwalk, hchain, hhead⟩ := ih (pre ++ [(u, (d, p))])
          (by rw [hpre]; simp) p hp f (by simpa using hfuel) (acc ++ [d])
        refine ⟨d :: path, ?_, ?_, ?_⟩
        · rw [hvu]
          simp only [spWalk, ne_eq, hus, not_false_eq_true, if_true, hlook]
          rw [hwalk]
          simp
        · simp only [List.map_cons, List.cons_append]
          rw [List.chain'_cons']
          refine ⟨?_, hchain⟩
          intro y hy
          rw [hhead] at hy
          cases hy
          rw [hd]
          exact hstep
        · simp [hd, hvu]
    · have hne : (v == u) = false := by simpa using hvu
      simp only [List.lookup, hne] at hv
      exact ih (pre ++ [(u, (d, p))]) (by rw [hpre]; simp) v hv fuel
        (by simp only [List.length_cons] at hfuel; omega) acc

theorem map_rid_assignDepths (n : Nat) (l : List RecordDescriptor) :
    (assignDepths n l).map (fun d => d.rid) = l.map (fun d => d.rid) := by
  induction l generalizing n with
  | nil => rfl
  | cons d l ih => simp [assignDepths, ih]

theorem length_assignDepths (n : Nat) (l : List RecordDescriptor) :
    (assignDepths n l).length = l.length := by
  induction l generalizing n with
  | nil => rfl
  | cons d l ih => simp [assignDepths, ih]

theorem depth_assignDepths (n : Nat) (l : List RecordDescriptor) (i : Nat)
    (hi : i < (assignDepths n l).length) :
    ((assignDepths n l).get ⟨i, hi⟩).depth = n + i := by
  induction l generalizing n i with
  | nil => simp [assignDepths] at hi
  | cons d l ih =>
    cases i with
    | zero => simp [assignDepths]
    | succ j =>
      simp only [assignDepths, List.get_cons_succ]
      have h2 : j < (assignDepths (n + 1) l).length := by
        simp only [assignDepths, List.length_cons] at hi
        omega
      have := ih (n + 1) j h2
      simp only [List.get_eq_getElem] at this ⊢
      rw [this]
      omega

theorem bfsShortestPathRdesc_search (txn : Txn) (src dst : RecordDescriptor)
    (edgeClassIds : List Nat) (pathFilter : PathFilter)
    (hsrc : Generic.checkIfRecordExist txn src = .RECORD_EXIST)
    (hdst : Generic.checkIfRecordExist txn dst = .RECORD_EXIST)
    (hne : src.rid ≠ dst.rid) :
    ∃ st1 : SpState,
      SpInv txn pathFilter edgeClassIds src.rid dst.rid (traversalFuel txn) st1 ∧
      bfsShortestPathRdesc txn src dst edgeClassIds pathFilter =
        (if st1.found then
          match spWalk st1.visited src.rid st1.visited.length dst.rid [] with
          | .error e => .error e
          | .ok result => .ok (assignDepths 0 (result ++ [src]).reverse)
        else .ok []) := by
  obtain ⟨st1, hrun, hinv⟩ := spLoop_spec txn pathFilter edgeClassIds src.rid dst.rid
    (traversalFuel txn)
    { visited := [(src.rid, (RecordDescriptor.empty, (0, 0)))], queue := [src.rid],
      found := false }
    ⟨VisitedOk.base, by simp [List.lookup], by simp [vertexUniverse], by simp, by
      have := length_vertexUniverse txn src.rid
      dsimp only
      simp only [List.length_cons, List.length_nil]
      omega⟩
  refine ⟨st1, hinv, ?_⟩
  unfold bfsShortestPathRdesc
  simp only [hsrc, hdst, hne, hrun]
  simp

theorem breadthFirstSearchRdesc_returns (txn : Txn) (recordDescriptor : RecordDescriptor)
    (minDepth maxDepth : Nat) (edgeClassIds : List Nat)
    (edgeFunc : Graph → RecordId → Nat → List RecordId)
    (vertexFunc : Option (Graph → RecordId → RecordId)) (pathFilter : PathFilter)
    (hvf : ∀ f, vertexFunc = some f → f = Graph.getVertexSrc ∨ f = Graph.getVertexDst)
    (hex : Generic.checkIfRecordExist txn recordDescriptor ≠ .RECORD_NOT_EXIST) :
    ∃ res, breadthFirstSearchRdesc txn recordDescriptor minDepth maxDepth edgeClassIds
        edgeFunc vertexFunc pathFilter = .ok res := by
  cases hstat : Generic.checkIfRecordExist txn recordDescriptor with
  | RECORD_NOT_EXIST => exact absurd hstat hex
  | RECORD_NOT_EXIST_IN_MEMORY =>
    exact ⟨_, by unfold breadthFirstSearchRdesc; rw [hstat]⟩
  | RECORD_EXIST =>
    obtain ⟨st1, hrun⟩ := breadthFirstSearchRdesc_run txn recordDescriptor minDepth maxDepth
      edgeClassIds edgeFunc vertexFunc pathFilter hvf hstat
    exact ⟨_, hrun⟩

end Algorithm

/-! ## Index lemmas -/

namespace Datastore

theorem moveTo_some {K V : Type} (c : CursorHandler K V) (i : Nat) (e : K × V)
    (h : c.content[i]? = some e) : moveTo c i = (some e, ⟨c.content, some i⟩) := by
  simp [moveTo, h]

theorem moveTo_none {K V : Type} (c : CursorHandler K V) (i : Nat)
    (h : c.content[i]? = none) : moveTo c i = (none, c) := by
  simp [moveTo, h]

theorem drop_takeWhile_length {α : Type} (p : α → Bool) (l : List α) :
    l.drop (l.takeWhile p).length = l.dropWhile p := by
  induction l with
  | nil => rfl
  | cons a l ih => by_cases h : p a = true <;> simp [List.takeWhile, List.dropWhile, h, ih]

theorem takeWhile_eq_filter_of_sorted {α : Type} (r : α → α → Prop) (p : α → Bool)
    (l : List α) (hs : l.Pairwise r)
    (hp : ∀ a ∈ l, ∀ b ∈ l, r a b → p b = true → p a = true) :
    l.takeWhile p = l.filter p := by
  induction l with
  | nil => rfl
  | cons a l ih =>
    rw [List.pairwise_cons] at hs
    have ih1 := ih hs.2 (fun x hx y hy => hp x (List.mem_cons_of_mem _ hx) y
      (List.mem_cons_of_mem _ hy))
    by_cases h : p a = true
    · simp [List.takeWhile, h, ih1]
    · have hnil : l.filter p = [] := by
        rw [List.filter_eq_nil_iff]
        intro b hb hpb
        exact h (hp a (List.mem_cons_self _ _) b (List.mem_cons_of_mem _ hb) (hs.1 b hb) hpb)
      simp [List.takeWhile, h, hnil]

theorem dropWhile_eq_filter_of_sorted {α : Type} (r : α → α → Prop) (p : α → Bool)
    (l : List α) (hs : l.Pairwise r)
    (hp : ∀ a ∈ l, ∀ b ∈ l, r a b → p b = true → p a = true) :
    l.dropWhile p = l.filter (fun e => !p e) := by
  induction l with
  | nil => rfl
  | cons a l ih =>
    rw [List.pairwise_cons] at hs
    have ih1 := ih hs.2 (fun x hx y hy => hp x (List.mem_cons_of_mem _ hx) y
      (List.mem_cons_of_mem _ hy))
    by_cases h : p a = true
    · simp [List.dropWhile, h, ih1]
    · have hall : l.filter (fun e => !p e) = l := by
        rw [List.filter_eq_self]
        intro b hb
        by_cases hpb : p b = true
        · exact absurd (hp a (List.mem_cons_self _ _) b (List.mem_cons_of_mem _ hb)
            (hs.1 b hb) hpb) h
        · simp [hpb]
      simp [List.dropWhile, h, hall]

theorem take_takeWhile_length {α : Type} (p : α → Bool) (l : List α) :
    l.take (l.takeWhile p).length = l.takeWhile p := by
  induction l with
  | nil => rfl
  | cons a l ih => by_cases h : p a = true <;> simp [List.takeWhile, h, ih]

end Datastore

namespace Index

open Datastore

theorem getElem_drop_cons {α : Type} (l : List α) (i : Nat) (e : α) (h : l[i]? = some e) :
    l.drop i = e :: l.drop (i + 1) := by
  have hi : i < l.length := by
    by_contra hc
    rw [List.getElem?_eq_none (by omega)] at h
    cases h
  rw [List.getElem?_eq_getElem hi] at h
  cases h
  exact List.drop_eq_getElem_cons hi

theorem drop_eq_nil_of_getElem_none {α : Type} (l : List α) (i : Nat) (h : l[i]? = none) :
    l.drop i = [] := by
  rw [List.getElem?_eq_none_iff] at h
  exact List.drop_eq_nil_of_le h

/-- What the loop of `forwardSearchIndex` collects from the entries still ahead. -/
theorem forwardLoop_spec {K : Type} [DecidableEq K] (classId : Nat) (value : K)
    (l : List (K × Nat)) :
    ∀ (fuel i : Nat) (pos0 : Option Nat) (isInclude : Bool) (result : List RecordDescriptor),
      l.length - i < fuel →
      ∃ c, forwardLoop classId value fuel (moveTo ⟨l, pos0⟩ i) isInclude result =
        .ok (result ++ ((if isInclude then l.drop i
          else (l.drop i).dropWhile (fun e => decide (e.1 = value))).map
            (fun e => RecordDescriptor.ofRid (classId, e.2))), c) := by
  intro fuel
  induction fuel with
  | zero => intro i pos0 isInclude result h; omega
  | succ fuel ih =>
    intro i pos0 isInclude result h
    cases hget : l[i]? with
    | none =>
      rw [moveTo_none _ _ hget, drop_eq_nil_of_getElem_none l i hget]
      exact ⟨⟨l, pos0⟩, by simp [forwardLoop]⟩
    | some e =>
      have hi : i < l.length := by
        by_contra hc
        rw [List.getElem?_eq_none (by omega)] at hget
        cases hget
      rw [moveTo_some _ _ _ hget, getElem_drop_cons l i e hget]
      obtain ⟨c1, h1⟩ := ih (i + 1) (some i) isInclude result (by omega)
      obtain ⟨c2, h2⟩ := ih (i + 1) (some i) true
        (result ++ [RecordDescriptor.ofRid (classId, e.2)]) (by omega)
      have hnext : getNextCursor (⟨l, some i⟩ : CursorHandler K Nat) =
          moveTo ⟨l, some i⟩ (i + 1) := rfl
      by_cases hskip : (!isInclude && decide (e.1 = value)) = true
      · refine ⟨c1, ?_⟩
        simp only [forwardLoop, hskip, if_true, hnext, h1]
        simp only [Bool.and_eq_true, Bool.not_eq_true', decide_eq_true_eq] at hskip
        simp [hskip.1, hskip.2]
      · refine ⟨c2, ?_⟩
        simp only [forwardLoop, hskip, hnext, h2]
        cases isInclude with
        | true => simp
        | false =>
          have hne : ¬ e.1 = value := by simpa using hskip
          simp [List.dropWhile, hne]

/-- On a sub-database ordered by key, `forwardSearchIndex` returns the entries whose
key is at least (above, when `isInclude` is false) `value`, in stored order. -/
theorem forwardSearchIndex_spec {K : Type} [LinearOrder K] (classId : Nat) (value : K)
    (l : List (K × Nat)) (hs : l.Pairwise (fun a b => a.1 ≤ b.1)) (isInclude : Bool) :
    ∃ c, forwardSearchIndex (openCursor l) classId value isInclude =
      .ok ((l.filter (fun e => if isInclude then decide (value ≤ e.1)
        else decide (value < e.1))).map (fun e => RecordDescriptor.ofRid (classId, e.2)), c) := by
  obtain ⟨c, hc⟩ := forwardLoop_spec classId value l (l.length + 1)
    (l.takeWhile (fun e : K × Nat => decide (e.1 < value))).length none isInclude [] (by omega)
  refine ⟨c, ?_⟩
  unfold forwardSearchIndex getSetRangeCursor openCursor
  rw [hc, drop_takeWhile_length]
  have h1 : l.dropWhile (fun e => decide (e.1 < value)) =
      l.filter (fun e => !decide (e.1 < value)) :=
    dropWhile_eq_filter_of_sorted (fun a b => a.1 ≤ b.1) _ l hs (by
      intro a _ b _ hab hb
      simp only [decide_eq_true_eq] at hb ⊢
      exact lt_of_le_of_lt hab hb)
  rw [h1]
  cases isInclude with
  | true =>
    have hf : l.filter (fun e => !decide (e.1 < value)) =
        l.filter (fun e => decide (value ≤ e.1)) :=
      List.filter_congr (fun e _ => by
        by_cases hle : value ≤ e.1
        · simp [hle, not_lt_of_ge hle]
        · simp [hle, not_le.mp hle])
    simp only [List.nil_append, if_true, hf]
  | false =>
    simp only [List.nil_append, Bool.false_eq_true, if_false]
    have h2 : (l.filter (fun e => !decide (e.1 < value))).dropWhile
        (fun e => decide (e.1 = value)) =
        (l.filter (fun e => !decide (e.1 < value))).filter
          (fun e => !decide (e.1 = value)) :=
      dropWhile_eq_filter_of_sorted (fun a b => a.1 ≤ b.1) _ _ (hs.filter _) (by
        intro a ha b _ hab hb
        simp only [List.mem_filter, Bool.not_eq_true', decide_eq_false_iff_not, not_lt] at ha
        simp only [decide_eq_true_eq] at hb ⊢
        exact le_antisymm (hb ▸ hab) ha.2)
    have hf : l.filter (fun a => !decide (a.1 = value) && !decide (a.1 < value)) =
        l.filter (fun e => decide (value < e.1)) := by
      apply List.filter_congr
      intro e _
      by_cases hlt : value < e.1
      · simp [hlt, ne_of_gt hlt, not_lt_of_gt hlt]
      · by_cases heq : e.1 = value
        · simp [heq]
        · have hlt2 : e.1 < value := lt_of_le_of_ne (not_lt.mp hlt) heq
          simp [hlt, heq, hlt2]
    rw [h2, List.filter_filter, hf]

/-- What the loop of `betweenSearchIndex` collects from the entries still ahead, on a
sub-database ordered by key, once the cursor stands at or after `lower`. -/
theorem betweenLoop_spec {K : Type} [LinearOrder K] (classId : Nat) (lower upper : K)
    (isIncludeBound : Bool × Bool) (l : List (K × Nat))
    (hs : l.Pairwise (fun a b => a.1 ≤ b.1)) :
    ∀ (fuel i : Nat) (pos0 : Option Nat) (result : List RecordDescriptor),
      l.length - i < fuel → (∀ e ∈ l.drop i, lower ≤ e.1) →
      ∃ c, betweenLoop classId lower upper isIncludeBound fuel (moveTo ⟨l, pos0⟩ i) result =
        .ok (result ++ ((l.drop i).filter (fun e =>
          (if isIncludeBound.1 then decide (lower ≤ e.1) else decide (lower < e.1)) &&
          (if isIncludeBound.2 then decide (e.1 ≤ upper) else decide (e.1 < upper)))).map
            (fun e => RecordDescriptor.ofRid (classId, e.2)), c) := by
  intro fuel
  induction fuel with
  | zero => intro i pos0 result h; omega
  | succ fuel ih =>
    intro i pos0 result h hlow
    cases hget : l[i]? with
    | none =>
      rw [moveTo_none _ _ hget, drop_eq_nil_of_getElem_none l i hget]
      exact ⟨⟨l, pos0⟩, by simp [betweenLoop]⟩
    | some e =>
      have hi : i < l.length := by
        by_contra hc
        rw [List.getElem?_eq_none (by omega)] at hget
        cases hget
      have hdrop := getElem_drop_cons l i e hget
      have hsd : (l.drop i).Pairwise (fun a b => a.1 ≤ b.1) :=
        hs.sublist (List.drop_sublist i l)
      rw [hdrop] at hsd hlow
      rw [List.pairwise_cons] at hsd
      have hlow1 : ∀ x ∈ l.drop (i + 1), lower ≤ x.1 :=
        fun x hx => hlow x (List.mem_cons_of_mem _ hx)
      have hle : lower ≤ e.1 := hlow e (List.mem_cons_self _ _)
      rw [moveTo_some _ _ _ hget, hdrop]
      have hnext : getNextCursor (⟨l, some i⟩ : CursorHandler K Nat) =
          moveTo ⟨l, some i⟩ (i + 1) := rfl
      by_cases hskip : (!isIncludeBound.1 && decide (e.1 = lower)) = true
      · obtain ⟨c1, h1⟩ := ih (i + 1) (some i) result (by omega) hlow1
        refine ⟨c1, ?_⟩
        simp only [betweenLoop, hskip, if_true, hnext, h1]
        simp only [Bool.and_eq_true, Bool.not_eq_true', decide_eq_true_eq] at hskip
        simp [hskip.1, hskip.2]
      · by_cases hstop : ((!isIncludeBound.2 && decide (e.1 = upper)) ||
            decide (e.1 > upper)) = true
        · refine ⟨⟨l, some i⟩, ?_⟩
          simp only [betweenLoop, hskip, hstop, if_true]
          have hnil : (e :: l.drop (i + 1)).filter (fun e =>
              (if isIncludeBound.1 then decide (lower ≤ e.1) else decide (lower < e.1)) &&
              (if isIncludeBound.2 then decide (e.1 ≤ upper) else decide (e.1 < upper))) = [] := by
            rw [List.filter_eq_nil_iff]
            intro x hx
            have hex : e.1 ≤ x.1 := by
              rcases List.mem_cons.mp hx with hxe | hxr
              · rw [hxe]
              · exact hsd.1 x hxr
            simp only [Bool.or_eq_true, Bool.and_eq_true, Bool.not_eq_true',
              decide_eq_true_eq] at hstop
            rcases hstop with ⟨h2, heq⟩ | hgt
            · have : ¬ x.1 < upper := not_lt.mpr (heq ▸ hex)
              simp [h2, this]
            · have hgt2 : upper < x.1 := lt_of_lt_of_le hgt hex
              cases hb : isIncludeBound.2 <;> simp [not_le.mpr hgt2, not_lt.mpr (le_of_lt hgt2)]
          rw [hnil]
          simp
        · obtain ⟨c2, h2⟩ := ih (i + 1) (some i)
            (result ++ [RecordDescriptor.ofRid (classId, e.2)]) (by omega) hlow1
          refine ⟨c2, ?_⟩
          simp only [betweenLoop, hskip, hstop, hnext, h2]
          have hin : ((if isIncludeBound.1 then decide (lower ≤ e.1) else decide (lower < e.1)) &&
              (if isIncludeBound.2 then decide (e.1 ≤ upper) else decide (e.1 < upper))) = true := by
            simp only [Bool.or_eq_true, Bool.and_eq_true, Bool.not_eq_true',
              decide_eq_true_eq, not_or, not_and, not_lt] at hstop hskip
            rw [Bool.and_eq_true]
            constructor
            · cases hb : isIncludeBound.1
              · simp only [Bool.false_eq_true, if_false, decide_eq_true_eq]
                exact lt_of_le_of_ne hle (fun hh => hskip hb hh.symm)
              · simpa using hle
            · cases hb : isIncludeBound.2
              · simp only [Bool.false_eq_true, if_false, decide_eq_true_eq]
                exact lt_of_le_of_ne hstop.2 (hstop.1 hb)
              · simpa using hstop.2
          simp only [List.filter_cons, hin, if_true, Bool.false_eq_true, if_false, List.map_cons,
            List.append_assoc, List.singleton_append]

/-- On a sub-database ordered by key, `betweenSearchIndex` returns the entries whose key
lies between the bounds, each bound included as its flag says, in stored order. -/
theorem betweenSearchIndex_spec {K : Type} [LinearOrder K] (classId : Nat) (lower upper : K)
    (isIncludeBound : Bool × Bool) (l : List (K × Nat))
    (hs : l.Pairwise (fun a b => a.1 ≤ b.1)) :
    ∃ c, betweenSearchIndex (openCursor l) classId lower upper isIncludeBound =
      .ok ((l.filter (fun e =>
        (if isIncludeBound.1 then decide (lower ≤ e.1) else decide (lower < e.1)) &&
        (if isIncludeBound.2 then decide (e.1 ≤ upper) else decide (e.1 < upper)))).map
          (fun e => RecordDescriptor.ofRid (classId, e.2)), c) := by
  have h1 : l.dropWhile (fun e => decide (e.1 < lower)) =
      l.filter (fun e => !decide (e.1 < lower)) :=
    dropWhile_eq_filter_of_sorted (fun a b => a.1 ≤ b.1) _ l hs (by
      intro a _ b _ hab hb
      simp only [decide_eq_true_eq] at hb ⊢
      exact lt_of_le_of_lt hab hb)
  obtain ⟨c, hc⟩ := betweenLoop_spec classId lower upper isIncludeBound l hs (l.length + 1)
    (l.takeWhile (fun e : K × Nat => decide (e.1 < lower))).length none [] (by omega) (by
      rw [drop_takeWhile_length, h1]
      intro e he
      simpa using (List.mem_filter.mp he).2)
  refine ⟨c, ?_⟩
  unfold betweenSearchIndex getSetRangeCursor openCursor
  rw [hc, drop_takeWhile_length, h1, List.filter_filter]
  have hf : l.filter (fun a =>
      ((if isIncludeBound.1 then decide (lower ≤ a.1) else decide (lower < a.1)) &&
        (if isIncludeBound.2 then decide (a.1 ≤ upper) else decide (a.1 < upper))) &&
        !decide (a.1 < lower)) =
      l.filter (fun e =>
        (if isIncludeBound.1 then decide (lower ≤ e.1) else decide (lower < e.1)) &&
        (if isIncludeBound.2 then decide (e.1 ≤ upper) else decide (e.1 < upper))) := by
    apply List.filter_congr
    intro e _
    by_cases hlt : e.1 < lower
    · cases hb : isIncludeBound.1 <;>
        simp [hlt, not_le.mpr hlt, not_lt.mpr (le_of_lt hlt)]
    · simp [hlt]
  rw [hf]
  simp

/-- What the loop of `exactMatchIndex` collects from the entries still ahead. -/
theorem exactMatchLoop_spec {K : Type} [DecidableEq K] (classId : Nat) (value : K)
    (l : List (K × Nat)) :
    ∀ (fuel i : Nat) (pos0 : Option Nat) (result : List RecordDescriptor),
      l.length - i < fuel →
      ∃ c, exactMatchLoop classId value fuel (moveTo ⟨l, pos0⟩ i) result =
        .ok (result ++ ((l.drop i).takeWhile (fun e => decide (e.1 = value))).map
            (fun e => RecordDescriptor.ofRid (classId, e.2)), c) := by
  intro fuel
  induction fuel with
  | zero => intro i pos0 result h; omega
  | succ fuel ih =>
    intro i pos0 result h
    cases hget : l[i]? with
    | none =>
      rw [moveTo_none _ _ hget, drop_eq_nil_of_getElem_none l i hget]
      exact ⟨⟨l, pos0⟩, by simp [exactMatchLoop]⟩
    | some e =>
      have hi : i < l.length := by
        by_contra hc
        rw [List.getElem?_eq_none (by omega)] at hget
        cases hget
      rw [moveTo_some _ _ _ hget, getElem_drop_cons l i e hget]
      have hnext : getNextCursor (⟨l, some i⟩ : CursorHandler K Nat) =
          moveTo ⟨l, some i⟩ (i + 1) := rfl
      by_cases heq : e.1 = value
      · obtain ⟨c1, h1⟩ := ih (i + 1) (some i)
          (result ++ [RecordDescriptor.ofRid (classId, e.2)]) (by omega)
        refine ⟨c1, ?_⟩
        simp only [exactMatchLoop, heq, if_true, hnext, h1]
        simp [List.takeWhile, heq]
      · refine ⟨⟨l, some i⟩, ?_⟩
        simp [exactMatchLoop, heq, List.takeWhile]

theorem takeWhile_dropWhile_eq_filter {K : Type} [LinearOrder K] (value : K)
    (l : List (K × Nat)) (hs : l.Pairwise (fun a b => a.1 ≤ b.1)) :
    (l.dropWhile (fun e => decide (e.1 ≠ value))).takeWhile (fun e => decide (e.1 = value)) =
      l.filter (fun e => decide (e.1 = value)) := by
  induction l with
  | nil => rfl
  | cons a l ih =>
    by_cases h : a.1 = value
    · have h1 : (a :: l).dropWhile (fun e => decide (e.1 ≠ value)) = a :: l := by
        simp [List.dropWhile, h]
      rw [h1]
      exact takeWhile_eq_filter_of_sorted (fun a b => a.1 ≤ b.1) _ _ hs (by
        intro x hx y _ hxy hy
        simp only [decide_eq_true_eq] at hy ⊢
        have hax : a.1 ≤ x.1 := by
          rcases List.mem_cons.mp hx with hxa | hxl
          · rw [hxa]
          · exact (List.pairwise_cons.mp hs).1 x hxl
        exact le_antisymm (hy ▸ hxy) (h ▸ hax))
    · have h1 : (a :: l).dropWhile (fun e => decide (e.1 ≠ value)) =
          l.dropWhile (fun e => decide (e.1 ≠ value)) := by
        simp [List.dropWhile, h]
      rw [h1, ih (List.pairwise_cons.mp hs).2]
      simp [List.filter_cons, h]

/-- On a sub-database ordered by key, `exactMatchIndex` returns the entries of key
`value`, in stored order. -/
theorem exactMatchIndex_spec {K : Type} [LinearOrder K] (classId : Nat) (value : K)
    (l : List (K × Nat)) (hs : l.Pairwise (fun a b => a.1 ≤ b.1)) :
    ∃ c, exactMatchIndex (openCursor l) classId value =
      .ok ((l.filter (fun e => decide (e.1 = value))).map
        (fun e => RecordDescriptor.ofRid (classId, e.2)), c) := by
  obtain ⟨c, hc⟩ := exactMatchLoop_spec classId value l (l.length + 1)
    (l.takeWhile (fun e : K × Nat => decide (e.1 ≠ value))).length none [] (by omega)
  refine ⟨c, ?_⟩
  unfold exactMatchIndex getSetKeyCursor openCursor
  rw [hc, drop_takeWhile_length, takeWhile_dropWhile_eq_filter value l hs]
  simp

/-- The loop of `deleteIndexCursor`, started at the first entry of key `value` of a
sub-database ordered by key, deletes the first entry `(value, positionId)` and
nothing else. -/
theorem deleteIndexLoop_spec {K : Type} [LinearOrder K] (positionId : Nat) (value : K)
    (l : List (K × Nat)) (hs : l.Pairwise (fun a b => a.1 ≤ b.1)) :
    ∀ (fuel i : Nat) (pos0 : Option Nat),
      l.length - i < fuel → (∀ e ∈ l.drop i, value ≤ e.1) →
      (value, positionId) ∉ l.take i →
      ∃ c, deleteIndexLoop positionId value fuel (moveTo ⟨l, pos0⟩ i) = .ok c ∧
        ((∃ a b, l = a ++ (value, positionId) :: b ∧ (value, positionId) ∉ a ∧
            c.content = a ++ b) ∨
          ((value, positionId) ∉ l ∧ c.content = l)) := by
  intro fuel
  induction fuel with
  | zero => intro i pos0 h; omega
  | succ fuel ih =>
    intro i pos0 h hlow hpre
    cases hget : l[i]? with
    | none =>
      rw [moveTo_none _ _ hget]
      refine ⟨⟨l, pos0⟩, by simp [deleteIndexLoop], Or.inr ⟨?_, rfl⟩⟩
      have hlen : l.length ≤ i := List.getElem?_eq_none_iff.mp hget
      rwa [List.take_of_length_le hlen] at hpre
    | some e =>
      have hi : i < l.length := by
        by_contra hc
        rw [List.getElem?_eq_none (by omega)] at hget
        cases hget
      have hdrop := getElem_drop_cons l i e hget
      have hsplit : l = l.take i ++ e :: l.drop (i + 1) := by
        rw [← hdrop, List.take_append_drop]
      have hsd : (l.drop i).Pairwise (fun a b => a.1 ≤ b.1) :=
        hs.sublist (List.drop_sublist i l)
      rw [hdrop] at hsd hlow
      rw [List.pairwise_cons] at hsd
      rw [moveTo_some _ _ _ hget]
      have hnext : getNextCursor (⟨l, some i⟩ : CursorHandler K Nat) =
          moveTo ⟨l, some i⟩ (i + 1) := rfl
      by_cases hkey : value = e.1
      · by_cases hpos : positionId = e.2
        · refine ⟨deleteCursor ⟨l, some i⟩, by simp [deleteIndexLoop, hkey, hpos], Or.inl ?_⟩
          refine ⟨l.take i, l.drop (i + 1), ?_, hpre, ?_⟩
          · have he : e = (value, positionId) := by rw [hkey, hpos]
            rw [← he]
            exact hsplit
          · show l.eraseIdx i = _
            exact List.eraseIdx_eq_take_drop_succ l i
        · have hpre1 : (value, positionId) ∉ l.take (i + 1) := by
            rw [List.take_succ, hget]
            simp only [Option.toList_some, List.mem_append, List.mem_singleton, not_or]
            refine ⟨hpre, ?_⟩
            intro he
            exact hpos (by rw [← he])
          obtain ⟨c1, h1, h2⟩ := ih (i + 1) (some i) (by omega)
            (fun x hx => hlow x (List.mem_cons_of_mem _ hx)) hpre1
          refine ⟨c1, ?_, h2⟩
          simp only [deleteIndexLoop, hkey, hpos, if_true, if_false, hnext]
          rw [← hkey]
          exact h1
      · refine ⟨⟨l, some i⟩, by simp [deleteIndexLoop, hkey], Or.inr ⟨?_, rfl⟩⟩
        have hlt : value < e.1 :=
          lt_of_le_of_ne (hlow e (List.mem_cons_self _ _)) hkey
        intro hmem
        rw [hsplit, List.mem_append, List.mem_cons] at hmem
        rcases hmem with h1 | h1 | h1
        · exact hpre h1
        · rw [← h1] at hkey
          exact hkey rfl
        · have := hsd.1 _ h1
          exact absurd (lt_of_lt_of_le hlt this) (lt_irrefl _)

theorem le_of_mem_dropWhile_ne {K : Type} [LinearOrder K] (value : K) (l : List (K × Nat))
    (hs : l.Pairwise (fun a b => a.1 ≤ b.1)) :
    ∀ e ∈ l.dropWhile (fun e => decide (e.1 ≠ value)), value ≤ e.1 := by
  induction l with
  | nil => intro e he; cases he
  | cons a l ih =>
    rw [List.pairwise_cons] at hs
    by_cases h : a.1 = value
    · have h1 : (a :: l).dropWhile (fun e => decide (e.1 ≠ value)) = a :: l := by
        simp [List.dropWhile, h]
      rw [h1]
      intro e he
      rcases List.mem_cons.mp he with hea | hel
      · rw [hea, h]
      · exact h ▸ hs.1 e hel
    · have h1 : (a :: l).dropWhile (fun e => decide (e.1 ≠ value)) =
          l.dropWhile (fun e => decide (e.1 ≠ value)) := by
        simp [List.dropWhile, h]
      rw [h1]
      exact ih hs.2

/-- Function `deleteIndexCursor` on a sub-database ordered by key: the first entry
`(value, positionId)` is removed when there is one, and the content is unchanged
otherwise. -/
theorem deleteIndexCursor_spec {K : Type} [LinearOrder K] (positionId : Nat) (value : K)
    (l : List (K × Nat)) (pos0 : Option Nat) (hs : l.Pairwise (fun a b => a.1 ≤ b.1)) :
    ∃ c, deleteIndexCursor ⟨l, pos0⟩ positionId value = .ok c ∧
      ((∃ a b, l = a ++ (value, positionId) :: b ∧ (value, positionId) ∉ a ∧
          c.content = a ++ b) ∨
        ((value, positionId) ∉ l ∧ c.content = l)) := by
  unfold deleteIndexCursor getSetKeyCursor
  apply deleteIndexLoop_spec positionId value l hs (l.length + 1) _ pos0 (by omega)
  · rw [drop_takeWhile_length]
    exact le_of_mem_dropWhile_ne value l hs
  · show (value, positionId) ∉
      l.take (l.takeWhile (fun e : K × Nat => decide (e.1 ≠ value))).length
    rw [take_takeWhile_length]
    intro hmem
    have := List.mem_takeWhile_imp hmem
    simp at this

end Index

namespace Generic

open Datastore Index

/-- What the loop of `getRdescFromClassInfo` collects from the rows still ahead. -/
theorem getRdescFromClassInfoLoop_spec {V : Type} (classId : Nat) (l : List (Nat × V)) :
    ∀ (fuel i : Nat) (pos0 : Option Nat) (result : List RecordDescriptor),
      l.length - i < fuel →
      getRdescFromClassInfoLoop classId fuel (moveTo ⟨l, pos0⟩ i) result =
        .ok (result ++ ((l.drop i).filter (fun e => decide (e.1 ≠ EM_MAXRECNUM))).map
          (fun e => RecordDescriptor.ofRid (classId, e.1))) := by
  intro fuel
  induction fuel with
  | zero => intro i pos0 result h; omega
  | succ fuel ih =>
    intro i pos0 result h
    cases hget : l[i]? with
    | none =>
      rw [moveTo_none _ _ hget, drop_eq_nil_of_getElem_none l i hget]
      simp [getRdescFromClassInfoLoop]
    | some e =>
      have hi : i < l.length := by
        by_contra hc
        rw [List.getElem?_eq_none (by omega)] at hget
        cases hget
      rw [moveTo_some _ _ _ hget, getElem_drop_cons l i e hget]
      have hnext : getNextCursor (⟨l, some i⟩ : CursorHandler Nat V) =
          moveTo ⟨l, some i⟩ (i + 1) := rfl
      by_cases hkey : e.1 = EM_MAXRECNUM
      · simp only [getRdescFromClassInfoLoop, hkey, ne_eq, not_true_eq_false, if_false, hnext]
        rw [ih (i + 1) (some i) result (by omega)]
        simp [List.filter_cons, hkey]
      · simp only [getRdescFromClassInfoLoop, hkey, ne_eq, not_false_eq_true, if_true, hnext]
        rw [ih (i + 1) (some i) _ (by omega)]
        simp [List.filter_cons, hkey]

/-- What the loop of `getRecordFromClassInfo` collects from the rows still ahead when
every row other than the reserved one decodes. -/
theorem getRecordFromClassInfoLoop_spec {V : Type} (parseRawData : V → Except Error Record)
    (classId : Nat) (l : List (Nat × V))
    (hparse : ∀ e ∈ l, e.1 ≠ EM_MAXRECNUM → ∃ r, parseRawData e.2 = .ok r) :
    ∀ (fuel i : Nat) (pos0 : Option Nat) (result : List (RecordDescriptor × Record)),
      l.length - i < fuel →
      getRecordFromClassInfoLoop parseRawData classId fuel (moveTo ⟨l, pos0⟩ i) result =
        .ok (result ++ (l.drop i).filterMap (fun e =>
          if e.1 ≠ EM_MAXRECNUM then
            (parseRawData e.2).toOption.map
              (fun r => (RecordDescriptor.ofRid (classId, e.1), r))
          else none)) := by
  intro fuel
  induction fuel with
  | zero => intro i pos0 result h; omega
  | succ fuel ih =>
    intro i pos0 result h
    cases hget : l[i]? with
    | none =>
      rw [moveTo_none _ _ hget, drop_eq_nil_of_getElem_none l i hget]
      simp [getRecordFromClassInfoLoop]
    | some e =>
      have hi : i < l.length := by
        by_contra hc
        rw [List.getElem?_eq_none (by omega)] at hget
        cases hget
      have hmem : e ∈ l := by
        have h2 := hget
        rw [List.getElem?_eq_getElem hi] at h2
        cases h2
        exact List.getElem_mem _
      rw [moveTo_some _ _ _ hget, getElem_drop_cons l i e hget]
      have hnext : getNextCursor (⟨l, some i⟩ : CursorHandler Nat V) =
          moveTo ⟨l, some i⟩ (i + 1) := rfl
      by_cases hkey : e.1 = EM_MAXRECNUM
      · simp only [getRecordFromClassInfoLoop, hkey, ne_eq, not_true_eq_false, if_false, hnext]
        rw [ih (i + 1) (some i) result (by omega)]
        simp [List.filterMap_cons, hkey]
      · obtain ⟨r, hr⟩ := hparse e hmem hkey
        simp only [getRecordFromClassInfoLoop, hkey, ne_eq, not_false_eq_true, if_true, hnext,
          hr]
        rw [ih (i + 1) (some i) _ (by omega)]
        simp [List.filterMap_cons, hkey, hr, Except.toOption]

end Generic

/-! ## Error propagation lemmas -/

namespace Algorithm

end Algorithm

/-! ## Dijkstra lemmas -/

namespace Algorithm

theorem lookup_cons_self {α β : Type} [BEq α] [LawfulBEq α] (l : List (α × β)) (k : α) (v : β) :
    ((k, v) :: l).lookup k = some v := by
  simp [List.lookup]

theorem lookup_cons_of_ne {α β : Type} [BEq α] [LawfulBEq α] (l : List (α × β)) (k x : α)
    (v : β) (h : x ≠ k) : ((k, v) :: l).lookup x = l.lookup x := by
  have : (x == k) = false := by simpa using h
  simp [List.lookup, this]

/-- The three outcomes of the body of the `for` loop over the out-edges. -/
theorem dijkstraRelax_cases (txn : Txn) (costFunction : Txn → RecordDescriptor → Int)
    (pathFilter : PathFilter) (dist : Int) (st : DijkstraState) (edge : RecordDescriptor) :
    (¬ VertexAccepted txn pathFilter (txn.dbRelation.getVertexDst edge.rid) ∧
      dijkstraRelax txn costFunction pathFilter dist st edge = st) ∨
    (VertexAccepted txn pathFilter (txn.dbRelation.getVertexDst edge.rid) ∧
      (∃ db, st.distance.lookup (txn.dbRelation.getVertexDst edge.rid) = some db ∧
        db ≤ dist + costFunction txn edge) ∧
      dijkstraRelax txn costFunction pathFilter dist st edge = st) ∨
    (VertexAccepted txn pathFilter (txn.dbRelation.getVertexDst edge.rid) ∧
      (∀ db, st.distance.lookup (txn.dbRelation.getVertexDst edge.rid) = some db →
        dist + costFunction txn edge < db) ∧
      dijkstraRelax txn costFunction pathFilter dist st edge =
        { parent := (txn.dbRelation.getVertexDst edge.rid, edge) :: st.parent,
          distance := (txn.dbRelation.getVertexDst edge.rid, dist + costFunction txn edge) ::
            st.distance,
          heap := st.heap ++ [(dist + costFunction txn edge,
            txn.dbRelation.getVertexDst edge.rid)] }) := by
  unfold dijkstraRelax VertexAccepted
  dsimp only
  cases hacc : (if pathFilter.isEnable then
      retrieveRdesc txn (txn.dbRelation.getVertexDst edge.rid) pathFilter .VERTEX
      else RecordDescriptor.ofRid (txn.dbRelation.getVertexDst edge.rid)).isEmpty with
  | true => exact Or.inl ⟨by simp, by simp⟩
  | false =>
    right
    cases hlook : st.distance.lookup (txn.dbRelation.getVertexDst edge.rid) with
    | none =>
      right
      exact ⟨rfl, (by intro db hdb; cases hdb), by simp⟩
    | some db =>
      by_cases hgt : db > dist + costFunction txn edge
      · right
        refine ⟨rfl, ?_, by simp [hgt]⟩
        intro db1 hdb1
        cases hdb1
        exact hgt
      · left
        exact ⟨rfl, ⟨db, rfl, not_lt.mp hgt⟩, by simp [hgt]⟩

theorem dijkstraWalk_src (txn : Txn) (parent : List (RecordId × RecordDescriptor))
    (srcId : RecordId) (fuel : Nat) (result : List RecordDescriptor) :
    dijkstraWalk txn parent srcId fuel srcId result = .ok result := by
  cases fuel <;> simp [dijkstraWalk]

end Algorithm

/-! ## Schema, filter and graph store lemmas -/

theorem mem_setInsert {α : Type} [DecidableEq α] (s : List α) (a x : α) :
    x ∈ setInsert s a ↔ x ∈ s ∨ x = a := by
  unfold setInsert
  split
  · constructor
    · intro h; exact Or.inl h
    · rintro (h | h)
      · exact h
      · rw [h]; assumption
  · simp

theorem nodup_setInsert {α : Type} [DecidableEq α] (s : List α) (a : α) (h : s.Nodup) :
    (setInsert s a).Nodup := by
  unfold setInsert
  split
  · exact h
  · rename_i hn
    exact List.Nodup.append h (List.nodup_singleton _) (by
      intro b hb hc
      simp only [List.mem_singleton] at hc
      exact hn (hc ▸ hb))

theorem setInsert_extends {α : Type} [DecidableEq α] (s : List α) (a : α) :
    ∃ t, setInsert s a = s ++ t ∧ ∀ x ∈ t, x ∉ s := by
  unfold setInsert
  split
  · exact ⟨[], by simp, by simp⟩
  · rename_i hn
    exact ⟨[a], rfl, by simpa using hn⟩

namespace Schema

theorem lock_some {PropertyType : Type} (catalog : List (ClassDescriptor PropertyType))
    (ptr : Nat) (cd : ClassDescriptor PropertyType) (h : lock catalog ptr = some cd) :
    cd ∈ catalog ∧ cd.id = ptr := by
  unfold lock at h
  exact ⟨List.mem_of_find?_eq_some h, by simpa using List.find?_some h⟩

theorem lock_isSome_of_mem {PropertyType : Type} (catalog : List (ClassDescriptor PropertyType))
    (cd : ClassDescriptor PropertyType) (h : cd ∈ catalog) :
    (lock catalog cd.id).isSome := by
  unfold lock
  rw [List.find?_isSome]
  exact ⟨cd, h, by simp⟩

/-- A list of pointers without repetition that all lock is no longer than the
catalog. -/
theorem length_le_of_lock {PropertyType : Type} (catalog : List (ClassDescriptor PropertyType))
    (path : List Nat) (hnd : path.Nodup) (hlock : ∀ x ∈ path, (lock catalog x).isSome) :
    path.length ≤ catalog.length := by
  have hsub : path ⊆ catalog.map (fun c => c.id) := by
    intro x hx
    obtain ⟨cd, hcd⟩ := Option.isSome_iff_exists.1 (hlock x hx)
    obtain ⟨hmem, hid⟩ := lock_some catalog x cd hcd
    exact List.mem_map.2 ⟨cd, hmem, hid⟩
  have := (List.Nodup.subperm hnd hsub).length_le
  simpa using this

end Schema

namespace Generic

open Schema

theorem resolveSubclass_spec {PropertyType : Type} (catalog : List (ClassDescriptor PropertyType))
    (hacyclic : ∀ c, ¬ Relation.TransGen (DirectSub catalog) c c)
    (hsub : ∀ cd ∈ catalog, ∀ s ∈ cd.sub, (lock catalog s).isSome)
    (fuel : Nat) (c : Nat) (cd : ClassDescriptor PropertyType) (acc path : List Nat)
    (hc : lock catalog c = some cd) (hnd : path.Nodup) (hcp : c ∈ path)
    (hpath : ∀ x ∈ path, (lock catalog x).isSome ∧ Relation.ReflTransGen (DirectSub catalog) x c)
    (hfuel : catalog.length + 1 ≤ fuel + path.length) :
    ∃ r, resolveSubclass catalog fuel cd acc = .ok r ∧
      (∀ x, x ∈ r ↔ x ∈ acc ∨ Relation.TransGen (DirectSub catalog) c x) ∧
      ∃ t, r = acc ++ t ∧ ∀ x ∈ t, x ∉ acc := by
  induction fuel generalizing c cd acc path with
  | zero =>
    have := length_le_of_lock catalog path hnd (fun x hx => (hpath x hx).1)
    omega
  | succ fuel ih =>
    unfold resolveSubclass
    have hloop : ∀ (subs : List Nat) (acc : List Nat), (∀ s ∈ subs, s ∈ cd.sub) →
        ∃ r, forEachPtr (fun subClassDescriptor subClasses =>
            match lock catalog subClassDescriptor with
            | none => .error .requireFailed
            | some subClassDescriptorPtr =>
              resolveSubclass catalog fuel subClassDescriptorPtr
                (setInsert subClasses subClassDescriptorPtr.id)) subs acc = .ok r ∧
          (∀ x, x ∈ r ↔ x ∈ acc ∨
            ∃ s ∈ subs, Relation.ReflTransGen (DirectSub catalog) s x) ∧
          ∃ t, r = acc ++ t ∧ ∀ x ∈ t, x ∉ acc := by
      intro subs
      induction subs with
      | nil =>
        intro acc _
        exact ⟨acc, rfl, by simp, [], by simp, by simp⟩
      | cons s rest ihl =>
        intro acc hsubs
        have hs : s ∈ cd.sub := hsubs s (List.mem_cons_self _ _)
        have hR : DirectSub catalog c s := ⟨cd, hc, hs⟩
        obtain ⟨sd, hsd⟩ := Option.isSome_iff_exists.1
          (hsub cd (lock_some catalog c cd hc).1 s hs)
        have hsid : sd.id = s := (lock_some catalog s sd hsd).2
        have hnotin : s ∉ path := by
          intro hin
          exact hacyclic s (Relation.TransGen.tail' (hpath s hin).2 hR)
        obtain ⟨r1, hr1, hmem1, t1, ht1, hnew1⟩ := ih s sd (setInsert acc sd.id) (s :: path) hsd
          (List.nodup_cons.2 ⟨hnotin, hnd⟩) (List.mem_cons_self _ _)
          (by
            intro x hx
            rcases List.mem_cons.1 hx with hx | hx
            · rw [hx]
              exact ⟨by rw [hsd]; rfl, Relation.ReflTransGen.refl⟩
            · exact ⟨(hpath x hx).1, Relation.ReflTransGen.tail (hpath x hx).2 hR⟩)
          (by simp only [List.length_cons]; omega)
        obtain ⟨r2, hr2, hmem2, t2, ht2, hnew2⟩ := ihl r1
          (fun s hs => hsubs s (List.mem_cons_of_mem _ hs))
        refine ⟨r2, ?_, ?_, ?_⟩
        · unfold forEachPtr
          simp only [hsd, hr1]
          exact hr2
        · intro x
          rw [hmem2, hmem1, mem_setInsert, hsid]
          constructor
          · rintro (((h | h) | h) | ⟨s1, hs1, h⟩)
            · exact Or.inl h
            · exact Or.inr ⟨s, List.mem_cons_self _ _, h ▸ Relation.ReflTransGen.refl⟩
            · exact Or.inr ⟨s, List.mem_cons_self _ _, Relation.TransGen.to_reflTransGen h⟩
            · exact Or.inr ⟨s1, List.mem_cons_of_mem _ hs1, h⟩
          · rintro (h | ⟨s1, hs1, h⟩)
            · exact Or.inl (Or.inl (Or.inl h))
            · rcases List.mem_cons.1 hs1 with hs1 | hs1
              · rw [hs1] at h
                rcases Relation.reflTransGen_iff_eq_or_transGen.1 h with h | h
                · exact Or.inl (Or.inl (Or.inr h))
                · exact Or.inl (Or.inr h)
              · exact Or.inr ⟨s1, hs1, h⟩
        · obtain ⟨t0, ht0, hnew0⟩ := setInsert_extends acc sd.id
          refine ⟨t0 ++ t1 ++ t2, ?_, ?_⟩
          · rw [ht2, ht1, ht0]
            simp only [List.append_assoc]
          · intro x hx hacc
            rcases List.mem_append.1 hx with hx | hx
            · rcases List.mem_append.1 hx with hx | hx
              · exact hnew0 x hx hacc
              · exact hnew1 x hx (by rw [ht0]; exact List.mem_append_left _ hacc)
            · exact hnew2 x hx (by
                rw [ht1, ht0]
                exact List.mem_append_left _ (List.mem_append_left _ hacc))
    obtain ⟨r, hr, hmem, hext⟩ := hloop cd.sub acc (fun s hs => hs)
    refine ⟨r, hr, ?_, hext⟩
    intro x
    rw [hmem]
    constructor
    · rintro (h | ⟨s, hs, h⟩)
      · exact Or.inl h
      · exact Or.inr (Relation.TransGen.head' ⟨cd, hc, hs⟩ h)
    · rintro (h | h)
      · exact Or.inl h
      · obtain ⟨s, ⟨cd1, hcd1, hs⟩, hrest⟩ := Relation.TransGen.head'_iff.1 h
        rw [hc] at hcd1
        cases hcd1
        exact Or.inr ⟨s, hs, hrest⟩

end Generic

namespace Generic

open Schema

theorem getClassExtend_loop {PropertyType : Type}
    (catalog : List (ClassDescriptor PropertyType))
    (hacyclic : ∀ c, ¬ Relation.TransGen (DirectSub catalog) c c)
    (hsub : ∀ cd ∈ catalog, ∀ s ∈ cd.sub, (lock catalog s).isSome)
    (classes acc : List Nat) (hS : ∀ c ∈ classes, (lock catalog c).isSome) :
    ∃ r, forEachPtr (fun classDescriptor subClasses =>
        match lock catalog classDescriptor with
        | none => .error .requireFailed
        | some classDescriptorPtr =>
          resolveSubclass catalog (catalog.length + 1) classDescriptorPtr subClasses)
        classes acc = .ok r ∧
      (∀ x, x ∈ r ↔ x ∈ acc ∨ ∃ s ∈ classes, Relation.TransGen (DirectSub catalog) s x) ∧
      ∃ t, r = acc ++ t ∧ ∀ x ∈ t, x ∉ acc := by
  induction classes generalizing acc with
  | nil => exact ⟨acc, rfl, by simp, [], by simp, by simp⟩
  | cons c rest ih =>
    obtain ⟨cd, hcd⟩ := Option.isSome_iff_exists.1 (hS c (List.mem_cons_self _ _))
    obtain ⟨r1, hr1, hmem1, t1, ht1, hnew1⟩ := resolveSubclass_spec catalog hacyclic hsub
      (catalog.length + 1) c cd acc [c] hcd (List.nodup_singleton _) (List.mem_singleton_self _)
      (by
        intro x hx
        simp only [List.mem_singleton] at hx
        rw [hx]
        exact ⟨by rw [hcd]; rfl, Relation.ReflTransGen.refl⟩)
      (by simp)
    obtain ⟨r2, hr2, hmem2, t2, ht2, hnew2⟩ := ih r1
      (fun c hc => hS c (List.mem_cons_of_mem _ hc))
    refine ⟨r2, ?_, ?_, ?_⟩
    · unfold forEachPtr
      simp only [hcd, hr1]
      exact hr2
    · intro x
      rw [hmem2, hmem1]
      constructor
      · rintro ((h | h) | ⟨s, hs, h⟩)
        · exact Or.inl h
        · exact Or.inr ⟨c, List.mem_cons_self _ _, h⟩
        · exact Or.inr ⟨s, List.mem_cons_of_mem _ hs, h⟩
      · rintro (h | ⟨s, hs, h⟩)
        · exact Or.inl (Or.inl h)
        · rcases List.mem_cons.1 hs with hs | hs
          · rw [hs] at h
            exact Or.inl (Or.inr h)
          · exact Or.inr ⟨s, hs, h⟩
    · refine ⟨t1 ++ t2, ?_, ?_⟩
      · rw [ht2, ht1, List.append_assoc]
      · intro x hx hacc
        rcases List.mem_append.1 hx with hx | hx
        · exact hnew1 x hx hacc
        · exact hnew2 x hx (by rw [ht1]; exact List.mem_append_left _ hacc)

theorem getClassExtend_spec {PropertyType : Type}
    (catalog : List (ClassDescriptor PropertyType)) (classDescriptors : List Nat)
    (hacyclic : ∀ c, ¬ Relation.TransGen (DirectSub catalog) c c)
    (hsub : ∀ cd ∈ catalog, ∀ s ∈ cd.sub, (lock catalog s).isSome)
    (hS : ∀ c ∈ classDescriptors, (lock catalog c).isSome) :
    ∃ r, getClassExtend catalog classDescriptors = .ok r ∧
      (∀ x, x ∈ r ↔ x ∈ classDescriptors ∨
        ∃ s ∈ classDescriptors, Relation.TransGen (DirectSub catalog) s x) ∧
      getClassExtend catalog r = .ok r := by
  obtain ⟨r, hr, hmem, -⟩ := getClassExtend_loop catalog hacyclic hsub classDescriptors
    classDescriptors hS
  have hlock : ∀ x ∈ r, (lock catalog x).isSome := by
    intro x hx
    rcases (hmem x).1 hx with h | ⟨s, -, h⟩
    · exact hS x h
    · obtain ⟨y, -, cd, hcd, hxs⟩ := Relation.TransGen.tail'_iff.1 h
      exact hsub cd (lock_some catalog y cd hcd).1 x hxs
  obtain ⟨r2, hr2, hmem2, t, ht, hnew⟩ := getClassExtend_loop catalog hacyclic hsub r r hlock
  have hclosed : ∀ x, x ∈ r2 → x ∈ r := by
    intro x hx
    rcases (hmem2 x).1 hx with h | ⟨s, hs, h⟩
    · exact h
    · rcases (hmem s).1 hs with hs | ⟨s0, hs0, h0⟩
      · exact (hmem x).2 (Or.inr ⟨s, hs, h⟩)
      · exact (hmem x).2 (Or.inr ⟨s0, hs0, Relation.TransGen.trans h0 h⟩)
  have htnil : t = [] := by
    cases t with
    | nil => rfl
    | cons a t =>
      exact absurd (hclosed a (by rw [ht]; simp)) (hnew a (List.mem_cons_self _ _))
  refine ⟨r, hr, hmem, ?_⟩
  unfold getClassExtend
  rw [hr2, ht, htnil, List.append_nil]

end Generic


namespace Schema

theorem lookup_append_of_none {β : Type} (l1 l2 : List (String × β)) (name : String)
    (h : l1.lookup name = none) : (l1 ++ l2).lookup name = l2.lookup name := by
  induction l1 with
  | nil => rfl
  | cons e l ih =>
    obtain ⟨k, v⟩ := e
    rw [List.lookup_cons] at h
    rw [List.cons_append, List.lookup_cons]
    cases hk : name == k with
    | true => rw [hk] at h; cases h
    | false =>
      rw [hk] at h
      exact ih h

theorem lookup_append_of_some {β : Type} (l1 l2 : List (String × β)) (name : String) (v : β)
    (h : l1.lookup name = some v) : (l1 ++ l2).lookup name = some v := by
  induction l1 with
  | nil => cases h
  | cons e l ih =>
    obtain ⟨k, w⟩ := e
    rw [List.lookup_cons] at h
    rw [List.cons_append, List.lookup_cons]
    cases hk : name == k with
    | true => rw [hk] at h; exact h
    | false =>
      rw [hk] at h
      exact ih h

theorem lookup_insert {PropertyType : Type} (info : ClassPropertyInfo PropertyType)
    (name : String) (descriptor : PropertyDescriptor PropertyType) (x : String) :
    (info.insert name descriptor).nameToDesc.lookup x =
      match info.nameToDesc.lookup x with
      | some d => some d
      | none => if x = name then some descriptor else none := by
  unfold ClassPropertyInfo.insert
  cases hn : info.nameToDesc.lookup name with
  | some d0 =>
    dsimp only
    cases hx : info.nameToDesc.lookup x with
    | some d => rfl
    | none =>
      dsimp only
      have : x ≠ name := by
        intro h
        rw [h, hn] at hx
        cases hx
      rw [if_neg this]
  | none =>
    dsimp only
    cases hx : info.nameToDesc.lookup x with
    | some d => exact lookup_append_of_some _ _ _ _ hx
    | none =>
      rw [lookup_append_of_none _ _ _ hx]
      dsimp only
      by_cases hxn : x = name
      · rw [if_pos hxn, hxn]
        simp [List.lookup_cons]
      · rw [if_neg hxn]
        have : (x == name) = false := by simpa using hxn
        simp [List.lookup_cons, this]

end Schema

namespace Generic

open Schema

theorem lookup_insertProperties {PropertyType : Type}
    (properties : List (String × PropertyDescriptor PropertyType))
    (info : ClassPropertyInfo PropertyType) (x : String) :
    (insertProperties info properties).nameToDesc.lookup x =
      match info.nameToDesc.lookup x with
      | some d => some d
      | none => properties.lookup x := by
  induction properties generalizing info with
  | nil =>
    show info.nameToDesc.lookup x = _
    cases info.nameToDesc.lookup x <;> rfl
  | cons p rest ih =>
    obtain ⟨name, descriptor⟩ := p
    have hstep : insertProperties info ((name, descriptor) :: rest) =
        insertProperties (info.insert name descriptor) rest := rfl
    rw [hstep, ih, lookup_insert, List.lookup_cons]
    cases hx : info.nameToDesc.lookup x with
    | some d => rfl
    | none =>
      dsimp only
      by_cases hxn : x = name
      · rw [if_pos hxn, hxn]
        simp
      · rw [if_neg hxn]
        have : (x == name) = false := by simpa using hxn
        rw [this]

end Generic

namespace Schema

theorem superAt_succ {PropertyType : Type} (catalog : List (ClassDescriptor PropertyType))
    (k : Nat) (cd : ClassDescriptor PropertyType) :
    superAt catalog (k + 1) cd = (cd.super.bind (lock catalog)).bind (superAt catalog k) := by
  cases h1 : cd.super with
  | none => simp [superAt, h1]
  | some ptr =>
    cases h2 : lock catalog ptr with
    | none => simp [superAt, h1, h2]
    | some sd => simp [superAt, h1, h2]

theorem nearestDeclaration_here {PropertyType : Type}
    (catalog : List (ClassDescriptor PropertyType)) (cd : ClassDescriptor PropertyType)
    (name : String) (d0 : PropertyDescriptor PropertyType)
    (h : cd.properties.lookup name = some d0) :
    NearestDeclaration catalog cd name (some d0) := by
  constructor
  · intro k a d hk hd hmin
    cases k with
    | zero =>
      cases hk
      rw [h] at hd
      exact hd
    | succ k =>
      have := hmin 0 (Nat.succ_pos k) cd rfl
      rw [h] at this
      cases this
  · intro hall
    have := hall 0 cd rfl
    rw [h] at this
    cases this

theorem nearestDeclaration_root {PropertyType : Type}
    (catalog : List (ClassDescriptor PropertyType)) (cd : ClassDescriptor PropertyType)
    (name : String) (h : cd.properties.lookup name = none)
    (hsup : cd.super.bind (lock catalog) = none) :
    NearestDeclaration catalog cd name none := by
  constructor
  · intro k a d hk hd _
    cases k with
    | zero =>
      cases hk
      rw [h] at hd
      cases hd
    | succ k =>
      rw [superAt_succ, hsup] at hk
      cases hk
  · intro _
    rfl

theorem nearestDeclaration_super {PropertyType : Type}
    (catalog : List (ClassDescriptor PropertyType)) (cd sd : ClassDescriptor PropertyType)
    (name : String) (r : Option (PropertyDescriptor PropertyType))
    (h : cd.properties.lookup name = none)
    (hsup : cd.super.bind (lock catalog) = some sd)
    (hr : NearestDeclaration catalog sd name r) :
    NearestDeclaration catalog cd name r := by
  have hshift : ∀ k, superAt catalog (k + 1) cd = superAt catalog k sd := by
    intro k
    rw [superAt_succ, hsup]
    rfl
  constructor
  · intro k a d hk hd hmin
    cases k with
    | zero =>
      cases hk
      rw [h] at hd
      cases hd
    | succ k =>
      rw [hshift] at hk
      exact hr.1 k a d hk hd (fun j hj b hb =>
        hmin (j + 1) (Nat.succ_lt_succ hj) b (by rw [hshift]; exact hb))
  · intro hall
    exact hr.2 (fun k a hk => hall (k + 1) a (by rw [hshift]; exact hk))

end Schema

namespace Generic

open Schema

theorem getInheritProperties_spec {PropertyType : Type}
    (catalog : List (ClassDescriptor PropertyType))
    (hacyclic : ∀ c, ¬ Relation.TransGen (DirectSuper catalog) c c)
    (fuel : Nat) (c : Nat) (cd : ClassDescriptor PropertyType)
    (info : ClassPropertyInfo PropertyType) (path : List Nat)
    (hc : lock catalog c = some cd) (hnd : path.Nodup) (hcp : c ∈ path)
    (hpath : ∀ x ∈ path,
      (lock catalog x).isSome ∧ Relation.ReflTransGen (DirectSuper catalog) x c)
    (hfuel : catalog.length + 1 ≤ fuel + path.length) :
    ∃ r, getInheritProperties catalog fuel cd info = .ok r ∧
      ∀ name, (∀ d, info.nameToDesc.lookup name = some d → r.nameToDesc.lookup name = some d) ∧
        (info.nameToDesc.lookup name = none →
          NearestDeclaration catalog cd name (r.nameToDesc.lookup name)) := by
  induction fuel generalizing c cd info path with
  | zero =>
    have := length_le_of_lock catalog path hnd (fun x hx => (hpath x hx).1)
    omega
  | succ fuel ih =>
    unfold getInheritProperties
    dsimp only
    cases hsup : cd.super.bind (lock catalog) with
    | none =>
      refine ⟨_, rfl, ?_⟩
      intro name
      rw [lookup_insertProperties]
      constructor
      · intro d hd
        rw [hd]
      · intro hn
        rw [hn]
        dsimp only
        cases hp : cd.properties.lookup name with
        | none => exact nearestDeclaration_root catalog cd name hp hsup
        | some d0 => exact nearestDeclaration_here catalog cd name d0 hp
    | some sd =>
      obtain ⟨p, hp, hlockp⟩ := Option.bind_eq_some.1 hsup
      have hR : DirectSuper catalog c p := ⟨cd, hc, hp⟩
      have hnotin : p ∉ path := by
        intro hin
        exact hacyclic p (Relation.TransGen.tail' (hpath p hin).2 hR)
      obtain ⟨r, hr, hspec⟩ := ih p sd (insertProperties info cd.properties) (p :: path) hlockp
        (List.nodup_cons.2 ⟨hnotin, hnd⟩) (List.mem_cons_self _ _)
        (by
          intro x hx
          rcases List.mem_cons.1 hx with hx | hx
          · rw [hx]
            exact ⟨by rw [hlockp]; rfl, Relation.ReflTransGen.refl⟩
          · exact ⟨(hpath x hx).1, Relation.ReflTransGen.tail (hpath x hx).2 hR⟩)
        (by simp only [List.length_cons]; omega)
      refine ⟨r, hr, ?_⟩
      intro name
      have h1 := lookup_insertProperties cd.properties info name
      constructor
      · intro d hd
        rw [hd] at h1
        exact (hspec name).1 d h1
      · intro hn
        rw [hn] at h1
        dsimp only at h1
        cases hp2 : cd.properties.lookup name with
        | none =>
          rw [hp2] at h1
          exact nearestDeclaration_super catalog cd sd name _ hp2 hsup ((hspec name).2 h1)
        | some d0 =>
          rw [hp2] at h1
          rw [(hspec name).1 d0 h1]
          exact nearestDeclaration_here catalog cd name d0 hp2

theorem getClassMapProperty_spec {PropertyType : Type} (TEXT : PropertyType)
    (catalog : List (ClassDescriptor PropertyType)) (cd : ClassDescriptor PropertyType)
    (hacyclic : ∀ c, ¬ Relation.TransGen (DirectSuper catalog) c c)
    (hcd : lock catalog cd.id = some cd) :
    ∃ m, getClassMapProperty TEXT catalog cd = .ok m ∧
      m.nameToDesc.lookup CLASS_NAME_PROPERTY = some ⟨CLASS_NAME_PROPERTY_ID, TEXT⟩ ∧
      m.nameToDesc.lookup RECORD_ID_PROPERTY = some ⟨RECORD_ID_PROPERTY_ID, TEXT⟩ ∧
      ∀ name, name ≠ CLASS_NAME_PROPERTY → name ≠ RECORD_ID_PROPERTY →
        NearestDeclaration catalog cd name (m.nameToDesc.lookup name) := by
  have heq : getClassMapProperty TEXT catalog cd =
      getInheritProperties catalog (catalog.length + 1) cd
        (((ClassPropertyInfo.mk []).insertId CLASS_NAME_PROPERTY_ID CLASS_NAME_PROPERTY
          TEXT).insertId RECORD_ID_PROPERTY_ID RECORD_ID_PROPERTY TEXT) := rfl
  obtain ⟨m, hm, hspec⟩ := getInheritProperties_spec catalog hacyclic (catalog.length + 1)
    cd.id cd (((ClassPropertyInfo.mk []).insertId CLASS_NAME_PROPERTY_ID CLASS_NAME_PROPERTY
          TEXT).insertId RECORD_ID_PROPERTY_ID RECORD_ID_PROPERTY TEXT) [cd.id] hcd
    (List.nodup_singleton _) (List.mem_singleton_self _)
    (by
      intro x hx
      simp only [List.mem_singleton] at hx
      rw [hx]
      exact ⟨by rw [hcd]; rfl, Relation.ReflTransGen.refl⟩)
    (by simp)
  have h0 : ∀ x, (((ClassPropertyInfo.mk ([] : List (String × PropertyDescriptor PropertyType))
      ).insertId CLASS_NAME_PROPERTY_ID CLASS_NAME_PROPERTY TEXT).insertId
        RECORD_ID_PROPERTY_ID RECORD_ID_PROPERTY TEXT).nameToDesc.lookup x =
      if x = CLASS_NAME_PROPERTY then some ⟨CLASS_NAME_PROPERTY_ID, TEXT⟩
      else if x = RECORD_ID_PROPERTY then some ⟨RECORD_ID_PROPERTY_ID, TEXT⟩ else none := by
    intro x
    unfold ClassPropertyInfo.insertId
    rw [lookup_insert, lookup_insert]
    simp only [List.lookup_nil]
    by_cases h1 : x = CLASS_NAME_PROPERTY
    · simp only [if_pos h1]
    · simp only [if_neg h1]
  refine ⟨m, heq ▸ hm, ?_, ?_, ?_⟩
  · exact (hspec _).1 _ (by rw [h0, if_pos rfl])
  · exact (hspec _).1 _ (by
      rw [h0, if_neg (by decide), if_pos rfl])
  · intro name hn1 hn2
    exact (hspec name).2 (by rw [h0, if_neg hn1, if_neg hn2])

end Generic

namespace RecordCompare

theorem mem_foldl_setInsert {α : Type} (f : α → String) (l : List α) (s : List String)
    (x : String) :
    x ∈ l.foldl (fun s a => setInsert s (f a)) s ↔ x ∈ s ∨ ∃ a ∈ l, x = f a := by
  induction l generalizing s with
  | nil => simp
  | cons a l ih =>
    rw [List.foldl_cons, ih, mem_setInsert]
    constructor
    · rintro ((h | h) | ⟨b, hb, h⟩)
      · exact Or.inl h
      · exact Or.inr ⟨a, List.mem_cons_self _ _, h⟩
      · exact Or.inr ⟨b, List.mem_cons_of_mem _ hb, h⟩
    · rintro (h | ⟨b, hb, h⟩)
      · exact Or.inl (Or.inl h)
      · rcases List.mem_cons.1 hb with hb | hb
        · exact Or.inl (Or.inr (hb ▸ h))
        · exact Or.inr ⟨b, hb, h⟩

theorem nodup_foldl_setInsert {α : Type} (f : α → String) (l : List α) (s : List String)
    (h : s.Nodup) : (l.foldl (fun s a => setInsert s (f a)) s).Nodup := by
  induction l generalizing s with
  | nil => exact h
  | cons a l ih =>
    rw [List.foldl_cons]
    exact ih _ (nodup_setInsert s _ h)

theorem mem_addSubOfClasses (getInfo : String → ClassAccessInfo)
    (getSubClassInfos : Nat → List ClassAccessInfo) (subOfClasses classes : List String)
    (x : String) :
    x ∈ addSubOfClasses getInfo getSubClassInfos subOfClasses classes ↔
      x ∈ classes ∨ ∃ subOfClass ∈ subOfClasses,
        (getInfo subOfClass).type ≠ .UNDEFINED ∧
          (x = (getInfo subOfClass).name ∨
            ∃ subClassInfo ∈ getSubClassInfos (getInfo subOfClass).id,
              x = subClassInfo.name) := by
  induction subOfClasses generalizing classes with
  | nil => simp [addSubOfClasses]
  | cons c rest ih =>
    unfold addSubOfClasses
    dsimp only
    by_cases hc : (getInfo c).type ≠ .UNDEFINED
    · rw [if_pos hc, ih, mem_foldl_setInsert, mem_setInsert]
      constructor
      · rintro (((h | h) | ⟨a, ha, h⟩) | ⟨d, hd, h⟩)
        · exact Or.inl h
        · exact Or.inr ⟨c, List.mem_cons_self _ _, hc, Or.inl h⟩
        · exact Or.inr ⟨c, List.mem_cons_self _ _, hc, Or.inr ⟨a, ha, h⟩⟩
        · exact Or.inr ⟨d, List.mem_cons_of_mem _ hd, h⟩
      · rintro (h | ⟨d, hd, hty, h⟩)
        · exact Or.inl (Or.inl (Or.inl h))
        · rcases List.mem_cons.1 hd with hd | hd
          · subst hd
            rcases h with h | ⟨a, ha, h⟩
            · exact Or.inl (Or.inl (Or.inr h))
            · exact Or.inl (Or.inr ⟨a, ha, h⟩)
          · exact Or.inr ⟨d, hd, hty, h⟩
    · rw [if_neg hc, ih]
      constructor
      · rintro (h | ⟨d, hd, h⟩)
        · exact Or.inl h
        · exact Or.inr ⟨d, List.mem_cons_of_mem _ hd, h⟩
      · rintro (h | ⟨d, hd, hty, h⟩)
        · exact Or.inl h
        · rcases List.mem_cons.1 hd with hd | hd
          · subst hd
            exact absurd hty hc
          · exact Or.inr ⟨d, hd, hty, h⟩

theorem nodup_addSubOfClasses (getInfo : String → ClassAccessInfo)
    (getSubClassInfos : Nat → List ClassAccessInfo) (subOfClasses classes : List String)
    (h : classes.Nodup) :
    (addSubOfClasses getInfo getSubClassInfos subOfClasses classes).Nodup := by
  induction subOfClasses generalizing classes with
  | nil => exact h
  | cons c rest ih =>
    unfold addSubOfClasses
    dsimp only
    split
    · exact ih _ (nodup_foldl_setInsert _ _ _ (nodup_setInsert _ _ h))
    · exact ih _ h

end RecordCompare

namespace parser

theorem lookup_filter_ne {β : Type} (l : List (Nat × β)) (id j : Nat) :
    (l.filter (fun e => e.1 != id)).lookup j = if j = id then none else l.lookup j := by
  induction l with
  | nil => simp
  | cons e l ih =>
    obtain ⟨k, b⟩ := e
    by_cases hk : k = id
    · subst hk
      rw [List.filter_cons_of_neg (by simp), ih]
      by_cases hj : j = k
      · simp [hj]
      · rw [if_neg hj, List.lookup_cons]
        have : (j == k) = false := by simpa using hj
        rw [this, if_neg hj]
    · rw [List.filter_cons_of_pos (by simpa using hk)]
      rw [List.lookup_cons, List.lookup_cons, ih]
      by_cases hjk : j = k
      · subst hjk
        simp [hk]
      · have : (j == k) = false := by simpa using hjk
        rw [this]

theorem filter_mapSet_same (m : PropertyToBytesMap) (name : String) (value : Bytes) :
    (mapSet m name value).filter (fun p => p.1 != name) = m.filter (fun p => p.1 != name) := by
  unfold mapSet
  rw [List.filter_cons_of_neg (by simp), List.filter_filter]
  simp

theorem filter_mapSet_other (m : PropertyToBytesMap) (name other : String) (value : Bytes)
    (h : other ≠ name) :
    (mapSet m other value).filter (fun p => p.1 != name) =
      mapSet (m.filter (fun p => p.1 != name)) other value := by
  unfold mapSet
  rw [List.filter_cons_of_pos (by simpa using h), List.filter_filter, List.filter_filter]
  congr 1
  apply List.filter_congr
  intro x _
  exact Bool.and_comm _ _

theorem parseRawDataLoop_remove (blob : Blob) (propertyInfos : PropertyIdMapInfo)
    (id : Nat) (info : PropertyAccessInfo)
    (hfound : propertyInfos.lookup id = some info)
    (hinj : ∀ j infoj, propertyInfos.lookup j = some infoj → infoj.name = info.name → j = id)
    (fuel offset : Nat) (properties result : PropertyToBytesMap)
    (h : parseRawDataLoop blob propertyInfos fuel offset properties = .ok result) :
    parseRawDataLoop blob (propertyInfos.filter (fun e => e.1 != id)) fuel offset
        (properties.filter (fun p => p.1 != info.name)) =
      .ok (result.filter (fun p => p.1 != info.name)) := by
  induction fuel generalizing offset properties with
  | zero =>
    unfold parseRawDataLoop at h ⊢
    by_cases hlt : offset < blob.size
    · rw [if_pos hlt] at h
      cases h
    · rw [if_neg hlt] at h ⊢
      cases h
      rfl
  | succ fuel ih =>
    unfold parseRawDataLoop at h ⊢
    by_cases hlt : offset < blob.size
    · rw [if_pos hlt] at h ⊢
      cases h1 : blob.retrieve offset sizeofPropertyId with
      | error e => rw [h1] at h; cases h
      | ok r1 =>
        obtain ⟨propertyId, offset1⟩ := r1
        rw [h1] at h
        dsimp only at h ⊢
        cases h2 : readPropertySize blob offset1 with
        | error e => rw [h2] at h; cases h
        | ok r2 =>
          obtain ⟨propertySize, offset2⟩ := r2
          rw [h2] at h
          dsimp only at h ⊢
          rw [lookup_filter_ne]
          by_cases hid : leValue propertyId = id
          · rw [if_pos hid]
            dsimp only
            cases h3 : propertyInfos.lookup (leValue propertyId) with
            | none =>
              rw [h3] at h
              exact ih _ _ h
            | some foundInfo =>
              rw [h3] at h
              dsimp only at h
              have hinfo : foundInfo = info := by
                rw [hid, hfound] at h3
                exact (Option.some.inj h3).symm
              subst hinfo
              by_cases hsz : propertySize > 0
              · rw [if_pos hsz] at h
                cases h4 : blob.retrieve offset2 propertySize with
                | error e => rw [h4] at h; cases h
                | ok r4 =>
                  obtain ⟨byteData, offset3⟩ := r4
                  rw [h4] at h
                  dsimp only at h
                  have hoff : offset3 = offset2 + propertySize := by
                    unfold Blob.retrieve at h4
                    split at h4
                    · cases h4; rfl
                    · cases h4
                  rw [← hoff, ← filter_mapSet_same properties foundInfo.name byteData]
                  exact ih _ _ h
              · rw [if_neg hsz] at h
                have hz : propertySize = 0 := by omega
                rw [hz, Nat.add_zero, ← filter_mapSet_same properties foundInfo.name []]
                exact ih _ _ h
          · rw [if_neg hid]
            cases h3 : propertyInfos.lookup (leValue propertyId) with
            | none =>
              rw [h3] at h
              exact ih _ _ h
            | some foundInfo =>
              rw [h3] at h
              dsimp only at h ⊢
              have hname : foundInfo.name ≠ info.name := fun hn => hid (hinj _ _ h3 hn)
              by_cases hsz : propertySize > 0
              · rw [if_pos hsz] at h ⊢
                cases h4 : blob.retrieve offset2 propertySize with
                | error e => rw [h4] at h; cases h
                | ok r4 =>
                  obtain ⟨byteData, offset3⟩ := r4
                  rw [h4] at h
                  dsimp only at h ⊢
                  rw [← filter_mapSet_other _ _ _ _ hname]
                  exact ih _ _ h
              · rw [if_neg hsz] at h ⊢
                rw [← filter_mapSet_other _ _ _ _ hname]
                exact ih _ _ h
    · rw [if_neg hlt] at h ⊢
      cases h
      rfl

end parser

namespace GraphStore

theorem lookup_filter_key {β : Type} (l : List (RecordId × β)) (k x : RecordId) :
    (l.filter (fun p => p.1 != k)).lookup x = if x = k then none else l.lookup x := by
  induction l with
  | nil => simp
  | cons e l ih =>
    obtain ⟨a, b⟩ := e
    by_cases ha : a = k
    · subst ha
      rw [List.filter_cons_of_neg (by simp), ih]
      by_cases hx : x = a
      · rw [if_pos hx, if_pos hx]
      · rw [if_neg hx, if_neg hx, Algorithm.lookup_cons_of_ne _ _ _ _ hx]
    · rw [List.filter_cons_of_pos (by simpa using ha)]
      by_cases hxa : x = a
      · subst hxa
        rw [Algorithm.lookup_cons_self, Algorithm.lookup_cons_self, if_neg ha]
      · rw [Algorithm.lookup_cons_of_ne _ _ _ _ hxa, Algorithm.lookup_cons_of_ne _ _ _ _ hxa, ih]

theorem mem_filter_ne (l : List (RecordId × RecordId)) (m x : RecordId × RecordId) :
    x ∈ l.filter (fun y => y != m) ↔ x ∈ l ∧ x ≠ m := by
  simp [List.mem_filter]

theorem consistent_empty : Consistent empty :=
  { listed := by intro e src dst h; cases h
    outLive := by intro v e h; cases h
    inLive := by intro v e h; cases h
    outSet := List.nodup_nil
    inSet := List.nodup_nil
    fresh := by intro e h; cases h
    endsLive := by intro e src dst h; cases h }

theorem nextPosition_alloc (s : GraphStore) (classId c : Nat) :
    (((classId, s.nextPosition classId + 1) :: s.positions).lookup c).getD 1 =
      if c = classId then s.nextPosition classId + 1 else s.nextPosition c := by
  by_cases hc : c = classId
  · subst hc
    rw [Algorithm.lookup_cons_self, if_pos rfl]
    rfl
  · rw [Algorithm.lookup_cons_of_ne _ _ _ _ hc, if_neg hc]
    rfl

theorem consistent_vertexCreate (s : GraphStore) (classId : Nat) (h : Consistent s) :
    Consistent (s.vertexCreate classId).1 :=
  { listed := h.listed
    outLive := h.outLive
    inLive := h.inLive
    outSet := h.outSet
    inSet := h.inSet
    fresh := by
      intro e he
      have := h.fresh e he
      show e.2 < (((classId, s.nextPosition classId + 1) :: s.positions).lookup e.1).getD 1
      rw [nextPosition_alloc]
      split
      · rename_i hc
        rw [hc] at this
        omega
      · exact this
    endsLive := by
      intro e src dst he
      have := h.endsLive e src dst he
      exact ⟨List.mem_append_left _ this.1, List.mem_append_left _ this.2⟩ }

theorem edgeCreate_ok (s : GraphStore) (classId : Nat) (src dst : RecordId)
    (r : GraphStore × RecordId) (hr : s.edgeCreate classId src dst = .ok r) :
    src ∈ s.vertices ∧ dst ∈ s.vertices ∧
      r = ({ s with endpoints := ((classId, s.nextPosition classId), (src, dst)) :: s.endpoints,
                    outEdges := setInsert s.outEdges (src, (classId, s.nextPosition classId)),
                    inEdges := setInsert s.inEdges (dst, (classId, s.nextPosition classId)),
                    positions := (classId, s.nextPosition classId + 1) :: s.positions },
            (classId, s.nextPosition classId)) := by
  unfold edgeCreate at hr
  by_cases h1 : src ∉ s.vertices
  · rw [if_pos h1] at hr; cases hr
  · rw [if_neg h1] at hr
    by_cases h2 : dst ∉ s.vertices
    · rw [if_pos h2] at hr; cases hr
    · rw [if_neg h2] at hr
      cases hr
      exact ⟨not_not.1 h1, not_not.1 h2, rfl⟩

theorem consistent_edgeCreate (s : GraphStore) (classId : Nat) (src dst : RecordId)
    (r : GraphStore × RecordId) (h : Consistent s)
    (hr : s.edgeCreate classId src dst = .ok r) : Consistent r.1 := by
  obtain ⟨hsrc, hdst, hreq⟩ := edgeCreate_ok s classId src dst r hr
  have hnew : s.endpoints.lookup (classId, s.nextPosition classId) = none := by
    cases hl : s.endpoints.lookup (classId, s.nextPosition classId) with
    | none => rfl
    | some x =>
      have := h.fresh (classId, s.nextPosition classId) (by rw [hl]; rfl)
      exact absurd this (Nat.lt_irrefl _)
  rw [hreq]
  refine
    { listed := ?_, outLive := ?_, inLive := ?_, outSet := nodup_setInsert _ _ h.outSet,
      inSet := nodup_setInsert _ _ h.inSet, fresh := ?_, endsLive := ?_ }
  · intro e a b he
    dsimp only at he ⊢
    rw [mem_setInsert, mem_setInsert]
    by_cases hee : e = (classId, s.nextPosition classId)
    · subst hee
      rw [Algorithm.lookup_cons_self] at he
      cases he
      exact ⟨Or.inr rfl, Or.inr rfl⟩
    · rw [Algorithm.lookup_cons_of_ne _ _ _ _ hee] at he
      exact ⟨Or.inl (h.listed e a b he).1, Or.inl (h.listed e a b he).2⟩
  · intro v e hm
    dsimp only at hm ⊢
    rcases (mem_setInsert _ _ _).1 hm with hm | hm
    · obtain ⟨d, hd⟩ := h.outLive v e hm
      have hee : e ≠ (classId, s.nextPosition classId) := by
        intro hee
        rw [hee, hnew] at hd
        cases hd
      exact ⟨d, by rw [Algorithm.lookup_cons_of_ne _ _ _ _ hee]; exact hd⟩
    · cases hm
      exact ⟨dst, Algorithm.lookup_cons_self _ _ _⟩
  · intro v e hm
    dsimp only at hm ⊢
    rcases (mem_setInsert _ _ _).1 hm with hm | hm
    · obtain ⟨d, hd⟩ := h.inLive v e hm
      have hee : e ≠ (classId, s.nextPosition classId) := by
        intro hee
        rw [hee, hnew] at hd
        cases hd
      exact ⟨d, by rw [Algorithm.lookup_cons_of_ne _ _ _ _ hee]; exact hd⟩
    · cases hm
      exact ⟨src, Algorithm.lookup_cons_self _ _ _⟩
  · intro e he
    dsimp only at he
    show e.2 < (((classId, s.nextPosition classId + 1) :: s.positions).lookup e.1).getD 1
    rw [nextPosition_alloc]
    by_cases hee : e = (classId, s.nextPosition classId)
    · subst hee
      rw [if_pos rfl]
      exact Nat.lt_succ_self _
    · rw [Algorithm.lookup_cons_of_ne _ _ _ _ hee] at he
      have := h.fresh e he
      split
      · rename_i hc
        rw [hc] at this
        omega
      · exact this
  · intro e a b he
    dsimp only at he ⊢
    by_cases hee : e = (classId, s.nextPosition classId)
    · subst hee
      rw [Algorithm.lookup_cons_self] at he
      cases he
      exact ⟨hsrc, hdst⟩
    · rw [Algorithm.lookup_cons_of_ne _ _ _ _ hee] at he
      exact h.endsLive e a b he

theorem edgeUpdateSrc_ok (s s1 : GraphStore) (edge newSrc : RecordId)
    (hr : s.edgeUpdateSrc edge newSrc = .ok s1) :
    ∃ src dst, s.endpoints.lookup edge = some (src, dst) ∧ newSrc ∈ s.vertices ∧
      s1 = { s with endpoints :=
                      (edge, (newSrc, dst)) :: s.endpoints.filter (fun p => p.1 != edge),
                    outEdges := setInsert (s.outEdges.filter (fun m => m != (src, edge)))
                      (newSrc, edge) } := by
  unfold edgeUpdateSrc at hr
  cases hl : s.endpoints.lookup edge with
  | none => rw [hl] at hr; cases hr
  | some p =>
    obtain ⟨src, dst⟩ := p
    rw [hl] at hr
    dsimp only at hr
    by_cases h1 : newSrc ∉ s.vertices
    · rw [if_pos h1] at hr; cases hr
    · rw [if_neg h1] at hr
      cases hr
      exact ⟨src, dst, rfl, not_not.1 h1, rfl⟩

theorem edgeUpdateDst_ok (s s1 : GraphStore) (edge newDst : RecordId)
    (hr : s.edgeUpdateDst edge newDst = .ok s1) :
    ∃ src dst, s.endpoints.lookup edge = some (src, dst) ∧ newDst ∈ s.vertices ∧
      s1 = { s with endpoints :=
                      (edge, (src, newDst)) :: s.endpoints.filter (fun p => p.1 != edge),
                    inEdges := setInsert (s.inEdges.filter (fun m => m != (dst, edge)))
                      (newDst, edge) } := by
  unfold edgeUpdateDst at hr
  cases hl : s.endpoints.lookup edge with
  | none => rw [hl] at hr; cases hr
  | some p =>
    obtain ⟨src, dst⟩ := p
    rw [hl] at hr
    dsimp only at hr
    by_cases h1 : newDst ∉ s.vertices
    · rw [if_pos h1] at hr; cases hr
    · rw [if_neg h1] at hr
      cases hr
      exact ⟨src, dst, rfl, not_not.1 h1, rfl⟩

theorem consistent_edgeUpdateSrc (s s1 : GraphStore) (edge newSrc : RecordId)
    (h : Consistent s) (hr : s.edgeUpdateSrc edge newSrc = .ok s1) : Consistent s1 := by
  obtain ⟨src, dst, hl, hnew, hs1⟩ := edgeUpdateSrc_ok s s1 edge newSrc hr
  rw [hs1]
  refine
    { listed := ?_, outLive := ?_, inLive := ?_,
      outSet := nodup_setInsert _ _ (h.outSet.filter _),
      inSet := h.inSet, fresh := ?_, endsLive := ?_ }
  · intro e a b he
    dsimp only at he ⊢
    rw [mem_setInsert, mem_filter_ne]
    by_cases hee : e = edge
    · subst hee
      rw [Algorithm.lookup_cons_self] at he
      cases he
      exact ⟨Or.inr rfl, (h.listed e src dst hl).2⟩
    · rw [Algorithm.lookup_cons_of_ne _ _ _ _ hee, lookup_filter_key, if_neg hee] at he
      refine ⟨Or.inl ⟨(h.listed e a b he).1, ?_⟩, (h.listed e a b he).2⟩
      intro heq
      cases heq
      exact hee rfl
  · intro v e hm
    dsimp only at hm ⊢
    rcases (mem_setInsert _ _ _).1 hm with hm | hm
    · obtain ⟨hm1, hm2⟩ := (mem_filter_ne _ _ _).1 hm
      obtain ⟨d, hd⟩ := h.outLive v e hm1
      have hee : e ≠ edge := by
        intro hee
        subst hee
        rw [hl] at hd
        cases hd
        exact hm2 rfl
      exact ⟨d, by rw [Algorithm.lookup_cons_of_ne _ _ _ _ hee, lookup_filter_key, if_neg hee]; exact hd⟩
    · cases hm
      exact ⟨dst, Algorithm.lookup_cons_self _ _ _⟩
  · intro v e hm
    dsimp only at hm ⊢
    obtain ⟨a, ha⟩ := h.inLive v e hm
    by_cases hee : e = edge
    · subst hee
      rw [hl] at ha
      cases ha
      exact ⟨newSrc, Algorithm.lookup_cons_self _ _ _⟩
    · exact ⟨a, by rw [Algorithm.lookup_cons_of_ne _ _ _ _ hee, lookup_filter_key, if_neg hee]; exact ha⟩
  · intro e he
    dsimp only at he
    show e.2 < s.nextPosition e.1
    by_cases hee : e = edge
    · subst hee
      exact h.fresh e (by rw [hl]; rfl)
    · rw [Algorithm.lookup_cons_of_ne _ _ _ _ hee, lookup_filter_key, if_neg hee] at he
      exact h.fresh e he
  · intro e a b he
    dsimp only at he ⊢
    by_cases hee : e = edge
    · subst hee
      rw [Algorithm.lookup_cons_self] at he
      cases he
      exact ⟨hnew, (h.endsLive e src dst hl).2⟩
    · rw [Algorithm.lookup_cons_of_ne _ _ _ _ hee, lookup_filter_key, if_neg hee] at he
      exact h.endsLive e a b he

theorem consistent_edgeUpdateDst (s s1 : GraphStore) (edge newDst : RecordId)
    (h : Consistent s) (hr : s.edgeUpdateDst edge newDst = .ok s1) : Consistent s1 := by
  obtain ⟨src, dst, hl, hnew, hs1⟩ := edgeUpdateDst_ok s s1 edge newDst hr
  rw [hs1]
  refine
    { listed := ?_, outLive := ?_, inLive := ?_,
      outSet := h.outSet,
      inSet := nodup_setInsert _ _ (h.inSet.filter _), fresh := ?_, endsLive := ?_ }
  · intro e a b he
    dsimp only at he ⊢
    rw [mem_setInsert, mem_filter_ne]
    by_cases hee : e = edge
    · subst hee
      rw [Algorithm.lookup_cons_self] at he
      cases he
      exact ⟨(h.listed e src dst hl).1, Or.inr rfl⟩
    · rw [Algorithm.lookup_cons_of_ne _ _ _ _ hee, lookup_filter_key, if_neg hee] at he
      refine ⟨(h.listed e a b he).1, Or.inl ⟨(h.listed e a b he).2, ?_⟩⟩
      intro heq
      cases heq
      exact hee rfl
  · intro v e hm
    dsimp only at hm ⊢
    obtain ⟨a, ha⟩ := h.outLive v e hm
    by_cases hee : e = edge
    · subst hee
      rw [hl] at ha
      cases ha
      exact ⟨newDst, Algorithm.lookup_cons_self _ _ _⟩
    · exact ⟨a, by rw [Algorithm.lookup_cons_of_ne _ _ _ _ hee, lookup_filter_key, if_neg hee]; exact ha⟩
  · intro v e hm
    dsimp only at hm ⊢
    rcases (mem_setInsert _ _ _).1 hm with hm | hm
    · obtain ⟨hm1, hm2⟩ := (mem_filter_ne _ _ _).1 hm
      obtain ⟨d, hd⟩ := h.inLive v e hm1
      have hee : e ≠ edge := by
        intro hee
        subst hee
        rw [hl] at hd
        cases hd
        exact hm2 rfl
      exact ⟨d, by rw [Algorithm.lookup_cons_of_ne _ _ _ _ hee, lookup_filter_key, if_neg hee]; exact hd⟩
    · cases hm
      exact ⟨src, Algorithm.lookup_cons_self _ _ _⟩
  · intro e he
    dsimp only at he
    show e.2 < s.nextPosition e.1
    by_cases hee : e = edge
    · subst hee
      exact h.fresh e (by rw [hl]; rfl)
    · rw [Algorithm.lookup_cons_of_ne _ _ _ _ hee, lookup_filter_key, if_neg hee] at he
      exact h.fresh e he
  · intro e a b he
    dsimp only at he ⊢
    by_cases hee : e = edge
    · subst hee
      rw [Algorithm.lookup_cons_self] at he
      cases he
      exact ⟨(h.endsLive e src dst hl).1, hnew⟩
    · rw [Algorithm.lookup_cons_of_ne _ _ _ _ hee, lookup_filter_key, if_neg hee] at he
      exact h.endsLive e a b he

theorem edgeDestroy_lookup (s : GraphStore) (edge e : RecordId) :
    (s.edgeDestroy edge).endpoints.lookup e =
      if e = edge then none else s.endpoints.lookup e := by
  unfold edgeDestroy
  cases hl : s.endpoints.lookup edge with
  | none =>
    dsimp only
    by_cases hee : e = edge
    · rw [if_pos hee, hee, hl]
    · rw [if_neg hee]
  | some p =>
    dsimp only
    exact lookup_filter_key _ _ _

theorem edgeDestroy_frame (s : GraphStore) (edge : RecordId) :
    (s.edgeDestroy edge).vertices = s.vertices ∧
      (s.edgeDestroy edge).positions = s.positions := by
  unfold edgeDestroy
  cases s.endpoints.lookup edge with
  | none => exact ⟨rfl, rfl⟩
  | some p => exact ⟨rfl, rfl⟩

theorem consistent_edgeDestroy (s : GraphStore) (edge : RecordId) (h : Consistent s) :
    Consistent (s.edgeDestroy edge) := by
  have hlookup := edgeDestroy_lookup s edge
  have hframe := edgeDestroy_frame s edge
  cases hl : s.endpoints.lookup edge with
  | none =>
    have : s.edgeDestroy edge = s := by
      unfold edgeDestroy
      rw [hl]
    rw [this]
    exact h
  | some p =>
    obtain ⟨src, dst⟩ := p
    have hout : (s.edgeDestroy edge).outEdges =
        s.outEdges.filter (fun m => m != (src, edge)) := by
      unfold edgeDestroy
      rw [hl]
    have hin : (s.edgeDestroy edge).inEdges =
        s.inEdges.filter (fun m => m != (dst, edge)) := by
      unfold edgeDestroy
      rw [hl]
    refine
      { listed := ?_, outLive := ?_, inLive := ?_,
        outSet := by rw [hout]; exact h.outSet.filter _,
        inSet := by rw [hin]; exact h.inSet.filter _, fresh := ?_, endsLive := ?_ }
    · intro e a b he
      rw [hlookup] at he
      by_cases hee : e = edge
      · rw [if_pos hee] at he; cases he
      · rw [if_neg hee] at he
        rw [hout, hin, mem_filter_ne, mem_filter_ne]
        refine ⟨⟨(h.listed e a b he).1, ?_⟩, ⟨(h.listed e a b he).2, ?_⟩⟩
        · intro heq; cases heq; exact hee rfl
        · intro heq; cases heq; exact hee rfl
    · intro v e hm
      rw [hout, mem_filter_ne] at hm
      obtain ⟨d, hd⟩ := h.outLive v e hm.1
      have hee : e ≠ edge := by
        intro hee
        subst hee
        rw [hl] at hd
        cases hd
        exact hm.2 rfl
      exact ⟨d, by rw [hlookup, if_neg hee]; exact hd⟩
    · intro v e hm
      rw [hin, mem_filter_ne] at hm
      obtain ⟨a, ha⟩ := h.inLive v e hm.1
      have hee : e ≠ edge := by
        intro hee
        subst hee
        rw [hl] at ha
        cases ha
        exact hm.2 rfl
      exact ⟨a, by rw [hlookup, if_neg hee]; exact ha⟩
    · intro e he
      rw [hlookup] at he
      by_cases hee : e = edge
      · rw [if_pos hee] at he; cases he
      · rw [if_neg hee] at he
        show e.2 < ((s.edgeDestroy edge).positions.lookup e.1).getD 1
        rw [hframe.2]
        exact h.fresh e he
    · intro e a b he
      rw [hlookup] at he
      by_cases hee : e = edge
      · rw [if_pos hee] at he; cases he
      · rw [if_neg hee] at he
        rw [hframe.1]
        exact h.endsLive e a b he

theorem foldl_edgeDestroy (edges : List RecordId) (s : GraphStore) (h : Consistent s) :
    Consistent (edges.foldl edgeDestroy s) ∧
      (edges.foldl edgeDestroy s).vertices = s.vertices ∧
      ∀ e, (edges.foldl edgeDestroy s).endpoints.lookup e =
        if e ∈ edges then none else s.endpoints.lookup e := by
  induction edges generalizing s with
  | nil => exact ⟨h, rfl, by simp⟩
  | cons edge rest ih =>
    obtain ⟨h1, h2, h3⟩ := ih (s.edgeDestroy edge) (consistent_edgeDestroy s edge h)
    refine ⟨h1, by rw [List.foldl_cons, h2, (edgeDestroy_frame s edge).1], ?_⟩
    intro e
    rw [List.foldl_cons, h3, edgeDestroy_lookup]
    by_cases her : e ∈ rest
    · rw [if_pos her, if_pos (List.mem_cons_of_mem _ her)]
    · rw [if_neg her]
      by_cases hee : e = edge
      · rw [if_pos hee, if_pos (by rw [hee]; exact List.mem_cons_self _ _)]
      · rw [if_neg hee, if_neg (by
          intro hm
          rcases List.mem_cons.1 hm with hm | hm
          · exact hee hm
          · exact her hm)]

theorem mem_getOutEdges (s : GraphStore) (v e : RecordId) :
    e ∈ s.getOutEdges v ↔ (v, e) ∈ s.outEdges := by
  unfold getOutEdges
  simp only [List.mem_map, List.mem_filter]
  constructor
  · rintro ⟨m, ⟨hm, hv⟩, he⟩
    obtain ⟨a, b⟩ := m
    simp only [beq_iff_eq] at hv
    dsimp only at he hv
    rw [← hv, ← he]
    exact hm
  · intro h
    exact ⟨(v, e), ⟨h, by simp⟩, rfl⟩

theorem mem_getInEdges (s : GraphStore) (v e : RecordId) :
    e ∈ s.getInEdges v ↔ (v, e) ∈ s.inEdges := by
  unfold getInEdges
  simp only [List.mem_map, List.mem_filter]
  constructor
  · rintro ⟨m, ⟨hm, hv⟩, he⟩
    obtain ⟨a, b⟩ := m
    simp only [beq_iff_eq] at hv
    dsimp only at he hv
    rw [← hv, ← he]
    exact hm
  · intro h
    exact ⟨(v, e), ⟨h, by simp⟩, rfl⟩

theorem consistent_vertexDestroy (s : GraphStore) (vertex : RecordId) (h : Consistent s) :
    Consistent (s.vertexDestroy vertex) := by
  obtain ⟨h1, h2, h3⟩ := foldl_edgeDestroy (s.getOutEdges vertex ++ s.getInEdges vertex) s h
  unfold vertexDestroy
  refine
    { listed := h1.listed, outLive := h1.outLive, inLive := h1.inLive, outSet := h1.outSet,
      inSet := h1.inSet, fresh := h1.fresh, endsLive := ?_ }
  intro e a b he
  dsimp only at he ⊢
  have hlive := h1.endsLive e a b he
  rw [h3] at he
  by_cases hmem : e ∈ s.getOutEdges vertex ++ s.getInEdges vertex
  · rw [if_pos hmem] at he; cases he
  · rw [if_neg hmem] at he
    have hl := h.listed e a b he
    have ha : a ≠ vertex := by
      intro hav
      rw [hav] at hl
      exact hmem (List.mem_append_left _ ((mem_getOutEdges s vertex e).2 hl.1))
    have hb : b ≠ vertex := by
      intro hbv
      rw [hbv] at hl
      exact hmem (List.mem_append_right _ ((mem_getInEdges s vertex e).2 hl.2))
    rw [List.mem_filter, List.mem_filter]
    exact ⟨⟨hlive.1, by simpa using ha⟩, ⟨hlive.2, by simpa using hb⟩⟩

theorem consistent_applyOp (s s1 : GraphStore) (op : Op) (h : Consistent s)
    (hr : s.applyOp op = .ok s1) : Consistent s1 := by
  cases op with
  | vertexCreate classId =>
    cases hr
    exact consistent_vertexCreate s classId h
  | edgeCreate classId src dst =>
    simp only [applyOp] at hr
    cases hc : s.edgeCreate classId src dst with
    | error e => rw [hc] at hr; cases hr
    | ok r =>
      rw [hc] at hr
      cases hr
      exact consistent_edgeCreate s classId src dst r h hc
  | edgeUpdateSrc edge newSrc => exact consistent_edgeUpdateSrc s s1 edge newSrc h hr
  | edgeUpdateDst edge newDst => exact consistent_edgeUpdateDst s s1 edge newDst h hr
  | edgeDestroy edge =>
    cases hr
    exact consistent_edgeDestroy s edge h
  | vertexDestroy vertex =>
    cases hr
    exact consistent_vertexDestroy s vertex h

theorem consistent_runOps (ops : List Op) (s : GraphStore) (h : Consistent s) :
    Consistent (s.runOps ops) := by
  induction ops generalizing s with
  | nil => exact h
  | cons op rest ih =>
    unfold runOps
    cases hr : s.applyOp op with
    | error e => exact ih s h
    | ok s1 => exact ih s1 (consistent_applyOp s s1 op h hr)

end GraphStore

namespace Algorithm

theorem addUniqueVertex_queue (txn : Txn) (minDepth maxDepth : Nat) (pathFilter : PathFilter)
    (V0 Q0 : List RecordId) (st : BfsState) (vertex : RecordId)
    (h : (st.queue.Nodup ∧ ∀ v ∈ st.queue, v ∈ st.visited) ∧ (∀ w ∈ V0, w ∈ st.visited) ∧
      ∀ w ∈ st.queue, w ∈ Q0 ∨ w ∉ V0) :
    ((addUniqueVertex txn minDepth maxDepth st vertex pathFilter).queue.Nodup ∧
      ∀ v ∈ (addUniqueVertex txn minDepth maxDepth st vertex pathFilter).queue,
        v ∈ (addUniqueVertex txn minDepth maxDepth st vertex pathFilter).visited) ∧
    (∀ w ∈ V0, w ∈ (addUniqueVertex txn minDepth maxDepth st vertex pathFilter).visited) ∧
      ∀ w ∈ (addUniqueVertex txn minDepth maxDepth st vertex pathFilter).queue,
        w ∈ Q0 ∨ w ∉ V0 := by
  obtain ⟨⟨hnd, hsub⟩, hV0, hq⟩ := h
  by_cases hmem : vertex ∈ st.visited
  · rw [addUniqueVertex_old _ _ _ _ _ _ hmem]
    exact ⟨⟨hnd, hsub⟩, hV0, hq⟩
  · obtain ⟨tmp, -, -, -, -, heq⟩ :=
      addUniqueVertex_new txn minDepth maxDepth pathFilter st vertex hmem
    rw [heq]
    dsimp only
    have hvq : vertex ∉ st.queue := fun hv => hmem (hsub _ hv)
    have hvV0 : vertex ∉ V0 := fun hv => hmem (hV0 _ hv)
    split
    · refine ⟨⟨?_, ?_⟩, ?_, ?_⟩
      · exact List.Nodup.append hnd (List.nodup_singleton _) (by
          intro a ha hb
          simp only [List.mem_singleton] at hb
          exact hvq (hb ▸ ha))
      · intro v hv
        rcases List.mem_append.1 hv with hv | hv
        · exact List.mem_cons_of_mem _ (hsub _ hv)
        · simp only [List.mem_singleton] at hv
          rw [hv]; exact List.mem_cons_self _ _
      · intro w hw; exact List.mem_cons_of_mem _ (hV0 _ hw)
      · intro w hw
        rcases List.mem_append.1 hw with hw | hw
        · exact hq _ hw
        · simp only [List.mem_singleton] at hw
          rw [hw]; exact Or.inr hvV0
    · exact ⟨⟨hnd, fun v hv => List.mem_cons_of_mem _ (hsub _ hv)⟩,
        fun w hw => List.mem_cons_of_mem _ (hV0 _ hw), hq⟩

theorem bfsExpanded_nodup (txn : Txn) (rid : RecordId) (minDepth maxDepth : Nat)
    (edgeClassIds : List Nat) (edgeFunc : Graph → RecordId → Nat → List RecordId)
    (vertexFunc : Option (Graph → RecordId → RecordId)) (pathFilter : PathFilter)
    (fuel : Nat) (st : BfsState)
    (h : st.queue.Nodup ∧ ∀ v ∈ st.queue, v ∈ st.visited) :
    (bfsExpanded txn rid minDepth maxDepth edgeClassIds edgeFunc vertexFunc pathFilter
        fuel st).Nodup ∧
      ∀ w ∈ bfsExpanded txn rid minDepth maxDepth edgeClassIds edgeFunc vertexFunc pathFilter
        fuel st, w ∈ st.queue ∨ w ∉ st.visited := by
  induction fuel generalizing st with
  | zero => simp [bfsExpanded]
  | succ fuel ih =>
    unfold bfsExpanded
    cases hq : st.queue with
    | nil => simp
    | cons vertexId queue =>
      dsimp only
      obtain ⟨hnd, hsub⟩ := h
      rw [hq] at hnd hsub
      have hdeq : ((bfsDequeue rid st vertexId queue).queue.Nodup ∧
          ∀ v ∈ (bfsDequeue rid st vertexId queue).queue,
            v ∈ (bfsDequeue rid st vertexId queue).visited) ∧
          (∀ w ∈ st.visited, w ∈ (bfsDequeue rid st vertexId queue).visited) ∧
          ∀ w ∈ (bfsDequeue rid st vertexId queue).queue, w ∈ queue ∨ w ∉ st.visited := by
        unfold bfsDequeue
        split
        · exact ⟨⟨(List.nodup_cons.1 hnd).2, fun v hv => hsub v (List.mem_cons_of_mem _ hv)⟩,
            fun w hw => hw, fun w hw => Or.inl hw⟩
        · exact ⟨⟨(List.nodup_cons.1 hnd).2, fun v hv => hsub v (List.mem_cons_of_mem _ hv)⟩,
            fun w hw => hw, fun w hw => Or.inl hw⟩
      have hst := bfsVisitEdges_invariant
        (fun s => (s.queue.Nodup ∧ ∀ v ∈ s.queue, v ∈ s.visited) ∧
          (∀ w ∈ st.visited, w ∈ s.visited) ∧ ∀ w ∈ s.queue, w ∈ queue ∨ w ∉ st.visited)
        txn minDepth maxDepth vertexFunc pathFilter vertexId
        (fun s edge hs => addUniqueVertex_queue txn minDepth maxDepth pathFilter st.visited
          queue s _ hs)
        (getIncidentEdges txn edgeFunc vertexId pathFilter edgeClassIds) _ hdeq
      obtain ⟨hQ, hV0, hqueue⟩ := hst
      obtain ⟨ihnd, ihmem⟩ := ih _ hQ
      have hvis : vertexId ∈ st.visited := hsub _ (List.mem_cons_self _ _)
      refine ⟨List.nodup_cons.2 ⟨?_, ihnd⟩, ?_⟩
      · intro hmem
        rcases ihmem _ hmem with h1 | h1
        · rcases hqueue _ h1 with h2 | h2
          · exact (List.nodup_cons.1 hnd).1 h2
          · exact h2 hvis
        · exact h1 (hV0 _ hvis)
      · intro w hw
        rcases List.mem_cons.1 hw with hw | hw
        · rw [hw]; exact Or.inl (List.mem_cons_self _ _)
        · rcases ihmem _ hw with h1 | h1
          · rcases hqueue _ h1 with h2 | h2
            · exact Or.inl (List.mem_cons_of_mem _ h2)
            · exact Or.inr h2
          · exact Or.inr (fun hv => h1 (hV0 _ hv))

theorem dfsStep_visited (txn : Txn) (minDepth maxDepth : Nat) (edgeClassIds : List Nat)
    (edgeFunc : Graph → RecordId → Nat → List RecordId)
    (vertexFunc : Option (Graph → RecordId → RecordId)) (pathFilter : PathFilter)
    (st : DfsState) (vertex : RecordId) :
    (dfsStep txn minDepth maxDepth edgeClassIds edgeFunc vertexFunc pathFilter
      st vertex).visited = if vertex ∈ st.visited then st.visited else vertex :: st.visited := by
  unfold dfsStep dfsVisit
  dsimp only
  by_cases hmem : vertex ∈ st.visited
  · rw [if_pos hmem, if_pos hmem]
  · rw [if_neg hmem, if_neg hmem]
    split <;> rfl

theorem dfsExpanded_nodup (txn : Txn) (minDepth maxDepth : Nat) (edgeClassIds : List Nat)
    (edgeFunc : Graph → RecordId → Nat → List RecordId)
    (vertexFunc : Option (Graph → RecordId → RecordId)) (pathFilter : PathFilter)
    (fuel : Nat) (st : DfsState) :
    (dfsExpanded txn minDepth maxDepth edgeClassIds edgeFunc vertexFunc pathFilter
        fuel st).Nodup ∧
      ∀ w ∈ dfsExpanded txn minDepth maxDepth edgeClassIds edgeFunc vertexFunc pathFilter
        fuel st, w ∉ st.visited := by
  induction fuel generalizing st with
  | zero => simp [dfsExpanded]
  | succ fuel ih =>
    unfold dfsExpanded
    cases htop : (st.stk.getD st.currentLevel []).getLast? with
    | none => simp
    | some vertex =>
      dsimp only
      obtain ⟨ihnd, ihmem⟩ := ih (dfsStep txn minDepth maxDepth edgeClassIds edgeFunc
        vertexFunc pathFilter st vertex)
      rw [dfsStep_visited] at ihmem
      by_cases hmem : vertex ∈ st.visited
      · rw [if_pos hmem] at ihmem
        rw [if_neg (fun h => h.1 hmem), List.nil_append]
        exact ⟨ihnd, ihmem⟩
      · rw [if_neg hmem] at ihmem
        have hrest : ∀ w ∈ dfsExpanded txn minDepth maxDepth edgeClassIds edgeFunc vertexFunc
            pathFilter fuel (dfsStep txn minDepth maxDepth edgeClassIds edgeFunc vertexFunc
              pathFilter st vertex), w ∉ st.visited :=
          fun w hw hv => ihmem w hw (List.mem_cons_of_mem _ hv)
        split
        · refine ⟨?_, ?_⟩
          · rw [List.singleton_append]
            exact List.nodup_cons.2 ⟨fun hv => ihmem _ hv (List.mem_cons_self _ _), ihnd⟩
          · intro w hw
            rw [List.singleton_append] at hw
            rcases List.mem_cons.1 hw with hw | hw
            · rw [hw]; exact hmem
            · exact hrest w hw
        · rw [List.nil_append]
          exact ⟨ihnd, hrest⟩

end Algorithm

namespace Schema

/-- A relation that strictly raises a rank has no cycle. -/
theorem acyclic_of_rank (R : Nat → Nat → Prop) (rank : Nat → Nat)
    (h : ∀ a b, R a b → rank a < rank b) : ∀ c, ¬ Relation.TransGen R c c := by
  have hlt : ∀ a b, Relation.TransGen R a b → rank a < rank b := by
    intro a b hab
    induction hab with
    | single h1 => exact h _ _ h1
    | tail _ h2 ih => exact Nat.lt_trans ih (h _ _ h2)
  intro c hc
  exact Nat.lt_irrefl _ (hlt c c hc)

theorem directSub_rank {PropertyType : Type} (catalog : List (ClassDescriptor PropertyType))
    (rank : Nat → Nat) (h : ∀ cd ∈ catalog, ∀ s ∈ cd.sub, rank cd.id < rank s) :
    ∀ a b, DirectSub catalog a b → rank a < rank b := by
  rintro a b ⟨cd, hcd, hb⟩
  obtain ⟨hmem, hid⟩ := lock_some catalog a cd hcd
  rw [← hid]
  exact h cd hmem b hb

theorem directSuper_rank {PropertyType : Type} (catalog : List (ClassDescriptor PropertyType))
    (rank : Nat → Nat) (h : ∀ cd ∈ catalog, ∀ p ∈ cd.super, rank cd.id < rank p) :
    ∀ a b, DirectSuper catalog a b → rank a < rank b := by
  rintro a b ⟨cd, hcd, hb⟩
  obtain ⟨hmem, hid⟩ := lock_some catalog a cd hcd
  rw [← hid]
  exact h cd hmem b (by rw [hb]; exact Option.mem_some_iff.2 rfl)

theorem nearestDeclaration_first {PropertyType : Type}
    (catalog : List (ClassDescriptor PropertyType)) (cd : ClassDescriptor PropertyType)
    (name : String) (r : Option (PropertyDescriptor PropertyType))
    (hr : NearestDeclaration catalog cd name r) (k : Nat) :
    ∀ a d, superAt catalog k cd = some a → a.properties.lookup name = some d →
      ∃ j b e, superAt catalog j cd = some b ∧ b.properties.lookup name = some e ∧
        r = some e := by
  induction k using Nat.strong_induction_on with
  | _ k ih =>
    intro a d ha hd
    by_cases hex : ∃ j, j < k ∧ ∃ b e, superAt catalog j cd = some b ∧
        b.properties.lookup name = some e
    · obtain ⟨j, hj, b, e, hb, he⟩ := hex
      exact ih j hj b e hb he
    · refine ⟨k, a, d, ha, hd, hr.1 k a d ha hd ?_⟩
      intro j hj b hb
      cases hl : b.properties.lookup name with
      | none => rfl
      | some e => exact absurd ⟨j, hj, b, e, hb, hl⟩ hex

end Schema

namespace GraphStore

theorem nodup_getInEdges (s : GraphStore) (v : RecordId) (h : s.inEdges.Nodup) :
    (s.getInEdges v).Nodup := by
  unfold getInEdges
  refine List.Nodup.map_on ?_ (h.filter _)
  intro x hx y hy hxy
  obtain ⟨x1, x2⟩ := x
  obtain ⟨y1, y2⟩ := y
  have h1 := (List.mem_filter.1 hx).2
  have h2 := (List.mem_filter.1 hy).2
  simp only [beq_iff_eq] at h1 h2
  dsimp only at h1 h2 hxy
  rw [h1, h2, hxy]

theorem count_eq_one_of_nodup (l : List RecordId) (a : RecordId) (hnd : l.Nodup)
    (hm : a ∈ l) : l.count a = 1 := by
  induction l with
  | nil => cases hm
  | cons b l ih =>
    rw [List.count_cons]
    obtain ⟨hb, hl⟩ := List.nodup_cons.1 hnd
    rcases List.mem_cons.1 hm with hab | hal
    · subst hab
      rw [List.count_eq_zero_of_not_mem hb]
      simp
    · have hne : (b == a) = false := by
        have : b ≠ a := fun h => hb (h ▸ hal)
        simpa using this
      rw [ih hl hal, hne]
      rfl

end GraphStore

/-! ## Depth-first search tree lemmas -/

namespace Algorithm

theorem getD_append_length (A : List (List RecordId)) (x : List RecordId)
    (U : List (List RecordId)) : (A ++ x :: U).getD A.length [] = x := by
  induction A with
  | nil => rfl
  | cons a A ih => simpa using ih

theorem set_append_length (A : List (List RecordId)) (x y : List RecordId)
    (U : List (List RecordId)) : (A ++ x :: U).set A.length y = A ++ y :: U := by
  induction A with
  | nil => rfl
  | cons a A ih => simp

theorem dfsPushEdges_eq (txn : Txn) (vertexFunc : Option (Graph → RecordId → RecordId))
    (vertex : RecordId) (visited : List RecordId) (edges : List RecordDescriptor)
    (frontier : List RecordId) :
    dfsPushEdges txn vertexFunc vertex visited edges frontier =
      frontier ++ (edges.map (nextVertex txn vertexFunc vertex)).filter
        (fun x => decide (x ∉ visited)) := by
  induction edges generalizing frontier with
  | nil => simp [dfsPushEdges]
  | cons edge rest ih =>
    unfold dfsPushEdges
    by_cases h : nextVertex txn vertexFunc vertex edge ∈ visited
    · rw [if_pos h, ih, List.map_cons, List.filter_cons_of_neg (by simpa using h)]
    · rw [if_neg h, ih, List.map_cons, List.filter_cons_of_pos (by simpa using h)]
      simp

theorem framesLevel_unwound (fs fs1 : List (List RecordId × List RecordId))
    (h : Unwound fs fs1) (hl : FramesLevel fs) : FramesLevel fs1 := by
  induction h with
  | refl fs => exact hl
  | drop path rest fs _ ih => exact ih hl.2

theorem dfsUnwind_frames (fs : List (List RecordId × List RecordId)) (hne : fs ≠ [])
    (stk upper : List (List RecordId))
    (hstk : stk = fs.reverse.map (fun f => f.2.reverse) ++ upper)
    (hupper : ∀ fr ∈ upper, fr = []) :
    ∃ fs1, Unwound fs fs1 ∧ dfsUnwind stk (fs.length - 1) + 1 = fs1.length ∧
      (∃ upper1, stk = fs1.reverse.map (fun f => f.2.reverse) ++ upper1 ∧
        ∀ fr ∈ upper1, fr = []) ∧
      ∀ path rest, fs1 = (path, []) :: rest → rest = [] := by
  induction fs generalizing upper with
  | nil => exact absurd rfl hne
  | cons f rest ih =>
    cases rest with
    | nil =>
      refine ⟨[f], Unwound.refl _, by simp [dfsUnwind], ⟨upper, hstk, hupper⟩, ?_⟩
      intro path rest h
      cases h
      rfl
    | cons g rest =>
      obtain ⟨p, cs⟩ := f
      have hlen : (g :: rest).length + 1 - 1 = rest.length + 1 := by simp
      have hstk2 : stk = ((g :: rest).reverse.map (fun f => f.2.reverse)) ++
          (cs.reverse :: upper) := by
        have hrev : ((p, cs) :: g :: rest).reverse = (g :: rest).reverse ++ [(p, cs)] := by
          simp
        rw [hstk, hrev, List.map_append, List.append_assoc]
        rfl
      have hget : stk.getD (rest.length + 1) [] = cs.reverse := by
        have := getD_append_length ((g :: rest).reverse.map (fun f => f.2.reverse))
          cs.reverse upper
        rw [← hstk2] at this
        simpa using this
      show ∃ fs1, Unwound ((p, cs) :: g :: rest) fs1 ∧
        dfsUnwind stk ((g :: rest).length + 1 - 1) + 1 = fs1.length ∧ _
      rw [hlen]
      unfold dfsUnwind
      rw [hget]
      cases cs with
      | nil =>
        obtain ⟨fs1, hu, hl, hs, hn⟩ := ih (by simp) ([] :: upper) hstk2 (by
          intro fr hfr
          rcases List.mem_cons.1 hfr with h | h
          · exact h
          · exact hupper fr h)
        refine ⟨fs1, Unwound.drop p _ _ hu, ?_, hs, hn⟩
        simpa using hl
      | cons c cs =>
        refine ⟨(p, c :: cs) :: g :: rest, Unwound.refl _, by simp, ⟨upper, hstk, hupper⟩, ?_⟩
        intro path rest1 h
        cases h


theorem dfsVisit_result (txn : Txn) (minDepth maxDepth : Nat) (edgeClassIds : List Nat)
    (edgeFunc : Graph → RecordId → Nat → List RecordId)
    (vertexFunc : Option (Graph → RecordId → RecordId)) (pathFilter : PathFilter)
    (st : DfsState) (vertex : RecordId) (path : List RecordId)
    (hmem : vertex ∉ st.visited) (hlen : path.length = st.currentLevel) :
    (dfsVisit txn minDepth maxDepth edgeClassIds edgeFunc vertexFunc pathFilter st
      vertex).result = st.result ++ (dfsEmit txn minDepth pathFilter (vertex :: path)).toList := by
  have hres : (dfsVisit txn minDepth maxDepth edgeClassIds edgeFunc vertexFunc pathFilter st
      vertex).result =
      if st.currentLevel ≥ minDepth then
        if ¬ (if pathFilter.isEnable then
            retrieveRdesc txn vertex
              (if st.currentLevel ≠ 0 then pathFilter else PathFilter.none) .VERTEX
          else RecordDescriptor.ofRid vertex).isEmpty then
          st.result ++ [{ (if pathFilter.isEnable then
            retrieveRdesc txn vertex
              (if st.currentLevel ≠ 0 then pathFilter else PathFilter.none) .VERTEX
          else RecordDescriptor.ofRid vertex) with depth := st.currentLevel }]
        else st.result
      else st.result := by
    unfold dfsVisit
    rw [if_neg hmem]
    dsimp only
    split <;> rfl
  rw [hres]
  unfold dfsEmit
  dsimp only
  rw [hlen]
  by_cases hl : st.currentLevel ≥ minDepth
  · rw [if_pos hl, if_pos hl]
    by_cases hc : ¬ (if pathFilter.isEnable then
            retrieveRdesc txn vertex
              (if st.currentLevel ≠ 0 then pathFilter else PathFilter.none) .VERTEX
          else RecordDescriptor.ofRid vertex).isEmpty = true
    · rw [if_pos hc, if_pos hc]
      have hrid := vertexRdesc_rid txn vertex
        (if st.currentLevel ≠ 0 then pathFilter else PathFilter.none) pathFilter.isEnable hc
      simp only [Option.toList, hrid]
    · rw [if_neg hc, if_neg hc]
      simp [Option.toList]
  · rw [if_neg hl, if_neg hl]
    simp [Option.toList]

theorem dfsVisit_deeper (txn : Txn) (minDepth maxDepth : Nat) (edgeClassIds : List Nat)
    (edgeFunc : Graph → RecordId → Nat → List RecordId)
    (vertexFunc : Option (Graph → RecordId → RecordId)) (pathFilter : PathFilter)
    (st : DfsState) (vertex : RecordId)
    (hmem : vertex ∉ st.visited) (hmax : st.currentLevel < maxDepth) :
    (dfsVisit txn minDepth maxDepth edgeClassIds edgeFunc vertexFunc pathFilter st
        vertex).currentLevel = st.currentLevel + 1 ∧
      (dfsVisit txn minDepth maxDepth edgeClassIds edgeFunc vertexFunc pathFilter st
        vertex).stk =
        (if st.currentLevel + 1 = st.stk.length then st.stk ++ [[]] else st.stk).set
          (st.currentLevel + 1)
          (dfsPushEdges txn vertexFunc vertex (vertex :: st.visited)
            (getIncidentEdges txn edgeFunc vertex pathFilter edgeClassIds).reverse
            ((if st.currentLevel + 1 = st.stk.length then st.stk ++ [[]] else st.stk).getD
              (st.currentLevel + 1) [])) := by
  unfold dfsVisit
  rw [if_neg hmem]
  dsimp only
  rw [if_pos hmax]
  exact ⟨rfl, rfl⟩

theorem dfsVisit_level (txn : Txn) (minDepth maxDepth : Nat) (edgeClassIds : List Nat)
    (edgeFunc : Graph → RecordId → Nat → List RecordId)
    (vertexFunc : Option (Graph → RecordId → RecordId)) (pathFilter : PathFilter)
    (st : DfsState) (vertex : RecordId)
    (hmem : vertex ∉ st.visited) (hmax : ¬ st.currentLevel < maxDepth) :
    (dfsVisit txn minDepth maxDepth edgeClassIds edgeFunc vertexFunc pathFilter st
        vertex).currentLevel = st.currentLevel ∧
      (dfsVisit txn minDepth maxDepth edgeClassIds edgeFunc vertexFunc pathFilter st
        vertex).stk = st.stk := by
  unfold dfsVisit
  rw [if_neg hmem]
  dsimp only
  rw [if_neg hmax]
  exact ⟨rfl, rfl⟩

end Algorithm

namespace Algorithm

theorem dfsFrames_unwind (st1 : DfsState) (fs : List (List RecordId × List RecordId))
    (hlevel : st1.currentLevel + 1 = fs.length) (upper : List (List RecordId))
    (hstk : st1.stk = fs.reverse.map (fun f => f.2.reverse) ++ upper)
    (hupper : ∀ fr ∈ upper, fr = []) (hlev : FramesLevel fs) :
    ∃ fs1, DfsFrames { st1 with currentLevel := dfsUnwind st1.stk st1.currentLevel } fs1 ∧
      Unwound fs fs1 := by
  have hne : fs ≠ [] := by
    intro h
    rw [h] at hlevel
    simp at hlevel
  obtain ⟨fs1, hu, hl, hs, hn⟩ := dfsUnwind_frames fs hne st1.stk upper hstk hupper
  have hcur : fs.length - 1 = st1.currentLevel := by omega
  rw [hcur] at hl
  exact ⟨fs1, ⟨hl, hs, framesLevel_unwound fs fs1 hu hlev, hn⟩, hu⟩

/-- The visit of a vertex popped from the frame of the current level, followed by
the unwinding of the exhausted levels, in terms of frames. -/
theorem dfsVisit_frames (txn : Txn) (minDepth maxDepth : Nat) (edgeClassIds : List Nat)
    (edgeFunc : Graph → RecordId → Nat → List RecordId)
    (vertexFunc : Option (Graph → RecordId → RecordId)) (pathFilter : PathFilter)
    (popped : DfsState) (p : List RecordId) (v : RecordId) (cs : List RecordId)
    (rest : List (List RecordId × List RecordId)) (upper : List (List RecordId))
    (hcur : popped.currentLevel = rest.length)
    (hpop : popped.stk = ((p, cs) :: rest).reverse.map (fun f => f.2.reverse) ++ upper)
    (hupper : ∀ fr ∈ upper, fr = []) (hlev1 : FramesLevel ((p, cs) :: rest)) :
    ∃ fs1, DfsFrames
        { dfsVisit txn minDepth maxDepth edgeClassIds edgeFunc vertexFunc pathFilter popped v with
          currentLevel := dfsUnwind
            (dfsVisit txn minDepth maxDepth edgeClassIds edgeFunc vertexFunc pathFilter popped
              v).stk
            (dfsVisit txn minDepth maxDepth edgeClassIds edgeFunc vertexFunc pathFilter popped
              v).currentLevel } fs1 ∧
      Unwound
        (if v ∈ popped.visited then (p, cs) :: rest
          else if p.length < maxDepth then
            (v :: p, (dfsNeighbours txn edgeClassIds edgeFunc vertexFunc pathFilter v).filter
              (fun x => decide (x ∉ v :: popped.visited))) :: (p, cs) :: rest
          else (p, cs) :: rest) fs1 ∧
      (dfsVisit txn minDepth maxDepth edgeClassIds edgeFunc vertexFunc pathFilter popped
          v).result =
        if v ∈ popped.visited then popped.result
        else popped.result ++ (dfsEmit txn minDepth pathFilter (v :: p)).toList := by
  have hplen : p.length = popped.currentLevel := by
    rw [hcur]
    exact hlev1.1
  by_cases hmem : v ∈ popped.visited
  · rw [if_pos hmem, if_pos hmem]
    have hvisit : dfsVisit txn minDepth maxDepth edgeClassIds edgeFunc vertexFunc pathFilter
        popped v = popped := by
      unfold dfsVisit
      rw [if_pos hmem]
    rw [hvisit]
    obtain ⟨fs1, hf, hu⟩ := dfsFrames_unwind popped ((p, cs) :: rest) (by simpa using hcur)
      upper hpop hupper hlev1
    exact ⟨fs1, hf, hu, rfl⟩
  · rw [if_neg hmem, if_neg hmem]
    have hres := dfsVisit_result txn minDepth maxDepth edgeClassIds edgeFunc vertexFunc pathFilter
      popped v p hmem hplen
    by_cases hmax : popped.currentLevel < maxDepth
    · rw [if_pos (by rw [hplen]; exact hmax)]
      obtain ⟨hlvl, hstk2⟩ := dfsVisit_deeper txn minDepth maxDepth edgeClassIds edgeFunc
        vertexFunc pathFilter popped v hmem hmax
      rw [hpop] at hstk2
      have hBlen : (((p, cs) :: rest).reverse.map
          (fun f : List RecordId × List RecordId => f.2.reverse)).length
          = popped.currentLevel + 1 := by
        rw [hcur]
        simp
      have hgrow : ∃ upper1, (∀ fr ∈ upper1, fr = []) ∧
          (if popped.currentLevel + 1 =
              (((p, cs) :: rest).reverse.map (fun f => f.2.reverse) ++ upper).length
            then ((p, cs) :: rest).reverse.map (fun f => f.2.reverse) ++ upper ++ [[]]
            else ((p, cs) :: rest).reverse.map (fun f => f.2.reverse) ++ upper) =
          ((p, cs) :: rest).reverse.map (fun f => f.2.reverse) ++ [] :: upper1 := by
        cases upper with
        | nil =>
          refine ⟨[], by simp, ?_⟩
          rw [if_pos (by rw [List.append_nil, hBlen]), List.append_nil]
        | cons u upper1 =>
          have hu : u = [] := hupper u (List.mem_cons_self _ _)
          refine ⟨upper1, fun fr hfr => hupper fr (List.mem_cons_of_mem _ hfr), ?_⟩
          rw [if_neg (by
            rw [List.length_append, hBlen]
            simp), hu]
      obtain ⟨upper1, hupper1, hgrow⟩ := hgrow
      rw [hgrow, ← hBlen, getD_append_length, set_append_length, dfsPushEdges_eq,
        List.nil_append] at hstk2
      have hchildren : ((List.map (nextVertex txn vertexFunc v)
          (getIncidentEdges txn edgeFunc v pathFilter edgeClassIds).reverse).filter
            (fun x => decide (x ∉ v :: popped.visited))) =
          ((dfsNeighbours txn edgeClassIds edgeFunc vertexFunc pathFilter v).filter
            (fun x => decide (x ∉ v :: popped.visited))).reverse := by
        unfold dfsNeighbours
        rw [List.map_reverse, List.filter_reverse]
      rw [hchildren] at hstk2
      obtain ⟨fs1, hf, hu⟩ := dfsFrames_unwind
        (dfsVisit txn minDepth maxDepth edgeClassIds edgeFunc vertexFunc pathFilter popped v)
        ((v :: p, (dfsNeighbours txn edgeClassIds edgeFunc vertexFunc pathFilter v).filter
          (fun x => decide (x ∉ v :: popped.visited))) :: (p, cs) :: rest)
        (by rw [hlvl, hcur]; simp) upper1
        (by
          rw [hstk2]
          simp)
        hupper1
        ⟨by rw [List.length_cons, List.length_cons, hplen, hcur], hlev1⟩
      exact ⟨fs1, hf, hu, hres⟩
    · rw [if_neg (by rw [hplen]; exact hmax)]
      obtain ⟨hlvl, hstk2⟩ := dfsVisit_level txn minDepth maxDepth edgeClassIds edgeFunc
        vertexFunc pathFilter popped v hmem hmax
      obtain ⟨fs1, hf, hu⟩ := dfsFrames_unwind
        (dfsVisit txn minDepth maxDepth edgeClassIds edgeFunc vertexFunc pathFilter popped v)
        ((p, cs) :: rest) (by rw [hlvl, hcur]; simp) upper (by rw [hstk2, hpop]) hupper hlev1
      exact ⟨fs1, hf, hu, hres⟩

theorem dfsStep_frames (txn : Txn) (minDepth maxDepth : Nat) (edgeClassIds : List Nat)
    (edgeFunc : Graph → RecordId → Nat → List RecordId)
    (vertexFunc : Option (Graph → RecordId → RecordId)) (pathFilter : PathFilter)
    (st : DfsState) (p : List RecordId) (v : RecordId) (cs : List RecordId)
    (rest : List (List RecordId × List RecordId))
    (h : DfsFrames st ((p, v :: cs) :: rest)) :
    ∃ fs1, DfsFrames (dfsStep txn minDepth maxDepth edgeClassIds edgeFunc vertexFunc pathFilter
        st v) fs1 ∧
      Unwound
        (if v ∈ st.visited then (p, cs) :: rest
          else if p.length < maxDepth then
            (v :: p, (dfsNeighbours txn edgeClassIds edgeFunc vertexFunc pathFilter v).filter
              (fun x => decide (x ∉ v :: st.visited))) :: (p, cs) :: rest
          else (p, cs) :: rest) fs1 ∧
      (dfsStep txn minDepth maxDepth edgeClassIds edgeFunc vertexFunc pathFilter st v).result =
        if v ∈ st.visited then st.result
        else st.result ++ (dfsEmit txn minDepth pathFilter (v :: p)).toList := by
  obtain ⟨hlevel, ⟨upper, hstk, hupper⟩, hlev, -⟩ := h
  have hcur : st.currentLevel = rest.length := by
    simp only [List.length_cons] at hlevel
    omega
  have hstk1 : st.stk = rest.reverse.map (fun f => f.2.reverse) ++
      ((cs.reverse ++ [v]) :: upper) := by
    rw [hstk]
    simp
  have hAlen : (rest.reverse.map (fun f : List RecordId × List RecordId => f.2.reverse)).length
      = st.currentLevel := by
    rw [hcur]
    simp
  have hget : st.stk.getD st.currentLevel [] = cs.reverse ++ [v] := by
    rw [hstk1, ← hAlen]
    exact getD_append_length _ _ _
  have hpop : st.stk.set st.currentLevel (st.stk.getD st.currentLevel []).dropLast =
      ((p, cs) :: rest).reverse.map (fun f => f.2.reverse) ++ upper := by
    rw [hget, List.dropLast_concat]
    conv_lhs => rw [hstk1, ← hAlen]
    rw [set_append_length]
    simp
  exact dfsVisit_frames txn minDepth maxDepth edgeClassIds edgeFunc vertexFunc pathFilter
    _ p v cs rest upper hcur hpop hupper hlev

end Algorithm

namespace Algorithm

theorem searchForest_mono {txn : Txn} {maxDepth : Nat} {edgeClassIds : List Nat}
    {edgeFunc : Graph → RecordId → Nat → List RecordId}
    {vertexFunc : Option (Graph → RecordId → RecordId)} {pathFilter : PathFilter}
    {path cs visited : List RecordId} {out : List (List RecordId)} {visited1 : List RecordId}
    (h : SearchForest txn maxDepth edgeClassIds edgeFunc vertexFunc pathFilter path cs visited
      out visited1) : ∀ x ∈ visited, x ∈ visited1 := by
  induction h with
  | done path visited => exact fun x hx => hx
  | skip path c cs visited out visited1 _ _ ih => exact ih
  | leaf path c cs visited out visited1 _ _ _ ih =>
    exact fun x hx => ih x (List.mem_cons_of_mem _ hx)
  | node path c cs visited out1 out2 visited1 visited2 _ _ _ _ ih1 ih2 =>
    exact fun x hx => ih2 x (ih1 x (List.mem_cons_of_mem _ hx))

theorem searchForest_filter {txn : Txn} {maxDepth : Nat} {edgeClassIds : List Nat}
    {edgeFunc : Graph → RecordId → Nat → List RecordId}
    {vertexFunc : Option (Graph → RecordId → RecordId)} {pathFilter : PathFilter}
    (path visited0 : List RecordId) (cs visited : List RecordId) (out : List (List RecordId))
    (visited1 : List RecordId) (hsub : ∀ x ∈ visited0, x ∈ visited)
    (h : SearchForest txn maxDepth edgeClassIds edgeFunc vertexFunc pathFilter path
      (cs.filter (fun x => decide (x ∉ visited0))) visited out visited1) :
    SearchForest txn maxDepth edgeClassIds edgeFunc vertexFunc pathFilter path cs visited out
      visited1 := by
  induction cs generalizing visited out with
  | nil => exact h
  | cons c cs ih =>
    by_cases hc : c ∈ visited0
    · rw [List.filter_cons_of_neg (by simpa using hc)] at h
      exact SearchForest.skip path c cs visited out visited1 (hsub c hc) (ih visited out hsub h)
    · rw [List.filter_cons_of_pos (by simpa using hc)] at h
      cases h with
      | skip _ _ _ _ _ _ hv hrest =>
        exact SearchForest.skip path c cs visited out visited1 hv (ih visited out hsub hrest)
      | leaf _ _ _ _ out0 _ hv hmax hrest =>
        exact SearchForest.leaf path c cs visited out0 visited1 hv hmax
          (ih (c :: visited) out0 (fun x hx => List.mem_cons_of_mem _ (hsub x hx)) hrest)
      | node _ _ _ _ out1 out2 w1 _ hv hmax hsubtree hrest =>
        exact SearchForest.node path c cs visited out1 out2 w1 visited1 hv hmax hsubtree
          (ih w1 out2 (fun x hx =>
            searchForest_mono hsubtree x (List.mem_cons_of_mem _ (hsub x hx))) hrest)

theorem searchStack_unwound {txn : Txn} {maxDepth : Nat} {edgeClassIds : List Nat}
    {edgeFunc : Graph → RecordId → Nat → List RecordId}
    {vertexFunc : Option (Graph → RecordId → RecordId)} {pathFilter : PathFilter}
    {fs fs1 : List (List RecordId × List RecordId)} (hu : Unwound fs fs1)
    (visited : List RecordId) (out : List (List RecordId)) (visited1 : List RecordId)
    (h : SearchStack txn maxDepth edgeClassIds edgeFunc vertexFunc pathFilter fs1 visited out
      visited1) :
    SearchStack txn maxDepth edgeClassIds edgeFunc vertexFunc pathFilter fs visited out
      visited1 := by
  induction hu with
  | refl fs => exact h
  | drop path rest fs _ ih =>
    exact SearchStack.cons path [] rest visited [] out visited visited1
      (SearchForest.done path visited) (ih h)

theorem dfsFrames_top (st : DfsState) (fs : List (List RecordId × List RecordId))
    (h : DfsFrames st fs) :
    ∃ p cs rest, fs = (p, cs) :: rest ∧ st.stk.getD st.currentLevel [] = cs.reverse := by
  obtain ⟨hlevel, ⟨upper, hstk, -⟩, -, -⟩ := h
  cases fs with
  | nil => simp at hlevel
  | cons f rest =>
    obtain ⟨p, cs⟩ := f
    refine ⟨p, cs, rest, rfl, ?_⟩
    have hcur : st.currentLevel = rest.length := by
      simp only [List.length_cons] at hlevel
      omega
    have hAlen : (rest.reverse.map
        (fun f : List RecordId × List RecordId => f.2.reverse)).length = st.currentLevel := by
      rw [hcur]
      simp
    have hstk1 : st.stk = rest.reverse.map (fun f => f.2.reverse) ++ (cs.reverse :: upper) := by
      rw [hstk]
      simp
    rw [hstk1, ← hAlen]
    exact getD_append_length _ _ _

theorem dfsFrames_done {txn : Txn} {maxDepth : Nat} {edgeClassIds : List Nat}
    {edgeFunc : Graph → RecordId → Nat → List RecordId}
    {vertexFunc : Option (Graph → RecordId → RecordId)} {pathFilter : PathFilter}
    (st : DfsState) (fs : List (List RecordId × List RecordId)) (hfs : DfsFrames st fs)
    (hempty : st.stk.getD st.currentLevel [] = []) :
    SearchStack txn maxDepth edgeClassIds edgeFunc vertexFunc pathFilter fs st.visited []
      st.visited := by
  obtain ⟨p, cs, rest, hfs1, htop⟩ := dfsFrames_top st fs hfs
  rw [hempty] at htop
  have hcs : cs = [] := by
    have := congrArg List.reverse htop
    simpa using this.symm
  subst hcs
  have hrest : rest = [] := hfs.2.2.2 p rest hfs1
  rw [hfs1, hrest]
  exact SearchStack.cons p [] [] st.visited [] [] st.visited st.visited
    (SearchForest.done p st.visited) (SearchStack.nil st.visited)

theorem dfsLoop_forest (txn : Txn) (minDepth maxDepth : Nat) (edgeClassIds : List Nat)
    (edgeFunc : Graph → RecordId → Nat → List RecordId)
    (vertexFunc : Option (Graph → RecordId → RecordId)) (pathFilter : PathFilter)
    (fuel : Nat) (st st1 : DfsState) (fs : List (List RecordId × List RecordId))
    (hrun : dfsLoop txn minDepth maxDepth edgeClassIds edgeFunc vertexFunc pathFilter fuel st
      = .ok st1)
    (hfs : DfsFrames st fs) :
    ∃ out, SearchStack txn maxDepth edgeClassIds edgeFunc vertexFunc pathFilter fs st.visited
        out st1.visited ∧
      st1.result = st.result ++ out.filterMap (dfsEmit txn minDepth pathFilter) := by
  induction fuel generalizing st fs with
  | zero =>
    unfold dfsLoop at hrun
    split at hrun
    · rename_i hempty
      cases hrun
      exact ⟨[], dfsFrames_done _ fs hfs (by simpa using hempty), by simp⟩
    · cases hrun
  | succ fuel ih =>
    unfold dfsLoop at hrun
    split at hrun
    · rename_i hnone
      cases hrun
      exact ⟨[], dfsFrames_done _ fs hfs (List.getLast?_eq_none_iff.1 hnone), by simp⟩
    · rename_i v hv
      obtain ⟨p, cs0, rest, hfs1, htop⟩ := dfsFrames_top st fs hfs
      rw [htop, List.getLast?_reverse] at hv
      cases cs0 with
      | nil => cases hv
      | cons c cs =>
        simp only [List.head?_cons, Option.some.injEq] at hv
        subst hv
        subst hfs1
        obtain ⟨fs1, hf1, hu, hres⟩ := dfsStep_frames txn minDepth maxDepth edgeClassIds edgeFunc
          vertexFunc pathFilter st p c cs rest hfs
        obtain ⟨out1, hstack1, hout1⟩ := ih _ fs1 hrun hf1
        have hstack := searchStack_unwound hu _ _ _ hstack1
        rw [dfsStep_visited] at hstack
        rw [hres] at hout1
        have hplen : p.length = rest.length := hfs.2.2.1.1
        by_cases hmem : c ∈ st.visited
        · rw [if_pos hmem] at hstack hout1
          rw [if_pos hmem] at hstack
          cases hstack with
          | cons _ _ _ _ o1 o2 w1 _ hforest hrest =>
            exact ⟨o1 ++ o2, SearchStack.cons p (c :: cs) rest st.visited o1 o2 w1 st1.visited
              (SearchForest.skip p c cs st.visited o1 w1 hmem hforest) hrest, hout1⟩
        · rw [if_neg hmem] at hstack hout1
          rw [if_neg hmem] at hstack
          by_cases hmax : p.length < maxDepth
          · rw [if_pos hmax] at hstack
            cases hstack with
            | cons _ _ _ _ o1 o23 w1 _ hsubtree hrest1 =>
              cases hrest1 with
              | cons _ _ _ _ o2 o3 w2 _ hforest hrest =>
                refine ⟨((c :: p) :: (o1 ++ o2)) ++ o3,
                  SearchStack.cons p (c :: cs) rest st.visited _ o3 w2 st1.visited
                    (SearchForest.node p c cs st.visited o1 o2 w1 w2 hmem hmax
                      (searchForest_filter (c :: p) (c :: st.visited) _ _ _ _
                        (fun x hx => hx) hsubtree) hforest) hrest, ?_⟩
                rw [hout1, List.append_assoc, List.cons_append, List.filterMap_cons]
                cases dfsEmit txn minDepth pathFilter (c :: p) with
                | none => simp [Option.toList]
                | some d => simp [Option.toList]
          · rw [if_neg hmax] at hstack
            cases hstack with
            | cons _ _ _ _ o1 o2 w1 _ hforest hrest =>
              refine ⟨((c :: p) :: o1) ++ o2,
                SearchStack.cons p (c :: cs) rest st.visited _ o2 w1 st1.visited
                  (SearchForest.leaf p c cs st.visited o1 w1 hmem hmax hforest) hrest, ?_⟩
              rw [hout1, List.append_assoc, List.cons_append, List.filterMap_cons]
              cases dfsEmit txn minDepth pathFilter (c :: p) with
              | none => simp [Option.toList]
              | some d => simp [Option.toList]

end Algorithm

namespace Algorithm

theorem searchForest_paths {txn : Txn} {maxDepth : Nat} {edgeClassIds : List Nat}
    {edgeFunc : Graph → RecordId → Nat → List RecordId}
    {vertexFunc : Option (Graph → RecordId → RecordId)} {pathFilter : PathFilter}
    {path cs visited : List RecordId} {out : List (List RecordId)} {visited1 : List RecordId}
    (h : SearchForest txn maxDepth edgeClassIds edgeFunc vertexFunc pathFilter path cs visited
      out visited1) :
    ∀ q ∈ out, ∃ pre c, c ∈ cs ∧ q = pre ++ c :: path ∧
      List.Chain' (fun child parent =>
        child ∈ dfsNeighbours txn edgeClassIds edgeFunc vertexFunc pathFilter parent)
        (pre ++ [c]) ∧
      (q.length = path.length + 1 ∨ q.length ≤ maxDepth + 1) := by
  induction h with
  | done path visited =>
    intro q hq
    cases hq
  | skip path c cs visited out visited1 _ _ ih =>
    intro q hq
    obtain ⟨pre, c1, hc1, hq1, hch, hlen⟩ := ih q hq
    exact ⟨pre, c1, List.mem_cons_of_mem _ hc1, hq1, hch, hlen⟩
  | leaf path c cs visited out visited1 _ _ _ ih =>
    intro q hq
    rcases List.mem_cons.1 hq with hq | hq
    · exact ⟨[], c, List.mem_cons_self _ _, by rw [hq]; rfl, by simp, Or.inl (by rw [hq]; rfl)⟩
    · obtain ⟨pre, c1, hc1, hq1, hch, hlen⟩ := ih q hq
      exact ⟨pre, c1, List.mem_cons_of_mem _ hc1, hq1, hch, hlen⟩
  | node path c cs visited out1 out2 visited1 visited2 _ hmax _ _ ih1 ih2 =>
    intro q hq
    rcases List.mem_cons.1 hq with hq | hq
    · exact ⟨[], c, List.mem_cons_self _ _, by rw [hq]; rfl, by simp, Or.inl (by rw [hq]; rfl)⟩
    · rcases List.mem_append.1 hq with hq | hq
      · obtain ⟨pre, c1, hc1, hq1, hch, hlen⟩ := ih1 q hq
        refine ⟨pre ++ [c1], c, List.mem_cons_self _ _, by rw [hq1]; simp, ?_, Or.inr ?_⟩
        · refine List.Chain'.append hch (by simp) ?_
          intro x hx y hy
          rw [List.getLast?_concat] at hx
          simp only [Option.mem_def, Option.some.injEq] at hx
          simp only [List.head?_cons, Option.mem_def, Option.some.injEq] at hy
          rw [← hx, ← hy]
          exact hc1
        · rcases hlen with hlen | hlen
          · rw [hlen]
            simp only [List.length_cons]
            omega
          · exact hlen
      · obtain ⟨pre, c1, hc1, hq1, hch, hlen⟩ := ih2 q hq
        exact ⟨pre, c1, List.mem_cons_of_mem _ hc1, hq1, hch, hlen⟩

theorem dfsEmit_some (txn : Txn) (minDepth : Nat) (pathFilter : PathFilter)
    (q : List RecordId) (d : RecordDescriptor) (h : dfsEmit txn minDepth pathFilter q = some d) :
    q.head? = some d.rid ∧ q.length = d.depth + 1 ∧ minDepth ≤ d.depth := by
  cases q with
  | nil => cases h
  | cons v anc =>
    simp only [dfsEmit] at h
    by_cases hl : anc.length ≥ minDepth
    · rw [if_pos hl] at h
      have h2 := (Option.ite_none_right_eq_some.1 h).2
      cases h2
      exact ⟨rfl, rfl, hl⟩
    · rw [if_neg hl] at h
      cases h

theorem depthFirstSearchRdesc_forest (txn : Txn) (recordDescriptor : RecordDescriptor)
    (minDepth maxDepth : Nat) (edgeClassIds : List Nat)
    (edgeFunc : Graph → RecordId → Nat → List RecordId)
    (vertexFunc : Option (Graph → RecordId → RecordId)) (pathFilter : PathFilter)
    (hsrc : Generic.checkIfRecordExist txn recordDescriptor = .RECORD_EXIST)
    (res : List RecordDescriptor)
    (hres : depthFirstSearchRdesc txn recordDescriptor minDepth maxDepth edgeClassIds
      edgeFunc vertexFunc pathFilter = .ok res) :
    ∃ out visited1, SearchForest txn maxDepth edgeClassIds edgeFunc vertexFunc pathFilter []
        [recordDescriptor.rid] [] out visited1 ∧
      res = out.filterMap (dfsEmit txn minDepth pathFilter) := by
  unfold depthFirstSearchRdesc at hres
  rw [hsrc] at hres
  dsimp only at hres
  split at hres
  · cases hres
  · rename_i st1 hst1
    cases hres
    obtain ⟨out, hstack, hout⟩ := dfsLoop_forest txn minDepth maxDepth edgeClassIds edgeFunc
      vertexFunc pathFilter _ _ st1 [([], [recordDescriptor.rid])] hst1
      ⟨rfl, ⟨[], rfl, by simp⟩, ⟨rfl, trivial⟩, by
        intro path rest h
        cases h⟩
    cases hstack with
    | cons _ _ _ _ o1 o2 w1 _ hforest hrest =>
      cases hrest
      refine ⟨o1, _, hforest, ?_⟩
      rw [hout]
      simp

end Algorithm

namespace Algorithm

theorem searchForest_unique {txn : Txn} {maxDepth : Nat} {edgeClassIds : List Nat}
    {edgeFunc : Graph → RecordId → Nat → List RecordId}
    {vertexFunc : Option (Graph → RecordId → RecordId)} {pathFilter : PathFilter}
    {path cs visited : List RecordId} {out : List (List RecordId)} {visited1 : List RecordId}
    (h : SearchForest txn maxDepth edgeClassIds edgeFunc vertexFunc pathFilter path cs visited
      out visited1) :
    ∀ out2 visited2,
      SearchForest txn maxDepth edgeClassIds edgeFunc vertexFunc pathFilter path cs visited
        out2 visited2 → out2 = out ∧ visited2 = visited1 := by
  induction h with
  | done path visited =>
    intro out2 visited2 h2
    cases h2
    exact ⟨rfl, rfl⟩
  | skip path c cs visited out visited1 hv _ ih =>
    intro out2 visited2 h2
    cases h2 with
    | skip _ _ _ _ _ _ _ hrest => exact ih _ _ hrest
    | leaf _ _ _ _ _ _ hn _ _ => exact absurd hv hn
    | node _ _ _ _ _ _ _ _ hn _ _ _ => exact absurd hv hn
  | leaf path c cs visited out visited1 hn hmax _ ih =>
    intro out2 visited2 h2
    cases h2 with
    | skip _ _ _ _ _ _ hv _ => exact absurd hv hn
    | leaf _ _ _ _ o _ _ _ hrest =>
      obtain ⟨h1, h3⟩ := ih _ _ hrest
      exact ⟨by rw [h1], h3⟩
    | node _ _ _ _ _ _ _ _ _ hlt _ _ => exact absurd hlt hmax
  | node path c cs visited out1 out2 visited1 visited2 hn hmax _ _ ih1 ih2 =>
    intro out3 visited3 h2
    cases h2 with
    | skip _ _ _ _ _ _ hv _ => exact absurd hv hn
    | leaf _ _ _ _ _ _ _ hge _ => exact absurd hmax hge
    | node _ _ _ _ o1 o2 w1 _ _ _ hsubtree hrest =>
      obtain ⟨h1, h3⟩ := ih1 _ _ hsubtree
      subst h1
      subst h3
      obtain ⟨h4, h5⟩ := ih2 _ _ hrest
      exact ⟨by rw [h4], h5⟩

end Algorithm

namespace RecordCompare

theorem mem_onlyClasses_getFilterClasses (getInfo : String → ClassAccessInfo)
    (getSubClassInfos : Nat → List ClassAccessInfo) (filter : GraphFilter) (x : String) :
    x ∈ (getFilterClasses getInfo getSubClassInfos filter).onlyClasses ↔
      x ∈ filter.onlyClasses ∨ ∃ subOfClass ∈ filter.onlySubOfClasses,
        (getInfo subOfClass).type ≠ .UNDEFINED ∧
          (x = (getInfo subOfClass).name ∨
            ∃ subClassInfo ∈ getSubClassInfos (getInfo subOfClass).id,
              x = subClassInfo.name) := by
  have hinit : x ∈ filter.onlyClasses.foldl setInsert [] ↔ x ∈ filter.onlyClasses := by
    have := mem_foldl_setInsert (fun a : String => a) filter.onlyClasses [] x
    simp only [List.not_mem_nil, false_or] at this
    rw [this]
    constructor
    · rintro ⟨a, ha, rfl⟩; exact ha
    · intro h; exact ⟨x, h, rfl⟩
  unfold getFilterClasses
  dsimp only
  rw [mem_addSubOfClasses, hinit]

/-- The expanded only set is empty exactly when the filter names no only-class and
no only-sub-of-class that exists. -/
theorem onlyClasses_getFilterClasses_eq_nil (getInfo : String → ClassAccessInfo)
    (getSubClassInfos : Nat → List ClassAccessInfo) (filter : GraphFilter) :
    (getFilterClasses getInfo getSubClassInfos filter).onlyClasses = [] ↔
      filter.onlyClasses = [] ∧
        ∀ subOfClass ∈ filter.onlySubOfClasses, (getInfo subOfClass).type = .UNDEFINED := by
  constructor
  · intro h
    have hno : ∀ x, x ∉ (getFilterClasses getInfo getSubClassInfos filter).onlyClasses := by
      intro x hx
      rw [h] at hx
      exact List.not_mem_nil x hx
    constructor
    · cases hf : filter.onlyClasses with
      | nil => rfl
      | cons a l =>
        exact absurd ((mem_onlyClasses_getFilterClasses getInfo getSubClassInfos filter a).2
          (Or.inl (by rw [hf]; exact List.mem_cons_self _ _))) (hno a)
    · intro s hs
      by_contra hne
      exact hno (getInfo s).name
        ((mem_onlyClasses_getFilterClasses getInfo getSubClassInfos filter _).2
          (Or.inr ⟨s, hs, hne, Or.inl rfl⟩))
  · rintro ⟨h1, h2⟩
    apply List.eq_nil_iff_forall_not_mem.2
    intro x hx
    rcases (mem_onlyClasses_getFilterClasses getInfo getSubClassInfos filter x).1 hx with
      h | ⟨s, hs, hne, _⟩
    · rw [h1] at h
      exact List.not_mem_nil x h
    · exact hne (h2 s hs)

/-- The two class tests of `filterResult`: past them the outcome is that of the
statements that follow, and a record that fails one of them gets the empty
result. -/
theorem filterResult_cases {PropertyType Info MultiCondition : Type}
    (genericCompareFunc :
      Bytes → PropertyType → Bytes → Bytes → Condition.Comparator → Bool → Bool)
    (typeOf : Info → PropertyType)
    (getInfoById : Nat → ClassAccessInfo)
    (getRecordWithBasicInfo : ClassAccessInfo → RecordDescriptor → Record)
    (getPropertyNameMapInfo : ClassAccessInfo → List (String × Info))
    (compareRecordByMultiCondition : Record → List (String × Info) → MultiCondition → Bool)
    (recordDescriptor : RecordDescriptor) (mode : FilterMode MultiCondition)
    (classFilter : ClassFilter) :
    (((classFilter.onlyClasses = [] ∨
          (getInfoById recordDescriptor.rid.1).name ∈ classFilter.onlyClasses) ∧
        (getInfoById recordDescriptor.rid.1).name ∉ classFilter.ignoreClasses) →
      filterResult genericCompareFunc typeOf getInfoById getRecordWithBasicInfo
          getPropertyNameMapInfo compareRecordByMultiCondition recordDescriptor mode
          classFilter =
        filterResultByMode genericCompareFunc typeOf getRecordWithBasicInfo
          getPropertyNameMapInfo compareRecordByMultiCondition
          (getInfoById recordDescriptor.rid.1) recordDescriptor mode) ∧
    (¬ ((classFilter.onlyClasses = [] ∨
          (getInfoById recordDescriptor.rid.1).name ∈ classFilter.onlyClasses) ∧
        (getInfoById recordDescriptor.rid.1).name ∉ classFilter.ignoreClasses) →
      filterResult genericCompareFunc typeOf getInfoById getRecordWithBasicInfo
          getPropertyNameMapInfo compareRecordByMultiCondition recordDescriptor mode
          classFilter = none) := by
  have hemp : ∀ l : List String, l.isEmpty = true ↔ l = [] := fun l => List.isEmpty_iff
  constructor
  · rintro ⟨h1, h2⟩
    unfold filterResult
    dsimp only
    rw [if_neg, if_neg]
    · rintro ⟨_, h⟩
      exact h2 h
    · rintro ⟨hne, hnot⟩
      rcases h1 with h1 | h1
      · exact hne ((hemp _).2 h1)
      · exact hnot h1
  · intro h
    unfold filterResult
    dsimp only
    by_cases hin : (getInfoById recordDescriptor.rid.1).name ∈ classFilter.ignoreClasses
    · by_cases h1 : ¬ classFilter.onlyClasses.isEmpty = true ∧
          (getInfoById recordDescriptor.rid.1).name ∉ classFilter.onlyClasses
      · rw [if_pos h1]
      · rw [if_neg h1, if_pos]
        refine ⟨?_, hin⟩
        intro he
        rw [(hemp _).1 he] at hin
        exact List.not_mem_nil _ hin
    · rw [if_pos]
      constructor
      · intro he
        exact h ⟨Or.inl ((hemp _).1 he), hin⟩
      · intro hmem
        exact h ⟨Or.inr hmem, hin⟩

end RecordCompare

namespace Compare

end Compare

namespace Generic

open Schema

end Generic

namespace parser

theorem retrieve_ok_offset (b : Blob) (o k : Nat) (d : List Nat) (o1 : Nat)
    (h : b.retrieve o k = .ok (d, o1)) : o1 = o + k ∧ o + k ≤ b.bytes.length := by
  unfold Blob.retrieve at h
  split at h
  · rename_i hle
    cases h
    exact ⟨rfl, hle⟩
  · cases h

/-- Reading a blob that starts with the bytes `pre`, at an offset past them, is
reading the rest of the blob at the offset less their number. -/
theorem retrieve_shift (b1 b2 : Blob) (pre : List Nat) (h : b1.bytes = pre ++ b2.bytes)
    (o k : Nat) :
    b1.retrieve (pre.length + o) k =
      match b2.retrieve o k with
      | .ok (d, o1) => .ok (d, pre.length + o1)
      | .error e => .error e := by
  unfold Blob.retrieve
  rw [h]
  by_cases hle : o + k ≤ b2.bytes.length
  · have hle1 : pre.length + o + k ≤ (pre ++ b2.bytes).length := by
      rw [List.length_append]; omega
    rw [if_pos hle, if_pos hle1]
    dsimp only
    rw [List.drop_append, Nat.add_assoc]
  · have hle1 : ¬ pre.length + o + k ≤ (pre ++ b2.bytes).length := by
      rw [List.length_append]; omega
    rw [if_neg hle, if_neg hle1]

theorem readPropertySize_shift (b1 b2 : Blob) (pre : List Nat)
    (h : b1.bytes = pre ++ b2.bytes) (o : Nat) :
    readPropertySize b1 (pre.length + o) =
      match readPropertySize b2 o with
      | .ok (ps, o1) => .ok (ps, pre.length + o1)
      | .error e => .error e := by
  unfold readPropertySize
  rw [retrieve_shift b1 b2 pre h o 1, retrieve_shift b1 b2 pre h o 4]
  cases h1 : b2.retrieve o 1 with
  | error e => rfl
  | ok p1 =>
    obtain ⟨flag, o1⟩ := p1
    dsimp only
    by_cases hf : leValue flag % 2 = 1
    · rw [if_pos hf, if_pos hf]
      cases h4 : b2.retrieve o 4 with
      | error e => rfl
      | ok p4 =>
        obtain ⟨tmp, o4⟩ := p4
        rfl
    · rw [if_neg hf, if_neg hf]

theorem readPropertySize_offset (b : Blob) (o ps o1 : Nat)
    (h : readPropertySize b o = .ok (ps, o1)) : o < o1 := by
  unfold readPropertySize at h
  cases h1 : b.retrieve o 1 with
  | error e => rw [h1] at h; cases h
  | ok p1 =>
    obtain ⟨flag, o2⟩ := p1
    rw [h1] at h
    dsimp only at h
    have := (retrieve_ok_offset b o 1 flag o2 h1).1
    by_cases hf : leValue flag % 2 = 1
    · rw [if_pos hf] at h
      cases h4 : b.retrieve o 4 with
      | error e => rw [h4] at h; cases h
      | ok p4 =>
        obtain ⟨tmp, o4⟩ := p4
        rw [h4] at h
        cases h
        have := (retrieve_ok_offset b o 4 tmp o1 h4).1
        omega
    · rw [if_neg hf] at h
      cases h
      omega

theorem parseRawDataLoop_done (blob : Blob) (propertyInfos : PropertyIdMapInfo)
    (fuel offset : Nat) (properties : PropertyToBytesMap) (h : ¬ offset < blob.size) :
    parseRawDataLoop blob propertyInfos fuel offset properties = .ok properties := by
  cases fuel with
  | zero => rw [parseRawDataLoop, if_neg h]
  | succ f => rw [parseRawDataLoop, if_neg h]

/-- The decoding loop on a blob that starts with the bytes `pre`, begun past them,
is the decoding loop on the rest of the blob; a budget of as many iterations as
there are bytes left is enough on both sides. -/
theorem parseRawDataLoop_shift (b1 b2 : Blob) (pre : List Nat)
    (h : b1.bytes = pre ++ b2.bytes) (propertyInfos : PropertyIdMapInfo) :
    ∀ (fuel1 fuel2 o : Nat) (acc : PropertyToBytesMap),
      b2.size - o ≤ fuel1 → b2.size - o ≤ fuel2 →
      parseRawDataLoop b1 propertyInfos fuel1 (pre.length + o) acc =
        parseRawDataLoop b2 propertyInfos fuel2 o acc := by
  have hsize : b1.size = pre.length + b2.size := by
    unfold Blob.size
    rw [h, List.length_append]
  intro fuel1
  induction fuel1 with
  | zero =>
    intro fuel2 o acc h1 _
    have hd2 : ¬ o < b2.size := by omega
    have hd1 : ¬ pre.length + o < b1.size := by omega
    rw [parseRawDataLoop_done _ _ _ _ _ hd1, parseRawDataLoop_done _ _ _ _ _ hd2]
  | succ f1 ih =>
    intro fuel2 o acc h1 h2
    by_cases hlt : o < b2.size
    · have hlt1 : pre.length + o < b1.size := by omega
      cases fuel2 with
      | zero => omega
      | succ f2 =>
        rw [parseRawDataLoop, parseRawDataLoop, if_pos hlt, if_pos hlt1,
          retrieve_shift b1 b2 pre h o sizeofPropertyId]
        cases hr : b2.retrieve o sizeofPropertyId with
        | error e => rfl
        | ok p =>
          obtain ⟨propertyId, o1⟩ := p
          dsimp only
          have ho1 := (retrieve_ok_offset b2 o _ propertyId o1 hr).1
          rw [readPropertySize_shift b1 b2 pre h o1]
          cases hs : readPropertySize b2 o1 with
          | error e => rfl
          | ok q =>
            obtain ⟨propertySize, o2⟩ := q
            dsimp only
            have ho2 := readPropertySize_offset b2 o1 propertySize o2 hs
            have hsz : sizeofPropertyId = 2 := rfl
            cases hl : propertyInfos.lookup (leValue propertyId) with
            | none =>
              dsimp only
              rw [Nat.add_assoc]
              exact ih f2 (o2 + propertySize) acc (by omega) (by omega)
            | some foundInfo =>
              dsimp only
              by_cases hp : propertySize > 0
              · rw [if_pos hp, if_pos hp, retrieve_shift b1 b2 pre h o2 propertySize]
                cases hv : b2.retrieve o2 propertySize with
                | error e => rfl
                | ok v =>
                  obtain ⟨byteData, o3⟩ := v
                  dsimp only
                  have ho3 := (retrieve_ok_offset b2 o2 _ byteData o3 hv).1
                  exact ih f2 o3 _ (by omega) (by omega)
              · rw [if_neg hp, if_neg hp]
                exact ih f2 o2 _ (by omega) (by omega)
    · have hd1 : ¬ pre.length + o < b1.size := by omega
      rw [parseRawDataLoop_done _ _ _ _ _ hd1, parseRawDataLoop_done _ _ _ _ _ hlt]

theorem retrieve_ne_diverged (b : Blob) (o k : Nat) : b.retrieve o k ≠ .error .diverged := by
  unfold Blob.retrieve
  split
  · exact fun hh => by cases hh
  · exact fun hh => by cases hh

theorem readPropertySize_ne_diverged (b : Blob) (o : Nat) :
    readPropertySize b o ≠ .error .diverged := by
  unfold readPropertySize
  cases h1 : b.retrieve o 1 with
  | error e =>
    dsimp only
    intro hh
    cases hh
    exact retrieve_ne_diverged b o 1 h1
  | ok p1 =>
    obtain ⟨flag, o2⟩ := p1
    dsimp only
    by_cases hf : leValue flag % 2 = 1
    · rw [if_pos hf]
      cases h4 : b.retrieve o 4 with
      | error e =>
        dsimp only
        intro hh
        cases hh
        exact retrieve_ne_diverged b o 4 h4
      | ok p4 => exact fun hh => by cases hh
    · rw [if_neg hf]
      exact fun hh => by cases hh

/-- With as many iterations as there are bytes left the decoding loop does not
exhaust its budget. -/
theorem parseRawDataLoop_ne_diverged (b : Blob) (propertyInfos : PropertyIdMapInfo) :
    ∀ (fuel o : Nat) (acc : PropertyToBytesMap), b.size - o ≤ fuel →
      parseRawDataLoop b propertyInfos fuel o acc ≠ .error .diverged := by
  intro fuel
  induction fuel with
  | zero =>
    intro o acc h1
    rw [parseRawDataLoop_done _ _ _ _ _ (by omega)]
    exact fun hh => by cases hh
  | succ f ih =>
    intro o acc h1
    by_cases hlt : o < b.size
    · rw [parseRawDataLoop, if_pos hlt]
      cases hr : b.retrieve o sizeofPropertyId with
      | error e =>
        dsimp only
        intro hh
        cases hh
        exact retrieve_ne_diverged b o _ hr
      | ok p =>
        obtain ⟨propertyId, o1⟩ := p
        dsimp only
        have ho1 := (retrieve_ok_offset b o _ propertyId o1 hr).1
        cases hs : readPropertySize b o1 with
        | error e =>
          dsimp only
          intro hh
          cases hh
          exact readPropertySize_ne_diverged b o1 hs
        | ok q =>
          obtain ⟨propertySize, o2⟩ := q
          dsimp only
          have ho2 := readPropertySize_offset b o1 propertySize o2 hs
          have hsz : sizeofPropertyId = 2 := rfl
          cases hl : propertyInfos.lookup (leValue propertyId) with
          | none =>
            dsimp only
            exact ih (o2 + propertySize) acc (by omega)
          | some foundInfo =>
            dsimp only
            by_cases hp : propertySize > 0
            · rw [if_pos hp]
              cases hv : b.retrieve o2 propertySize with
              | error e =>
                dsimp only
                intro hh
                cases hh
                exact retrieve_ne_diverged b o2 _ hv
              | ok v =>
                obtain ⟨byteData, o3⟩ := v
                dsimp only
                have ho3 := (retrieve_ok_offset b o2 _ byteData o3 hv).1
                exact ih o3 _ (by omega)
            · rw [if_neg hp]
              exact ih o2 _ (by omega)
    · rw [parseRawDataLoop_done _ _ _ _ _ hlt]
      exact fun hh => by cases hh

end parser

namespace Algorithm

theorem bfsDequeue_depths (rid : RecordId) (init : List RecordDescriptor)
    (minDepth maxDepth : Nat) (st : BfsState) (vertexId : RecordId) (queue : List RecordId)
    (h : BfsDepths init minDepth maxDepth st) :
    BfsDepths init minDepth maxDepth (bfsDequeue rid st vertexId queue) := by
  obtain ⟨tail, h1, h2, h3⟩ := h
  unfold bfsDequeue
  split
  · refine ⟨tail, h1, h2, fun d hd => ?_⟩
    obtain ⟨a, b, c, e⟩ := h3 d hd
    exact ⟨a, b, c, by dsimp only; omega⟩
  · exact ⟨tail, h1, h2, h3⟩

theorem addUniqueVertex_depths (txn : Txn) (minDepth maxDepth : Nat) (pathFilter : PathFilter)
    (init : List RecordDescriptor) (st : BfsState) (vertex : RecordId)
    (h : BfsDepths init minDepth maxDepth st) :
    BfsDepths init minDepth maxDepth
      (addUniqueVertex txn minDepth maxDepth st vertex pathFilter) := by
  by_cases hmem : vertex ∈ st.visited
  · rw [addUniqueVertex_old txn minDepth maxDepth pathFilter st vertex hmem]
    exact h
  · obtain ⟨tmp, _, _, _, _, heq⟩ :=
      addUniqueVertex_new txn minDepth maxDepth pathFilter st vertex hmem
    rw [heq]
    obtain ⟨tail, h1, h2, h3⟩ := h
    by_cases hc : st.currentLevel + 1 ≥ minDepth ∧ st.currentLevel + 1 ≤ maxDepth
        ∧ ¬ tmp.isEmpty = true
    · refine ⟨tail ++ [{ rid := tmp.rid, depth := st.currentLevel + 1 }], ?_, ?_, ?_⟩
      · dsimp only
        rw [if_pos hc, h1, List.append_assoc]
      · rw [List.pairwise_append]
        refine ⟨h2, List.pairwise_singleton _ _, ?_⟩
        intro a ha b hb
        rw [List.mem_singleton] at hb
        subst hb
        exact (h3 a ha).2.2.2
      · intro d hd
        rcases List.mem_append.1 hd with hd | hd
        · exact h3 d hd
        · rw [List.mem_singleton] at hd
          subst hd
          dsimp only
          exact ⟨by omega, hc.1, hc.2.1, le_refl _⟩
    · refine ⟨tail, ?_, h2, h3⟩
      dsimp only
      rw [if_neg hc, h1]

/-- The depths in the list that `breadthFirstSearchRdesc` returns for a source in the
graph store. -/
theorem breadthFirstSearchRdesc_depths (txn : Txn) (recordDescriptor : RecordDescriptor)
    (minDepth maxDepth : Nat) (edgeClassIds : List Nat)
    (edgeFunc : Graph → RecordId → Nat → List RecordId)
    (vertexFunc : Option (Graph → RecordId → RecordId)) (pathFilter : PathFilter)
    (hex : Generic.checkIfRecordExist txn recordDescriptor = .RECORD_EXIST)
    (res : List RecordDescriptor)
    (hres : breadthFirstSearchRdesc txn recordDescriptor minDepth maxDepth edgeClassIds
        edgeFunc vertexFunc pathFilter = .ok res) :
    ∃ tail, res = (if minDepth = 0 then [recordDescriptor] else []) ++ tail ∧
      tail.Pairwise (fun a b => a.depth ≤ b.depth) ∧
      ∀ d ∈ tail, 1 ≤ d.depth ∧ minDepth ≤ d.depth ∧ d.depth ≤ maxDepth := by
  unfold breadthFirstSearchRdesc at hres
  rw [hex] at hres
  simp only at hres
  split at hres
  · cases hres
  · rename_i st1 hst1
    cases hres
    have hinv := bfsLoop_invariant
      (BfsDepths (if minDepth = 0 then [recordDescriptor] else []) minDepth maxDepth)
      txn recordDescriptor.rid minDepth maxDepth edgeClassIds edgeFunc vertexFunc pathFilter
      (fun st vertexId queue h _ => bfsDequeue_depths _ _ _ _ st vertexId queue h)
      (fun st vertexId edge h => addUniqueVertex_depths txn minDepth maxDepth pathFilter _ st _ h)
      _ _ st1 ⟨[], by simp, List.Pairwise.nil, fun d hd => absurd hd (List.not_mem_nil d)⟩ hst1
    obtain ⟨tail, h1, h2, h3⟩ := hinv
    exact ⟨tail, h1, h2, fun d hd => ⟨(h3 d hd).1, (h3 d hd).2.1, (h3 d hd).2.2.1⟩⟩

end Algorithm

namespace Algorithm

/-- An edge that `getOutEdges` yields for some vertex is an out-edge step from the
source the graph store gives for it to its destination. -/
theorem outStep_src_of_getOutEdges (txn : Txn) (u : RecordId) (pathFilter : PathFilter)
    (edgeClassIds : List Nat) (edge : RecordDescriptor)
    (h : edge ∈ getOutEdges txn u pathFilter edgeClassIds) :
    OutStep txn pathFilter edgeClassIds (txn.dbRelation.getVertexSrc edge.rid)
      (txn.dbRelation.getVertexDst edge.rid) := by
  obtain ⟨⟨classId, hcls, hmem⟩, hfilt⟩ := getOutEdges_mem txn u pathFilter edgeClassIds edge h
  refine ⟨edge.rid, ⟨classId, hcls, ?_⟩, hfilt, rfl⟩
  unfold Graph.getEdgeOut at hmem
  obtain ⟨entry, hentry, hrid⟩ := List.mem_map.mp hmem
  obtain ⟨hin, hcond⟩ := List.mem_filter.mp hentry
  have hclass : (classId == 0 || entry.rid.1 == classId) = true := by
    simp only [Bool.and_eq_true] at hcond
    exact hcond.2
  unfold Graph.getVertexSrc
  cases hfind : txn.dbRelation.edges.find? (fun e => e.rid == edge.rid) with
  | none =>
    have := List.find?_eq_none.mp hfind entry hin
    simp [hrid] at this
  | some entry1 =>
    have hin1 := List.mem_of_find?_eq_some hfind
    have hrid1 : entry1.rid = edge.rid := by
      have := List.find?_some hfind
      simpa using this
    dsimp only
    unfold Graph.getEdgeOut
    refine List.mem_map.mpr ⟨entry1, List.mem_filter.mpr ⟨hin1, ?_⟩, hrid1⟩
    rw [hrid1, ← hrid]
    simp only [beq_self_eq_true, Bool.true_and]
    exact hclass

/-- A vertex that passed the test on the destination of an edge satisfies the vertex
filter, when one is set. -/
theorem vertexAccepted_filter (txn : Txn) (pathFilter : PathFilter) (v : RecordId)
    (h : VertexAccepted txn pathFilter v) (f : Record → Bool)
    (hf : pathFilter.vertexFilter = some f) : f (txn.record v) = true := by
  unfold VertexAccepted at h
  have hen : pathFilter.isEnable = true := by
    simp [PathFilter.isEnable, PathFilter.isSetVertex, hf]
  rw [hen, if_pos rfl] at h
  by_cases hfv : f (txn.record v) = true
  · exact hfv
  · simp [retrieveRdesc, hf, hfv, RecordDescriptor.isEmpty, RecordDescriptor.empty] at h

theorem dijkstraRelax_parentSteps (txn : Txn) (costFunction : Txn → RecordDescriptor → Int)
    (pathFilter : PathFilter) (edgeClassIds : List Nat) (u : RecordId) (dist : Int)
    (st : DijkstraState) (edge : RecordDescriptor)
    (hedge : edge ∈ getOutEdges txn u pathFilter edgeClassIds)
    (hp : ParentSteps txn pathFilter edgeClassIds st.parent) :
    ParentSteps txn pathFilter edgeClassIds
      (dijkstraRelax txn costFunction pathFilter dist st edge).parent := by
  rcases dijkstraRelax_cases txn costFunction pathFilter dist st edge with
    ⟨_, heq⟩ | ⟨_, _, heq⟩ | ⟨hacc, _, heq⟩
  · rw [heq]; exact hp
  · rw [heq]; exact hp
  · rw [heq]
    intro v e hv
    dsimp only at hv
    by_cases hvn : v = txn.dbRelation.getVertexDst edge.rid
    · subst hvn
      rw [lookup_cons_self] at hv
      cases hv
      exact ⟨outStep_src_of_getOutEdges txn u pathFilter edgeClassIds edge hedge, hacc⟩
    · rw [lookup_cons_of_ne _ _ _ _ hvn] at hv
      exact hp v e hv

theorem foldl_dijkstraRelax_parentSteps (txn : Txn)
    (costFunction : Txn → RecordDescriptor → Int) (pathFilter : PathFilter)
    (edgeClassIds : List Nat) (u : RecordId) (dist : Int) (edges : List RecordDescriptor)
    (hedges : ∀ edge ∈ edges, edge ∈ getOutEdges txn u pathFilter edgeClassIds)
    (st : DijkstraState) (hp : ParentSteps txn pathFilter edgeClassIds st.parent) :
    ParentSteps txn pathFilter edgeClassIds
      (edges.foldl (dijkstraRelax txn costFunction pathFilter dist) st).parent := by
  induction edges generalizing st with
  | nil => exact hp
  | cons edge rest ih =>
    rw [List.foldl_cons]
    exact ih (fun e he => hedges e (List.mem_cons_of_mem _ he)) _
      (dijkstraRelax_parentSteps txn costFunction pathFilter edgeClassIds u dist st edge
        (hedges edge (List.mem_cons_self _ _)) hp)

theorem dijkstraLoop_parentSteps (txn : Txn) (dstId : RecordId)
    (costFunction : Txn → RecordDescriptor → Int) (edgeClassIds : List Nat)
    (pathFilter : PathFilter) (fuel : Nat) (st st1 : DijkstraState)
    (hp : ParentSteps txn pathFilter edgeClassIds st.parent)
    (hrun : dijkstraLoop txn dstId costFunction edgeClassIds pathFilter fuel st = .ok st1) :
    ParentSteps txn pathFilter edgeClassIds st1.parent := by
  induction fuel generalizing st with
  | zero =>
    unfold dijkstraLoop at hrun
    split at hrun
    · cases hrun; exact hp
    · cases hrun
  | succ fuel ih =>
    rw [dijkstraLoop] at hrun
    cases htop : heapTop st.heap with
    | none =>
      rw [htop] at hrun
      cases hrun
      exact hp
    | some top =>
      rw [htop] at hrun
      dsimp only at hrun
      by_cases hd : top.2 = dstId
      · rw [if_pos hd] at hrun
        cases hrun
        exact hp
      · rw [if_neg hd] at hrun
        cases hl : st.distance.lookup top.2 with
        | none =>
          rw [hl] at hrun
          cases hrun
        | some d =>
          rw [hl] at hrun
          dsimp only at hrun
          by_cases hgt : top.1 > d
          · rw [if_pos hgt] at hrun
            exact ih ⟨st.parent, st.distance, st.heap.erase top⟩ hp hrun
          · rw [if_neg hgt] at hrun
            exact ih _ (foldl_dijkstraRelax_parentSteps txn costFunction pathFilter
              edgeClassIds top.2 top.1 _ (fun e he => he)
              ⟨st.parent, st.distance, st.heap.erase top⟩ hp) hrun

/-- The walk back along the parent edges, when it ends: it ends at the source, and
each vertex it visits after the first is the source of the edge recorded for the
vertex before it. -/
theorem dijkstraWalk_chain (txn : Txn) (pathFilter : PathFilter) (edgeClassIds : List Nat)
    (parent : List (RecordId × RecordDescriptor)) (srcId : RecordId)
    (hp : ParentSteps txn pathFilter edgeClassIds parent) :
    ∀ (fuel : Nat) (vertex : RecordId) (result res : List RecordDescriptor),
      dijkstraWalk txn parent srcId fuel vertex result = .ok res →
      ∃ tail : List RecordId, res = result ++ tail.map RecordDescriptor.ofRid ∧
        List.Chain (fun child par =>
          OutStep txn pathFilter edgeClassIds par child ∧ VertexAccepted txn pathFilter child)
          vertex tail ∧
        (vertex :: tail).getLast? = some srcId := by
  intro fuel
  induction fuel with
  | zero =>
    intro vertex result res h
    unfold dijkstraWalk at h
    split at h
    · cases h
    · rename_i hv
      cases h
      have : vertex = srcId := not_not.mp hv
      exact ⟨[], by simp, List.Chain.nil, by simp [this]⟩
  | succ fuel ih =>
    intro vertex result res h
    rw [dijkstraWalk] at h
    by_cases hv : vertex ≠ srcId
    · rw [if_pos hv] at h
      cases hl : parent.lookup vertex with
      | none =>
        rw [hl] at h
        cases h
      | some edge =>
        rw [hl] at h
        dsimp only at h
        obtain ⟨tail, h1, h2, h3⟩ := ih _ _ _ h
        refine ⟨txn.dbRelation.getVertexSrc edge.rid :: tail, ?_, ?_, ?_⟩
        · rw [h1]
          simp
        · exact List.Chain.cons (hp vertex edge hl) h2
        · rw [List.getLast?_cons_cons]
          exact h3
    · rw [if_neg hv] at h
      cases h
      have : vertex = srcId := not_not.mp hv
      exact ⟨[], by simp, List.Chain.nil, by simp [this]⟩

/-- Shape of a sequence that `dijkstraSearch` returns. -/
theorem dijkstraSearch_shape (txn : Txn) (srcId dstId : RecordId)
    (costFunction : Txn → RecordDescriptor → Int) (edgeClassIds : List Nat)
    (pathFilter : PathFilter) (cost : Int) (path : List RecordDescriptor)
    (hrun : dijkstraSearch txn srcId dstId costFunction edgeClassIds pathFilter =
      .ok (cost, path))
    (hne : path ≠ []) :
    (path.map (fun d => d.rid)).head? = some srcId ∧
    (path.map (fun d => d.rid)).getLast? = some dstId ∧
    List.Chain' (fun a b =>
      OutStep txn pathFilter edgeClassIds a b ∧ VertexAccepted txn pathFilter b)
      (path.map (fun d => d.rid)) ∧
    ∀ i (hi : i < path.length), (path.get ⟨i, hi⟩).depth = i := by
  unfold dijkstraSearch at hrun
  dsimp only at hrun
  cases hloop : dijkstraLoop txn dstId costFunction edgeClassIds pathFilter
      (dijkstraFuel txn srcId edgeClassIds pathFilter)
      { parent := [], distance := [(srcId, 0)], heap := [(0, srcId)] } with
  | error e => rw [hloop] at hrun; cases hrun
  | ok st =>
    rw [hloop] at hrun
    dsimp only at hrun
    have hp : ParentSteps txn pathFilter edgeClassIds st.parent :=
      dijkstraLoop_parentSteps txn dstId costFunction edgeClassIds pathFilter _ _ st
        (fun v e hv => by cases hv) hloop
    cases hd : st.distance.lookup dstId with
    | none =>
      rw [hd] at hrun
      cases hrun
      exact absurd rfl hne
    | some d =>
      rw [hd] at hrun
      dsimp only at hrun
      cases hw : dijkstraWalk txn st.parent srcId (st.distance.length + 1) dstId
          [RecordDescriptor.ofRid dstId] with
      | error e => rw [hw] at hrun; cases hrun
      | ok result =>
        rw [hw] at hrun
        cases hrun
        obtain ⟨tail, h1, h2, h3⟩ := dijkstraWalk_chain txn pathFilter edgeClassIds st.parent
          srcId hp _ _ _ _ hw
        have hrids : (assignDepths 0 result.reverse).map (fun d => d.rid) =
            (dstId :: tail).reverse := by
          rw [map_rid_assignDepths, List.map_reverse, h1]
          simp [RecordDescriptor.ofRid, Function.comp_def]
        refine ⟨?_, ?_, ?_, ?_⟩
        · rw [hrids, List.head?_reverse]
          exact h3
        · rw [hrids, List.getLast?_reverse]
          rfl
        · rw [hrids, List.chain'_reverse]
          exact h2
        · intro i hi
          have := depth_assignDepths 0 _ i hi
          simpa using this

end Algorithm

namespace Algorithm

end Algorithm

/-! ## Claims -/

namespace parser

/-- C2: `Parser::buildRawData` appends the two bytes of the property id, then a
one-byte header `2n` (low bit 0) when the value has `n < 128` bytes, or a four-byte
little-endian header `2n+1` (low bit 1) when `128 ≤ n < 2^31`, then the `n` value
bytes; the header decoding of `Parser::parseRawData`, started right after the id,
yields `n` and the offset of the first value byte in both cases. -/
theorem buildRawData_header (blob : Blob) (propertyId : Nat) (rawData : Bytes) :
    (rawData.length < 128 →
      (buildRawData blob propertyId rawData).bytes =
          blob.bytes ++ [propertyId % 256, propertyId / 256 % 256]
            ++ [2 * rawData.length] ++ rawData
        ∧ (2 * rawData.length) % 2 = 0
        ∧ readPropertySize (buildRawData blob propertyId rawData) (blob.size + 2)
            = .ok (rawData.length, blob.size + 2 + 1))
    ∧ (128 ≤ rawData.length → rawData.length < 2 ^ 31 →
      (buildRawData blob propertyId rawData).bytes =
          blob.bytes ++ [propertyId % 256, propertyId / 256 % 256]
            ++ leBytes 4 (2 * rawData.length + 1) ++ rawData
        ∧ leValue (leBytes 4 (2 * rawData.length + 1)) = 2 * rawData.length + 1
        ∧ (leBytes 4 (2 * rawData.length + 1)).length = 4
        ∧ (2 * rawData.length + 1) % 2 = 1
        ∧ readPropertySize (buildRawData blob propertyId rawData) (blob.size + 2)
            = .ok (rawData.length, blob.size + 2 + 4)) := by
  refine ⟨fun hn => ?_, fun hlo hn => ?_⟩
  · have hb := buildRawData_bytes_short blob propertyId rawData hn
    refine ⟨hb, by omega, ?_⟩
    have := readPropertySize_short (buildRawData blob propertyId rawData)
      (blob.bytes ++ [propertyId % 256, propertyId / 256 % 256]) rawData rawData.length hb
    simpa [Blob.size] using this
  · have hb := buildRawData_bytes_long blob propertyId rawData hlo hn
    refine ⟨hb, ?_, length_leBytes _ _, by omega, ?_⟩
    · rw [leValue_leBytes]
      have : (256 : Nat) ^ 4 = 4294967296 := by norm_num
      have h31 : (2 : Nat) ^ 31 = 2147483648 := by norm_num
      omega
    · have := readPropertySize_long (buildRawData blob propertyId rawData)
        (blob.bytes ++ [propertyId % 256, propertyId / 256 % 256]) rawData rawData.length hn hb
      simpa [Blob.size] using this

/-- C2 at concrete inputs: a three-byte value gets the one-byte header 6, a value
of 128 bytes the four-byte header 257. -/
theorem buildRawData_header_witness :
    ([1, 2, 3].length < 128
      ∧ (buildRawData (Blob.new 8) 7 [1, 2, 3]).bytes =
        (Blob.new 8).bytes ++ [7 % 256, 7 / 256 % 256] ++ [2 * [1, 2, 3].length] ++ [1, 2, 3]
      ∧ (2 * [1, 2, 3].length) % 2 = 0
      ∧ readPropertySize (buildRawData (Blob.new 8) 7 [1, 2, 3]) ((Blob.new 8).size + 2)
          = .ok ([1, 2, 3].length, (Blob.new 8).size + 2 + 1))
    ∧ (128 ≤ (List.replicate 128 9).length ∧ (List.replicate 128 9).length < 2 ^ 31
      ∧ (buildRawData (Blob.new 200) 258 (List.replicate 128 9)).bytes =
        (Blob.new 200).bytes ++ [258 % 256, 258 / 256 % 256]
          ++ leBytes 4 (2 * (List.replicate 128 9).length + 1) ++ List.replicate 128 9
      ∧ leValue (leBytes 4 (2 * (List.replicate 128 9).length + 1))
          = 2 * (List.replicate 128 9).length + 1
      ∧ (leBytes 4 (2 * (List.replicate 128 9).length + 1)).length = 4
      ∧ (2 * (List.replicate 128 9).length + 1) % 2 = 1
      ∧ readPropertySize (buildRawData (Blob.new 200) 258 (List.replicate 128 9))
          ((Blob.new 200).size + 2)
          = .ok ((List.replicate 128 9).length, (Blob.new 200).size + 2 + 4)) := by
  have h1 : [1, 2, 3].length < 128 := by decide
  have h2 : 128 ≤ (List.replicate 128 9).length := by simp
  have h3 : (List.replicate 128 9).length < 2 ^ 31 := by simp
  exact ⟨⟨h1, (buildRawData_header (Blob.new 8) 7 [1, 2, 3]).1 h1⟩,
    ⟨h2, h3, (buildRawData_header (Blob.new 200) 258 (List.replicate 128 9)).2 h2 h3⟩⟩

/-- C1: for a schema whose ids are below `2^16` and whose id map sends every id
back to its name, and a record whose property names are all declared and whose
values are shorter than `2^31` bytes, `Parser::parseRecord` returns a blob, and
`Parser::parseRawData` on a row holding the bytes of that blob returns, for every
property whose value in the record is not empty, exactly that value under the
same name. -/
theorem parseRawData_parseRecord (sizeofTxnId : Nat) (record : Record)
    (properties : PropertyNameMapInfo) (propertyInfos : PropertyIdMapInfo)
    (hid : ∀ p ∈ properties, p.2.id < 2 ^ 16)
    (hinv : ∀ p ∈ properties, ∃ info, propertyInfos.lookup p.2.id = some info ∧ info.name = p.1)
    (hdecl : ∀ p ∈ record.getAll, (properties.lookup p.1).isSome)
    (hsize : ∀ p ∈ record.getAll, p.2.length < 2 ^ 31) :
    ∃ blob, parseRecord sizeofTxnId record properties = .ok blob ∧
      ∀ rawData : storage_engine.lmdb.Result, rawData.empty = false →
        rawData.data.bytes = blob.bytes → blob.size ≤ rawData.data.capacity →
        ∀ name, record.get name ≠ [] →
          ∃ decoded, parseRawData rawData propertyInfos false = .ok decoded ∧
            decoded.get name = record.get name := by
  obtain ⟨n, hn⟩ := parseRecordDataSize_ok properties record.getAll 0 hdecl
  have hpos := getRawDataSize_pos (2 * sizeofTxnId)
  have hne : ¬ (n + getRawDataSize (2 * sizeofTxnId) ≤ 0) := by omega
  have henc : parseRecord sizeofTxnId record properties =
      .ok ⟨n + getRawDataSize (2 * sizeofTxnId), encodedBlocks record properties⟩ := by
    unfold parseRecord
    rw [hn]
    simp only [parseRecordWithSize, hne, if_false]
    rw [parseRecordBlocks_eq record properties _ hid hsize]
    simp [Blob.new]
  refine ⟨_, henc, ?_⟩
  intro rawData hempty hbytes hcap name hname
  simp only [Blob.size] at hcap
  -- the name is declared, so one of the blocks carries it
  have hmem : name ∈ properties.map Prod.fst := by
    unfold Record.get at hname
    cases hl : record.properties.lookup name with
    | none => simp [hl] at hname
    | some v =>
      have h1 := hdecl (name, v) (lookup_mem _ _ _ hl)
      cases h2 : List.lookup name properties with
      | none => simp [h2] at h1
      | some info =>
        have := lookup_mem _ _ _ h2
        exact List.mem_map.2 ⟨(name, info), this, rfl⟩
  have hblocks : 3 ≤ (encodedBlocks record properties).length := by
    cases hp : properties with
    | nil => simp [hp] at hmem
    | cons p rest =>
      simp only [encodedBlocks, List.length_append]
      have := length_blockBytes_ge p.2.id (record.get p.1)
      omega
  have hloop := parseRawDataLoop_encodedBlocks record propertyInfos hsize properties hid hinv
    rawData.data [] [] rawData.data.size (by simpa using hbytes)
    (by simp [Blob.size, hbytes])
  have hcap0 : ¬ rawData.data.capacity = 0 := by omega
  have hcap4 : rawData.data.capacity ≥ 2 * 2 := by
    have : 4 ≤ (encodedBlocks record properties).length := by
      cases hp : properties with
      | nil => simp [hp] at hmem
      | cons p rest =>
        simp only [encodedBlocks, List.length_append]
        by_cases hpn : p.1 = name
        · have h3 := length_blockBytes_ge p.2.id (record.get p.1)
          have h4 : 4 ≤ (blockBytes p.2.id (record.get p.1)).length := by
            have hl : 0 < (record.get p.1).length := by
              rw [hpn]; exact List.length_pos.2 hname
            unfold blockBytes
            split
            · simp; omega
            · simp [length_leBytes]; omega
          omega
        · have h3 := length_blockBytes_ge p.2.id (record.get p.1)
          have hr : name ∈ rest.map Prod.fst := by
            rw [hp] at hmem
            simp only [List.map_cons, List.mem_cons] at hmem
            rcases hmem with h5 | h5
            · exact absurd h5.symm hpn
            · exact h5
          have : 1 ≤ (encodedBlocks record rest).length := by
            cases hr2 : rest with
            | nil => simp [hr2] at hr
            | cons q rest2 =>
              simp only [encodedBlocks, List.length_append]
              have := length_blockBytes_ge q.2.id (record.get q.1)
              omega
          omega
    omega
  refine ⟨⟨decodedProperties record properties []⟩, ?_, ?_⟩
  · unfold parseRawData
    simp only [hempty, Bool.false_eq_true, if_false, hcap0, hcap4, if_true]
    simp only [List.length_nil] at hloop
    rw [hloop]
  · unfold Record.get
    simp only [lookup_decodedProperties, hmem, if_true, Option.getD_some]
    rfl

/-- C1 at a concrete schema (`age` with id 3, `name` with id 2) and the record
`{name: [74, 75]}`: the row written by `parseRecord` decodes to a record whose
`name` is `[74, 75]`. -/
theorem parseRawData_parseRecord_witness :
    (∀ p ∈ ([("age", ⟨"age", 3⟩), ("name", ⟨"name", 2⟩)] : PropertyNameMapInfo),
        p.2.id < 2 ^ 16)
    ∧ (∀ p ∈ ([("age", ⟨"age", 3⟩), ("name", ⟨"name", 2⟩)] : PropertyNameMapInfo),
        ∃ info, List.lookup p.2.id
          ([(2, ⟨"name", 2⟩), (3, ⟨"age", 3⟩)] : PropertyIdMapInfo) = some info ∧
          info.name = p.1)
    ∧ (∀ p ∈ (⟨[("name", [74, 75])]⟩ : Record).getAll,
        (List.lookup p.1
          ([("age", ⟨"age", 3⟩), ("name", ⟨"name", 2⟩)] : PropertyNameMapInfo)).isSome)
    ∧ (∀ p ∈ (⟨[("name", [74, 75])]⟩ : Record).getAll, p.2.length < 2 ^ 31)
    ∧ ∃ blob decoded,
        parseRecord 8 ⟨[("name", [74, 75])]⟩ [("age", ⟨"age", 3⟩), ("name", ⟨"name", 2⟩)]
          = .ok blob
        ∧ parseRawData ⟨false, ⟨blob.bytes.length, blob.bytes⟩⟩
            [(2, ⟨"name", 2⟩), (3, ⟨"age", 3⟩)] false = .ok decoded
        ∧ decoded.get "name" = [74, 75] := by
  have h1 : ∀ p ∈ ([("age", ⟨"age", 3⟩), ("name", ⟨"name", 2⟩)] : PropertyNameMapInfo),
      p.2.id < 2 ^ 16 := by decide
  have h2 : ∀ p ∈ ([("age", ⟨"age", 3⟩), ("name", ⟨"name", 2⟩)] : PropertyNameMapInfo),
      ∃ info, List.lookup p.2.id
        ([(2, ⟨"name", 2⟩), (3, ⟨"age", 3⟩)] : PropertyIdMapInfo) = some info ∧
        info.name = p.1 := by decide
  have h3 : ∀ p ∈ (⟨[("name", [74, 75])]⟩ : Record).getAll,
      (List.lookup p.1
        ([("age", ⟨"age", 3⟩), ("name", ⟨"name", 2⟩)] : PropertyNameMapInfo)).isSome := by
    decide
  have h4 : ∀ p ∈ (⟨[("name", [74, 75])]⟩ : Record).getAll, p.2.length < 2 ^ 31 := by decide
  obtain ⟨blob, hblob, hdec⟩ := parseRawData_parseRecord 8 ⟨[("name", [74, 75])]⟩
    [("age", ⟨"age", 3⟩), ("name", ⟨"name", 2⟩)] [(2, ⟨"name", 2⟩), (3, ⟨"age", 3⟩)]
    h1 h2 h3 h4
  obtain ⟨decoded, hd, hget⟩ := hdec ⟨false, ⟨blob.bytes.length, blob.bytes⟩⟩ rfl rfl
    (Nat.le_refl _) "name" (by decide)
  exact ⟨h1, h2, h3, h4, blob, decoded, hblob, hd, hget⟩

/-- C3: on the endpoints `(1, 2)` and `(3, 4)`, decoding the encoded endpoint block
with `Parser::parseEdgeRawDataVertexSrcDst` returns the destination `(4, 0)`: the
position id lands in the class id field and the position id field keeps its
initial zero, so the pair `(src, dst)` is not recovered. -/
theorem parseEdgeRawDataVertexSrcDst_loses_dst :
    parseEdgeRawDataVertexSrcDst (parseEdgeVertexSrcDst (1, 2) (3, 4)) = .ok ((1, 2), (4, 0))
    ∧ parseEdgeRawDataVertexSrcDst (parseEdgeVertexSrcDst (1, 2) (3, 4))
        ≠ .ok ((1, 2), (3, 4)) := by
  have h := parseEdge_decode (1, 2) (3, 4)
  norm_num at h
  rw [h]
  exact ⟨rfl, by simp⟩

/-- C4 fails as stated: a record whose only property is declared but holds `2^31`
bytes gets no blob from `Parser::parseRecord`; the `require` on the value size
stops the call. -/
theorem parseRecord_declared_without_blob :
    (∀ p ∈ (⟨[("p", List.replicate (2 ^ 31) 0)]⟩ : Record).getAll,
        (List.lookup p.1 [("p", (⟨"p", 0⟩ : PropertyAccessInfo))]).isSome)
    ∧ parseRecord 8 ⟨[("p", List.replicate (2 ^ 31) 0)]⟩ [("p", ⟨"p", 0⟩)]
        = .error .requireFailed
    ∧ ¬ ∃ blob, parseRecord 8 ⟨[("p", List.replicate (2 ^ 31) 0)]⟩ [("p", ⟨"p", 0⟩)]
        = .ok blob := by
  have h := parseRecord_oversized 8 (List.replicate (2 ^ 31) 0)
    (by rw [List.length_replicate]; exact Nat.lt_irrefl _)
  refine ⟨declared_single _, h, ?_⟩
  rintro ⟨blob, hb⟩
  exact Except.noConfusion (h.symm.trans hb)

/-- C4, amended: `Parser::parseRecord` fails with `NOGDB_CTX_NOEXST_PROPERTY` if and
only if the record holds a property name the schema map does not declare; when
every name is declared and every value is shorter than `2^31` bytes (the property
ids being 16-bit), it returns an encoded blob. -/
theorem parseRecord_undeclared (sizeofTxnId : Nat) (record : Record)
    (properties : PropertyNameMapInfo) (hid : ∀ p ∈ properties, p.2.id < 2 ^ 16) :
    (parseRecord sizeofTxnId record properties = .error .ctxNoexstProperty
      ↔ ∃ p ∈ record.getAll, properties.lookup p.1 = none)
    ∧ ((∀ p ∈ record.getAll, (properties.lookup p.1).isSome) →
        (∀ p ∈ record.getAll, p.2.length < 2 ^ 31) →
        ∃ blob, parseRecord sizeofTxnId record properties = .ok blob) := by
  refine ⟨⟨fun h => ?_, fun h => ?_⟩, fun hdecl hsize => ?_⟩
  · cases hn : parseRecordDataSize properties record.getAll 0 with
    | error e => exact (parseRecordDataSize_error _ _ _ _ hn).2
    | ok n =>
      rw [parseRecord_of_dataSize _ _ _ _ hn] at h
      exact absurd h (parseRecordBlocks_no_ctx _ _ _)
  · unfold parseRecord
    rw [parseRecordDataSize_undeclared _ _ _ h]
  · obtain ⟨n, hn⟩ := parseRecordDataSize_ok properties record.getAll 0 hdecl
    rw [parseRecord_of_dataSize _ _ _ _ hn, parseRecordBlocks_eq record properties _ hid hsize]
    exact ⟨_, rfl⟩

/-- C4, amended, at the schema `{time_used}`: the record `{profits}` is rejected
with `NOGDB_CTX_NOEXST_PROPERTY`, the record `{time_used}` is encoded. -/
theorem parseRecord_undeclared_witness :
    (∀ p ∈ ([("time_used", ⟨"time_used", 2⟩)] : PropertyNameMapInfo), p.2.id < 2 ^ 16)
    ∧ parseRecord 8 ⟨[("profits", [1])]⟩ [("time_used", ⟨"time_used", 2⟩)]
        = .error .ctxNoexstProperty
    ∧ (∀ p ∈ (⟨[("time_used", [109, 1])]⟩ : Record).getAll,
        (List.lookup p.1 ([("time_used", ⟨"time_used", 2⟩)] : PropertyNameMapInfo)).isSome)
    ∧ (∀ p ∈ (⟨[("time_used", [109, 1])]⟩ : Record).getAll, p.2.length < 2 ^ 31)
    ∧ ∃ blob, parseRecord 8 ⟨[("time_used", [109, 1])]⟩ [("time_used", ⟨"time_used", 2⟩)]
        = .ok blob := by
  have h1 : ∀ p ∈ ([("time_used", ⟨"time_used", 2⟩)] : PropertyNameMapInfo),
      p.2.id < 2 ^ 16 := by decide
  have h2 : ∀ p ∈ (⟨[("time_used", [109, 1])]⟩ : Record).getAll,
      (List.lookup p.1 ([("time_used", ⟨"time_used", 2⟩)] : PropertyNameMapInfo)).isSome := by
    decide
  have h3 : ∀ p ∈ (⟨[("time_used", [109, 1])]⟩ : Record).getAll, p.2.length < 2 ^ 31 := by
    decide
  exact ⟨h1,
    (parseRecord_undeclared 8 ⟨[("profits", [1])]⟩ [("time_used", ⟨"time_used", 2⟩)] h1).1.2
      ⟨("profits", [1]), by decide, by decide⟩,
    h2, h3,
    (parseRecord_undeclared 8 ⟨[("time_used", [109, 1])]⟩ [("time_used", ⟨"time_used", 2⟩)]
      h1).2 h2 h3⟩

end parser

namespace Algorithm

/-- C5: with a vertex filter that rejects `v2`, the breadth-first search from `v1`
over `v1 → v2`, `v1 → v3`, `v3 → v4` emits `v4` (discovered from `v3`, which is at
level 1) with depth 1 instead of 2, and with `minDepth = maxDepth = 2` it emits
nothing although `v4` passes the filter; without the filter `v4` gets depth 2. -/
theorem breadthFirstSearchRdesc_stale_level :
    breadthFirstSearchRdesc Example.txn ⟨(1, 1), 0⟩ 0 10 [] Graph.getEdgeOut
        (some Graph.getVertexDst) Example.rejectV2
      = .ok [⟨(1, 1), 0⟩, ⟨(1, 3), 1⟩, ⟨(1, 4), 1⟩]
    ∧ breadthFirstSearchRdesc Example.txn ⟨(1, 1), 0⟩ 2 2 [] Graph.getEdgeOut
        (some Graph.getVertexDst) Example.rejectV2 = .ok []
    ∧ retrieveRdesc Example.txn (1, 4) Example.rejectV2 .VERTEX = RecordDescriptor.ofRid (1, 4)
    ∧ breadthFirstSearchRdesc Example.txn ⟨(1, 1), 0⟩ 0 10 [] Graph.getEdgeOut
        (some Graph.getVertexDst) PathFilter.none
      = .ok [⟨(1, 1), 0⟩, ⟨(1, 2), 1⟩, ⟨(1, 3), 1⟩, ⟨(1, 4), 2⟩] :=
  ⟨rfl, rfl, rfl, rfl⟩

/-- C6: for a source that exists (with adjacency entries or only in the record
store), every list `breadthFirstSearchRdesc` returns contains a descriptor of the
source if and only if `minDepth = 0`, and then the source descriptor is its first
element; and the function does return a list (the vertex accessor, when given,
being `getVertexSrc` or `getVertexDst`). -/
theorem breadthFirstSearchRdesc_source (txn : Txn) (recordDescriptor : RecordDescriptor)
    (minDepth maxDepth : Nat) (edgeClassIds : List Nat)
    (edgeFunc : Graph → RecordId → Nat → List RecordId)
    (vertexFunc : Option (Graph → RecordId → RecordId)) (pathFilter : PathFilter)
    (hex : Generic.checkIfRecordExist txn recordDescriptor ≠ .RECORD_NOT_EXIST) :
    (∀ res, breadthFirstSearchRdesc txn recordDescriptor minDepth maxDepth edgeClassIds
        edgeFunc vertexFunc pathFilter = .ok res →
      ((∃ d ∈ res, d.rid = recordDescriptor.rid) ↔ minDepth = 0) ∧
      (minDepth = 0 → res.head? = some recordDescriptor))
    ∧ ((∀ f, vertexFunc = some f → f = Graph.getVertexSrc ∨ f = Graph.getVertexDst) →
      ∃ res, breadthFirstSearchRdesc txn recordDescriptor minDepth maxDepth edgeClassIds
        edgeFunc vertexFunc pathFilter = .ok res) := by
  refine ⟨?_, fun hvf => breadthFirstSearchRdesc_returns txn recordDescriptor minDepth
    maxDepth edgeClassIds edgeFunc vertexFunc pathFilter hvf hex⟩
  intro res hres
  cases hstat : Generic.checkIfRecordExist txn recordDescriptor with
  | RECORD_NOT_EXIST => exact absurd hstat hex
  | RECORD_NOT_EXIST_IN_MEMORY =>
    unfold breadthFirstSearchRdesc at hres
    rw [hstat] at hres
    cases hres
    by_cases h0 : minDepth = 0
    · simp [h0]
    · simp [h0]
  | RECORD_EXIST =>
    obtain ⟨-, tail, htail, hne⟩ := breadthFirstSearchRdesc_emitted txn recordDescriptor
      minDepth maxDepth edgeClassIds edgeFunc vertexFunc pathFilter hstat _ hres
    constructor
    · rw [htail]
      by_cases h0 : minDepth = 0
      · simp [h0]
      · simp only [h0, if_false, List.nil_append, iff_false, not_exists, not_and]
        intro d hd
        exact hne d hd
    · intro h0
      rw [htail]
      simp [h0]

/-- C6 on the example graphs: from `v1` with `minDepth = 0` the source comes first,
with `minDepth = 1` it is absent, and a source without adjacency entries is
returned alone. -/
theorem breadthFirstSearchRdesc_source_witness :
    Generic.checkIfRecordExist Example.txn ⟨(1, 1), 0⟩ ≠ .RECORD_NOT_EXIST
    ∧ Generic.checkIfRecordExist Example.isolatedTxn ⟨(1, 1), 0⟩ ≠ .RECORD_NOT_EXIST
    ∧ breadthFirstSearchRdesc Example.txn ⟨(1, 1), 0⟩ 0 10 [] Graph.getEdgeOut
        (some Graph.getVertexDst) Example.rejectV2
      = .ok [⟨(1, 1), 0⟩, ⟨(1, 3), 1⟩, ⟨(1, 4), 1⟩]
    ∧ (((∃ d ∈ ([⟨(1, 1), 0⟩, ⟨(1, 3), 1⟩, ⟨(1, 4), 1⟩] : List RecordDescriptor),
          d.rid = (⟨(1, 1), 0⟩ : RecordDescriptor).rid) ↔ 0 = 0) ∧
      (0 = 0 → ([⟨(1, 1), 0⟩, ⟨(1, 3), 1⟩, ⟨(1, 4), 1⟩] : List RecordDescriptor).head?
        = some ⟨(1, 1), 0⟩))
    ∧ breadthFirstSearchRdesc Example.txn ⟨(1, 1), 0⟩ 1 10 [] Graph.getEdgeOut
        (some Graph.getVertexDst) Example.rejectV2 = .ok [⟨(1, 3), 1⟩, ⟨(1, 4), 1⟩]
    ∧ (((∃ d ∈ ([⟨(1, 3), 1⟩, ⟨(1, 4), 1⟩] : List RecordDescriptor),
          d.rid = (⟨(1, 1), 0⟩ : RecordDescriptor).rid) ↔ 1 = 0) ∧
      (1 = 0 → ([⟨(1, 3), 1⟩, ⟨(1, 4), 1⟩] : List RecordDescriptor).head?
        = some ⟨(1, 1), 0⟩))
    ∧ breadthFirstSearchRdesc Example.isolatedTxn ⟨(1, 1), 0⟩ 0 10 [] Graph.getEdgeOut
        (some Graph.getVertexDst) PathFilter.none = .ok [⟨(1, 1), 0⟩]
    ∧ (((∃ d ∈ ([⟨(1, 1), 0⟩] : List RecordDescriptor),
          d.rid = (⟨(1, 1), 0⟩ : RecordDescriptor).rid) ↔ 0 = 0) ∧
      (0 = 0 → ([⟨(1, 1), 0⟩] : List RecordDescriptor).head? = some ⟨(1, 1), 0⟩))
    ∧ (∀ f, some Graph.getVertexDst = some f → f = Graph.getVertexSrc ∨ f = Graph.getVertexDst)
    ∧ ∃ res, breadthFirstSearchRdesc Example.txn ⟨(1, 1), 0⟩ 0 10 [] Graph.getEdgeOut
        (some Graph.getVertexDst) Example.rejectV2 = .ok res := by
  have hex1 : Generic.checkIfRecordExist Example.txn ⟨(1, 1), 0⟩ ≠ .RECORD_NOT_EXIST := by
    decide
  have hex2 : Generic.checkIfRecordExist Example.isolatedTxn ⟨(1, 1), 0⟩
      ≠ .RECORD_NOT_EXIST := by decide
  have hvf : ∀ f, some Graph.getVertexDst = some f →
      f = Graph.getVertexSrc ∨ f = Graph.getVertexDst :=
    fun _ h => Or.inr (Option.some.inj h).symm
  exact ⟨hex1, hex2, rfl,
    (breadthFirstSearchRdesc_source Example.txn ⟨(1, 1), 0⟩ 0 10 [] Graph.getEdgeOut
      (some Graph.getVertexDst) Example.rejectV2 hex1).1 _ rfl,
    rfl,
    (breadthFirstSearchRdesc_source Example.txn ⟨(1, 1), 0⟩ 1 10 [] Graph.getEdgeOut
      (some Graph.getVertexDst) Example.rejectV2 hex1).1 _ rfl,
    rfl,
    (breadthFirstSearchRdesc_source Example.isolatedTxn ⟨(1, 1), 0⟩ 0 10 [] Graph.getEdgeOut
      (some Graph.getVertexDst) PathFilter.none hex2).1 _ rfl,
    hvf,
    (breadthFirstSearchRdesc_source Example.txn ⟨(1, 1), 0⟩ 0 10 [] Graph.getEdgeOut
      (some Graph.getVertexDst) Example.rejectV2 hex1).2 hvf⟩

/-- C7: the lists returned by `breadthFirstSearchRdesc` and `depthFirstSearchRdesc`
hold no record id twice, for every graph, source, bounds, accessors and filters;
and for a source that exists both return a list (the vertex accessor, when given,
being `getVertexSrc` or `getVertexDst`). -/
theorem traversal_no_revisit (txn : Txn) (recordDescriptor : RecordDescriptor)
    (minDepth maxDepth : Nat) (edgeClassIds : List Nat)
    (edgeFunc : Graph → RecordId → Nat → List RecordId)
    (vertexFunc : Option (Graph → RecordId → RecordId)) (pathFilter : PathFilter) :
    (∀ res, breadthFirstSearchRdesc txn recordDescriptor minDepth maxDepth edgeClassIds
        edgeFunc vertexFunc pathFilter = .ok res → (res.map (fun d => d.rid)).Nodup)
    ∧ (∀ res, depthFirstSearchRdesc txn recordDescriptor minDepth maxDepth edgeClassIds
        edgeFunc vertexFunc pathFilter = .ok res → (res.map (fun d => d.rid)).Nodup)
    ∧ ((∀ f, vertexFunc = some f → f = Graph.getVertexSrc ∨ f = Graph.getVertexDst) →
        Generic.checkIfRecordExist txn recordDescriptor ≠ .RECORD_NOT_EXIST →
        (∃ res, breadthFirstSearchRdesc txn recordDescriptor minDepth maxDepth edgeClassIds
          edgeFunc vertexFunc pathFilter = .ok res)
        ∧ (∃ res, depthFirstSearchRdesc txn recordDescriptor minDepth maxDepth edgeClassIds
          edgeFunc vertexFunc pathFilter = .ok res)) := by
  refine ⟨?_, ?_, ?_⟩
  · intro res hres
    cases hstat : Generic.checkIfRecordExist txn recordDescriptor with
    | RECORD_NOT_EXIST =>
      unfold breadthFirstSearchRdesc at hres
      rw [hstat] at hres
      cases hres
    | RECORD_NOT_EXIST_IN_MEMORY =>
      unfold breadthFirstSearchRdesc at hres
      rw [hstat] at hres
      cases hres
      split <;> simp
    | RECORD_EXIST =>
      exact (breadthFirstSearchRdesc_emitted txn recordDescriptor minDepth maxDepth
        edgeClassIds edgeFunc vertexFunc pathFilter hstat res hres).1
  · exact depthFirstSearchRdesc_emitted txn recordDescriptor minDepth maxDepth edgeClassIds
      edgeFunc vertexFunc pathFilter
  · intro hvf hex
    exact ⟨breadthFirstSearchRdesc_returns txn recordDescriptor minDepth
      maxDepth edgeClassIds edgeFunc vertexFunc pathFilter hvf hex, depthFirstSearchRdesc_run txn recordDescriptor minDepth maxDepth
      edgeClassIds edgeFunc vertexFunc pathFilter hvf hex⟩

end Algorithm

namespace Algorithm

/-- C7 on a graph with two parallel edges, a cycle and a self-loop: both
traversals over all incident edges list each of the two vertices once. -/
theorem traversal_no_revisit_witness :
    breadthFirstSearchRdesc Example.cyclicTxn ⟨(1, 1), 0⟩ 0 10 []
        Graph.getEdgeInOut Option.none PathFilter.none = .ok [⟨(1, 1), 0⟩, ⟨(1, 2), 1⟩]
    ∧ (([⟨(1, 1), 0⟩, ⟨(1, 2), 1⟩] : List RecordDescriptor).map (fun d => d.rid)).Nodup
    ∧ depthFirstSearchRdesc Example.cyclicTxn ⟨(1, 1), 0⟩ 0 10 []
        Graph.getEdgeInOut Option.none PathFilter.none = .ok [⟨(1, 1), 0⟩, ⟨(1, 2), 1⟩]
    ∧ (([⟨(1, 1), 0⟩, ⟨(1, 2), 1⟩] : List RecordDescriptor).map (fun d => d.rid)).Nodup
    ∧ Generic.checkIfRecordExist Example.cyclicTxn ⟨(1, 1), 0⟩ ≠ .RECORD_NOT_EXIST
    ∧ (∃ res, breadthFirstSearchRdesc Example.cyclicTxn ⟨(1, 1), 0⟩ 0 10 []
        Graph.getEdgeInOut Option.none PathFilter.none = .ok res)
    ∧ (∃ res, depthFirstSearchRdesc Example.cyclicTxn ⟨(1, 1), 0⟩ 0 10 []
        Graph.getEdgeInOut Option.none PathFilter.none = .ok res) := by
  have hex : Generic.checkIfRecordExist Example.cyclicTxn ⟨(1, 1), 0⟩
      ≠ .RECORD_NOT_EXIST := by decide
  have h := (traversal_no_revisit Example.cyclicTxn ⟨(1, 1), 0⟩ 0 10 [] Graph.getEdgeInOut
    Option.none PathFilter.none).2.2 (fun _ h => Option.noConfusion h) hex
  exact ⟨rfl,
    (traversal_no_revisit Example.cyclicTxn ⟨(1, 1), 0⟩ 0 10 [] Graph.getEdgeInOut Option.none
      PathFilter.none).1 _ rfl,
    rfl,
    (traversal_no_revisit Example.cyclicTxn ⟨(1, 1), 0⟩ 0 10 [] Graph.getEdgeInOut Option.none
      PathFilter.none).2.1 _ rfl,
    hex, h.1, h.2⟩

/-- C8: whenever `bfsShortestPathRdesc` returns a non-empty list for distinct
source and destination, the list starts with the source (depth 0), ends with the
destination, every two consecutive elements are joined by an out-edge step (an
out-edge of the first, of an admitted class and accepted by the edge filter, whose
destination is the second), and the element at index `i` has depth `i`. -/
theorem bfsShortestPathRdesc_shape (txn : Txn) (src dst : RecordDescriptor)
    (edgeClassIds : List Nat) (pathFilter : PathFilter) (res : List RecordDescriptor)
    (hne : src.rid ≠ dst.rid)
    (hres : bfsShortestPathRdesc txn src dst edgeClassIds pathFilter = .ok res)
    (hnil : res ≠ []) :
    res.head? = some ⟨src.rid, 0⟩
    ∧ res.getLast?.map (fun d => d.rid) = some dst.rid
    ∧ List.Chain' (fun a b => OutStep txn pathFilter edgeClassIds a.rid b.rid) res
    ∧ ∀ i (hi : i < res.length), (res.get ⟨i, hi⟩).depth = i := by
  -- both vertices have adjacency entries, else the result is an error or empty
  have hsrc : Generic.checkIfRecordExist txn src = .RECORD_EXIST := by
    cases h : Generic.checkIfRecordExist txn src with
    | RECORD_EXIST => rfl
    | RECORD_NOT_EXIST => simp [bfsShortestPathRdesc, h] at hres
    | RECORD_NOT_EXIST_IN_MEMORY =>
      exfalso
      apply hnil
      cases h2 : Generic.checkIfRecordExist txn dst <;>
        simp [bfsShortestPathRdesc, h, h2] at hres <;> exact hres
  have hdst : Generic.checkIfRecordExist txn dst = .RECORD_EXIST := by
    cases h : Generic.checkIfRecordExist txn dst with
    | RECORD_EXIST => rfl
    | RECORD_NOT_EXIST => simp [bfsShortestPathRdesc, hsrc, h] at hres
    | RECORD_NOT_EXIST_IN_MEMORY =>
      exfalso
      apply hnil
      simp [bfsShortestPathRdesc, hsrc, h] at hres
      exact hres
  obtain ⟨st1, hinv, heq⟩ := bfsShortestPathRdesc_search txn src dst edgeClassIds pathFilter
    hsrc hdst hne
  rw [heq] at hres
  by_cases hfound : st1.found = true
  · rw [if_pos hfound] at hres
    have hok := hinv.1
    cases hlook : st1.visited.lookup dst.rid with
    | none =>
      exfalso
      have hlen : 0 < st1.visited.length := by
        cases hv : st1.visited with
        | nil => rw [hv] at hok; cases hok
        | cons _ _ => simp
      obtain ⟨f, hf⟩ : ∃ f, st1.visited.length = f + 1 := ⟨st1.visited.length - 1, by omega⟩
      rw [hf] at hres
      simp [spWalk, Ne.symm hne, hlook] at hres
    | some data =>
      obtain ⟨path, hwalk, hchain, hhead⟩ := spWalk_spec txn pathFilter edgeClassIds src.rid
        st1.visited hok st1.visited hok [] rfl dst.rid (by simp [hlook])
        st1.visited.length (Nat.le_refl _) []
      rw [hwalk] at hres
      simp only [List.nil_append, Except.ok.injEq] at hres
      have hrids : res.map (fun d => d.rid) =
          (path.map (fun d => d.rid) ++ [src.rid]).reverse := by
        rw [← hres, map_rid_assignDepths]
        simp
      refine ⟨?_, ?_, ?_, ?_⟩
      · rw [← hres]
        simp [assignDepths]
      · have : (res.map (fun d => d.rid)).getLast? = some dst.rid := by
          rw [hrids, List.getLast?_reverse, hhead]
        rwa [List.getLast?_map] at this
      · have h1 : List.Chain' (fun a b => OutStep txn pathFilter edgeClassIds a b)
            (res.map (fun d => d.rid)) := by
          rw [hrids, List.chain'_reverse]
          exact hchain
        exact (List.chain'_map (fun d : RecordDescriptor => d.rid)).1 h1
      · intro i hi
        subst hres
        have := depth_assignDepths 0 _ i hi
        simpa using this
  · rw [if_neg hfound] at hres
    exact absurd (Except.ok.inj hres).symm hnil

/-- C8 on the example graph: the path from `v1` to `v4` under the filter that
rejects `v2`. -/
theorem bfsShortestPathRdesc_shape_witness :
    (⟨(1, 1), 0⟩ : RecordDescriptor).rid ≠ (⟨(1, 4), 0⟩ : RecordDescriptor).rid
    ∧ bfsShortestPathRdesc Example.txn ⟨(1, 1), 0⟩ ⟨(1, 4), 0⟩ [] Example.rejectV2
        = .ok [⟨(1, 1), 0⟩, ⟨(1, 3), 1⟩, ⟨(1, 4), 2⟩]
    ∧ ([⟨(1, 1), 0⟩, ⟨(1, 3), 1⟩, ⟨(1, 4), 2⟩] : List RecordDescriptor) ≠ []
    ∧ ([⟨(1, 1), 0⟩, ⟨(1, 3), 1⟩, ⟨(1, 4), 2⟩] : List RecordDescriptor).head?
        = some ⟨(⟨(1, 1), 0⟩ : RecordDescriptor).rid, 0⟩
    ∧ ([⟨(1, 1), 0⟩, ⟨(1, 3), 1⟩, ⟨(1, 4), 2⟩] : List RecordDescriptor).getLast?.map
        (fun d => d.rid) = some (⟨(1, 4), 0⟩ : RecordDescriptor).rid
    ∧ List.Chain' (fun a b => OutStep Example.txn Example.rejectV2 [] a.rid b.rid)
        ([⟨(1, 1), 0⟩, ⟨(1, 3), 1⟩, ⟨(1, 4), 2⟩] : List RecordDescriptor)
    ∧ ∀ i (hi : i < ([⟨(1, 1), 0⟩, ⟨(1, 3), 1⟩, ⟨(1, 4), 2⟩] : List RecordDescriptor).length),
        (([⟨(1, 1), 0⟩, ⟨(1, 3), 1⟩, ⟨(1, 4), 2⟩] : List RecordDescriptor).get ⟨i, hi⟩).depth
          = i := by
  have h1 : (⟨(1, 1), 0⟩ : RecordDescriptor).rid ≠ (⟨(1, 4), 0⟩ : RecordDescriptor).rid := by
    decide
  have h2 : bfsShortestPathRdesc Example.txn ⟨(1, 1), 0⟩ ⟨(1, 4), 0⟩ [] Example.rejectV2
      = .ok [⟨(1, 1), 0⟩, ⟨(1, 3), 1⟩, ⟨(1, 4), 2⟩] := rfl
  have h3 : ([⟨(1, 1), 0⟩, ⟨(1, 3), 1⟩, ⟨(1, 4), 2⟩] : List RecordDescriptor) ≠ [] := by
    simp
  exact ⟨h1, h2, h3, bfsShortestPathRdesc_shape Example.txn ⟨(1, 1), 0⟩ ⟨(1, 4), 0⟩ []
    Example.rejectV2 [⟨(1, 1), 0⟩, ⟨(1, 3), 1⟩, ⟨(1, 4), 2⟩] h1 h2 h3⟩

/-- C9 fails as stated: a vertex that exists only in the record store (no
adjacency entry) gets the empty list from `bfsShortestPathRdesc(v, v)`, not `[v]`. -/
theorem bfsShortestPathRdesc_isolated_source :
    Generic.checkIfRecordExist Example.isolatedTxn ⟨(1, 1), 0⟩ = .RECORD_NOT_EXIST_IN_MEMORY
    ∧ bfsShortestPathRdesc Example.isolatedTxn ⟨(1, 1), 0⟩ ⟨(1, 1), 0⟩ [] PathFilter.none
      = .ok []
    ∧ bfsShortestPathRdesc Example.isolatedTxn ⟨(1, 1), 0⟩ ⟨(1, 1), 0⟩ [] PathFilter.none
      ≠ .ok [⟨(1, 1), 0⟩] :=
  ⟨rfl, rfl, fun h => by
    have h2 : Except.ok [⟨(1, 1), 0⟩] = (Except.ok [] : Except Error (List RecordDescriptor)) :=
      h.symm.trans rfl
    cases h2⟩

/-- C9, amended: for two vertices that both have adjacency entries in the graph
store, `bfsShortestPathRdesc` returns `[src]` when source and destination are the
same vertex and the empty list when the destination cannot be reached from the
source by following out-edges; when both exist and one of them exists only in the
record store, it returns the empty list. -/
theorem bfsShortestPathRdesc_trivial_unreachable (txn : Txn) (src dst : RecordDescriptor)
    (edgeClassIds : List Nat) (pathFilter : PathFilter) :
    (Generic.checkIfRecordExist txn src = .RECORD_EXIST →
      Generic.checkIfRecordExist txn dst = .RECORD_EXIST →
      (src.rid = dst.rid →
        bfsShortestPathRdesc txn src dst edgeClassIds pathFilter = .ok [src])
      ∧ (¬ Reachable txn src.rid dst.rid →
        bfsShortestPathRdesc txn src dst edgeClassIds pathFilter = .ok []))
    ∧ (Generic.checkIfRecordExist txn src ≠ .RECORD_NOT_EXIST →
      Generic.checkIfRecordExist txn dst ≠ .RECORD_NOT_EXIST →
      (Generic.checkIfRecordExist txn src = .RECORD_NOT_EXIST_IN_MEMORY
        ∨ Generic.checkIfRecordExist txn dst = .RECORD_NOT_EXIST_IN_MEMORY) →
      bfsShortestPathRdesc txn src dst edgeClassIds pathFilter = .ok []) := by
  refine ⟨fun hsrc hdst => ⟨fun heq => ?_, fun hunreach => ?_⟩, fun hs hd hmem => ?_⟩
  · simp [bfsShortestPathRdesc, hsrc, hdst, heq]
  · have hne : src.rid ≠ dst.rid := by
      intro e
      apply hunreach
      rw [e]
      exact Relation.ReflTransGen.refl
    obtain ⟨st1, hinv, heq⟩ := bfsShortestPathRdesc_search txn src dst edgeClassIds pathFilter
      hsrc hdst hne
    rw [heq]
    by_cases hfound : st1.found = true
    · exfalso
      obtain ⟨p, hp, hstep⟩ := hinv.2.2.2.1 hfound
      exact hunreach (Relation.ReflTransGen.tail (hinv.1.reachable p hp)
        (outStep_edgeStep _ _ _ _ _ hstep))
    · rw [if_neg hfound]
  · unfold bfsShortestPathRdesc
    simp only [hs, hd, if_false, hmem, if_true]

/-- C9, amended, on the example graphs: `v1` to itself gives `[v1]`, `v1` cannot be
reached from `v4` and the result is empty, and the vertex without adjacency
entries gets the empty list. -/
theorem bfsShortestPathRdesc_trivial_unreachable_witness :
    Generic.checkIfRecordExist Example.txn ⟨(1, 1), 0⟩ = .RECORD_EXIST
    ∧ Generic.checkIfRecordExist Example.txn ⟨(1, 4), 0⟩ = .RECORD_EXIST
    ∧ ¬ Reachable Example.txn (1, 4) (1, 1)
    ∧ Generic.checkIfRecordExist Example.isolatedTxn ⟨(1, 1), 0⟩
        = .RECORD_NOT_EXIST_IN_MEMORY
    ∧ bfsShortestPathRdesc Example.txn ⟨(1, 1), 0⟩ ⟨(1, 1), 0⟩ [] PathFilter.none
      = .ok [⟨(1, 1), 0⟩]
    ∧ bfsShortestPathRdesc Example.txn ⟨(1, 4), 0⟩ ⟨(1, 1), 0⟩ [] PathFilter.none = .ok []
    ∧ bfsShortestPathRdesc Example.isolatedTxn ⟨(1, 1), 0⟩ ⟨(1, 1), 0⟩ [] PathFilter.none
      = .ok [] := by
  have hun : ¬ Reachable Example.txn (1, 4) (1, 1) := by
    intro h
    rcases Relation.ReflTransGen.cases_head h with h1 | ⟨c, ⟨classId, edge, hedge, _⟩, _⟩
    · exact absurd h1 (by decide)
    · simp only [Graph.getEdgeOut, Example.txn, List.mem_map, List.mem_filter, List.mem_cons,
        List.mem_singleton, List.not_mem_nil, or_false, Bool.and_eq_true, beq_iff_eq] at hedge
      obtain ⟨a, ⟨ha, hs, _⟩, _⟩ := hedge
      rcases ha with rfl | rfl | rfl <;> exact absurd hs (by decide)
  exact ⟨rfl, rfl, hun, rfl,
    ((bfsShortestPathRdesc_trivial_unreachable Example.txn ⟨(1, 1), 0⟩ ⟨(1, 1), 0⟩ []
      PathFilter.none).1 rfl rfl).1 rfl,
    ((bfsShortestPathRdesc_trivial_unreachable Example.txn ⟨(1, 4), 0⟩ ⟨(1, 1), 0⟩ []
      PathFilter.none).1 rfl rfl).2 hun,
    (bfsShortestPathRdesc_trivial_unreachable Example.isolatedTxn ⟨(1, 1), 0⟩ ⟨(1, 1), 0⟩ []
      PathFilter.none).2 (by decide) (by decide) (Or.inl rfl)⟩

/-- C10: on the example graph with the vertex filter that rejects `v2`, the outward
breadth-first search from `v1` emits `v4` at depth 1, while the shortest path from
`v1` to `v4` under the same filter has three vertices, that is two edges. -/
theorem bfsShortestPathRdesc_longer_than_depth :
    (⟨(1, 4), 1⟩ : RecordDescriptor) ∈ [(⟨(1, 1), 0⟩ : RecordDescriptor), ⟨(1, 3), 1⟩, ⟨(1, 4), 1⟩]
    ∧ breadthFirstSearchRdesc Example.txn ⟨(1, 1), 0⟩ 0 10 [] Graph.getEdgeOut
        (some Graph.getVertexDst) Example.rejectV2
      = .ok [⟨(1, 1), 0⟩, ⟨(1, 3), 1⟩, ⟨(1, 4), 1⟩]
    ∧ bfsShortestPathRdesc Example.txn ⟨(1, 1), 0⟩ ⟨(1, 4), 0⟩ [] Example.rejectV2
      = .ok [⟨(1, 1), 0⟩, ⟨(1, 3), 1⟩, ⟨(1, 4), 2⟩]
    ∧ ¬ ([(⟨(1, 1), 0⟩ : RecordDescriptor), ⟨(1, 3), 1⟩, ⟨(1, 4), 2⟩].length ≤ 1 + 1) :=
  ⟨by simp, rfl, rfl, by simp⟩

end Algorithm

namespace Index

open Datastore

/-- C14 (code defect): `Index::getLess` does not return what a `LESS` scan selects.  On
the index whose positive sub-database holds the single entry `1 ↦ 7`, the scan for
keys below `5` selects position `7`, while `getLess` returns nothing: no key is at
or above `5`, so `getSetRangeCursor` reports none and `backwardSearchIndex` skips its
backward walk. -/
theorem getLess_misses_smaller_keys :
    IndexDbi.WellFormed (⟨[(1, 7)], []⟩ : IndexDbi Int) ∧
      getLess (⟨[(1, 7)], []⟩ : IndexDbi Int) 9 5 false = .ok [] ∧
      scanPositions (⟨[(1, 7)], []⟩ : IndexDbi Int) (selectsLess 5 false) = [7] := by
  refine ⟨?_, rfl, by decide⟩
  simp [IndexDbi.WellFormed]

/-- C15: on every well-formed index, `Index::getGreater` returns the entries that a
`GREATER` (`GREATER_EQUAL` when `includeEqual`) scan of both sub-databases selects,
every duplicate included, each as the descriptor of the queried class and its
position id. -/
theorem getGreater_eq_scan {K : Type} [LinearOrder K] [Zero K] (dbi : IndexDbi K)
    (hwf : dbi.WellFormed) (classId : Nat) (value : K) (includeEqual : Bool) :
    getGreater dbi classId value includeEqual =
      .ok ((scanPositions dbi (selectsGreater value includeEqual)).map
        (fun p => RecordDescriptor.ofRid (classId, p))) := by
  obtain ⟨hp, hn, _, hneg⟩ := hwf
  obtain ⟨cp, hcp⟩ := forwardSearchIndex_spec classId value dbi.positive hp includeEqual
  obtain ⟨cn, hcn⟩ := forwardSearchIndex_spec classId value dbi.negative hn includeEqual
  unfold getGreater scanPositions selectsGreater
  by_cases hv : value < 0
  · simp only [hv, if_true, hcp, hcn, concatResults, List.filter_append, List.map_append,
      List.map_map]
    rfl
  · have hnil : dbi.negative.filter (fun e => if includeEqual then decide (value ≤ e.1)
        else decide (value < e.1)) = [] := by
      rw [List.filter_eq_nil_iff]
      intro e he
      have h1 : e.1 < value := lt_of_lt_of_le (hneg e he) (not_lt.mp hv)
      cases includeEqual <;> simp [not_le.mpr h1, not_lt.mpr (le_of_lt h1)]
    simp only [hv, if_false, hcp, singleResult, List.filter_append, hnil, List.append_nil,
      List.map_map]
    rfl

/-- C15 on an example index: the keys above 3, the two duplicates of 3 excluded. -/
theorem getGreater_eq_scan_witness :
    IndexDbi.WellFormed (⟨[(1, 7), (3, 8), (3, 9), (4, 1)], [(-4, 5), (-2, 6)]⟩ : IndexDbi Int) ∧
      getGreater (⟨[(1, 7), (3, 8), (3, 9), (4, 1)], [(-4, 5), (-2, 6)]⟩ : IndexDbi Int) 9 3 false =
        .ok [RecordDescriptor.ofRid (9, 1)] :=
  have hwf : IndexDbi.WellFormed
      (⟨[(1, 7), (3, 8), (3, 9), (4, 1)], [(-4, 5), (-2, 6)]⟩ : IndexDbi Int) := by
    simp [IndexDbi.WellFormed]
  ⟨hwf, getGreater_eq_scan _ hwf 9 3 false⟩

/-- C16: on every well-formed index, for all bounds (of any signs, also `lower > upper`
and `lower = upper`) and inclusion flags, `Index::getBetween` returns the entries whose
key lies between the bounds, each inequality relaxed to `≤` when its flag is set:
what a `BETWEEN` scan of both sub-databases selects. -/
theorem getBetween_eq_scan {K : Type} [LinearOrder K] [Zero K] (dbi : IndexDbi K)
    (hwf : dbi.WellFormed) (classId : Nat) (lowerBound upperBound : K)
    (isIncludeBound : Bool × Bool) :
    getBetween dbi classId lowerBound upperBound isIncludeBound =
      .ok ((scanPositions dbi (selectsBetween lowerBound upperBound isIncludeBound)).map
        (fun p => RecordDescriptor.ofRid (classId, p))) := by
  obtain ⟨hp, hn, hpos, hneg⟩ := hwf
  obtain ⟨cp, hcp⟩ :=
    betweenSearchIndex_spec classId lowerBound upperBound isIncludeBound dbi.positive hp
  obtain ⟨cn, hcn⟩ :=
    betweenSearchIndex_spec classId lowerBound upperBound isIncludeBound dbi.negative hn
  unfold getBetween scanPositions selectsBetween
  by_cases h1 : lowerBound < 0 ∧ upperBound < 0
  · have hnil : dbi.positive.filter (fun e =>
        (if isIncludeBound.1 then decide (lowerBound ≤ e.1) else decide (lowerBound < e.1)) &&
        (if isIncludeBound.2 then decide (e.1 ≤ upperBound) else decide (e.1 < upperBound))) =
        [] := by
      rw [List.filter_eq_nil_iff]
      intro e he
      have hgt : upperBound < e.1 := lt_of_lt_of_le h1.2 (hpos e he)
      cases isIncludeBound.2 <;> simp [not_le.mpr hgt, not_lt.mpr (le_of_lt hgt)]
    rw [if_pos h1]
    simp only [hcn, singleResult, List.filter_append, hnil, List.nil_append, List.map_map]
    rfl
  · by_cases h2 : lowerBound < 0 ∧ 0 ≤ upperBound
    · rw [if_neg h1, if_pos h2]
      simp only [hcp, hcn, concatResults, List.filter_append, List.map_append, List.map_map]
      rfl
    · have hlow : 0 ≤ lowerBound := by
        by_contra hc
        have hlt := not_le.mp hc
        by_cases hu : upperBound < 0
        · exact h1 ⟨hlt, hu⟩
        · exact h2 ⟨hlt, not_lt.mp hu⟩
      have hnil : dbi.negative.filter (fun e =>
          (if isIncludeBound.1 then decide (lowerBound ≤ e.1) else decide (lowerBound < e.1)) &&
          (if isIncludeBound.2 then decide (e.1 ≤ upperBound) else decide (e.1 < upperBound))) =
          [] := by
        rw [List.filter_eq_nil_iff]
        intro e he
        have hlt : e.1 < lowerBound := lt_of_lt_of_le (hneg e he) hlow
        cases isIncludeBound.1 <;> simp [not_le.mpr hlt, not_lt.mpr (le_of_lt hlt)]
      rw [if_neg h1, if_neg h2]
      simp only [hcp, singleResult, List.filter_append, hnil, List.append_nil, List.map_map]
      rfl

/-- C16 on an example index: the keys `k` with `-4 < k ≤ 3`, from both sub-databases. -/
theorem getBetween_eq_scan_witness :
    IndexDbi.WellFormed (⟨[(1, 7), (3, 8), (3, 9), (4, 1)], [(-4, 5), (-2, 6)]⟩ : IndexDbi Int) ∧
      getBetween (⟨[(1, 7), (3, 8), (3, 9), (4, 1)], [(-4, 5), (-2, 6)]⟩ : IndexDbi Int) 9
          (-4) 3 (false, true) =
        .ok [RecordDescriptor.ofRid (9, 7), RecordDescriptor.ofRid (9, 8),
          RecordDescriptor.ofRid (9, 9), RecordDescriptor.ofRid (9, 6)] :=
  have hwf : IndexDbi.WellFormed
      (⟨[(1, 7), (3, 8), (3, 9), (4, 1)], [(-4, 5), (-2, 6)]⟩ : IndexDbi Int) := by
    simp [IndexDbi.WellFormed]
  ⟨hwf, getBetween_eq_scan _ hwf 9 (-4) 3 (false, true)⟩

/-- C17: on every well-formed index, `Index::getEqual` reads the negative
sub-database alone when `value < 0` and the positive one alone otherwise, and
returns the position ids of all its entries of key `value`, every duplicate once and
in stored order, each paired with the queried class id; these are all the entries
of key `value` in the index, and the result is empty when there is none. -/
theorem getEqual_exact {K : Type} [LinearOrder K] [Zero K] (dbi : IndexDbi K)
    (hwf : dbi.WellFormed) (classId : Nat) (value : K) :
    getEqual dbi classId value =
        .ok (((if value < 0 then dbi.negative else dbi.positive).filter
          (fun e => decide (e.1 = value))).map
            (fun e => RecordDescriptor.ofRid (classId, e.2))) ∧
      getEqual dbi classId value =
        .ok ((scanPositions dbi (fun k => decide (k = value))).map
          (fun p => RecordDescriptor.ofRid (classId, p))) ∧
      ((∀ e ∈ dbi.positive ++ dbi.negative, e.1 ≠ value) →
        getEqual dbi classId value = .ok []) := by
  obtain ⟨hp, hn, hpos, hneg⟩ := hwf
  obtain ⟨cp, hcp⟩ := exactMatchIndex_spec classId value dbi.positive hp
  obtain ⟨cn, hcn⟩ := exactMatchIndex_spec classId value dbi.negative hn
  have hscan : scanPositions dbi (fun k => decide (k = value)) =
      ((if value < 0 then dbi.negative else dbi.positive).filter
        (fun e => decide (e.1 = value))).map Prod.snd := by
    unfold scanPositions
    by_cases hv : value < 0
    · have hnil : dbi.positive.filter (fun e => decide (e.1 = value)) = [] := by
        rw [List.filter_eq_nil_iff]
        intro e he
        have := hpos e he
        simp only [decide_eq_true_eq]
        intro heq
        exact absurd (heq ▸ this) (not_le.mpr hv)
      simp [hv, List.filter_append, hnil]
    · have hnil : dbi.negative.filter (fun e => decide (e.1 = value)) = [] := by
        rw [List.filter_eq_nil_iff]
        intro e he
        have := hneg e he
        simp only [decide_eq_true_eq]
        intro heq
        exact hv (heq ▸ this)
      simp [hv, List.filter_append, hnil]
  have hfirst : getEqual dbi classId value =
      .ok (((if value < 0 then dbi.negative else dbi.positive).filter
        (fun e => decide (e.1 = value))).map
          (fun e => RecordDescriptor.ofRid (classId, e.2))) := by
    unfold getEqual
    by_cases hv : value < 0
    · simp only [hv, if_true, hcn, singleResult]
    · simp only [hv, if_false, hcp, singleResult]
  refine ⟨hfirst, ?_, ?_⟩
  · rw [hfirst, hscan, List.map_map]
    rfl
  · intro hnone
    rw [hfirst]
    have hnil : (if value < 0 then dbi.negative else dbi.positive).filter
        (fun e => decide (e.1 = value)) = [] := by
      rw [List.filter_eq_nil_iff]
      intro e he
      simp only [decide_eq_true_eq]
      apply hnone e
      rw [List.mem_append]
      by_cases hv : value < 0
      · rw [if_pos hv] at he; exact Or.inr he
      · rw [if_neg hv] at he; exact Or.inl he
    rw [hnil]
    rfl

/-- C17 on an example index: the two entries of key 3, in stored order. -/
theorem getEqual_exact_witness :
    IndexDbi.WellFormed (⟨[(1, 7), (3, 8), (3, 9), (4, 1)], [(-4, 5), (-2, 6)]⟩ : IndexDbi Int) ∧
      getEqual (⟨[(1, 7), (3, 8), (3, 9), (4, 1)], [(-4, 5), (-2, 6)]⟩ : IndexDbi Int) 9 3 =
        .ok [RecordDescriptor.ofRid (9, 8), RecordDescriptor.ofRid (9, 9)] :=
  have hwf : IndexDbi.WellFormed
      (⟨[(1, 7), (3, 8), (3, 9), (4, 1)], [(-4, 5), (-2, 6)]⟩ : IndexDbi Int) := by
    simp [IndexDbi.WellFormed]
  ⟨hwf, (getEqual_exact _ hwf 9 3).1⟩

/-- C18: on every sub-database ordered by key, `Index::deleteIndexCursor` returns and
leaves the content with exactly one occurrence of `(value, positionId)` removed
when there is one, and unchanged otherwise; every entry with another key or
another position is kept. -/
theorem deleteIndexCursor_removes_one {K : Type} [LinearOrder K] (positionId : Nat)
    (value : K) (l : List (K × Nat)) (pos0 : Option Nat)
    (hs : l.Pairwise (fun a b => a.1 ≤ b.1)) :
    ∃ c, deleteIndexCursor ⟨l, pos0⟩ positionId value = .ok c ∧
      ((value, positionId) ∈ l →
        ∃ a b, l = a ++ (value, positionId) :: b ∧ c.content = a ++ b) ∧
      ((value, positionId) ∉ l → c.content = l) ∧
      (∀ e, e ≠ (value, positionId) → (e ∈ c.content ↔ e ∈ l)) := by
  obtain ⟨c, hc, hcases⟩ := deleteIndexCursor_spec positionId value l pos0 hs
  refine ⟨c, hc, ?_, ?_, ?_⟩
  · intro hmem
    rcases hcases with ⟨a, b, hl, _, hcontent⟩ | ⟨hnot, _⟩
    · exact ⟨a, b, hl, hcontent⟩
    · exact absurd hmem hnot
  · intro hnot
    rcases hcases with ⟨a, b, hl, _, _⟩ | ⟨_, hcontent⟩
    · exact absurd (by rw [hl]; simp) hnot
    · exact hcontent
  · intro e he
    rcases hcases with ⟨a, b, hl, _, hcontent⟩ | ⟨_, hcontent⟩
    · rw [hcontent, hl]
      simp only [List.mem_append, List.mem_cons]
      constructor
      · rintro (h | h)
        · exact Or.inl h
        · exact Or.inr (Or.inr h)
      · rintro (h | h | h)
        · exact Or.inl h
        · exact absurd h he
        · exact Or.inr h
    · rw [hcontent]

/-- C18 on an example sub-database that holds the pair `(3, 9)` twice: one of the two is
removed and every other entry is kept. -/
theorem deleteIndexCursor_removes_one_witness :
    List.Pairwise (fun a b => a.1 ≤ b.1) ([(1, 7), (3, 8), (3, 9), (3, 9), (4, 1)] : List (Int × Nat)) ∧
      ∃ c, deleteIndexCursor ⟨([(1, 7), (3, 8), (3, 9), (3, 9), (4, 1)] : List (Int × Nat)), none⟩
          9 3 = .ok c ∧ c.content = [(1, 7), (3, 8), (3, 9), (4, 1)] := by
  have hs : List.Pairwise (fun a b => a.1 ≤ b.1)
      ([(1, 7), (3, 8), (3, 9), (3, 9), (4, 1)] : List (Int × Nat)) := by simp
  obtain ⟨c, hc, _, _, _⟩ := deleteIndexCursor_removes_one 9 (3 : Int)
    [(1, 7), (3, 8), (3, 9), (3, 9), (4, 1)] none hs
  refine ⟨hs, c, hc, ?_⟩
  have heval : deleteIndexCursor
      ⟨([(1, 7), (3, 8), (3, 9), (3, 9), (4, 1)] : List (Int × Nat)), none⟩ 9 3 =
      .ok ⟨[(1, 7), (3, 8), (3, 9), (4, 1)], some 2⟩ := rfl
  rw [heval] at hc
  cases hc
  rfl

end Index

namespace RecordCompare

/-- C19: for every record whose value for the condition's property is absent or empty,
every property type and every typed comparison, `compareRecordByCondition` is true
when the comparator is `IS_NULL` and false for every other comparator, whatever
the negate flag of the condition. -/
theorem compareRecordByCondition_null {PropertyType : Type}
    (genericCompareFunc :
      Bytes → PropertyType → Bytes → Bytes → Condition.Comparator → Bool → Bool)
    (record : Record) (propertyType : PropertyType) (condition : Condition)
    (hnull : record.get condition.propName = []) :
    compareRecordByCondition genericCompareFunc record propertyType condition =
      decide (condition.comp = .IS_NULL) := by
  unfold compareRecordByCondition
  rw [hnull]
  cases condition.comp <;> simp

/-- C19 on a record without the property `age`: a negated `EQUAL` condition is false and
`IS_NULL` is true. -/
theorem compareRecordByCondition_null_witness :
    (⟨[("name", [1])]⟩ : Record).get "age" = [] ∧
      compareRecordByCondition (fun _ (_ : Unit) _ _ _ _ => true) ⟨[("name", [1])]⟩ ()
        ⟨"age", .EQUAL, [5], [], false, true⟩ = false ∧
      compareRecordByCondition (fun _ (_ : Unit) _ _ _ _ => true) ⟨[("name", [1])]⟩ ()
        ⟨"age", .IS_NULL, [], [], false, true⟩ = true :=
  ⟨rfl, compareRecordByCondition_null (fun _ (_ : Unit) _ _ _ _ => true) ⟨[("name", [1])]⟩ ()
      ⟨"age", .EQUAL, [5], [], false, true⟩ rfl, rfl⟩

end RecordCompare

namespace Generic

open Datastore

/-- C20: for every content of a class sub-database held in ascending key order whose
rows other than the reserved one decode, `getRdescFromClassInfo` and
`getRecordFromClassInfo` both return, with one entry for each stored key other than
`EM_MAXRECNUM = 0`, in the ascending key order of the cursor, each tagged with the
class id and, for the second, paired with the decoded row; no returned descriptor
has position id 0. -/
theorem fullScan_skips_reserved_key {V : Type} (parseRawData : V → Except Error Record)
    (classDb : List (Nat × V)) (classId : Nat)
    (hsorted : classDb.Pairwise (fun a b => a.1 < b.1))
    (hparse : ∀ e ∈ classDb, e.1 ≠ EM_MAXRECNUM → ∃ r, parseRawData e.2 = .ok r) :
    ∃ rdescs records,
      getRdescFromClassInfo classDb classId = .ok rdescs ∧
      getRecordFromClassInfo parseRawData classDb classId = .ok records ∧
      rdescs = (classDb.filter (fun e => decide (e.1 ≠ 0))).map
        (fun e => RecordDescriptor.ofRid (classId, e.1)) ∧
      records.map Prod.fst = rdescs ∧
      (∀ p ∈ records, ∃ e ∈ classDb, p.1.rid = (classId, e.1) ∧ parseRawData e.2 = .ok p.2) ∧
      (∀ d ∈ rdescs, d.rid.2 ≠ 0) ∧
      rdescs.Pairwise (fun a b => a.rid.2 < b.rid.2) := by
  refine ⟨(classDb.filter (fun e => decide (e.1 ≠ 0))).map
      (fun e => RecordDescriptor.ofRid (classId, e.1)),
    classDb.filterMap (fun e =>
      if e.1 ≠ EM_MAXRECNUM then
        (parseRawData e.2).toOption.map (fun r => (RecordDescriptor.ofRid (classId, e.1), r))
      else none), ?_, ?_, rfl, ?_, ?_, ?_, ?_⟩
  · have h := getRdescFromClassInfoLoop_spec classId classDb (classDb.length + 1) 0 none []
      (by omega)
    simpa using h
  · have h := getRecordFromClassInfoLoop_spec parseRawData classId classDb hparse
      (classDb.length + 1) 0 none [] (by omega)
    simpa using h
  · clear hsorted
    induction classDb with
    | nil => rfl
    | cons e l ih =>
      have ih1 := ih (fun x hx => hparse x (List.mem_cons_of_mem _ hx))
      by_cases hkey : e.1 = EM_MAXRECNUM
      · have h0 : e.1 = 0 := hkey
        rw [List.filterMap_cons, List.filter_cons]
        simp only [hkey, h0, ne_eq, not_true_eq_false, if_false, decide_False,
          Bool.false_eq_true]
        exact ih1
      · obtain ⟨r, hr⟩ := hparse e (List.mem_cons_self _ _) hkey
        have h0 : ¬ e.1 = 0 := hkey
        rw [List.filterMap_cons, List.filter_cons]
        simp only [hkey, h0, ne_eq, not_false_eq_true, if_true, hr, Except.toOption,
          Option.map_some', decide_True, List.map_cons]
        exact congrArg _ ih1
  · intro p hp
    simp only [List.mem_filterMap] at hp
    obtain ⟨e, he, hpe⟩ := hp
    by_cases hkey : e.1 = EM_MAXRECNUM
    · simp [hkey] at hpe
    · obtain ⟨r, hr⟩ := hparse e he hkey
      simp only [hkey, ne_eq, not_false_eq_true, if_true, hr, Except.toOption,
        Option.map_some', Option.some.injEq] at hpe
      refine ⟨e, he, ?_, ?_⟩
      · rw [← hpe]; rfl
      · rw [← hpe]; exact hr
  · intro d hd
    simp only [List.mem_map, List.mem_filter] at hd
    obtain ⟨e, ⟨_, hne⟩, hde⟩ := hd
    rw [← hde]
    simpa [RecordDescriptor.ofRid] using hne
  · rw [List.pairwise_map]
    exact (hsorted.filter _).imp (fun h => h)

/-- C20 on a class sub-database with the reserved row and three records. -/
theorem fullScan_skips_reserved_key_witness :
    List.Pairwise (fun a b => a.1 < b.1) ([(0, [3]), (1, [10]), (2, [20]), (4, [40])] :
      List (Nat × Bytes)) ∧
      getRdescFromClassInfo ([(0, [3]), (1, [10]), (2, [20]), (4, [40])] : List (Nat × Bytes)) 7 =
        .ok [RecordDescriptor.ofRid (7, 1), RecordDescriptor.ofRid (7, 2),
          RecordDescriptor.ofRid (7, 4)] ∧
      ∃ records, getRecordFromClassInfo (fun raw => .ok ⟨[("p", raw)]⟩)
          ([(0, [3]), (1, [10]), (2, [20]), (4, [40])] : List (Nat × Bytes)) 7 = .ok records ∧
        records.map Prod.fst = [RecordDescriptor.ofRid (7, 1), RecordDescriptor.ofRid (7, 2),
          RecordDescriptor.ofRid (7, 4)] := by
  have hs : List.Pairwise (fun a b => a.1 < b.1)
      ([(0, [3]), (1, [10]), (2, [20]), (4, [40])] : List (Nat × Bytes)) := by simp
  obtain ⟨rdescs, records, h1, h2, h3, h4, _⟩ :=
    fullScan_skips_reserved_key (fun raw => .ok ⟨[("p", raw)]⟩)
      ([(0, [3]), (1, [10]), (2, [20]), (4, [40])] : List (Nat × Bytes)) 7 hs
      (fun e _ _ => ⟨_, rfl⟩)
  have h5 : rdescs = [RecordDescriptor.ofRid (7, 1), RecordDescriptor.ofRid (7, 2),
      RecordDescriptor.ofRid (7, 4)] := by rw [h3]; rfl
  refine ⟨hs, ?_, records, h2, ?_⟩
  · rw [h1, h5]
  · rw [h4, h5]

end Generic

namespace Algorithm

/-- C12 (code defect): with the cost constantly 1, `dijkstraShortestPathRdesc` and
`bfsShortestPathRdesc` do not agree when the vertex filter rejects the destination.
From `v1` to `v2` along the edge `v1 → v2`, with a filter that rejects `v2`, the
first returns cost 0 with the empty sequence, and the second sets `found` for the
vertex it has just refused to record and fails in `visited.at(dst)`. -/
theorem dijkstra_bfs_differ_on_rejected_dst :
    dijkstraShortestPathRdesc Example.txn (RecordDescriptor.ofRid (1, 1))
        (RecordDescriptor.ofRid (1, 2)) (fun _ _ => 1) [] Example.rejectV2 = .ok (0, []) ∧
      bfsShortestPathRdesc Example.txn (RecordDescriptor.ofRid (1, 1))
        (RecordDescriptor.ofRid (1, 2)) [] Example.rejectV2 = .error .outOfRange :=
  ⟨rfl, rfl⟩

end Algorithm

namespace Algorithm

end Algorithm

namespace Generic

open Schema

/-- C21: for every catalog whose subclass relation has no cycle and whose subclass
pointers all lock, and every set `S` of descriptor pointers that lock,
`getClassExtend` returns a set that holds exactly the members of `S` and the
transitive subclasses of the members of `S`; applied to its own result it
returns that result. -/
theorem getClassExtend_closure {PropertyType : Type}
    (catalog : List (ClassDescriptor PropertyType)) (classDescriptors : List Nat)
    (hacyclic : ∀ c, ¬ Relation.TransGen (DirectSub catalog) c c)
    (hsub : ∀ cd ∈ catalog, ∀ s ∈ cd.sub, (lock catalog s).isSome)
    (hS : ∀ c ∈ classDescriptors, (lock catalog c).isSome) :
    ∃ r, getClassExtend catalog classDescriptors = .ok r ∧
      (∀ x, x ∈ r ↔ x ∈ classDescriptors ∨
        ∃ s ∈ classDescriptors, Relation.TransGen (DirectSub catalog) s x) ∧
      getClassExtend catalog r = .ok r :=
  getClassExtend_spec catalog classDescriptors hacyclic hsub hS

/-- C21 on the example catalog: from class 1 the function returns the four classes,
from class 3 the classes 3 and 4. -/
theorem getClassExtend_closure_witness :
    (∀ c, ¬ Relation.TransGen (DirectSub Example.catalog) c c)
    ∧ getClassExtend Example.catalog [1] = .ok [1, 2, 3, 4]
    ∧ getClassExtend Example.catalog [3] = .ok [3, 4]
    ∧ ∃ r, getClassExtend Example.catalog [1] = .ok r ∧
      (∀ x, x ∈ r ↔ x ∈ [1] ∨
        ∃ s ∈ [1], Relation.TransGen (DirectSub Example.catalog) s x) ∧
      getClassExtend Example.catalog r = .ok r := by
  have hac : ∀ c, ¬ Relation.TransGen (DirectSub Example.catalog) c c :=
    acyclic_of_rank _ id (directSub_rank Example.catalog id (by decide))
  exact ⟨hac, rfl, rfl,
    getClassExtend_closure Example.catalog [1] hac (by decide) (by decide)⟩

/-- C22: for every class of a catalog whose super-class relation has no cycle, `getClassMapProperty`
returns a map in which `@className` has id 0 and `@recordId` id 1, both of type `TEXT`;
every name declared by the class or by one of its ancestors is present; every
other entry is a declaration of the class or of one of its ancestors; and a name
other than the two basic ones has the descriptor of the nearest class that
declares it, counted from the class upwards. -/
theorem getClassMapProperty_resolves {PropertyType : Type} (TEXT : PropertyType)
    (catalog : List (ClassDescriptor PropertyType)) (cd : ClassDescriptor PropertyType)
    (hacyclic : ∀ c, ¬ Relation.TransGen (DirectSuper catalog) c c)
    (hcd : lock catalog cd.id = some cd) :
    ∃ m, getClassMapProperty TEXT catalog cd = .ok m ∧
      m.nameToDesc.lookup CLASS_NAME_PROPERTY = some ⟨CLASS_NAME_PROPERTY_ID, TEXT⟩ ∧
      m.nameToDesc.lookup RECORD_ID_PROPERTY = some ⟨RECORD_ID_PROPERTY_ID, TEXT⟩ ∧
      (∀ k a name d, superAt catalog k cd = some a → a.properties.lookup name = some d →
        (m.nameToDesc.lookup name).isSome) ∧
      (∀ name d, m.nameToDesc.lookup name = some d →
        name = CLASS_NAME_PROPERTY ∨ name = RECORD_ID_PROPERTY ∨
          ∃ k a, superAt catalog k cd = some a ∧ a.properties.lookup name = some d) ∧
      (∀ name, name ≠ CLASS_NAME_PROPERTY → name ≠ RECORD_ID_PROPERTY →
        NearestDeclaration catalog cd name (m.nameToDesc.lookup name)) := by
  obtain ⟨m, hm, h1, h2, hnear⟩ := getClassMapProperty_spec TEXT catalog cd hacyclic hcd
  refine ⟨m, hm, h1, h2, ?_, ?_, hnear⟩
  · intro k a name d ha hd
    by_cases hn1 : name = CLASS_NAME_PROPERTY
    · rw [hn1, h1]; rfl
    · by_cases hn2 : name = RECORD_ID_PROPERTY
      · rw [hn2, h2]; rfl
      · obtain ⟨j, b, e, -, -, hr⟩ :=
          nearestDeclaration_first catalog cd name _ (hnear name hn1 hn2) k a d ha hd
        rw [hr]; rfl
  · intro name d hd
    by_cases hn1 : name = CLASS_NAME_PROPERTY
    · exact Or.inl hn1
    · by_cases hn2 : name = RECORD_ID_PROPERTY
      · exact Or.inr (Or.inl hn2)
      · refine Or.inr (Or.inr ?_)
        by_cases hex : ∃ k a e, superAt catalog k cd = some a ∧
            a.properties.lookup name = some e
        · obtain ⟨k, a, e, ha, he⟩ := hex
          obtain ⟨j, b, e1, hb, he1, hr⟩ :=
            nearestDeclaration_first catalog cd name _ (hnear name hn1 hn2) k a e ha he
          rw [hd] at hr
          cases hr
          exact ⟨j, b, hb, he1⟩
        · have hnone := (hnear name hn1 hn2).2 (by
            intro k a ha
            cases hl : a.properties.lookup name with
            | none => rfl
            | some e => exact absurd ⟨k, a, e, ha, hl⟩ hex)
          rw [hd] at hnone
          cases hnone

/-- C22 on the example catalog: class 4 inherits from class 3 and class 1, which both
declare `name`; the map of class 4 holds the declaration of class 3. -/
theorem getClassMapProperty_resolves_witness :
    (∀ c, ¬ Relation.TransGen (DirectSuper Example.catalog) c c)
    ∧ lock Example.catalog 4 = some ⟨4, some 3, [], [("size", ⟨5, "REAL"⟩)]⟩
    ∧ getClassMapProperty "TEXT" Example.catalog ⟨4, some 3, [], [("size", ⟨5, "REAL"⟩)]⟩ =
        .ok ⟨[("@className", ⟨0, "TEXT"⟩), ("@recordId", ⟨1, "TEXT"⟩), ("size", ⟨5, "REAL"⟩),
          ("name", ⟨4, "INTEGER"⟩)]⟩
    ∧ ∃ m, getClassMapProperty "TEXT" Example.catalog
          ⟨4, some 3, [], [("size", ⟨5, "REAL"⟩)]⟩ = .ok m ∧
        m.nameToDesc.lookup CLASS_NAME_PROPERTY = some ⟨CLASS_NAME_PROPERTY_ID, "TEXT"⟩ ∧
        m.nameToDesc.lookup RECORD_ID_PROPERTY = some ⟨RECORD_ID_PROPERTY_ID, "TEXT"⟩ ∧
        (∀ k a name d,
          superAt Example.catalog k ⟨4, some 3, [], [("size", ⟨5, "REAL"⟩)]⟩ = some a →
          a.properties.lookup name = some d → (m.nameToDesc.lookup name).isSome) ∧
        (∀ name d, m.nameToDesc.lookup name = some d →
          name = CLASS_NAME_PROPERTY ∨ name = RECORD_ID_PROPERTY ∨
            ∃ k a, superAt Example.catalog k ⟨4, some 3, [], [("size", ⟨5, "REAL"⟩)]⟩ = some a ∧
              a.properties.lookup name = some d) ∧
        (∀ name, name ≠ CLASS_NAME_PROPERTY → name ≠ RECORD_ID_PROPERTY →
          NearestDeclaration Example.catalog ⟨4, some 3, [], [("size", ⟨5, "REAL"⟩)]⟩ name
            (m.nameToDesc.lookup name)) := by
  have hac : ∀ c, ¬ Relation.TransGen (DirectSuper Example.catalog) c c :=
    acyclic_of_rank _ (fun n => 10 - n)
      (directSuper_rank Example.catalog (fun n => 10 - n) (by decide))
  exact ⟨hac, rfl, rfl,
    getClassMapProperty_resolves "TEXT" Example.catalog _ hac rfl⟩

end Generic

namespace GraphStore

/-- C23: after every sequence of vertex create, edge create, `updateSrc`, `updateDst`,
edge destroy and vertex destroy operations applied to the empty graph store, every
live edge with endpoints `(src, dst)` is among the out-edges of `src` and the
in-edges of `dst`, and every edge among the out-edges (in-edges) of a vertex is a
live edge whose source (destination) is that vertex. -/
theorem runOps_adjacency (ops : List Op) :
    (∀ e src dst, (empty.runOps ops).getEndpoints e = some (src, dst) →
      e ∈ (empty.runOps ops).getOutEdges src ∧ e ∈ (empty.runOps ops).getInEdges dst) ∧
    (∀ v e, e ∈ (empty.runOps ops).getOutEdges v →
      ∃ dst, (empty.runOps ops).getEndpoints e = some (v, dst)) ∧
    (∀ v e, e ∈ (empty.runOps ops).getInEdges v →
      ∃ src, (empty.runOps ops).getEndpoints e = some (src, v)) := by
  have h := consistent_runOps ops empty consistent_empty
  refine ⟨?_, ?_, ?_⟩
  · intro e src dst he
    rw [mem_getOutEdges, mem_getInEdges]
    exact h.listed e src dst he
  · intro v e he
    rw [mem_getOutEdges] at he
    exact h.outLive v e he
  · intro v e he
    rw [mem_getInEdges] at he
    exact h.inLive v e he

/-- C24, as stated, fails on a self-loop: for the edge `(2, 1)` from `(1, 1)` to
`(1, 1)`, after `updateDst` to `(1, 1)` the in-edges of its former destination
still contain the edge. -/
theorem edgeUpdateDst_self_loop :
    Example.loopStore.getEndpoints (2, 1) = some ((1, 1), (1, 1)) ∧
    ∃ s1, Example.loopStore.edgeUpdateDst (2, 1) (1, 1) = .ok s1 ∧
      (2, 1) ∈ s1.getInEdges (1, 1) :=
  ⟨rfl, _, rfl, by decide⟩

/-- C24, amended: in a store reached by operations, for every edge `e` from `v1` to
`v2` with `v1 ≠ v2`, `updateDst(e, v1)` succeeds and afterwards the destination
of `e` is `v1`, its source is still `v1`, the in-edges of `v2` do not contain
`e`, the in-edges of `v1` contain `e` exactly once and the out-edges of `v1` are
unchanged; and `updateSrc(e, v2)` succeeds and afterwards the source of `e` is
`v2`, the out-edges of `v1` do not contain `e` and the out-edges of `v2` contain
`e`. -/
theorem endpoint_move_distinct (s : GraphStore) (e v1 v2 : RecordId) (h : Consistent s)
    (he : s.getEndpoints e = some (v1, v2)) (hne : v1 ≠ v2) :
    (∃ s1, s.edgeUpdateDst e v1 = .ok s1 ∧ s1.getDst e = some v1 ∧ s1.getSrc e = some v1 ∧
      e ∉ s1.getInEdges v2 ∧ (s1.getInEdges v1).count e = 1 ∧
      s1.getOutEdges v1 = s.getOutEdges v1) ∧
    (∃ s2, s.edgeUpdateSrc e v2 = .ok s2 ∧ s2.getSrc e = some v2 ∧
      e ∉ s2.getOutEdges v1 ∧ e ∈ s2.getOutEdges v2) := by
  have hl : s.endpoints.lookup e = some (v1, v2) := he
  have hlive := h.endsLive e v1 v2 hl
  constructor
  · have hrun : s.edgeUpdateDst e v1 = .ok
        { s with endpoints := (e, (v1, v1)) :: s.endpoints.filter (fun p => p.1 != e),
                 inEdges := setInsert (s.inEdges.filter (fun m => m != (v2, e))) (v1, e) } := by
      unfold edgeUpdateDst
      rw [hl]
      dsimp only
      rw [if_neg (not_not.2 hlive.1)]
    have hcons := consistent_edgeUpdateDst s _ e v1 h hrun
    refine ⟨_, hrun, ?_, ?_, ?_, ?_, rfl⟩
    · simp [getDst, getEndpoints, List.lookup]
    · simp [getSrc, getEndpoints, List.lookup]
    · rw [mem_getInEdges]
      dsimp only
      rw [mem_setInsert, mem_filter_ne]
      rintro (⟨_, hm⟩ | hm)
      · exact hm rfl
      · cases hm
        exact hne rfl
    · refine count_eq_one_of_nodup _ _ (nodup_getInEdges _ v1 hcons.inSet) ?_
      rw [mem_getInEdges]
      dsimp only
      rw [mem_setInsert]
      exact Or.inr rfl
  · have hrun : s.edgeUpdateSrc e v2 = .ok
        { s with endpoints := (e, (v2, v2)) :: s.endpoints.filter (fun p => p.1 != e),
                 outEdges := setInsert (s.outEdges.filter (fun m => m != (v1, e))) (v2, e) } := by
      unfold edgeUpdateSrc
      rw [hl]
      dsimp only
      rw [if_neg (not_not.2 hlive.2)]
    refine ⟨_, hrun, ?_, ?_, ?_⟩
    · simp [getSrc, getEndpoints, List.lookup]
    · rw [mem_getOutEdges]
      dsimp only
      rw [mem_setInsert, mem_filter_ne]
      rintro (⟨_, hm⟩ | hm)
      · exact hm rfl
      · cases hm
        exact hne rfl
    · rw [mem_getOutEdges]
      dsimp only
      rw [mem_setInsert]
      exact Or.inr rfl

/-- C24 amended, on the example store: the edge `(2, 1)` from `(1, 1)` to `(1, 2)` is
moved to end at `(1, 1)`, and moved to start at `(1, 2)`. -/
theorem endpoint_move_distinct_witness :
    Consistent Example.store ∧
    Example.store.getEndpoints (2, 1) = some ((1, 1), (1, 2)) ∧
    ((∃ s1, Example.store.edgeUpdateDst (2, 1) (1, 1) = .ok s1 ∧
        s1.getDst (2, 1) = some (1, 1) ∧ s1.getSrc (2, 1) = some (1, 1) ∧
        (2, 1) ∉ s1.getInEdges (1, 2) ∧ (s1.getInEdges (1, 1)).count (2, 1) = 1 ∧
        s1.getOutEdges (1, 1) = Example.store.getOutEdges (1, 1)) ∧
      (∃ s2, Example.store.edgeUpdateSrc (2, 1) (1, 2) = .ok s2 ∧
        s2.getSrc (2, 1) = some (1, 2) ∧
        (2, 1) ∉ s2.getOutEdges (1, 1) ∧ (2, 1) ∈ s2.getOutEdges (1, 2))) :=
  ⟨consistent_runOps _ empty consistent_empty, rfl,
    endpoint_move_distinct Example.store (2, 1) (1, 1) (1, 2)
      (consistent_runOps _ empty consistent_empty) rfl (by decide)⟩

end GraphStore

namespace parser

/-- C25: for every row that decodes against a schema in which distinct property ids
have distinct names, and every property id of that schema: decoding the row
against the schema without that id succeeds and yields the record decoded
against the full schema without the entry of that property: the block of the
removed id is skipped and every other block is decoded as before. -/
theorem parseRawData_dropped_property (rawData : storage_engine.lmdb.Result)
    (propertyInfos : PropertyIdMapInfo) (isEdge : Bool) (id : Nat) (info : PropertyAccessInfo)
    (record : Record)
    (hfound : propertyInfos.lookup id = some info)
    (hinj : ∀ j infoj, propertyInfos.lookup j = some infoj → infoj.name = info.name → j = id)
    (h : parseRawData rawData propertyInfos isEdge = .ok record) :
    parseRawData rawData (propertyInfos.filter (fun e => e.1 != id)) isEdge =
      .ok ⟨record.properties.filter (fun p => p.1 != info.name)⟩ := by
  unfold parseRawData at h ⊢
  by_cases h1 : rawData.empty = true
  · rw [if_pos h1] at h ⊢
    cases h
    rfl
  · rw [if_neg h1] at h ⊢
    dsimp only at h ⊢
    by_cases h2 : rawData.data.capacity = 0
    · rw [if_pos h2] at h
      cases h
    · rw [if_neg h2] at h ⊢
      by_cases h3 : rawData.data.capacity ≥ 2 * 2
      · rw [if_pos h3] at h ⊢
        cases hloop : parseRawDataLoop rawData.data propertyInfos rawData.data.size
            (if isEdge = true then VERTEX_SRC_DST_RAW_DATA_LENGTH else 0) [] with
        | error e => rw [hloop] at h; cases h
        | ok properties =>
          rw [hloop] at h
          cases h
          have := parseRawDataLoop_remove rawData.data propertyInfos id info hfound hinj _ _ _ _
            hloop
          rw [List.filter_nil] at this
          rw [this]
      · rw [if_neg h3] at h ⊢
        cases h
        rfl

/-- C25 on a row with the blocks of the properties 2 and 3: without property 3 in
the schema the record holds the value of property 2 alone. -/
theorem parseRawData_dropped_property_witness :
    parseRawData Example.row Example.schema false = .ok ⟨[("b", [9]), ("a", [7])]⟩ ∧
    parseRawData Example.row (Example.schema.filter (fun e => e.1 != 3)) false =
      .ok ⟨[("a", [7])]⟩ ∧
    parseRawData Example.row (Example.schema.filter (fun e => e.1 != 3)) false =
      .ok ⟨([("b", [9]), ("a", [7])] : PropertyToBytesMap).filter
        (fun p => p.1 != (⟨"b", 3⟩ : PropertyAccessInfo).name)⟩ :=
  ⟨rfl, rfl, parseRawData_dropped_property Example.row Example.schema false 3 ⟨"b", 3⟩
    ⟨[("b", [9]), ("a", [7])]⟩ rfl (by
      intro j infoj hj hname
      by_cases h3 : j = 3
      · exact h3
      · by_cases h2 : j = 2
        · subst h2
          cases hj
          exact absurd hname (by decide)
        · have hnone : Example.schema.lookup j = none := by
            have e2 : (j == 2) = false := by simpa using h2
            have e3 : (j == 3) = false := by simpa using h3
            simp [Example.schema, List.lookup, e2, e3]
          rw [hnone] at hj
          cases hj) rfl⟩

end parser

namespace Algorithm

/-- C26: for every graph store, source, depth bounds, edge classes, accessors and
filters (the vertex accessor, when given, being `getVertexSrc` or
`getVertexDst`): `breadthFirstSearchRdesc` and `depthFirstSearchRdesc` end with
`NOGDB_GRAPH_NOEXST_VERTEX` when the source does not exist and return a list
otherwise, and the list of the vertices each of them expands with
`getIncidentEdges` holds no vertex twice. -/
theorem traversal_terminates_expanding_once (txn : Txn) (recordDescriptor : RecordDescriptor)
    (minDepth maxDepth : Nat) (edgeClassIds : List Nat)
    (edgeFunc : Graph → RecordId → Nat → List RecordId)
    (vertexFunc : Option (Graph → RecordId → RecordId)) (pathFilter : PathFilter)
    (hvf : ∀ f, vertexFunc = some f → f = Graph.getVertexSrc ∨ f = Graph.getVertexDst) :
    (Generic.checkIfRecordExist txn recordDescriptor = .RECORD_NOT_EXIST →
      breadthFirstSearchRdesc txn recordDescriptor minDepth maxDepth edgeClassIds edgeFunc
          vertexFunc pathFilter = .error .graphNoexstVertex ∧
        depthFirstSearchRdesc txn recordDescriptor minDepth maxDepth edgeClassIds edgeFunc
          vertexFunc pathFilter = .error .graphNoexstVertex) ∧
    (Generic.checkIfRecordExist txn recordDescriptor ≠ .RECORD_NOT_EXIST →
      (∃ res, breadthFirstSearchRdesc txn recordDescriptor minDepth maxDepth edgeClassIds
          edgeFunc vertexFunc pathFilter = .ok res) ∧
        ∃ res, depthFirstSearchRdesc txn recordDescriptor minDepth maxDepth edgeClassIds
          edgeFunc vertexFunc pathFilter = .ok res) ∧
    (breadthFirstSearchExpanded txn recordDescriptor minDepth maxDepth edgeClassIds edgeFunc
      vertexFunc pathFilter).Nodup ∧
    (depthFirstSearchExpanded txn recordDescriptor minDepth maxDepth edgeClassIds edgeFunc
      vertexFunc pathFilter).Nodup := by
  refine ⟨?_, ?_, ?_, ?_⟩
  · intro hno
    constructor
    · unfold breadthFirstSearchRdesc
      rw [hno]
    · unfold depthFirstSearchRdesc
      rw [hno]
  · intro hex
    exact ⟨breadthFirstSearchRdesc_returns txn recordDescriptor minDepth maxDepth edgeClassIds
        edgeFunc vertexFunc pathFilter hvf hex,
      depthFirstSearchRdesc_run txn recordDescriptor minDepth maxDepth edgeClassIds edgeFunc
        vertexFunc pathFilter hvf hex⟩
  · unfold breadthFirstSearchExpanded
    split
    · exact (bfsExpanded_nodup txn recordDescriptor.rid minDepth maxDepth edgeClassIds edgeFunc
        vertexFunc pathFilter _ _ ⟨by simp, by simp⟩).1
    · exact List.nodup_nil
  · unfold depthFirstSearchExpanded
    split
    · exact (dfsExpanded_nodup txn minDepth maxDepth edgeClassIds edgeFunc vertexFunc
        pathFilter _ _).1
    · exact List.nodup_nil

/-- C26 on a graph with two parallel edges, a cycle and a self-loop, with the depth
bound `2^32 - 1`: both traversals return and expand each of the two vertices
once. -/
theorem traversal_terminates_expanding_once_witness :
    (∀ f, (Option.none : Option (Graph → RecordId → RecordId)) = some f →
      f = Graph.getVertexSrc ∨ f = Graph.getVertexDst)
    ∧ breadthFirstSearchExpanded Example.cyclicTxn ⟨(1, 1), 0⟩ 0 4294967295 []
        Graph.getEdgeInOut Option.none PathFilter.none = [(1, 1), (1, 2)]
    ∧ depthFirstSearchExpanded Example.cyclicTxn ⟨(1, 1), 0⟩ 0 4294967295 []
        Graph.getEdgeInOut Option.none PathFilter.none = [(1, 1), (1, 2)]
    ∧ (∃ res, breadthFirstSearchRdesc Example.cyclicTxn ⟨(1, 1), 0⟩ 0 4294967295 []
        Graph.getEdgeInOut Option.none PathFilter.none = .ok res)
    ∧ (breadthFirstSearchExpanded Example.cyclicTxn ⟨(1, 1), 0⟩ 0 4294967295 []
        Graph.getEdgeInOut Option.none PathFilter.none).Nodup :=
  ⟨(fun _ h => nomatch h), rfl, rfl,
    ((traversal_terminates_expanding_once Example.cyclicTxn ⟨(1, 1), 0⟩ 0 4294967295 []
      Graph.getEdgeInOut Option.none PathFilter.none (fun _ h => nomatch h)).2.1
        (by decide)).1,
    (traversal_terminates_expanding_once Example.cyclicTxn ⟨(1, 1), 0⟩ 0 4294967295 []
      Graph.getEdgeInOut Option.none PathFilter.none (fun _ h => nomatch h)).2.2.1⟩

/-- C27 fails on the code: on the graph `v1 → v2`, `v1 → v3`, `v3 → v4` with a vertex
filter that rejects `v3`, `depthFirstSearchRdesc` does not emit `v3` but expands it
and returns `v4`, which is reachable only through `v3`; `breadthFirstSearchRdesc`
on the same input does not return `v4`. -/
theorem depthFirstSearchRdesc_expands_rejected :
    retrieveRdesc Example.txn (1, 3) Example.rejectV3 .VERTEX = RecordDescriptor.empty
    ∧ Example.txn.dbRelation.getEdgeIn (1, 4) 0 = [(2, 3)]
    ∧ Example.txn.dbRelation.getVertexSrc (2, 3) = (1, 3)
    ∧ depthFirstSearchRdesc Example.txn ⟨(1, 1), 0⟩ 0 10 [] Graph.getEdgeOut
        (some Graph.getVertexDst) Example.rejectV3
      = .ok [⟨(1, 1), 0⟩, ⟨(1, 2), 1⟩, ⟨(1, 4), 2⟩]
    ∧ depthFirstSearchExpanded Example.txn ⟨(1, 1), 0⟩ 0 10 [] Graph.getEdgeOut
        (some Graph.getVertexDst) Example.rejectV3 = [(1, 1), (1, 2), (1, 3), (1, 4)]
    ∧ breadthFirstSearchRdesc Example.txn ⟨(1, 1), 0⟩ 0 10 [] Graph.getEdgeOut
        (some Graph.getVertexDst) Example.rejectV3
      = .ok [⟨(1, 1), 0⟩, ⟨(1, 2), 1⟩] :=
  ⟨rfl, rfl, rfl, rfl, rfl, rfl⟩

end Algorithm

namespace RecordCompare

/-- C29: for every record, every condition (whatever its comparator and its negate
flag), every typed comparison and every property map that has no entry for the
property name of the condition, `compareRecordByCondition(record,
propertyNameMapInfo, condition)` returns false. -/
theorem compareRecordByConditionInMap_undeclared {PropertyType Info : Type}
    (genericCompareFunc :
      Bytes → PropertyType → Bytes → Bytes → Condition.Comparator → Bool → Bool)
    (typeOf : Info → PropertyType)
    (record : Record) (propertyNameMapInfo : List (String × Info)) (condition : Condition)
    (hundeclared : ∀ e ∈ propertyNameMapInfo, e.1 ≠ condition.propName) :
    compareRecordByConditionInMap genericCompareFunc typeOf record propertyNameMapInfo
      condition = false := by
  have hnone : propertyNameMapInfo.lookup condition.propName = none := by
    induction propertyNameMapInfo with
    | nil => rfl
    | cons e l ih =>
      obtain ⟨k, v⟩ := e
      have hk : condition.propName ≠ k := fun h =>
        hundeclared (k, v) (List.mem_cons_self _ _) h.symm
      rw [Algorithm.lookup_cons_of_ne _ _ _ _ hk]
      exact ih (fun e he => hundeclared e (List.mem_cons_of_mem _ he))
  unfold compareRecordByConditionInMap
  rw [hnone]

/-- C29 on a map that declares `name` only: conditions on `age` are false, for
`IS_NULL` on a record without `age` and for a negated `EQUAL` alike, while the
three-argument overload answers true for both. -/
theorem compareRecordByConditionInMap_undeclared_witness :
    (∀ e ∈ ([("name", ())] : List (String × Unit)), e.1 ≠ "age")
    ∧ compareRecordByConditionInMap (fun _ (_ : Unit) _ _ _ _ => false) id
        ⟨[("name", [1])]⟩ [("name", ())] ⟨"age", .IS_NULL, [], [], false, false⟩ = false
    ∧ compareRecordByCondition (fun _ (_ : Unit) _ _ _ _ => false)
        ⟨[("name", [1])]⟩ () ⟨"age", .IS_NULL, [], [], false, false⟩ = true
    ∧ compareRecordByConditionInMap (fun _ (_ : Unit) _ _ _ _ => false) id
        ⟨[("age", [1])]⟩ [("name", ())] ⟨"age", .EQUAL, [5], [], false, true⟩ = false
    ∧ compareRecordByCondition (fun _ (_ : Unit) _ _ _ _ => false)
        ⟨[("age", [1])]⟩ () ⟨"age", .EQUAL, [5], [], false, true⟩ = true :=
  ⟨by decide,
    compareRecordByConditionInMap_undeclared (fun _ (_ : Unit) _ _ _ _ => false) id
      ⟨[("name", [1])]⟩ [("name", ())] ⟨"age", .IS_NULL, [], [], false, false⟩ (by decide),
    rfl, rfl, rfl⟩

/-- C30: for all catalog accessors `getInfo` and `getSubClassInfos` and every graph
filter, a name is in `onlyClasses` of the result of `getFilterClasses` exactly
when it is in `onlyClasses` of the filter, or some name of `onlySubOfClasses`
is an existing class (its info has a type other than `UNDEFINED`) and the name
is the name of that class or of a class that `getSubClassInfos` lists for its
id; the same holds for `ignoreClasses` with `ignoreSubOfClasses`; both results
are sets. -/
theorem getFilterClasses_expansion (getInfo : String → ClassAccessInfo)
    (getSubClassInfos : Nat → List ClassAccessInfo) (filter : GraphFilter) :
    (∀ x, x ∈ (getFilterClasses getInfo getSubClassInfos filter).onlyClasses ↔
      x ∈ filter.onlyClasses ∨ ∃ subOfClass ∈ filter.onlySubOfClasses,
        (getInfo subOfClass).type ≠ .UNDEFINED ∧
          (x = (getInfo subOfClass).name ∨
            ∃ subClassInfo ∈ getSubClassInfos (getInfo subOfClass).id,
              x = subClassInfo.name)) ∧
    (∀ x, x ∈ (getFilterClasses getInfo getSubClassInfos filter).ignoreClasses ↔
      x ∈ filter.ignoreClasses ∨ ∃ subOfClass ∈ filter.ignoreSubOfClasses,
        (getInfo subOfClass).type ≠ .UNDEFINED ∧
          (x = (getInfo subOfClass).name ∨
            ∃ subClassInfo ∈ getSubClassInfos (getInfo subOfClass).id,
              x = subClassInfo.name)) ∧
    (getFilterClasses getInfo getSubClassInfos filter).onlyClasses.Nodup ∧
    (getFilterClasses getInfo getSubClassInfos filter).ignoreClasses.Nodup := by
  have hinit : ∀ (l : List String) (x : String), x ∈ l.foldl setInsert [] ↔ x ∈ l := by
    intro l x
    have := mem_foldl_setInsert (fun a : String => a) l [] x
    simp only [List.not_mem_nil, false_or] at this
    rw [this]
    constructor
    · rintro ⟨a, ha, rfl⟩; exact ha
    · intro h; exact ⟨x, h, rfl⟩
  have hnd : ∀ l : List String, (l.foldl setInsert []).Nodup := fun l =>
    nodup_foldl_setInsert (fun a : String => a) l [] List.nodup_nil
  refine ⟨?_, ?_, ?_, ?_⟩
  · intro x
    unfold getFilterClasses
    dsimp only
    rw [mem_addSubOfClasses, hinit]
  · intro x
    unfold getFilterClasses
    dsimp only
    rw [mem_addSubOfClasses, hinit]
  · exact nodup_addSubOfClasses _ _ _ _ (hnd _)
  · exact nodup_addSubOfClasses _ _ _ _ (hnd _)

end RecordCompare

namespace Algorithm

/-- C28, as stated, fails for a source that exists only in the record store: the
function returns the descriptor it was given, with the depth that descriptor
carries, here 7 with `maxDepth = 3`. -/
theorem depthFirstSearchRdesc_isolated_depth :
    Generic.checkIfRecordExist Example.isolatedTxn ⟨(1, 1), 7⟩ = .RECORD_NOT_EXIST_IN_MEMORY
    ∧ depthFirstSearchRdesc Example.isolatedTxn ⟨(1, 1), 7⟩ 0 3 [] Graph.getEdgeOut
        (some Graph.getVertexDst) PathFilter.none = .ok [⟨(1, 1), 7⟩] :=
  ⟨rfl, rfl⟩

/-- C28, amended: for a source with adjacency entries in the graph store (the vertex
accessor, when given, being `getVertexSrc` or `getVertexDst`),
`depthFirstSearchRdesc` returns a list; there is exactly one depth-limited search
forest from the source, in which the neighbours of an entered vertex are explored
in the order of `getIncidentEdges` and visited ones are passed over, and the
list holds, in the pre-order of that forest, the descriptors of the entered
vertices at depth at least `minDepth` that the vertex filter accepts; every
returned descriptor has `minDepth ≤ depth ≤ maxDepth`, and its depth is the
number of edges of its tree path, which leads from the source to the vertex
along neighbour steps.  For a source that exists only in the record store the
list is the given descriptor alone when `minDepth = 0`, and empty otherwise. -/
theorem depthFirstSearchRdesc_preorder (txn : Txn) (recordDescriptor : RecordDescriptor)
    (minDepth maxDepth : Nat) (edgeClassIds : List Nat)
    (edgeFunc : Graph → RecordId → Nat → List RecordId)
    (vertexFunc : Option (Graph → RecordId → RecordId)) (pathFilter : PathFilter)
    (hvf : ∀ f, vertexFunc = some f → f = Graph.getVertexSrc ∨ f = Graph.getVertexDst) :
    (Generic.checkIfRecordExist txn recordDescriptor = .RECORD_EXIST →
      ∃ res out visited1,
        depthFirstSearchRdesc txn recordDescriptor minDepth maxDepth edgeClassIds edgeFunc
          vertexFunc pathFilter = .ok res ∧
        SearchForest txn maxDepth edgeClassIds edgeFunc vertexFunc pathFilter []
          [recordDescriptor.rid] [] out visited1 ∧
        (∀ out2 visited2, SearchForest txn maxDepth edgeClassIds edgeFunc vertexFunc pathFilter
          [] [recordDescriptor.rid] [] out2 visited2 → out2 = out ∧ visited2 = visited1) ∧
        res = out.filterMap (dfsEmit txn minDepth pathFilter) ∧
        ∀ d ∈ res, minDepth ≤ d.depth ∧ d.depth ≤ maxDepth ∧
          ∃ q ∈ out, q.head? = some d.rid ∧ q.getLast? = some recordDescriptor.rid ∧
            q.length = d.depth + 1 ∧
            List.Chain' (fun child parent =>
              child ∈ dfsNeighbours txn edgeClassIds edgeFunc vertexFunc pathFilter parent) q) ∧
    (Generic.checkIfRecordExist txn recordDescriptor = .RECORD_NOT_EXIST_IN_MEMORY →
      depthFirstSearchRdesc txn recordDescriptor minDepth maxDepth edgeClassIds edgeFunc
        vertexFunc pathFilter = .ok (if minDepth = 0 then [recordDescriptor] else [])) := by
  constructor
  · intro hsrc
    obtain ⟨res, hres⟩ := depthFirstSearchRdesc_run txn recordDescriptor minDepth maxDepth
      edgeClassIds edgeFunc vertexFunc pathFilter hvf (by rw [hsrc]; decide)
    obtain ⟨out, visited1, hforest, hout⟩ := depthFirstSearchRdesc_forest txn recordDescriptor
      minDepth maxDepth edgeClassIds edgeFunc vertexFunc pathFilter hsrc res hres
    refine ⟨res, out, visited1, hres, hforest, searchForest_unique hforest, hout, ?_⟩
    intro d hd
    rw [hout] at hd
    obtain ⟨q, hq, hemit⟩ := List.mem_filterMap.1 hd
    obtain ⟨hhead, hlen, hmin⟩ := dfsEmit_some txn minDepth pathFilter q d hemit
    obtain ⟨pre, c, hc, hq1, hchain, hbound⟩ := searchForest_paths hforest q hq
    simp only [List.mem_singleton] at hc
    subst hc
    refine ⟨hmin, ?_, q, hq, hhead, ?_, hlen, ?_⟩
    · rcases hbound with hb | hb
      · rw [hlen] at hb
        simp only [List.length_nil] at hb
        omega
      · omega
    · rw [hq1]
      exact List.getLast?_concat _
    · rw [hq1]
      exact hchain
  · intro hsrc
    unfold depthFirstSearchRdesc
    rw [hsrc]
    dsimp only
    by_cases h0 : minDepth = 0
    · rw [if_pos h0, if_pos ⟨h0, by omega⟩]
    · rw [if_neg h0, if_neg (fun h => h0 h.1)]

/-- C28 amended, on the graph `v1 → v2`, `v1 → v3`, `v3 → v4`: the search from `v1`
returns `v1`, `v2`, `v3`, `v4` with depths 0, 1, 1, 2; with `minDepth = 1` and
`maxDepth = 1` it returns `v2` and `v3`. -/
theorem depthFirstSearchRdesc_preorder_witness :
    Generic.checkIfRecordExist Example.txn ⟨(1, 1), 0⟩ = .RECORD_EXIST
    ∧ depthFirstSearchRdesc Example.txn ⟨(1, 1), 0⟩ 0 10 [] Graph.getEdgeOut
        (some Graph.getVertexDst) PathFilter.none
      = .ok [⟨(1, 1), 0⟩, ⟨(1, 2), 1⟩, ⟨(1, 3), 1⟩, ⟨(1, 4), 2⟩]
    ∧ depthFirstSearchRdesc Example.txn ⟨(1, 1), 0⟩ 1 1 [] Graph.getEdgeOut
        (some Graph.getVertexDst) PathFilter.none = .ok [⟨(1, 2), 1⟩, ⟨(1, 3), 1⟩]
    ∧ ∃ res out visited1,
        depthFirstSearchRdesc Example.txn ⟨(1, 1), 0⟩ 0 10 [] Graph.getEdgeOut
          (some Graph.getVertexDst) PathFilter.none = .ok res ∧
        SearchForest Example.txn 10 [] Graph.getEdgeOut (some Graph.getVertexDst)
          PathFilter.none [] [(1, 1)] [] out visited1 ∧
        (∀ out2 visited2, SearchForest Example.txn 10 [] Graph.getEdgeOut
          (some Graph.getVertexDst) PathFilter.none [] [(1, 1)] [] out2 visited2 →
            out2 = out ∧ visited2 = visited1) ∧
        res = out.filterMap (dfsEmit Example.txn 0 PathFilter.none) ∧
        ∀ d ∈ res, 0 ≤ d.depth ∧ d.depth ≤ 10 ∧
          ∃ q ∈ out, q.head? = some d.rid ∧ q.getLast? = some (1, 1) ∧
            q.length = d.depth + 1 ∧
            List.Chain' (fun child parent =>
              child ∈ dfsNeighbours Example.txn [] Graph.getEdgeOut (some Graph.getVertexDst)
                PathFilter.none parent) q :=
  ⟨rfl, rfl, rfl,
    (depthFirstSearchRdesc_preorder Example.txn ⟨(1, 1), 0⟩ 0 10 [] Graph.getEdgeOut
      (some Graph.getVertexDst) PathFilter.none
      (fun _ h => Or.inr (Option.some.inj h).symm)).1 rfl⟩

end Algorithm

namespace Compare

/-- C37: for every record, property type and condition, the test of the full scan
`Compare::getRdescCondition` on a row and the filter of the edge scan
`Compare::getRdescEdgeCondition`, both run with `RecordCompare::compareBytesValue`,
raise no error and accept the record exactly when
`RecordCompare::compareRecordByCondition(record, type, condition)` is true. -/
theorem scan_tests_agree {PropertyType : Type}
    (genericCompareFunc :
      Bytes → PropertyType → Bytes → Bytes → Condition.Comparator → Bool → Bool)
    (record : Record) (type : PropertyType) (condition : Condition) :
    getRdescConditionTest (RecordCompare.compareBytesValue genericCompareFunc) record
        condition type =
      .ok (RecordCompare.compareRecordByCondition genericCompareFunc record type condition) ∧
    getRdescEdgeConditionFilter (RecordCompare.compareBytesValue genericCompareFunc)
        condition type record =
      .ok (RecordCompare.compareRecordByCondition genericCompareFunc record type condition) := by
  unfold getRdescConditionTest getRdescEdgeConditionFilter
    RecordCompare.compareRecordByCondition
  cases hc : condition.comp <;>
    cases he : (record.get condition.propName).isEmpty <;>
    cases hv : RecordCompare.compareBytesValue genericCompareFunc
      (record.get condition.propName) type condition <;>
    simp [hc, he, hv]

end Compare

namespace RecordCompare

/-- C33 (code defect): the negation of an `IN` condition is not the logical negation.
With byte equality as the typed comparison, the value `[1]` satisfies the
condition `IN {[1], [2]}` and also its negation built by `Condition::operator!`,
which flips the negate flag and keeps the comparator and the value set:
`compareBytesValue` applies the flag to each member of the set and answers true as
soon as one member differs from the value. -/
theorem compareBytesValue_negated_in :
    compareBytesValue Example.byteEqual [1] () ⟨"p", .IN, [], [[1], [2]], false, false⟩ = true ∧
    compareBytesValue Example.byteEqual [1] ()
      (Condition.not ⟨"p", .IN, [], [[1], [2]], false, false⟩) = true ∧
    (Condition.not ⟨"p", .IN, [], [[1], [2]], false, false⟩).comp = .IN ∧
    (Condition.not ⟨"p", .IN, [], [[1], [2]], false, false⟩).valueSet = [[1], [2]] ∧
    (Condition.not ⟨"p", .IN, [], [[1], [2]], false, false⟩).isNegative = true ∧
    compareBytesValue Example.byteEqual [1] () ⟨"p", .EQUAL, [1], [], false, false⟩ = true ∧
    compareBytesValue Example.byteEqual [1] ()
      (Condition.not ⟨"p", .EQUAL, [1], [], false, false⟩) = false := by
  decide

end RecordCompare

namespace parser

/-- C40: for every edge row blob at least as long as the endpoint prefix,
`parseEdgeRawDataVertexSrcDstAsBlob` and `parseEdgeRawDataAsBlob` both return a
blob, the bytes of the first followed by the bytes of the second are the bytes
of the row, the first has exactly the length of the prefix, and for a row that
is exactly the prefix the second is the blob `Blob()`, which holds no byte. -/
theorem edge_row_split (defaultCapacity : Nat) (b : Blob)
    (h : b.size ≥ VERTEX_SRC_DST_RAW_DATA_LENGTH) :
    ∃ first second,
      parseEdgeRawDataVertexSrcDstAsBlob b = .ok first ∧
      parseEdgeRawDataAsBlob defaultCapacity b = .ok second ∧
      first.bytes ++ second.bytes = b.bytes ∧
      first.size = VERTEX_SRC_DST_RAW_DATA_LENGTH ∧
      (b.size = VERTEX_SRC_DST_RAW_DATA_LENGTH →
        second = Blob.new defaultCapacity ∧ second.size = 0) := by
  have h16 : VERTEX_SRC_DST_RAW_DATA_LENGTH = 16 := rfl
  rw [h16] at h ⊢
  unfold Blob.size at h
  have hfirst : parseEdgeRawDataVertexSrcDstAsBlob b = .ok (Blob.ofBytes (b.bytes.take 16)) := by
    unfold parseEdgeRawDataVertexSrcDstAsBlob Blob.retrieve
    rw [h16]
    have h1 : ¬ ¬ b.size ≥ 16 := by unfold Blob.size; omega
    have h2 : 0 + 16 ≤ b.bytes.length := by omega
    rw [if_neg h1, if_pos h2]
    simp
  by_cases hlen : b.bytes.length = 16
  · have hsecond : parseEdgeRawDataAsBlob defaultCapacity b = .ok (Blob.new defaultCapacity) := by
      unfold parseEdgeRawDataAsBlob
      rw [h16]
      have h1 : ¬ b.size > 16 := by unfold Blob.size; omega
      rw [if_neg h1]
    refine ⟨_, _, hfirst, hsecond, ?_, ?_, fun _ => ⟨rfl, rfl⟩⟩
    · simp only [Blob.ofBytes, Blob.new, List.append_nil]
      exact List.take_of_length_le (by omega)
    · simp only [Blob.ofBytes, Blob.size, List.length_take]
      omega
  · have hsecond : parseEdgeRawDataAsBlob defaultCapacity b =
        .ok (Blob.ofBytes (b.bytes.drop 16)) := by
      unfold parseEdgeRawDataAsBlob Blob.retrieve
      rw [h16]
      have h1 : b.size > 16 := by unfold Blob.size; omega
      have h2 : 16 + (b.size - 16) ≤ b.bytes.length := by unfold Blob.size; omega
      rw [if_pos h1]
      dsimp only
      rw [if_pos h2]
      have h3 : (b.bytes.drop 16).take (b.size - 16) = b.bytes.drop 16 :=
        List.take_of_length_le (by simp [Blob.size])
      rw [h3]
    refine ⟨_, _, hfirst, hsecond, ?_, ?_, fun h0 => absurd h0 ?_⟩
    · simp only [Blob.ofBytes]
      exact List.take_append_drop 16 b.bytes
    · simp only [Blob.ofBytes, Blob.size, List.length_take]
      omega
    · unfold Blob.size
      exact hlen

/-- C40 on a row of nineteen bytes and on a row that is the prefix alone. -/
theorem edge_row_split_witness :
    (Blob.ofBytes (Example.endpointPrefix ++ [2, 0, 0])).size ≥ VERTEX_SRC_DST_RAW_DATA_LENGTH ∧
    parseEdgeRawDataVertexSrcDstAsBlob (Blob.ofBytes (Example.endpointPrefix ++ [2, 0, 0])) =
      .ok (Blob.ofBytes Example.endpointPrefix) ∧
    parseEdgeRawDataAsBlob 0 (Blob.ofBytes (Example.endpointPrefix ++ [2, 0, 0])) =
      .ok (Blob.ofBytes [2, 0, 0]) ∧
    parseEdgeRawDataAsBlob 0 (Blob.ofBytes Example.endpointPrefix) = .ok (Blob.new 0) ∧
    ∃ first second,
      parseEdgeRawDataVertexSrcDstAsBlob (Blob.ofBytes (Example.endpointPrefix ++ [2, 0, 0])) =
        .ok first ∧
      parseEdgeRawDataAsBlob 0 (Blob.ofBytes (Example.endpointPrefix ++ [2, 0, 0])) =
        .ok second ∧
      first.bytes ++ second.bytes = (Blob.ofBytes (Example.endpointPrefix ++ [2, 0, 0])).bytes ∧
      first.size = VERTEX_SRC_DST_RAW_DATA_LENGTH ∧
      ((Blob.ofBytes (Example.endpointPrefix ++ [2, 0, 0])).size =
          VERTEX_SRC_DST_RAW_DATA_LENGTH →
        second = Blob.new 0 ∧ second.size = 0) :=
  ⟨by decide, rfl, rfl, rfl,
    edge_row_split 0 (Blob.ofBytes (Example.endpointPrefix ++ [2, 0, 0])) (by decide)⟩

/-- C34 (code defect): the bytes appended by `Parser::parseRecord` can exceed the size it
computed.  For the record without properties and a schema of seven properties,
with `sizeof(TxnId) = 8`, the size is computed from the properties of the record
(none) plus the allowance `getRawDataSize(16) = 19`, the blob is created with
capacity 19, and the loop over the schema appends seven empty blocks of three
bytes, 21 bytes. -/
theorem parseRecord_exceeds_allocation :
    (∀ p ∈ (⟨[]⟩ : Record).getAll, (Example.wideSchema.lookup p.1).isSome) ∧
    parseRecordDataSize Example.wideSchema (⟨[]⟩ : Record).getAll 0 = .ok 0 ∧
    getRawDataSize (2 * 8) = 19 ∧
    parseRecord 8 ⟨[]⟩ Example.wideSchema =
      .ok ⟨19, [1, 0, 0, 2, 0, 0, 3, 0, 0, 4, 0, 0, 5, 0, 0, 6, 0, 0, 7, 0, 0]⟩ ∧
    (⟨19, [1, 0, 0, 2, 0, 0, 3, 0, 0, 4, 0, 0, 5, 0, 0, 6, 0, 0, 7, 0, 0]⟩ : Blob).size = 21 ∧
    (⟨19, [1, 0, 0, 2, 0, 0, 3, 0, 0, 4, 0, 0, 5, 0, 0, 6, 0, 0, 7, 0, 0]⟩ : Blob).capacity
      = 19 :=
  ⟨fun p hp => absurd hp (List.not_mem_nil p), rfl, rfl, rfl, rfl, rfl⟩

end parser

namespace Algorithm

/-- C35 (code defect): `found` is set for a destination that is not in `visited`.  On
the graph `v1 → v2`, `v1 → v3`, `v3 → v4` with a vertex filter that rejects
`v3`, the search from `v1` to `v3` (both exist in the graph store) ends with
`found` set and without an entry for `v3` in `visited`, the first `visited.at`
of the walk back fails, and `bfsShortestPathRdesc` ends with the out-of-range
error instead of a path. -/
theorem bfsShortestPathRdesc_found_not_visited :
    Generic.checkIfRecordExist Example.txn (RecordDescriptor.ofRid (1, 1)) = .RECORD_EXIST ∧
    Generic.checkIfRecordExist Example.txn (RecordDescriptor.ofRid (1, 3)) = .RECORD_EXIST ∧
    (∃ st, spLoop Example.txn (1, 3) [] Example.rejectV3 (traversalFuel Example.txn)
        { visited := [((1, 1), (RecordDescriptor.empty, (0, 0)))], queue := [(1, 1)],
          found := false } = .ok st ∧
      st.found = true ∧ st.visited.lookup (1, 3) = none ∧
      spWalk st.visited (1, 1) st.visited.length (1, 3) [] = .error .outOfRange) ∧
    bfsShortestPathRdesc Example.txn (RecordDescriptor.ofRid (1, 1))
      (RecordDescriptor.ofRid (1, 3)) [] Example.rejectV3 = .error .outOfRange :=
  ⟨rfl, rfl, ⟨_, rfl, rfl, rfl, rfl⟩, rfl⟩

end Algorithm

namespace RecordCompare

/-- C31, as stated, fails for a filter that names only classes that do not exist: with
the single only-sub-of-class `ghost`, unknown to the catalog, the expanded only
set is empty, the first class test of `filterResult` is skipped, and a record of
the class `person` is let through although the filter names an only-sub-of-class
and `person` is not in the expanded only set. -/
theorem filterResult_unknown_only_sub_of :
    (⟨[], ["ghost"], [], []⟩ : GraphFilter).onlySubOfClasses ≠ [] ∧
    (Example.getInfo "ghost").type = .UNDEFINED ∧
    getFilterClasses Example.getInfo (fun _ => []) ⟨[], ["ghost"], [], []⟩ = ⟨[], []⟩ ∧
    (Example.getInfoById (RecordDescriptor.ofRid (1, 1)).rid.1).name = "person" ∧
    "person" ∉ (getFilterClasses Example.getInfo (fun _ => [])
      ⟨[], ["ghost"], [], []⟩).onlyClasses ∧
    filterResult Example.byteEqual (fun (_ : Unit) => ()) Example.getInfoById
      (fun _ _ => ⟨[("name", [7])]⟩) (fun _ => []) (fun _ _ (_ : Unit) => false)
      (RecordDescriptor.ofRid (1, 1)) (.COMPARE_FUNCTION Option.none)
      (getFilterClasses Example.getInfo (fun _ => []) ⟨[], ["ghost"], [], []⟩) =
        some (RecordDescriptor.ofRid (1, 1), ⟨[("name", [7])]⟩) := by
  decide

/-- C31, amended: for the class filter that `getFilterClasses` builds from a graph
filter, `filterResult` lets a record through the class tests, its outcome then
being that of the record test of the filter, if and only if (the expanded only
set is empty, or the class of the record is in it) and the class of the record
is not in the expanded ignore set; otherwise the result is empty, so a class
in both sets is rejected.  The expanded only set is empty exactly when the
filter names no only-class and no only-sub-of-class that exists.  For a filter
without a record test the result is not empty exactly under that condition. -/
theorem filterResult_class_test {PropertyType Info MultiCondition : Type}
    (genericCompareFunc :
      Bytes → PropertyType → Bytes → Bytes → Condition.Comparator → Bool → Bool)
    (typeOf : Info → PropertyType)
    (getInfo : String → ClassAccessInfo) (getSubClassInfos : Nat → List ClassAccessInfo)
    (getInfoById : Nat → ClassAccessInfo)
    (getRecordWithBasicInfo : ClassAccessInfo → RecordDescriptor → Record)
    (getPropertyNameMapInfo : ClassAccessInfo → List (String × Info))
    (compareRecordByMultiCondition : Record → List (String × Info) → MultiCondition → Bool)
    (filter : GraphFilter) (recordDescriptor : RecordDescriptor)
    (mode : FilterMode MultiCondition) (classFilter : ClassFilter) (name : String)
    (hfilter : classFilter = getFilterClasses getInfo getSubClassInfos filter)
    (hname : name = (getInfoById recordDescriptor.rid.1).name) :
    (classFilter.onlyClasses = [] ↔
      filter.onlyClasses = [] ∧
        ∀ subOfClass ∈ filter.onlySubOfClasses, (getInfo subOfClass).type = .UNDEFINED) ∧
    (((classFilter.onlyClasses = [] ∨ name ∈ classFilter.onlyClasses) ∧
        name ∉ classFilter.ignoreClasses) →
      filterResult genericCompareFunc typeOf getInfoById getRecordWithBasicInfo
          getPropertyNameMapInfo compareRecordByMultiCondition recordDescriptor mode
          classFilter =
        filterResultByMode genericCompareFunc typeOf getRecordWithBasicInfo
          getPropertyNameMapInfo compareRecordByMultiCondition
          (getInfoById recordDescriptor.rid.1) recordDescriptor mode) ∧
    (¬ ((classFilter.onlyClasses = [] ∨ name ∈ classFilter.onlyClasses) ∧
        name ∉ classFilter.ignoreClasses) →
      filterResult genericCompareFunc typeOf getInfoById getRecordWithBasicInfo
          getPropertyNameMapInfo compareRecordByMultiCondition recordDescriptor mode
          classFilter = none) ∧
    (name ∈ classFilter.onlyClasses → name ∈ classFilter.ignoreClasses →
      filterResult genericCompareFunc typeOf getInfoById getRecordWithBasicInfo
          getPropertyNameMapInfo compareRecordByMultiCondition recordDescriptor mode
          classFilter = none) ∧
    ((filterResult genericCompareFunc typeOf getInfoById getRecordWithBasicInfo
          getPropertyNameMapInfo compareRecordByMultiCondition recordDescriptor
          (.COMPARE_FUNCTION Option.none) classFilter).isSome = true ↔
      (classFilter.onlyClasses = [] ∨ name ∈ classFilter.onlyClasses) ∧
        name ∉ classFilter.ignoreClasses) := by
  subst hname
  have hc := fun m => filterResult_cases genericCompareFunc typeOf getInfoById
    getRecordWithBasicInfo getPropertyNameMapInfo compareRecordByMultiCondition
    recordDescriptor m classFilter
  refine ⟨?_, (hc mode).1, (hc mode).2, fun _ h2 => (hc mode).2 (fun h => h.2 h2), ?_⟩
  · rw [hfilter]
    exact onlyClasses_getFilterClasses_eq_nil getInfo getSubClassInfos filter
  · constructor
    · intro hsome
      by_contra hnot
      rw [(hc (.COMPARE_FUNCTION Option.none)).2 hnot] at hsome
      cases hsome
    · intro hpass
      rw [(hc (.COMPARE_FUNCTION Option.none)).1 hpass]
      rfl

/-- C31 amended, on the catalog with the class `person`: a filter with the only-class
`person` lets a record of that class through, and a filter that has `person`
in both sets rejects it. -/
theorem filterResult_class_test_witness :
    filterResult Example.byteEqual (fun (_ : Unit) => ()) Example.getInfoById
      (fun _ _ => ⟨[("name", [7])]⟩) (fun _ => []) (fun _ _ (_ : Unit) => false)
      (RecordDescriptor.ofRid (1, 1)) (.COMPARE_FUNCTION Option.none)
      (getFilterClasses Example.getInfo (fun _ => []) ⟨["person"], [], [], []⟩) =
        some (RecordDescriptor.ofRid (1, 1), ⟨[("name", [7])]⟩) ∧
    filterResult Example.byteEqual (fun (_ : Unit) => ()) Example.getInfoById
      (fun _ _ => ⟨[("name", [7])]⟩) (fun _ => []) (fun _ _ (_ : Unit) => false)
      (RecordDescriptor.ofRid (1, 1)) (.COMPARE_FUNCTION Option.none)
      (getFilterClasses Example.getInfo (fun _ => []) ⟨["person"], [], [], ["person"]⟩) =
        none ∧
    ("person" ∈ (getFilterClasses Example.getInfo (fun _ => [])
        ⟨["person"], [], [], ["person"]⟩).onlyClasses →
      "person" ∈ (getFilterClasses Example.getInfo (fun _ => [])
        ⟨["person"], [], [], ["person"]⟩).ignoreClasses →
      filterResult Example.byteEqual (fun (_ : Unit) => ()) Example.getInfoById
        (fun _ _ => ⟨[("name", [7])]⟩) (fun _ => []) (fun _ _ (_ : Unit) => false)
        (RecordDescriptor.ofRid (1, 1)) (.COMPARE_FUNCTION Option.none)
        (getFilterClasses Example.getInfo (fun _ => [])
          ⟨["person"], [], [], ["person"]⟩) = none) :=
  ⟨by decide, by decide,
    (filterResult_class_test Example.byteEqual (fun (_ : Unit) => ()) Example.getInfo
      (fun _ => []) Example.getInfoById (fun _ _ => ⟨[("name", [7])]⟩) (fun _ => [])
      (fun _ _ (_ : Unit) => false) ⟨["person"], [], [], ["person"]⟩
      (RecordDescriptor.ofRid (1, 1)) (.COMPARE_FUNCTION Option.none)
      (getFilterClasses Example.getInfo (fun _ => []) ⟨["person"], [], [], ["person"]⟩)
      "person" rfl (by decide)).2.2.2.1⟩

end RecordCompare

namespace Compare

end Compare

namespace parser

/-- C36, as stated, fails for a payload of three bytes: the block of property 2 with
an empty value.  Decoded as an edge row behind the endpoint prefix, the row has
nineteen bytes and the loop records the property `a` with the empty value; decoded
alone as a vertex row, the capacity 3 is below `2 * sizeof(uint16_t)`, the loop
is skipped and the record has no property. -/
theorem parseRawData_short_payload :
    Example.endpointPrefix.length = VERTEX_SRC_DST_RAW_DATA_LENGTH ∧
    parseRawData ⟨false, Blob.ofBytes (Example.endpointPrefix ++ [2, 0, 0])⟩ Example.schema true =
      .ok ⟨[("a", [])]⟩ ∧
    parseRawData ⟨false, Blob.ofBytes [2, 0, 0]⟩ Example.schema false = .ok ⟨[]⟩ ∧
    (Blob.ofBytes [2, 0, 0]).capacity = 3 :=
  ⟨rfl, rfl, rfl, rfl⟩

/-- C36, amended: for every schema, every endpoint prefix and every property payload of at
least four bytes, `parseRawData` on the row made of the prefix followed by the
payload, with `isEdge = true`, has the same outcome (the same record, or the
same error) as `parseRawData` on the row made of the payload alone, with
`isEdge = false`; neither decoding exhausts the iteration budget of the
embedding. -/
theorem parseRawData_edge_eq_vertex (propertyInfos : PropertyIdMapInfo)
    (pre payload : List Nat) (hpre : pre.length = VERTEX_SRC_DST_RAW_DATA_LENGTH)
    (hlen : 4 ≤ payload.length) :
    parseRawData ⟨false, Blob.ofBytes (pre ++ payload)⟩ propertyInfos true =
      parseRawData ⟨false, Blob.ofBytes payload⟩ propertyInfos false ∧
    parseRawData ⟨false, Blob.ofBytes payload⟩ propertyInfos false ≠ .error .diverged := by
  have hloop := parseRawDataLoop_shift (Blob.ofBytes (pre ++ payload)) (Blob.ofBytes payload) pre
    rfl propertyInfos (Blob.ofBytes (pre ++ payload)).size (Blob.ofBytes payload).size 0 []
    (by simp [Blob.size, Blob.ofBytes]) (by simp)
  rw [Nat.add_zero, hpre] at hloop
  have hnd := parseRawDataLoop_ne_diverged (Blob.ofBytes payload) propertyInfos
    (Blob.ofBytes payload).size 0 [] (by simp)
  have hc1 : ¬ (Blob.ofBytes (pre ++ payload)).capacity = 0 := by
    simp only [Blob.ofBytes, List.length_append]; omega
  have hc2 : (Blob.ofBytes (pre ++ payload)).capacity ≥ 2 * 2 := by
    simp only [Blob.ofBytes, List.length_append]; omega
  have hc3 : ¬ (Blob.ofBytes payload).capacity = 0 := by
    simp only [Blob.ofBytes]; omega
  have hc4 : (Blob.ofBytes payload).capacity ≥ 2 * 2 := by
    simp only [Blob.ofBytes]; omega
  have hv : parseRawData ⟨false, Blob.ofBytes payload⟩ propertyInfos false =
      match parseRawDataLoop (Blob.ofBytes payload) propertyInfos (Blob.ofBytes payload).size
          0 [] with
      | .error e => .error e
      | .ok properties => .ok ⟨properties⟩ := by
    unfold parseRawData
    simp only [Bool.false_eq_true, if_false]
    rw [if_neg hc3, if_pos hc4]
  have he : parseRawData ⟨false, Blob.ofBytes (pre ++ payload)⟩ propertyInfos true =
      match parseRawDataLoop (Blob.ofBytes (pre ++ payload)) propertyInfos
          (Blob.ofBytes (pre ++ payload)).size VERTEX_SRC_DST_RAW_DATA_LENGTH [] with
      | .error e => .error e
      | .ok properties => .ok ⟨properties⟩ := by
    unfold parseRawData
    simp only [Bool.false_eq_true, if_false, if_true]
    rw [if_neg hc1, if_pos hc2]
  constructor
  · rw [he, hv, hloop]
  · rw [hv]
    cases hr : parseRawDataLoop (Blob.ofBytes payload) propertyInfos
        (Blob.ofBytes payload).size 0 [] with
    | error e =>
      dsimp only
      intro hh
      cases hh
      exact hnd hr
    | ok properties => exact fun hh => by cases hh

/-- C36 amended, on the payload with the blocks of the properties 2 and 3: behind
the endpoint prefix and alone it decodes to the same record. -/
theorem parseRawData_edge_eq_vertex_witness :
    Example.endpointPrefix.length = VERTEX_SRC_DST_RAW_DATA_LENGTH ∧
    4 ≤ [2, 0, 2, 7, 3, 0, 2, 9].length ∧
    parseRawData ⟨false, Blob.ofBytes [2, 0, 2, 7, 3, 0, 2, 9]⟩ Example.schema false =
      .ok ⟨[("b", [9]), ("a", [7])]⟩ ∧
    parseRawData ⟨false, Blob.ofBytes (Example.endpointPrefix ++ [2, 0, 2, 7, 3, 0, 2, 9])⟩
        Example.schema true =
      parseRawData ⟨false, Blob.ofBytes [2, 0, 2, 7, 3, 0, 2, 9]⟩ Example.schema false :=
  ⟨rfl, by decide, rfl,
    (parseRawData_edge_eq_vertex Example.schema Example.endpointPrefix
      [2, 0, 2, 7, 3, 0, 2, 9] rfl (by decide)).1⟩

end parser

namespace Algorithm

/-- C38, as stated, fails for a source descriptor that carries a depth: with
`minDepth = 0` the function emits the descriptor it was given, so from the
descriptor of `v1` with depth 7 and `maxDepth = 1` the list starts with depth 7,
above `maxDepth`, and goes on with depth 1. -/
theorem breadthFirstSearchRdesc_source_depth :
    Generic.checkIfRecordExist Example.txn ⟨(1, 1), 7⟩ = .RECORD_EXIST ∧
    breadthFirstSearchRdesc Example.txn ⟨(1, 1), 7⟩ 0 1 [] Graph.getEdgeOut
        (some Graph.getVertexDst) PathFilter.none =
      .ok [⟨(1, 1), 7⟩, ⟨(1, 2), 1⟩, ⟨(1, 3), 1⟩] :=
  ⟨rfl, rfl⟩

/-- C38, amended: for every graph, existing source, bounds and filters (the vertex
accessor, when given, being `getVertexSrc` or `getVertexDst`),
`breadthFirstSearchRdesc` returns a list; the list is the descriptor of the source
as it was given, present exactly when `minDepth = 0`, followed by descriptors
whose depths are non-decreasing along the list, at least 1 and between
`minDepth` and `maxDepth`.  So for a source descriptor of depth 0 the depths
of the whole list are non-decreasing and lie between `minDepth` and `maxDepth`,
and the list is empty when `minDepth > maxDepth`. -/
theorem breadthFirstSearchRdesc_depth_order (txn : Txn) (recordDescriptor : RecordDescriptor)
    (minDepth maxDepth : Nat) (edgeClassIds : List Nat)
    (edgeFunc : Graph → RecordId → Nat → List RecordId)
    (vertexFunc : Option (Graph → RecordId → RecordId)) (pathFilter : PathFilter)
    (hvf : ∀ f, vertexFunc = some f → f = Graph.getVertexSrc ∨ f = Graph.getVertexDst)
    (hex : Generic.checkIfRecordExist txn recordDescriptor ≠ .RECORD_NOT_EXIST) :
    ∃ res tail,
      breadthFirstSearchRdesc txn recordDescriptor minDepth maxDepth edgeClassIds edgeFunc
        vertexFunc pathFilter = .ok res ∧
      res = (if minDepth = 0 then [recordDescriptor] else []) ++ tail ∧
      tail.Pairwise (fun a b => a.depth ≤ b.depth) ∧
      (∀ d ∈ tail, 1 ≤ d.depth ∧ minDepth ≤ d.depth ∧ d.depth ≤ maxDepth) ∧
      (recordDescriptor.depth = 0 →
        res.Pairwise (fun a b => a.depth ≤ b.depth) ∧
        ∀ d ∈ res, minDepth ≤ d.depth ∧ d.depth ≤ maxDepth) ∧
      (minDepth > maxDepth → res = []) := by
  have hshape : ∃ res tail,
      breadthFirstSearchRdesc txn recordDescriptor minDepth maxDepth edgeClassIds edgeFunc
        vertexFunc pathFilter = .ok res ∧
      res = (if minDepth = 0 then [recordDescriptor] else []) ++ tail ∧
      tail.Pairwise (fun a b => a.depth ≤ b.depth) ∧
      (∀ d ∈ tail, 1 ≤ d.depth ∧ minDepth ≤ d.depth ∧ d.depth ≤ maxDepth) := by
    cases hstat : Generic.checkIfRecordExist txn recordDescriptor with
    | RECORD_NOT_EXIST => exact absurd hstat hex
    | RECORD_NOT_EXIST_IN_MEMORY =>
      refine ⟨_, [], by unfold breadthFirstSearchRdesc; rw [hstat], ?_, List.Pairwise.nil,
        fun d hd => absurd hd (List.not_mem_nil d)⟩
      by_cases h0 : minDepth = 0
      · rw [if_pos h0, if_pos ⟨h0, by omega⟩]
        rfl
      · rw [if_neg h0, if_neg (fun h => h0 h.1)]
        rfl
    | RECORD_EXIST =>
      obtain ⟨st1, hrun⟩ := breadthFirstSearchRdesc_run txn recordDescriptor minDepth maxDepth
        edgeClassIds edgeFunc vertexFunc pathFilter hvf hstat
      obtain ⟨tail, h1, h2, h3⟩ := breadthFirstSearchRdesc_depths txn recordDescriptor minDepth
        maxDepth edgeClassIds edgeFunc vertexFunc pathFilter hstat _ hrun
      exact ⟨_, tail, hrun, h1, h2, h3⟩
  obtain ⟨res, tail, hrun, hres, hpw, hb⟩ := hshape
  refine ⟨res, tail, hrun, hres, hpw, hb, ?_, ?_⟩
  · intro hd0
    rw [hres]
    by_cases h0 : minDepth = 0
    · rw [if_pos h0]
      constructor
      · rw [List.singleton_append, List.pairwise_cons]
        exact ⟨fun a _ => by rw [hd0]; exact Nat.zero_le _, hpw⟩
      · intro d hd
        rw [List.singleton_append, List.mem_cons] at hd
        rcases hd with hd | hd
        · rw [hd, hd0, h0]
          exact ⟨le_refl _, Nat.zero_le _⟩
        · exact ⟨(hb d hd).2.1, (hb d hd).2.2⟩
    · rw [if_neg h0, List.nil_append]
      exact ⟨hpw, fun d hd => ⟨(hb d hd).2.1, (hb d hd).2.2⟩⟩
  · intro hgt
    rw [hres, if_neg (by omega), List.nil_append]
    cases tail with
    | nil => rfl
    | cons d rest =>
      have := hb d (List.mem_cons_self _ _)
      omega

/-- C38 amended, on the graph `v1 → v2`, `v1 → v3`, `v3 → v4`: from `v1` with
depth 0 the depths are 0, 1, 1, 2. -/
theorem breadthFirstSearchRdesc_depth_order_witness :
    Generic.checkIfRecordExist Example.txn ⟨(1, 1), 0⟩ ≠ .RECORD_NOT_EXIST ∧
    breadthFirstSearchRdesc Example.txn ⟨(1, 1), 0⟩ 0 10 [] Graph.getEdgeOut
        (some Graph.getVertexDst) PathFilter.none =
      .ok [⟨(1, 1), 0⟩, ⟨(1, 2), 1⟩, ⟨(1, 3), 1⟩, ⟨(1, 4), 2⟩] ∧
    ∃ res tail,
      breadthFirstSearchRdesc Example.txn ⟨(1, 1), 0⟩ 0 10 [] Graph.getEdgeOut
        (some Graph.getVertexDst) PathFilter.none = .ok res ∧
      res = (if 0 = 0 then [(⟨(1, 1), 0⟩ : RecordDescriptor)] else []) ++ tail ∧
      tail.Pairwise (fun a b => a.depth ≤ b.depth) ∧
      (∀ d ∈ tail, 1 ≤ d.depth ∧ 0 ≤ d.depth ∧ d.depth ≤ 10) ∧
      ((⟨(1, 1), 0⟩ : RecordDescriptor).depth = 0 →
        res.Pairwise (fun a b => a.depth ≤ b.depth) ∧
        ∀ d ∈ res, 0 ≤ d.depth ∧ d.depth ≤ 10) ∧
      (0 > 10 → res = []) :=
  ⟨by decide, rfl,
    breadthFirstSearchRdesc_depth_order Example.txn ⟨(1, 1), 0⟩ 0 10 [] Graph.getEdgeOut
      (some Graph.getVertexDst) PathFilter.none
      (fun _ h => Or.inr (Option.some.inj h).symm) (by decide)⟩

end Algorithm

namespace Algorithm

/-- C39, as stated, fails for a vertex that exists only in the record store: for
`src == dst` the function returns cost 0 with the empty sequence, not `[src]`. -/
theorem dijkstraShortestPathRdesc_isolated_source :
    Generic.checkIfRecordExist Example.isolatedTxn ⟨(1, 1), 0⟩ = .RECORD_NOT_EXIST_IN_MEMORY ∧
    dijkstraShortestPathRdesc Example.isolatedTxn ⟨(1, 1), 0⟩ ⟨(1, 1), 0⟩ (fun _ _ => 1) []
      PathFilter.none = .ok (0, []) ∧
    dijkstraShortestPathRdesc Example.isolatedTxn ⟨(1, 1), 0⟩ ⟨(1, 1), 0⟩ (fun _ _ => 1) []
      PathFilter.none ≠ .ok (0, [⟨(1, 1), 0⟩]) :=
  ⟨rfl, rfl, fun h => by cases h⟩

/-- C39, amended: whenever `dijkstraShortestPathRdesc` returns a non-empty sequence, its
first element is the source, its last element is the destination, every two
consecutive elements are joined by an out-edge step (an out-edge of the first, of
an admitted class and accepted by the edge filter, whose destination is the
second), every element after the first passes the vertex filter, and the element
at index `i` has depth `i`; for `src == dst` with adjacency entries in the graph
store it returns cost 0 (`T()`) and the sequence of the source alone, with depth
0; when the source or the destination exists only in the record store it
returns cost 0 and the empty sequence, also for `src == dst`. -/
theorem dijkstraShortestPathRdesc_shape (txn : Txn) (src dst : RecordDescriptor)
    (costFunction : Txn → RecordDescriptor → Int) (edgeClassIds : List Nat)
    (pathFilter : PathFilter) :
    (∀ cost path,
      dijkstraShortestPathRdesc txn src dst costFunction edgeClassIds pathFilter =
        .ok (cost, path) →
      path ≠ [] →
      (path.map (fun d => d.rid)).head? = some src.rid ∧
      (path.map (fun d => d.rid)).getLast? = some dst.rid ∧
      List.Chain' (fun a b =>
        OutStep txn pathFilter edgeClassIds a b ∧
          ∀ f, pathFilter.vertexFilter = some f → f (txn.record b) = true)
        (path.map (fun d => d.rid)) ∧
      ∀ i (hi : i < path.length), (path.get ⟨i, hi⟩).depth = i) ∧
    (src.rid = dst.rid →
      Generic.checkIfRecordExist txn src = .RECORD_EXIST →
      Generic.checkIfRecordExist txn dst = .RECORD_EXIST →
      dijkstraShortestPathRdesc txn src dst costFunction edgeClassIds pathFilter =
        .ok (0, [⟨src.rid, 0⟩])) ∧
    (Generic.checkIfRecordExist txn src ≠ .RECORD_NOT_EXIST →
      Generic.checkIfRecordExist txn dst ≠ .RECORD_NOT_EXIST →
      (Generic.checkIfRecordExist txn src = .RECORD_NOT_EXIST_IN_MEMORY ∨
        Generic.checkIfRecordExist txn dst = .RECORD_NOT_EXIST_IN_MEMORY) →
      dijkstraShortestPathRdesc txn src dst costFunction edgeClassIds pathFilter =
        .ok (0, [])) := by
  refine ⟨?_, ?_, ?_⟩
  · intro cost path hrun hne
    have hsearch : dijkstraSearch txn src.rid dst.rid costFunction edgeClassIds pathFilter =
        .ok (cost, path) := by
      unfold dijkstraShortestPathRdesc dijkstraShortestPathRdescOn at hrun
      by_cases h1 : Generic.checkIfRecordExist txn src = .RECORD_NOT_EXIST
      · rw [if_pos h1] at hrun
        cases hrun
      · rw [if_neg h1] at hrun
        by_cases h2 : Generic.checkIfRecordExist txn dst = .RECORD_NOT_EXIST
        · rw [if_pos h2] at hrun
          cases hrun
        · rw [if_neg h2] at hrun
          by_cases h3 : Generic.checkIfRecordExist txn src = .RECORD_NOT_EXIST_IN_MEMORY ∨
              Generic.checkIfRecordExist txn dst = .RECORD_NOT_EXIST_IN_MEMORY
          · rw [if_pos h3] at hrun
            cases hrun
            exact absurd rfl hne
          · rw [if_neg h3] at hrun
            exact hrun
    obtain ⟨h1, h2, h3, h4⟩ := dijkstraSearch_shape txn src.rid dst.rid costFunction
      edgeClassIds pathFilter cost path hsearch hne
    refine ⟨h1, h2, ?_, h4⟩
    exact List.Chain'.imp (fun a b hab =>
      ⟨hab.1, fun f hf => vertexAccepted_filter txn pathFilter b hab.2 f hf⟩) h3
  · intro heq hs hd
    unfold dijkstraShortestPathRdesc dijkstraShortestPathRdescOn
    rw [hs, hd, ← heq]
    simp only [reduceCtorEq, if_false, or_self]
    unfold dijkstraSearch dijkstraFuel
    dsimp only
    rw [dijkstraLoop]
    have htop : heapTop [((0 : Int), src.rid)] = some (0, src.rid) := rfl
    rw [htop]
    dsimp only
    rw [if_pos rfl]
    dsimp only
    rw [lookup_cons_self]
    dsimp only
    rw [dijkstraWalk_src]
    rfl
  · intro h1 h2 h3
    unfold dijkstraShortestPathRdesc dijkstraShortestPathRdescOn
    rw [if_neg h1, if_neg h2, if_pos h3]

/-- C39 amended, on the graph `v1 → v2`, `v1 → v3`, `v3 → v4` with the position id
of an edge as its cost: the sequence from `v1` to `v4` is `v1`, `v3`, `v4` with
the depths 0, 1, 2, and from `v1` to `v1` it is `v1` alone with cost 0. -/
theorem dijkstraShortestPathRdesc_shape_witness :
    dijkstraShortestPathRdesc Example.txn ⟨(1, 1), 0⟩ ⟨(1, 4), 0⟩ (fun _ e => (e.rid.2 : Int)) []
        Example.rejectV2 = .ok (5, [⟨(1, 1), 0⟩, ⟨(1, 3), 1⟩, ⟨(1, 4), 2⟩]) ∧
    (([⟨(1, 1), 0⟩, ⟨(1, 3), 1⟩, ⟨(1, 4), 2⟩] : List RecordDescriptor).map
        (fun d => d.rid)).head? = some (1, 1) ∧
    (([⟨(1, 1), 0⟩, ⟨(1, 3), 1⟩, ⟨(1, 4), 2⟩] : List RecordDescriptor).map
        (fun d => d.rid)).getLast? = some (1, 4) ∧
    List.Chain' (fun a b =>
      OutStep Example.txn Example.rejectV2 [] a b ∧
        ∀ f, Example.rejectV2.vertexFilter = some f → f (Example.txn.record b) = true)
      (([⟨(1, 1), 0⟩, ⟨(1, 3), 1⟩, ⟨(1, 4), 2⟩] : List RecordDescriptor).map
        (fun d => d.rid)) ∧
    dijkstraShortestPathRdesc Example.txn ⟨(1, 1), 7⟩ ⟨(1, 1), 7⟩ (fun _ e => (e.rid.2 : Int)) []
        Example.rejectV2 = .ok (0, [⟨(1, 1), 0⟩]) := by
  have hrun : dijkstraShortestPathRdesc Example.txn ⟨(1, 1), 0⟩ ⟨(1, 4), 0⟩
      (fun _ e => (e.rid.2 : Int)) [] Example.rejectV2 =
      .ok (5, [⟨(1, 1), 0⟩, ⟨(1, 3), 1⟩, ⟨(1, 4), 2⟩]) := rfl
  obtain ⟨h1, h2, h3, _⟩ := (dijkstraShortestPathRdesc_shape Example.txn ⟨(1, 1), 0⟩ ⟨(1, 4), 0⟩
    (fun _ e => (e.rid.2 : Int)) [] Example.rejectV2).1 _ _ hrun (by simp)
  exact ⟨hrun, h1, h2, h3,
    (dijkstraShortestPathRdesc_shape Example.txn ⟨(1, 1), 7⟩ ⟨(1, 1), 7⟩
      (fun _ e => (e.rid.2 : Int)) [] Example.rejectV2).2.1 rfl rfl rfl⟩

end Algorithm

end nogdb
